import Mathlib

/-!
# TradeBookingSystem: order book, matching engine and portfolio accounting

A shallow embedding of the C++ sources (`Order`, `Trade`, `OrderBook`,
`MatchingEngine`, `Portfolio`, `TradeBookingSystem`) together with theorems
about them.

Modelling conventions.

* In the order book, the engine and the venue `int` is `Int` (quantities only
  shrink inside the engine) and `double` is `ℚ` (prices are only compared by
  the engine); a `system_clock::time_point` is an `Int` tick count.
* The portfolio accounting is given twice.  `Portfolio.addBuyTrade`,
  `Portfolio.addSellTrade` and what is built on them compute in idealised
  arithmetic, an `int` being an unbounded integer and a `double` an exact
  rational; they serve the statements that stipulate exact arithmetic or
  involve no rounding and no overflow.  `Machine.addBuyTrade`,
  `Machine.addSellTrade` and what is built on them compute as the machine
  does: every `int` operation wraps to 32 bits (`int32`) and every `double`
  operation rounds to binary64 (`roundDouble`).
* `std::map<double, std::set<..>>` is a list of `(price, level)` pairs kept in
  key order, best price first; a `std::set<shared_ptr<Order>, OrderComparator>`
  is a list kept in comparator order.  `std::unordered_map` is an association
  list searched from the front.
* An `Order` object is shared between its price level and the id lookup.  The
  model stores the record in both places and applies every write to a resting
  order to the level entry and to each lookup entry holding that same record.
  This is the code where level and lookup hold the same object, as they do for
  every order that `addOrder` has inserted once, in particular in every book of
  the venue; a book in which the lookup holds a separate copy of a resting
  order is not told apart from the one that shares it.
* The process-wide counters `Order::nextOrderId` and `Trade::nextTradeId` are
  explicit state; the wall-clock stamp of a `Trade` is never read and is left
  out of the record.
* The matching loop of `matchOrder` has no bound in the source.  The model
  runs it with a budget of passes computed from the book (`matchFuel`);
  `none` stands for a run that does not come back.
-/

namespace TradeBooking

/-! ## Order.h / Order.cpp -/

inductive OrderSide where
  | BUY
  | SELL
deriving DecidableEq, Repr

inductive OrderType where
  | MARKET
  | LIMIT
deriving DecidableEq, Repr

structure Order where
  orderId : Int
  symbol : String
  side : OrderSide
  quantity : Int
  price : ℚ
  timestamp : Int
  type : OrderType
  userId : String
deriving DecidableEq

/-- Order::isValid: `quantity > 0 && price > 0 && !symbol.empty() && !userId.empty()`. -/
def Order.isValid (o : Order) : Bool :=
  decide (o.quantity > 0) && decide (o.price > 0) && decide (o.symbol ≠ "") &&
    decide (o.userId ≠ "")

/-! ## Trade.h / Trade.cpp -/

structure Trade where
  tradeId : Int
  symbol : String
  buyOrderId : Int
  sellOrderId : Int
  buyUserId : String
  sellUserId : String
  quantity : Int
  price : ℚ
deriving DecidableEq

/-! ## Association lists standing for `std::unordered_map` -/

section HashMap

variable {κ ν : Type} [DecidableEq κ]

/-- Lookup by key: `m.find(k)`. -/
def hmFind : List (κ × ν) → κ → Option ν
  | [], _ => none
  | (k', v) :: rest, k => if k' = k then some v else hmFind rest k

/-- Assignment through `m[k] = v`: overwrite the entry, or create it. -/
def hmAssign : List (κ × ν) → κ → ν → List (κ × ν)
  | [], k, v => [(k, v)]
  | (k', v') :: rest, k, v =>
    if k' = k then (k, v) :: rest else (k', v') :: hmAssign rest k v

/-- Removal by key: `m.erase(k)`; afterwards the key is not found. -/
def hmErase : List (κ × ν) → κ → List (κ × ν)
  | [], _ => []
  | (k', v') :: rest, k =>
    if k' = k then hmErase rest k else (k', v') :: hmErase rest k

end HashMap

/-! ## OrderBook.h / OrderBook.cpp -/

/-- OrderComparator: earlier timestamp first, then smaller order id. -/
def OrderComparator (a b : Order) : Bool :=
  if a.timestamp ≠ b.timestamp then decide (a.timestamp < b.timestamp)
  else decide (a.orderId < b.orderId)

/-- Two orders are the same key of a level when neither comes before the other. -/
def sameKey (a b : Order) : Bool :=
  !OrderComparator a b && !OrderComparator b a

/-- One price level: a `std::set` of orders in comparator order. -/
abbrev Level := List Order

/-- One side of the book: a `std::map` from price to level, best price first. -/
abbrev PriceMap := List (ℚ × Level)

/-- Insertion into a level (`std::set::insert`): placed by the comparator,
    dropped when an element with the same key is already there. -/
def setInsert (o : Order) : Level → Level
  | [] => [o]
  | x :: xs =>
    if OrderComparator o x then o :: x :: xs
    else if OrderComparator x o then x :: setInsert o xs
    else x :: xs

/-- Removal from a level by key (`std::set::erase(key)`). -/
def setErase (o : Order) (lvl : Level) : Level :=
  lvl.eraseP (fun x => sameKey x o)

/-- Key order of the bid map (`std::greater<double>`). -/
def bidBefore (a b : ℚ) : Bool := decide (a > b)

/-- Key order of the ask map (`std::less<double>`). -/
def askBefore (a b : ℚ) : Bool := decide (a < b)

/-- The statement `side[order->price].insert(order)`: find or create the level
    of the order's price, then insert into it. -/
def levelInsert (before : ℚ → ℚ → Bool) (o : Order) : PriceMap → PriceMap
  | [] => [(o.price, [o])]
  | (p, lvl) :: rest =>
    if before o.price p then (o.price, [o]) :: (p, lvl) :: rest
    else if before p o.price then (p, lvl) :: levelInsert before o rest
    else (p, setInsert o lvl) :: rest

/-- The cancel path on one side: `find(order->price)`, erase the order from
    the level, erase the level when it became empty. -/
def levelErase (o : Order) : PriceMap → PriceMap
  | [] => []
  | (p, lvl) :: rest =>
    if p = o.price then
      (if setErase o lvl = [] then rest else (p, setErase o lvl) :: rest)
    else (p, lvl) :: levelErase o rest

structure OrderBook where
  symbol : String
  buyOrders : PriceMap
  sellOrders : PriceMap
  orderLookup : List (Int × Order)
deriving DecidableEq

/-- OrderBook::OrderBook(sym): an empty book. -/
def OrderBook.new (sym : String) : OrderBook :=
  { symbol := sym, buyOrders := [], sellOrders := [], orderLookup := [] }

/-- OrderBook::addOrder. -/
def OrderBook.addOrder (b : OrderBook) (order : Order) : OrderBook :=
  if !order.isValid then b
  else
    let lookup := hmAssign b.orderLookup order.orderId order
    match order.side with
    | OrderSide.BUY =>
      { b with orderLookup := lookup, buyOrders := levelInsert bidBefore order b.buyOrders }
    | OrderSide.SELL =>
      { b with orderLookup := lookup, sellOrders := levelInsert askBefore order b.sellOrders }

/-- OrderBook::cancelOrder: the new book and the returned flag. -/
def OrderBook.cancelOrder (b : OrderBook) (orderId : Int) : OrderBook × Bool :=
  match hmFind b.orderLookup orderId with
  | none => (b, false)
  | some order =>
    match order.side with
    | OrderSide.BUY =>
      ({ b with buyOrders := levelErase order b.buyOrders,
                orderLookup := hmErase b.orderLookup orderId }, true)
    | OrderSide.SELL =>
      ({ b with sellOrders := levelErase order b.sellOrders,
                orderLookup := hmErase b.orderLookup orderId }, true)

/-- OrderBook::getOrder. -/
def OrderBook.getOrder (b : OrderBook) (orderId : Int) : Option Order :=
  hmFind b.orderLookup orderId

/-- Best bid, when the bid side is not empty (`buyOrders.begin()->first`). -/
def OrderBook.bestBid (b : OrderBook) : Option ℚ :=
  b.buyOrders.head?.map Prod.fst

/-- Best ask, when the ask side is not empty (`sellOrders.begin()->first`). -/
def OrderBook.bestAsk (b : OrderBook) : Option ℚ :=
  b.sellOrders.head?.map Prod.fst

/-- OrderBook::getBestBidPrice: `0.0` for an empty bid side. -/
def OrderBook.getBestBidPrice (b : OrderBook) : ℚ :=
  match b.buyOrders with
  | [] => 0
  | (p, _) :: _ => p

/-! ## MatchingEngine.h / MatchingEngine.cpp -/

/-- MatchingEngine::canMatch. -/
def canMatch (bidPrice askPrice : ℚ) : Bool := decide (bidPrice ≥ askPrice)

/-- MatchingEngine::createTrade; the trade takes the next trade id. -/
def createTrade (nextTradeId : Int) (buyOrder sellOrder : Order) (quantity : Int)
    (price : ℚ) : Trade :=
  { tradeId := nextTradeId, symbol := buyOrder.symbol,
    buyOrderId := buyOrder.orderId, sellOrderId := sellOrder.orderId,
    buyUserId := buyOrder.userId, sellUserId := sellOrder.userId,
    quantity := quantity, price := price }

/-- MatchingEngine::updateOrderQuantity, with its clamp at zero. -/
def updateOrderQuantity (order : Order) (executedQuantity : Int) : Order :=
  if executedQuantity > 0 then
    let q := order.quantity - executedQuantity
    { order with quantity := if q < 0 then 0 else q }
  else order

/-- A write to a shared resting order as seen through the id lookup: every
    entry holding the record `old` now holds `new`.  It stands for the write to
    the one `Order` object that the level and the lookup share; where the lookup
    holds a separate copy of the order, the code leaves that copy as it is. -/
def writeThrough (old new : Order) (m : List (Int × Order)) : List (Int × Order) :=
  m.map (fun e => if e.2 = old then (e.1, new) else e)

/-- MatchingEngine::removeFilledOrder. -/
def removeFilledOrder (m : List (Int × Order)) (order : Order) : List (Int × Order) :=
  hmErase m order.orderId

/-- The variables of one `matchOrder` call. -/
structure MatchState where
  book : OrderBook
  newOrder : Order
  trades : List Trade
  nextTradeId : Int
deriving DecidableEq

/-- The side the incoming order is matched against. -/
def opposing (b : OrderBook) (side : OrderSide) : PriceMap :=
  match side with
  | OrderSide.BUY => b.sellOrders
  | OrderSide.SELL => b.buyOrders

/-- Store a new value for the side the incoming order is matched against. -/
def setOpposing (b : OrderBook) (side : OrderSide) (m : PriceMap) : OrderBook :=
  match side with
  | OrderSide.BUY => { b with sellOrders := m }
  | OrderSide.SELL => { b with buyOrders := m }

/-- The crossing test of the loop: `canMatch(newOrder->price, bestAskPrice)` for
    a buy, `canMatch(bestBidPrice, newOrder->price)` for a sell. -/
def crosses (newOrder : Order) (bestPrice : ℚ) : Bool :=
  match newOrder.side with
  | OrderSide.BUY => canMatch newOrder.price bestPrice
  | OrderSide.SELL => canMatch bestPrice newOrder.price

/-- The trade of one pass: `createTrade(newOrder, sellOrder, ..)` for a buy,
    `createTrade(buyOrder, newOrder, ..)` for a sell. -/
def tradeAgainst (nextTradeId : Int) (newOrder resting : Order) (quantity : Int)
    (price : ℚ) : Trade :=
  match newOrder.side with
  | OrderSide.BUY => createTrade nextTradeId newOrder resting quantity price
  | OrderSide.SELL => createTrade nextTradeId resting newOrder quantity price

/-- The two `while` loops of `matchOrder` (they differ only in the side they
    read, the argument order of `canMatch` and of `createTrade`), run for at
    most `fuel` passes. -/
def matchLoop : Nat → MatchState → Option MatchState
  | 0, _ => none
  | fuel + 1, st =>
    match opposing st.book st.newOrder.side with
    | [] => some st
    | (bestPrice, ordersAtPrice) :: rest =>
      if st.newOrder.quantity ≤ 0 then some st
      else if !crosses st.newOrder bestPrice then some st
      else
        match ordersAtPrice with
        | [] =>
          matchLoop fuel { st with book := setOpposing st.book st.newOrder.side rest }
        | resting :: others =>
          let tradeQuantity := min st.newOrder.quantity resting.quantity
          let tradePrice := resting.price
          let trade := tradeAgainst st.nextTradeId st.newOrder resting tradeQuantity tradePrice
          let newOrder1 := updateOrderQuantity st.newOrder tradeQuantity
          let resting1 := updateOrderQuantity resting tradeQuantity
          let lookup1 := writeThrough resting resting1 st.book.orderLookup
          let level1 := resting1 :: others
          let book1 :=
            if resting1.quantity = 0 then
              let lookup2 := removeFilledOrder lookup1 resting1
              let level2 := setErase resting1 level1
              let side2 := if level2 = [] then rest else (bestPrice, level2) :: rest
              setOpposing { st.book with orderLookup := lookup2 } st.newOrder.side side2
            else
              setOpposing { st.book with orderLookup := lookup1 } st.newOrder.side
                ((bestPrice, level1) :: rest)
          matchLoop fuel
            { book := book1, newOrder := newOrder1, trades := st.trades ++ [trade],
              nextTradeId := st.nextTradeId + 1 }

/-- Number of resting orders on one side. -/
def orderCount (m : PriceMap) : Nat :=
  (m.map (fun e => e.2.length)).sum

/-- A budget of passes that every run of the loop which comes back stays
    within: one per opposing level, one per opposing order, and two. -/
def matchFuel (b : OrderBook) (side : OrderSide) : Nat :=
  (opposing b side).length + orderCount (opposing b side) + 2

/-- MatchingEngine::matchOrder: an invalid order returns at once with no
    trade; otherwise the loop runs and a remainder is added to the book. -/
def matchOrder (b : OrderBook) (newOrder : Order) (nextTradeId : Int) : Option MatchState :=
  if !newOrder.isValid then
    some { book := b, newOrder := newOrder, trades := [], nextTradeId := nextTradeId }
  else
    match matchLoop (matchFuel b newOrder.side)
        { book := b, newOrder := newOrder, trades := [], nextTradeId := nextTradeId } with
    | none => none
    | some st =>
      if st.newOrder.quantity > 0 then
        some { st with book := st.book.addOrder st.newOrder }
      else some st

/-- MatchingEngine::determineTradePrice: the buy order's price when its
    timestamp is the smaller one, the sell order's price otherwise. -/
def determineTradePrice (buyOrder sellOrder : Order) : ℚ :=
  if buyOrder.timestamp < sellOrder.timestamp then buyOrder.price else sellOrder.price

/-- MatchingEngine::validateOrdersForMatching (the orders of a level are never
    null pointers). -/
def validateOrdersForMatching (buyOrder sellOrder : Order) : Bool :=
  if !buyOrder.isValid || !sellOrder.isValid then false
  else if buyOrder.symbol ≠ sellOrder.symbol then false
  else if buyOrder.side ≠ OrderSide.BUY ∨ sellOrder.side ≠ OrderSide.SELL then false
  else if buyOrder.quantity ≤ 0 ∨ sellOrder.quantity ≤ 0 then false
  else true

/-- The variables of one `matchOrders` call. -/
structure BookMatchState where
  book : OrderBook
  trades : List Trade
  nextTradeId : Int
deriving DecidableEq

/-- One pass of the `while` loop of `matchWithPriceTimePriority`: `none` when
    the loop is left (a side is empty, the best prices do not cross, or the two
    front orders fail the validation), otherwise the state at the start of the
    next pass. -/
def bookPass (st : BookMatchState) : Option BookMatchState :=
  match st.book.buyOrders with
  | [] => none
  | (bestBidPrice, buyOrdersAtPrice) :: buyRest =>
    match st.book.sellOrders with
    | [] => none
    | (bestAskPrice, sellOrdersAtPrice) :: sellRest =>
      if !canMatch bestBidPrice bestAskPrice then none
      else
        match buyOrdersAtPrice, sellOrdersAtPrice with
        | buyOrder :: buyOthers, sellOrder :: sellOthers =>
          if !validateOrdersForMatching buyOrder sellOrder then none
          else
            let tradeQuantity := min buyOrder.quantity sellOrder.quantity
            let tradePrice := determineTradePrice buyOrder sellOrder
            let trade := createTrade st.nextTradeId buyOrder sellOrder tradeQuantity tradePrice
            let buyOrder1 := updateOrderQuantity buyOrder tradeQuantity
            let sellOrder1 := updateOrderQuantity sellOrder tradeQuantity
            let lookup1 := writeThrough sellOrder sellOrder1
              (writeThrough buyOrder buyOrder1 st.book.orderLookup)
            let buyLevel1 := buyOrder1 :: buyOthers
            let sellLevel1 := sellOrder1 :: sellOthers
            let lookup2 :=
              if buyOrder1.quantity = 0 then removeFilledOrder lookup1 buyOrder1 else lookup1
            let buySide :=
              if buyOrder1.quantity = 0 then
                let level2 := setErase buyOrder1 buyLevel1
                if level2 = [] then buyRest else (bestBidPrice, level2) :: buyRest
              else (bestBidPrice, buyLevel1) :: buyRest
            let lookup3 :=
              if sellOrder1.quantity = 0 then removeFilledOrder lookup2 sellOrder1 else lookup2
            let sellSide :=
              if sellOrder1.quantity = 0 then
                let level2 := setErase sellOrder1 sellLevel1
                if level2 = [] then sellRest else (bestAskPrice, level2) :: sellRest
              else (bestAskPrice, sellLevel1) :: sellRest
            some
              { book := { st.book with buyOrders := buySide, sellOrders := sellSide,
                                       orderLookup := lookup3 },
                trades := st.trades ++ [trade],
                nextTradeId := st.nextTradeId + 1 }
        | _, _ =>
          let buySide := if buyOrdersAtPrice = [] then buyRest else st.book.buyOrders
          let sellSide := if sellOrdersAtPrice = [] then sellRest else st.book.sellOrders
          some { st with book := { st.book with buyOrders := buySide, sellOrders := sellSide } }

/-- The `while` loop of `matchWithPriceTimePriority`, run for at most `fuel`
    passes. -/
def bookLoop : Nat → BookMatchState → Option BookMatchState
  | 0, _ => none
  | fuel + 1, st =>
    match bookPass st with
    | none => some st
    | some st1 => bookLoop fuel st1

/-- A budget of passes for the whole-book loop: one per level, one per order,
    and one. -/
def bookFuel (b : OrderBook) : Nat :=
  b.buyOrders.length + orderCount b.buyOrders +
    (b.sellOrders.length + orderCount b.sellOrders) + 1

/-- MatchingEngine::matchWithPriceTimePriority. -/
def matchWithPriceTimePriority (b : OrderBook) (nextTradeId : Int) : Option BookMatchState :=
  bookLoop (bookFuel b) { book := b, trades := [], nextTradeId := nextTradeId }

/-- MatchingEngine::matchOrders. -/
def matchOrders (b : OrderBook) (nextTradeId : Int) : Option BookMatchState :=
  matchWithPriceTimePriority b nextTradeId

/-! ## Portfolio.h / Portfolio.cpp -/

structure Portfolio where
  userId : String
  positions : List (String × Int)
  tradeHistory : List Trade
  averageCosts : List (String × ℚ)
  cashBalance : ℚ
deriving DecidableEq

/-- Portfolio::Portfolio(user, initialCash). -/
def Portfolio.new (user : String) (initialCash : ℚ) : Portfolio :=
  { userId := user, positions := [], tradeHistory := [], averageCosts := [],
    cashBalance := initialCash }

/-- Portfolio::getPosition: `0` for a symbol without entry. -/
def Portfolio.getPosition (pf : Portfolio) (symbol : String) : Int :=
  (hmFind pf.positions symbol).getD 0

/-- Portfolio::getAverageCost: `0.0` for a symbol without entry. -/
def Portfolio.getAverageCost (pf : Portfolio) (symbol : String) : ℚ :=
  (hmFind pf.averageCosts symbol).getD 0

/-- Portfolio::addBuyTrade in idealised arithmetic (unbounded `int`, exact
    `double`); `Machine.addBuyTrade` is the same function in machine
    arithmetic.  Reading `positions[symbol]` and `averageCosts[symbol]` creates
    a zero entry when there is none, so both maps hold an entry for the symbol
    afterwards in every branch. -/
def Portfolio.addBuyTrade (pf : Portfolio) (trade : Trade) : Portfolio :=
  let symbol := trade.symbol
  let quantity := trade.quantity
  let price := trade.price
  let totalCost : ℚ := (quantity : ℚ) * price
  let cash := pf.cashBalance - totalCost
  let currentPosition : Int := (hmFind pf.positions symbol).getD 0
  let currentAvgCost : ℚ := (hmFind pf.averageCosts symbol).getD 0
  if currentPosition ≥ 0 then
    let totalValue : ℚ := (currentPosition : ℚ) * currentAvgCost + totalCost
    let position1 := currentPosition + quantity
    { pf with cashBalance := cash,
              positions := hmAssign pf.positions symbol position1,
              averageCosts := hmAssign pf.averageCosts symbol (totalValue / (position1 : ℚ)) }
  else if quantity ≤ -currentPosition then
    { pf with cashBalance := cash,
              positions := hmAssign pf.positions symbol (currentPosition + quantity),
              averageCosts := hmAssign pf.averageCosts symbol currentAvgCost }
  else
    let excessQuantity := quantity + currentPosition
    { pf with cashBalance := cash,
              positions := hmAssign pf.positions symbol excessQuantity,
              averageCosts := hmAssign pf.averageCosts symbol price }

/-- Portfolio::addSellTrade in idealised arithmetic; `Machine.addSellTrade` is
    the same function in machine arithmetic. -/
def Portfolio.addSellTrade (pf : Portfolio) (trade : Trade) : Portfolio :=
  let symbol := trade.symbol
  let quantity := trade.quantity
  let price := trade.price
  let totalRevenue : ℚ := (quantity : ℚ) * price
  let cash := pf.cashBalance + totalRevenue
  let currentPosition : Int := (hmFind pf.positions symbol).getD 0
  let currentAvgCost : ℚ := (hmFind pf.averageCosts symbol).getD 0
  if currentPosition ≤ 0 then
    let totalValue : ℚ := ((-currentPosition : Int) : ℚ) * currentAvgCost + totalRevenue
    let position1 := currentPosition - quantity
    { pf with cashBalance := cash,
              positions := hmAssign pf.positions symbol position1,
              averageCosts := hmAssign pf.averageCosts symbol (totalValue / ((-position1 : Int) : ℚ)) }
  else if quantity ≤ currentPosition then
    { pf with cashBalance := cash,
              positions := hmAssign pf.positions symbol (currentPosition - quantity),
              averageCosts := hmAssign pf.averageCosts symbol currentAvgCost }
  else
    let excessQuantity := quantity - currentPosition
    { pf with cashBalance := cash,
              positions := hmAssign pf.positions symbol (-excessQuantity),
              averageCosts := hmAssign pf.averageCosts symbol price }

/-- Portfolio::addTrade: record the trade, then book it on the given side. -/
def Portfolio.addTrade (pf : Portfolio) (trade : Trade) (isBuyerSide : Bool) : Portfolio :=
  let pf1 := { pf with tradeHistory := pf.tradeHistory ++ [trade] }
  if isBuyerSide then pf1.addBuyTrade trade else pf1.addSellTrade trade

/-- Portfolio::clearPosition. -/
def Portfolio.clearPosition (pf : Portfolio) (symbol : String) : Portfolio :=
  { pf with positions := hmAssign pf.positions symbol 0,
            averageCosts := hmAssign pf.averageCosts symbol 0 }

/-! ## TradeBookingSystem.h / TradeBookingSystem.cpp -/

/-- The venue together with the two process-wide id counters. -/
structure TradeBookingSystem where
  orderBooks : List (String × OrderBook)
  portfolios : List (String × Portfolio)
  availableSymbols : List String
  currentMarketPrices : List (String × ℚ)
  totalTradesExecuted : Nat
  totalVolumeTraded : ℚ
  nextOrderId : Int
  nextTradeId : Int
deriving DecidableEq

/-- TradeBookingSystem::TradeBookingSystem() in a process that has built no
    order and no trade yet: both counters stand at `1`. -/
def TradeBookingSystem.new : TradeBookingSystem :=
  { orderBooks := [], portfolios := [],
    availableSymbols := ["AAPL", "GOOGL", "MSFT", "TSLA", "AMZN", "META", "NVDA", "JPM", "V", "JNJ"],
    currentMarketPrices :=
      [("AAPL", 150), ("GOOGL", 2500), ("MSFT", 300), ("TSLA", 200), ("AMZN", 3000),
       ("META", 250), ("NVDA", 400), ("JPM", 140), ("V", 220), ("JNJ", 160)],
    totalTradesExecuted := 0, totalVolumeTraded := 0,
    nextOrderId := 1, nextTradeId := 1 }

/-- TradeBookingSystem::createUserIfNotExists, with the default initial cash
    of the `Portfolio` constructor. -/
def TradeBookingSystem.createUserIfNotExists (s : TradeBookingSystem) (userId : String) :
    TradeBookingSystem :=
  match hmFind s.portfolios userId with
  | none => { s with portfolios := hmAssign s.portfolios userId (Portfolio.new userId 100000) }
  | some _ => s

/-- One pass of the loop of `updatePortfoliosWithTrades`: the buyer's
    portfolio, when registered, takes the trade as buyer, then the seller's,
    when registered, takes it as seller. -/
def applyTrade (portfolios : List (String × Portfolio)) (trade : Trade) :
    List (String × Portfolio) :=
  let portfolios1 :=
    match hmFind portfolios trade.buyUserId with
    | some pf => hmAssign portfolios trade.buyUserId (pf.addTrade trade true)
    | none => portfolios
  match hmFind portfolios1 trade.sellUserId with
  | some pf => hmAssign portfolios1 trade.sellUserId (pf.addTrade trade false)
  | none => portfolios1

/-- TradeBookingSystem::updatePortfoliosWithTrades. -/
def updatePortfoliosWithTrades (portfolios : List (String × Portfolio)) (trades : List Trade) :
    List (String × Portfolio) :=
  trades.foldl applyTrade portfolios

/-- TradeBookingSystem::updateSystemStatistics. -/
def updateSystemStatistics (s : TradeBookingSystem) (trades : List Trade) : TradeBookingSystem :=
  trades.foldl
    (fun acc trade =>
      { acc with totalTradesExecuted := acc.totalTradesExecuted + 1,
                 totalVolumeTraded := acc.totalVolumeTraded + (trade.quantity : ℚ) * trade.price })
    s

/-- TradeBookingSystem::processTradeResults. -/
def processTradeResults (s : TradeBookingSystem) (trades : List Trade) : TradeBookingSystem :=
  if trades = [] then s
  else
    updateSystemStatistics
      { s with portfolios := updatePortfoliosWithTrades s.portfolios trades } trades

/-- TradeBookingSystem::placeOrderDirect, called when the clock reads `now`:
    the new venue state and the trades handed to `processTradeResults`. -/
def TradeBookingSystem.placeOrderDirect (s : TradeBookingSystem) (now : Int) (userId : String)
    (symbol : String) (side : OrderSide) (quantity : Int) (price : ℚ) :
    Option (TradeBookingSystem × List Trade) :=
  let books1 :=
    match hmFind s.orderBooks symbol with
    | none => hmAssign s.orderBooks symbol (OrderBook.new symbol)
    | some _ => s.orderBooks
  let order : Order :=
    { orderId := s.nextOrderId, symbol := symbol, side := side, quantity := quantity,
      price := price, timestamp := now, type := OrderType.LIMIT, userId := userId }
  let book := (hmFind books1 symbol).getD (OrderBook.new symbol)
  match matchOrder book order s.nextTradeId with
  | none => none
  | some st =>
    let s1 : TradeBookingSystem :=
      { s with orderBooks := hmAssign books1 symbol st.book,
               nextOrderId := s.nextOrderId + 1,
               nextTradeId := st.nextTradeId }
    some (processTradeResults s1 st.trades, st.trades)

/-- TradeBookingSystem::cancelOrderDirect. -/
def TradeBookingSystem.cancelOrderDirect (s : TradeBookingSystem) (symbol : String)
    (orderId : Int) : TradeBookingSystem :=
  match hmFind s.orderBooks symbol with
  | some book => { s with orderBooks := hmAssign s.orderBooks symbol (book.cancelOrder orderId).1 }
  | none => s

/-- TradeBookingSystem::getPortfolio. -/
def TradeBookingSystem.getPortfolio (s : TradeBookingSystem) (userId : String) :
    Option Portfolio :=
  hmFind s.portfolios userId

/-- TradeBookingSystem::getOrderBook. -/
def TradeBookingSystem.getOrderBook (s : TradeBookingSystem) (symbol : String) :
    Option OrderBook :=
  hmFind s.orderBooks symbol

/-- Venue states reached from a fresh system by `placeOrderDirect` and
    `cancelOrderDirect` calls with any arguments and any clock readings. -/
inductive Reachable : TradeBookingSystem → Prop where
  | fresh : Reachable TradeBookingSystem.new
  | place {s s1 : TradeBookingSystem} {trades : List Trade} (now : Int) (userId symbol : String)
      (side : OrderSide) (quantity : Int) (price : ℚ) :
      Reachable s →
      s.placeOrderDirect now userId symbol side quantity price = some (s1, trades) →
      Reachable s1
  | cancel {s : TradeBookingSystem} (symbol : String) (orderId : Int) :
      Reachable s → Reachable (s.cancelOrderDirect symbol orderId)


/-! ## Machine arithmetic

`Portfolio.addBuyTrade`, `Portfolio.addSellTrade` and the functions built on
them above compute in idealised arithmetic: an `int` is an unbounded integer and
a `double` an exact rational.  The definitions of this section are the same
functions with the arithmetic of the machine: every `int` operation wraps to 32
bits and every `double` operation rounds to binary64. -/

/-- The value an `int` holds after an operation whose exact result is `x`: the
    32-bit two's complement wrap. -/
def int32 (x : Int) : Int :=
  (x + 2147483648) % 4294967296 - 2147483648

/-- The position of the leading bit of `n` (`0` for `n < 2`), with a budget of
    halvings. -/
def log2Floor : Nat → Nat → Nat
  | 0, _ => 0
  | fuel + 1, n => if n < 2 then 0 else log2Floor fuel (n / 2) + 1

/-- The binary exponent of a rational `x ≠ 0`: the `e` with
    `2^e ≤ |x| < 2^(e+1)`. -/
def binade (x : ℚ) : Int :=
  let e0 : Int :=
    (log2Floor x.num.natAbs x.num.natAbs : Int) - (log2Floor x.den x.den : Int)
  if |x| < (2 : ℚ) ^ e0 then e0 - 1 else e0

/-- Rounding to the nearest integer, a tie going to the even one. -/
def roundHalfEven (x : ℚ) : Int :=
  let f : Int := ⌊x⌋
  let r : ℚ := x - f
  if r < 1 / 2 then f
  else if 1 / 2 < r then f + 1
  else if f % 2 = 0 then f
  else f + 1

/-- The `double` that an operation with the exact result `x` yields: `x`
    rounded to the nearest binary64 number (53 significant bits, ties to even,
    gradual underflow below `2^-1022`); `none` when the rounded value is beyond
    the finite range, where the machine stores an infinity. -/
def roundDouble (x : ℚ) : Option ℚ :=
  if x = 0 then some 0
  else
    let e := max (binade x) (-1022)
    let ulp : ℚ := (2 : ℚ) ^ (e - 52)
    let y : ℚ := (roundHalfEven (x / ulp) : ℚ) * ulp
    if |y| < (2 : ℚ) ^ (1024 : Int) then some y else none

/-- Portfolio::addBuyTrade in machine arithmetic.  The operations are taken in
    the order of the source, each `double` operation rounded on its own and each
    `int` operation wrapped; an `int` operand of a `double` operation is
    converted exactly.  The result is `none` when a `double` of the call is not
    finite (an overflow, or the division by a position of 0): the portfolio then
    holds an infinity or a NaN and is not followed further. -/
def Machine.addBuyTrade (pf : Portfolio) (trade : Trade) : Option Portfolio :=
  let symbol := trade.symbol
  let quantity := trade.quantity
  let price := trade.price
  (roundDouble ((quantity : ℚ) * price)).bind fun totalCost =>
  (roundDouble (pf.cashBalance - totalCost)).bind fun cash =>
  let currentPosition : Int := (hmFind pf.positions symbol).getD 0
  let currentAvgCost : ℚ := (hmFind pf.averageCosts symbol).getD 0
  if currentPosition ≥ 0 then
    (roundDouble ((currentPosition : ℚ) * currentAvgCost)).bind fun product =>
    (roundDouble (product + totalCost)).bind fun totalValue =>
    let position1 := int32 (currentPosition + quantity)
    if position1 = 0 then none
    else
      (roundDouble (totalValue / (position1 : ℚ))).bind fun averageCost =>
      some { pf with cashBalance := cash,
                     positions := hmAssign pf.positions symbol position1,
                     averageCosts := hmAssign pf.averageCosts symbol averageCost }
  else if quantity ≤ int32 (-currentPosition) then
    some { pf with cashBalance := cash,
                   positions := hmAssign pf.positions symbol (int32 (currentPosition + quantity)),
                   averageCosts := hmAssign pf.averageCosts symbol currentAvgCost }
  else
    let excessQuantity := int32 (quantity + currentPosition)
    some { pf with cashBalance := cash,
                   positions := hmAssign pf.positions symbol excessQuantity,
                   averageCosts := hmAssign pf.averageCosts symbol price }

/-- Portfolio::addSellTrade in machine arithmetic. -/
def Machine.addSellTrade (pf : Portfolio) (trade : Trade) : Option Portfolio :=
  let symbol := trade.symbol
  let quantity := trade.quantity
  let price := trade.price
  (roundDouble ((quantity : ℚ) * price)).bind fun totalRevenue =>
  (roundDouble (pf.cashBalance + totalRevenue)).bind fun cash =>
  let currentPosition : Int := (hmFind pf.positions symbol).getD 0
  let currentAvgCost : ℚ := (hmFind pf.averageCosts symbol).getD 0
  if currentPosition ≤ 0 then
    (roundDouble ((int32 (-currentPosition) : ℚ) * currentAvgCost)).bind fun product =>
    (roundDouble (product + totalRevenue)).bind fun totalValue =>
    let position1 := int32 (currentPosition - quantity)
    let divisor := int32 (-position1)
    if divisor = 0 then none
    else
      (roundDouble (totalValue / (divisor : ℚ))).bind fun averageCost =>
      some { pf with cashBalance := cash,
                     positions := hmAssign pf.positions symbol position1,
                     averageCosts := hmAssign pf.averageCosts symbol averageCost }
  else if quantity ≤ currentPosition then
    some { pf with cashBalance := cash,
                   positions := hmAssign pf.positions symbol (int32 (currentPosition - quantity)),
                   averageCosts := hmAssign pf.averageCosts symbol currentAvgCost }
  else
    let excessQuantity := int32 (quantity - currentPosition)
    some { pf with cashBalance := cash,
                   positions := hmAssign pf.positions symbol (int32 (-excessQuantity)),
                   averageCosts := hmAssign pf.averageCosts symbol price }

/-- Portfolio::addTrade in machine arithmetic. -/
def Machine.addTrade (pf : Portfolio) (trade : Trade) (isBuyerSide : Bool) : Option Portfolio :=
  let pf1 := { pf with tradeHistory := pf.tradeHistory ++ [trade] }
  if isBuyerSide then Machine.addBuyTrade pf1 trade else Machine.addSellTrade pf1 trade

/-- One pass of the loop of `updatePortfoliosWithTrades` in machine arithmetic. -/
def Machine.applyTrade (portfolios : List (String × Portfolio)) (trade : Trade) :
    Option (List (String × Portfolio)) :=
  let afterBuyer : Option (List (String × Portfolio)) :=
    match hmFind portfolios trade.buyUserId with
    | some pf =>
      (Machine.addTrade pf trade true).map (fun pf1 => hmAssign portfolios trade.buyUserId pf1)
    | none => some portfolios
  afterBuyer.bind fun portfolios1 =>
    match hmFind portfolios1 trade.sellUserId with
    | some pf =>
      (Machine.addTrade pf trade false).map
        (fun pf1 => hmAssign portfolios1 trade.sellUserId pf1)
    | none => some portfolios1

/-- TradeBookingSystem::updatePortfoliosWithTrades in machine arithmetic. -/
def Machine.updatePortfoliosWithTrades :
    List (String × Portfolio) → List Trade → Option (List (String × Portfolio))
  | portfolios, [] => some portfolios
  | portfolios, trade :: rest =>
    (Machine.applyTrade portfolios trade).bind fun portfolios1 =>
      Machine.updatePortfoliosWithTrades portfolios1 rest

/-- TradeBookingSystem::updateSystemStatistics in machine arithmetic: the
    counter of trades is a `size_t`, which wraps at `2^64`, and the volume a
    `double`. -/
def Machine.updateSystemStatistics :
    TradeBookingSystem → List Trade → Option TradeBookingSystem
  | s, [] => some s
  | s, trade :: rest =>
    (roundDouble ((trade.quantity : ℚ) * trade.price)).bind fun amount =>
    (roundDouble (s.totalVolumeTraded + amount)).bind fun volume =>
      Machine.updateSystemStatistics
        { s with totalTradesExecuted := (s.totalTradesExecuted + 1) % 18446744073709551616,
                 totalVolumeTraded := volume } rest

/-- TradeBookingSystem::processTradeResults in machine arithmetic. -/
def Machine.processTradeResults (s : TradeBookingSystem) (trades : List Trade) :
    Option TradeBookingSystem :=
  if trades = [] then some s
  else
    (Machine.updatePortfoliosWithTrades s.portfolios trades).bind fun portfolios1 =>
      Machine.updateSystemStatistics { s with portfolios := portfolios1 } trades

/-- TradeBookingSystem::placeOrderDirect with the trades of the call processed
    in machine arithmetic.  The matching is that of `placeOrderDirect`: it rounds
    nothing, a trade price being copied from the resting order and a trade
    quantity being the smaller of two positive quantities; the order and trade
    counters are kept as there. -/
def Machine.placeOrderDirect (s : TradeBookingSystem) (now : Int) (userId : String)
    (symbol : String) (side : OrderSide) (quantity : Int) (price : ℚ) :
    Option (TradeBookingSystem × List Trade) :=
  let books1 :=
    match hmFind s.orderBooks symbol with
    | none => hmAssign s.orderBooks symbol (OrderBook.new symbol)
    | some _ => s.orderBooks
  let order : Order :=
    { orderId := s.nextOrderId, symbol := symbol, side := side, quantity := quantity,
      price := price, timestamp := now, type := OrderType.LIMIT, userId := userId }
  let book := (hmFind books1 symbol).getD (OrderBook.new symbol)
  match matchOrder book order s.nextTradeId with
  | none => none
  | some st =>
    let s1 : TradeBookingSystem :=
      { s with orderBooks := hmAssign books1 symbol st.book,
               nextOrderId := s.nextOrderId + 1,
               nextTradeId := st.nextTradeId }
    (Machine.processTradeResults s1 st.trades).map fun s2 => (s2, st.trades)
/-! ## Vocabulary of the statements -/

/-- The other side. -/
def OrderSide.opposite : OrderSide → OrderSide
  | OrderSide.BUY => OrderSide.SELL
  | OrderSide.SELL => OrderSide.BUY

/-- The side of the book an order of the given side rests on. -/
def ownSide (b : OrderBook) (side : OrderSide) : PriceMap :=
  match side with
  | OrderSide.BUY => b.buyOrders
  | OrderSide.SELL => b.sellOrders

/-- Key order of the map holding the orders of the given side. -/
def sideBefore : OrderSide → ℚ → ℚ → Bool
  | OrderSide.BUY => bidBefore
  | OrderSide.SELL => askBefore

/-- All orders resting on one side, level after level: the order in which the
    engine meets them. -/
def restingOrders (m : PriceMap) : List Order :=
  m.flatMap (fun e => e.2)

/-- The invariants of one side of a book: keys in map order, every level in
    comparator order and not empty, every order in the level of its own price, on
    its own side, with a positive remaining quantity. -/
def SideWF (side : OrderSide) (m : PriceMap) : Prop :=
  (m.map Prod.fst).Pairwise (fun a b => sideBefore side a b = true) ∧
  (∀ e ∈ m, e.2.Pairwise (fun a b => OrderComparator a b = true)) ∧
  (∀ e ∈ m, e.2 ≠ []) ∧
  (∀ e ∈ m, ∀ o ∈ e.2, o.price = e.1 ∧ o.side = side ∧ 0 < o.quantity)

instance (side : OrderSide) (m : PriceMap) : Decidable (SideWF side m) := by
  unfold SideWF; infer_instance

/-- A well-formed book: both sides satisfy the side invariants. -/
def WellFormed (b : OrderBook) : Prop :=
  SideWF OrderSide.BUY b.buyOrders ∧ SideWF OrderSide.SELL b.sellOrders

instance (b : OrderBook) : Decidable (WellFormed b) := by
  unfold WellFormed; infer_instance

/-- An uncrossed book: when both sides are non-empty the best bid is strictly
    below the best ask. -/
def Uncrossed (b : OrderBook) : Prop :=
  ∀ pb pa, b.bestBid = some pb → b.bestAsk = some pa → pb < pa

/-- One pass of the matching loop: `none` when the loop is left, otherwise the
    state at the start of the next pass. -/
def matchStep (st : MatchState) : Option MatchState :=
  match opposing st.book st.newOrder.side with
  | [] => none
  | (bestPrice, ordersAtPrice) :: rest =>
    if st.newOrder.quantity ≤ 0 then none
    else if !crosses st.newOrder bestPrice then none
    else
      match ordersAtPrice with
      | [] => some { st with book := setOpposing st.book st.newOrder.side rest }
      | resting :: others =>
        let tradeQuantity := min st.newOrder.quantity resting.quantity
        let tradePrice := resting.price
        let trade := tradeAgainst st.nextTradeId st.newOrder resting tradeQuantity tradePrice
        let newOrder1 := updateOrderQuantity st.newOrder tradeQuantity
        let resting1 := updateOrderQuantity resting tradeQuantity
        let lookup1 := writeThrough resting resting1 st.book.orderLookup
        let level1 := resting1 :: others
        let book1 :=
          if resting1.quantity = 0 then
            let lookup2 := removeFilledOrder lookup1 resting1
            let level2 := setErase resting1 level1
            let side2 := if level2 = [] then rest else (bestPrice, level2) :: rest
            setOpposing { st.book with orderLookup := lookup2 } st.newOrder.side side2
          else
            setOpposing { st.book with orderLookup := lookup1 } st.newOrder.side
              ((bestPrice, level1) :: rest)
        some
          { book := book1, newOrder := newOrder1, trades := st.trades ++ [trade],
            nextTradeId := st.nextTradeId + 1 }

/-- The quantities the engine takes from a list of resting orders met in that
    order by an incoming order with `q` left: it stops at the first order that
    does not cross or when nothing is left. -/
def fillList (o : Order) : Int → List Order → List (Order × Int)
  | _, [] => []
  | q, r :: rs =>
    if q ≤ 0 ∨ crosses o r.price = false then []
    else (r, min q r.quantity) :: fillList o (q - min q r.quantity) rs

/-- The trades booked for a list of fills, numbered from `n`. -/
def tradesFrom (o : Order) : Int → List (Order × Int) → List Trade
  | _, [] => []
  | n, (r, x) :: rest => tradeAgainst n o r x r.price :: tradesFrom o (n + 1) rest

/-- What is left of a list of resting orders after an incoming order with `q`
    left has been matched against it. -/
def remainder (o : Order) : Int → List Order → List Order
  | _, [] => []
  | q, r :: rs =>
    if q ≤ 0 ∨ crosses o r.price = false then r :: rs
    else if r.quantity ≤ q then remainder o (q - r.quantity) rs
    else { r with quantity := r.quantity - q } :: rs

/-- Sum of the remaining quantities of a list of orders. -/
def totalQuantity (l : List Order) : Int :=
  (l.map (fun r => r.quantity)).sum

/-- Sum of the quantities of a list of trades. -/
def tradedQuantity (ts : List Trade) : Int :=
  (ts.map (fun t => t.quantity)).sum

/-- What a finished run of the matching loop has done to the state it was
    started in. -/
def LoopResult (st st2 : MatchState) : Prop :=
  st2.trades = st.trades ++ tradesFrom st.newOrder st.nextTradeId
      (fillList st.newOrder st.newOrder.quantity
        (restingOrders (opposing st.book st.newOrder.side))) ∧
  st2.newOrder = { st.newOrder with
      quantity := st.newOrder.quantity -
        ((fillList st.newOrder st.newOrder.quantity
          (restingOrders (opposing st.book st.newOrder.side))).map Prod.snd).sum } ∧
  st2.nextTradeId = st.nextTradeId +
      (fillList st.newOrder st.newOrder.quantity
        (restingOrders (opposing st.book st.newOrder.side))).length ∧
  restingOrders (opposing st2.book st.newOrder.side) =
      remainder st.newOrder st.newOrder.quantity
        (restingOrders (opposing st.book st.newOrder.side)) ∧
  ownSide st2.book st.newOrder.side = ownSide st.book st.newOrder.side ∧
  st2.book.symbol = st.book.symbol ∧
  ((opposing st2.book st.newOrder.side).map Prod.fst) <:+
      ((opposing st.book st.newOrder.side).map Prod.fst) ∧
  SideWF st.newOrder.side.opposite (opposing st2.book st.newOrder.side) ∧
  matchStep st2 = none ∧
  (fillList st.newOrder st.newOrder.quantity
      (restingOrders (opposing st.book st.newOrder.side)) = [] → st2 = st)

/-- The order id a trade records for the resting side, given the side of the
    incoming order. -/
def restingOrderId (incomingSide : OrderSide) (t : Trade) : Int :=
  match incomingSide with
  | OrderSide.BUY => t.sellOrderId
  | OrderSide.SELL => t.buyOrderId

/-- The user a trade records for the resting side. -/
def restingUserId (incomingSide : OrderSide) (t : Trade) : String :=
  match incomingSide with
  | OrderSide.BUY => t.sellUserId
  | OrderSide.SELL => t.buyUserId

/-- The order id a trade records for the incoming side. -/
def incomingOrderId (incomingSide : OrderSide) (t : Trade) : Int :=
  match incomingSide with
  | OrderSide.BUY => t.buyOrderId
  | OrderSide.SELL => t.sellOrderId

/-- Trade `t` is a trade of the incoming order `o` against the resting order `r`
    at the limit price of `r`. -/
def TradeAgainst (o : Order) (t : Trade) (r : Order) : Prop :=
  incomingOrderId o.side t = o.orderId ∧ restingOrderId o.side t = r.orderId ∧
    restingUserId o.side t = r.userId ∧ t.price = r.price

/-- Earlier submission time, then smaller order id. -/
def timeBefore (a b : Order) : Prop :=
  a.timestamp < b.timestamp ∨ (a.timestamp = b.timestamp ∧ a.orderId < b.orderId)

/-- Resting order `a` has priority over resting order `b` for an incoming order
    of the given side: a better price (lower ask for an incoming buy, higher bid
    for an incoming sell), or the same price and an earlier time. -/
def priorityBefore (incomingSide : OrderSide) (a b : Order) : Prop :=
  (match incomingSide with
    | OrderSide.BUY => a.price < b.price
    | OrderSide.SELL => b.price < a.price) ∨
  (a.price = b.price ∧ timeBefore a b)

/-- Prices in the order an incoming order of the given side meets them: not
    decreasing for a buy, not increasing for a sell. -/
def priceNotBetter (incomingSide : OrderSide) (p1 p2 : ℚ) : Prop :=
  match incomingSide with
  | OrderSide.BUY => p1 ≤ p2
  | OrderSide.SELL => p2 ≤ p1

/-- The id is not used by the book: no entry of the id lookup and no resting
    order carries it. -/
def FreshId (b : OrderBook) (id : Int) : Prop :=
  hmFind b.orderLookup id = none ∧
  (∀ r ∈ restingOrders b.buyOrders, r.orderId ≠ id) ∧
  (∀ r ∈ restingOrders b.sellOrders, r.orderId ≠ id)

instance (b : OrderBook) (id : Int) : Decidable (FreshId b id) := by
  unfold FreshId; infer_instance

/-- Price `p` of the given side does not cross price `q` of the other side: a
    bid strictly below an ask, an ask strictly above a bid. -/
def NoCross (side : OrderSide) (p q : ℚ) : Prop :=
  match side with
  | OrderSide.BUY => p < q
  | OrderSide.SELL => q < p

/-- No bid level is at or above any ask level. -/
def CrossFree (b : OrderBook) : Prop :=
  ∀ pb ∈ b.buyOrders.map Prod.fst, ∀ pa ∈ b.sellOrders.map Prod.fst, pb < pa

instance (b : OrderBook) : Decidable (CrossFree b) := by
  unfold CrossFree; infer_instance

/-- The invariant of a book at rest: well-formed and not crossed. -/
def BookInv (b : OrderBook) : Prop :=
  WellFormed b ∧ CrossFree b

/-- The invariant of the venue: every book of the map satisfies the book
    invariant. -/
def VenueInv (s : TradeBookingSystem) : Prop :=
  ∀ sym book, hmFind s.orderBooks sym = some book → BookInv book

/-- Sum of the cash balances of all registered portfolios. -/
def totalCash (ps : List (String × Portfolio)) : ℚ :=
  (ps.map (fun e => e.2.cashBalance)).sum

/-- Sum over all registered portfolios of the signed position in a symbol. -/
def totalPosition (ps : List (String × Portfolio)) (symbol : String) : Int :=
  (ps.map (fun e => e.2.getPosition symbol)).sum

/-- Portfolio states reached from a fresh portfolio by `addTrade` calls with a
    positive quantity and a positive price, on either side. -/
inductive PortfolioReachable : Portfolio → Prop where
  | fresh (user : String) (initialCash : ℚ) : PortfolioReachable (Portfolio.new user initialCash)
  | trade {pf : Portfolio} (t : Trade) (isBuyerSide : Bool) :
      PortfolioReachable pf → 0 < t.quantity → 0 < t.price →
      PortfolioReachable (pf.addTrade t isBuyerSide)

/-- The state after `i` passes of the matching loop, when the loop makes that
    many. -/
def passes : Nat → MatchState → Option MatchState
  | 0, st => some st
  | i + 1, st => (matchStep st).bind (passes i)

/-! ## Vocabulary of the statements about trade sequences and the id lookup -/

/-- All orders resting in the book: the bid levels, then the ask levels. -/
def allOrders (b : OrderBook) : List Order :=
  restingOrders b.buyOrders ++ restingOrders b.sellOrders

/-- The id lookup and the price levels hold the same orders: what the lookup
    returns for an id is a resting order carrying that id, and every resting
    order is what the lookup returns for its id. -/
def IndexConsistent (b : OrderBook) : Prop :=
  (∀ e ∈ b.orderLookup, hmFind b.orderLookup e.1 = some e.2 →
      e.2.orderId = e.1 ∧ e.2 ∈ allOrders b) ∧
  (∀ r ∈ allOrders b, hmFind b.orderLookup r.orderId = some r)

instance (b : OrderBook) : Decidable (IndexConsistent b) := by
  unfold IndexConsistent; infer_instance

/-- The invariant of the venue about the id lookups: every book is index
    consistent and knows no id at or above the counter of the next order. -/
def VenueIdx (s : TradeBookingSystem) : Prop :=
  ∀ sym b, hmFind s.orderBooks sym = some b →
    IndexConsistent b ∧ ∀ id, s.nextOrderId ≤ id → hmFind b.orderLookup id = none

/-- One side of a book with the order `o` taken out of every level and the
    levels that became empty deleted. -/
def removeFromLevels (o : Order) (m : PriceMap) : PriceMap :=
  (m.map (fun e => (e.1, e.2.erase o))).filter (fun e => decide (e.2 ≠ []))

/-! ## Portfolio.cpp, continued -/

/-- Portfolio::calculateRealizedPnL: the loop over the trade history. -/
def Portfolio.calculateRealizedPnL (pf : Portfolio) : ℚ :=
  pf.tradeHistory.foldl
    (fun totalCashFlow trade =>
      if trade.buyUserId = pf.userId then totalCashFlow - (trade.quantity : ℚ) * trade.price
      else if trade.sellUserId = pf.userId then
        totalCashFlow + (trade.quantity : ℚ) * trade.price
      else totalCashFlow)
    0

/-! ## Vocabulary of the statements about books built through the `OrderBook` interface -/

/-- Book states reached from an empty book by `addOrder`, `cancelOrder` and
    `matchOrder` calls with any arguments. -/
inductive BookReachable : OrderBook → Prop where
  | empty (sym : String) : BookReachable (OrderBook.new sym)
  | add {b : OrderBook} (o : Order) : BookReachable b → BookReachable (b.addOrder o)
  | cancel {b : OrderBook} (orderId : Int) :
      BookReachable b → BookReachable (b.cancelOrder orderId).1
  | matched {b : OrderBook} {st : MatchState} (o : Order) (n : Int) :
      BookReachable b → matchOrder b o n = some st → BookReachable st.book

/-- The limit of the incoming order admits the price: at most the limit for a
    buy, at least the limit for a sell. -/
def withinLimit (o : Order) (p : ℚ) : Prop :=
  match o.side with
  | OrderSide.BUY => p ≤ o.price
  | OrderSide.SELL => o.price ≤ p

/-- The level stored under a price on one side, empty when there is none. -/
def levelAt (m : PriceMap) (p : ℚ) : Level :=
  (hmFind m p).getD []

instance (a b : Order) : Decidable (timeBefore a b) := by
  unfold timeBefore; infer_instance

/-! ## Vocabulary of the statements about one user's portfolio -/

/-- What one pass of the loop of `updatePortfoliosWithTrades` does to the
    portfolio of user `u`: the trade is booked as buyer when `u` is its buyer,
    then as seller when `u` is its seller. -/
def bookOwnSides (u : String) (pf : Portfolio) (t : Trade) : Portfolio :=
  let pf1 := if t.buyUserId = u then pf.addTrade t true else pf
  if t.sellUserId = u then pf1.addTrade t false else pf1

/-- A portfolio after a list of `addTrade` calls, each with its side flag. -/
def Portfolio.applyAll (pf : Portfolio) (l : List (Trade × Bool)) : Portfolio :=
  l.foldl (fun acc e => acc.addTrade e.1 e.2) pf

/-- The sum of `-q*p` over the calls made as buyer and `+q*p` over the calls
    made as seller. -/
def signedFlow (l : List (Trade × Bool)) : ℚ :=
  (l.map (fun e =>
    if e.2 = true then -((e.1.quantity : ℚ) * e.1.price)
    else (e.1.quantity : ℚ) * e.1.price)).sum

/-- The sum of `q*p` over the calls made as seller with a trade whose buyer is
    user `u` as well. -/
def selfSold (u : String) (l : List (Trade × Bool)) : ℚ :=
  (l.map (fun e =>
    if e.2 = false ∧ e.1.buyUserId = u then (e.1.quantity : ℚ) * e.1.price else 0)).sum

/-! ## Portfolio.cpp: unrealized profit and loss -/

/-- The number of levels plus the number of orders on the side the incoming
    order is matched against. -/
def loopMeasure (st : MatchState) : Nat :=
  (opposing st.book st.newOrder.side).length +
    orderCount (opposing st.book st.newOrder.side)

/-- What a list of fills leaves of the order filled last: the order with its
    quantity reduced when the last fill took less than it had, nothing otherwise. -/
def partialRest (fills : List (Order × Int)) : List Order :=
  match fills.getLast? with
  | some f => if f.2 < f.1.quantity then [{ f.1 with quantity := f.1.quantity - f.2 }] else []
  | none => []

/-! ## Vocabulary of the statements about whole-book matching -/

/-- The number of levels plus the number of orders of both sides of a book. -/
def bookMeasure (b : OrderBook) : Nat :=
  b.buyOrders.length + orderCount b.buyOrders +
    (b.sellOrders.length + orderCount b.sellOrders)

/-- The order `x` is the order `y` with another remaining quantity. -/
def sameButQuantity (x y : Order) : Prop :=
  x = { y with quantity := x.quantity }

/-- The price rule of `matchOrders` for a trade between the resting orders
    `buy` and `sell`: the buy order's limit when its timestamp is strictly the
    earlier one, the sell order's limit otherwise. -/
def PricedByTimestamp (t : Trade) (buy sell : Order) : Prop :=
  t.buyOrderId = buy.orderId ∧ t.sellOrderId = sell.orderId ∧
    (buy.timestamp < sell.timestamp → t.price = buy.price) ∧
    (sell.timestamp ≤ buy.timestamp → t.price = sell.price)

/-- The state of a `matchOrders` call that stands for a state of a `matchOrder`
    call: what is left of the incoming order rests in the book. -/
def restIncoming (st : MatchState) : BookMatchState :=
  { book := if st.newOrder.quantity > 0 then st.book.addOrder st.newOrder else st.book,
    trades := st.trades,
    nextTradeId := st.nextTradeId }

/-- What the comparison of `matchOrder` with `matchOrders` needs of a state of
    the `matchOrder` loop: the side matched against is well-formed, no own level
    crosses a level of it, its orders are valid orders of the incoming order's
    symbol with earlier timestamps and other ids, the lookup does not know the
    incoming order's id, and the incoming order is valid but for its quantity. -/
def MatchReady (st : MatchState) : Prop :=
  SideWF st.newOrder.side.opposite (opposing st.book st.newOrder.side) ∧
  (∀ p ∈ (ownSide st.book st.newOrder.side).map Prod.fst,
    ∀ q ∈ (opposing st.book st.newOrder.side).map Prod.fst, NoCross st.newOrder.side p q) ∧
  (∀ r ∈ restingOrders (opposing st.book st.newOrder.side),
    r.isValid = true ∧ r.symbol = st.newOrder.symbol ∧ r.timestamp < st.newOrder.timestamp ∧
      r.orderId ≠ st.newOrder.orderId) ∧
  (∀ e ∈ st.book.orderLookup, e.1 ≠ st.newOrder.orderId ∧ e.2.orderId ≠ st.newOrder.orderId) ∧
  0 < st.newOrder.price ∧ st.newOrder.symbol ≠ "" ∧ st.newOrder.userId ≠ ""

/-- The id lookup after a pass of the whole-book loop that trades the front
    orders `buy` and `sell`, both with a positive quantity: the two writes, then
    the removal of each order that was filled. -/
def passLookup (lookup : List (Int × Order)) (buy sell : Order) : List (Int × Order) :=
  let written :=
    writeThrough sell { sell with quantity := sell.quantity - min buy.quantity sell.quantity }
      (writeThrough buy { buy with quantity := buy.quantity - min buy.quantity sell.quantity }
        lookup)
  let afterBuy := if buy.quantity ≤ sell.quantity then hmErase written buy.orderId else written
  if sell.quantity ≤ buy.quantity then hmErase afterBuy sell.orderId else afterBuy

/-! ## Vocabulary of the statements about machine arithmetic -/

/-- The integer `x` is a value of type `int`. -/
def InInt32 (x : Int) : Prop :=
  -2147483648 ≤ x ∧ x ≤ 2147483647

instance (x : Int) : Decidable (InInt32 x) := by
  unfold InInt32; infer_instance

/-- The rational `x` is a finite `double`: rounding leaves it as it is. -/
def IsDouble (x : ℚ) : Prop :=
  roundDouble x = some x

instance (x : ℚ) : Decidable (IsDouble x) := by
  unfold IsDouble; infer_instance

/-- Every operation of `addBuyTrade(trade)` on the portfolio is exact: each
    `int` result lies in the range of `int`, each `double` result is a finite
    `double` without rounding, and the new position, where it divides, is not 0. -/
def BuyExact (pf : Portfolio) (t : Trade) : Prop :=
  IsDouble ((t.quantity : ℚ) * t.price) ∧
  IsDouble (pf.cashBalance - (t.quantity : ℚ) * t.price) ∧
  (if pf.getPosition t.symbol ≥ 0 then
    IsDouble ((pf.getPosition t.symbol : ℚ) * pf.getAverageCost t.symbol) ∧
    IsDouble ((pf.getPosition t.symbol : ℚ) * pf.getAverageCost t.symbol +
      (t.quantity : ℚ) * t.price) ∧
    InInt32 (pf.getPosition t.symbol + t.quantity) ∧
    pf.getPosition t.symbol + t.quantity ≠ 0 ∧
    IsDouble (((pf.getPosition t.symbol : ℚ) * pf.getAverageCost t.symbol +
      (t.quantity : ℚ) * t.price) / ((pf.getPosition t.symbol + t.quantity : Int) : ℚ))
  else
    InInt32 (-pf.getPosition t.symbol) ∧ InInt32 (pf.getPosition t.symbol + t.quantity))

instance (pf : Portfolio) (t : Trade) : Decidable (BuyExact pf t) := by
  unfold BuyExact; infer_instance

/-- Every operation of `addSellTrade(trade)` on the portfolio is exact. -/
def SellExact (pf : Portfolio) (t : Trade) : Prop :=
  IsDouble ((t.quantity : ℚ) * t.price) ∧
  IsDouble (pf.cashBalance + (t.quantity : ℚ) * t.price) ∧
  (if pf.getPosition t.symbol ≤ 0 then
    InInt32 (-pf.getPosition t.symbol) ∧
    IsDouble (((-pf.getPosition t.symbol : Int) : ℚ) * pf.getAverageCost t.symbol) ∧
    IsDouble (((-pf.getPosition t.symbol : Int) : ℚ) * pf.getAverageCost t.symbol +
      (t.quantity : ℚ) * t.price) ∧
    InInt32 (pf.getPosition t.symbol - t.quantity) ∧
    InInt32 (-(pf.getPosition t.symbol - t.quantity)) ∧
    -(pf.getPosition t.symbol - t.quantity) ≠ 0 ∧
    IsDouble ((((-pf.getPosition t.symbol : Int) : ℚ) * pf.getAverageCost t.symbol +
      (t.quantity : ℚ) * t.price) / ((-(pf.getPosition t.symbol - t.quantity) : Int) : ℚ))
  else
    InInt32 (pf.getPosition t.symbol - t.quantity) ∧
    InInt32 (t.quantity - pf.getPosition t.symbol) ∧
    InInt32 (-(t.quantity - pf.getPosition t.symbol)))

instance (pf : Portfolio) (t : Trade) : Decidable (SellExact pf t) := by
  unfold SellExact; infer_instance

/-- Every operation of `addTrade(trade, isBuyerSide)` on the portfolio is exact. -/
def StepExact (pf : Portfolio) (t : Trade) (isBuyerSide : Bool) : Prop :=
  if isBuyerSide then BuyExact pf t else SellExact pf t

instance (pf : Portfolio) (t : Trade) (b : Bool) : Decidable (StepExact pf t b) := by
  unfold StepExact; infer_instance

/-- Every operation of a list of `addTrade` calls on one side is exact, each
    call being made on the portfolio the calls before it have left. -/
def RunExact : Portfolio → List Trade → Bool → Prop
  | _, [], _ => True
  | pf, t :: rest, isBuyerSide =>
    StepExact pf t isBuyerSide ∧ RunExact (pf.addTrade t isBuyerSide) rest isBuyerSide

instance RunExact.decide : ∀ (pf : Portfolio) (ts : List Trade) (b : Bool),
    Decidable (RunExact pf ts b)
  | _, [], _ => isTrue trivial
  | pf, t :: rest, b =>
    @instDecidableAnd _ _ _ (RunExact.decide (pf.addTrade t b) rest b)

/-- The portfolios after the buyer's half of one pass of the loop of
    `updatePortfoliosWithTrades`, in idealised arithmetic. -/
def applyBuyer (ps : List (String × Portfolio)) (t : Trade) : List (String × Portfolio) :=
  match hmFind ps t.buyUserId with
  | some pf => hmAssign ps t.buyUserId (pf.addTrade t true)
  | none => ps

/-- Every operation of one pass of the loop of `updatePortfoliosWithTrades` is
    exact: the buyer's `addTrade`, when the buyer is registered, and then the
    seller's. -/
def ApplyExact (ps : List (String × Portfolio)) (t : Trade) : Prop :=
  (∀ pf, hmFind ps t.buyUserId = some pf → StepExact pf t true) ∧
  (∀ pf, hmFind (applyBuyer ps t) t.sellUserId = some pf → StepExact pf t false)

instance (ps : List (String × Portfolio)) (t : Trade) : Decidable (ApplyExact ps t) := by
  unfold ApplyExact
  have h1 : Decidable (∀ pf, hmFind ps t.buyUserId = some pf → StepExact pf t true) := by
    cases h : hmFind ps t.buyUserId with
    | none => exact isTrue (fun pf hpf => by simp at hpf)
    | some pf0 =>
      by_cases hx : StepExact pf0 t true
      · exact isTrue (fun pf hpf => by
          simp only [Option.some.injEq] at hpf
          exact hpf ▸ hx)
      · exact isFalse (fun hall => hx (hall pf0 rfl))
  have h2 : Decidable
      (∀ pf, hmFind (applyBuyer ps t) t.sellUserId = some pf → StepExact pf t false) := by
    cases h : hmFind (applyBuyer ps t) t.sellUserId with
    | none => exact isTrue (fun pf hpf => by simp at hpf)
    | some pf0 =>
      by_cases hx : StepExact pf0 t false
      · exact isTrue (fun pf hpf => by
          simp only [Option.some.injEq] at hpf
          exact hpf ▸ hx)
      · exact isFalse (fun hall => hx (hall pf0 rfl))
  exact instDecidableAnd

/-- Every operation of `updatePortfoliosWithTrades` over the trades is exact,
    each pass being made on the portfolios the passes before it have left. -/
def UpdateExact : List (String × Portfolio) → List Trade → Prop
  | _, [] => True
  | ps, t :: rest => ApplyExact ps t ∧ UpdateExact (applyTrade ps t) rest

instance UpdateExact.decide : ∀ (ps : List (String × Portfolio)) (ts : List Trade),
    Decidable (UpdateExact ps ts)
  | _, [] => isTrue trivial
  | ps, t :: rest => @instDecidableAnd _ _ _ (UpdateExact.decide (applyTrade ps t) rest)

/-- Every operation of `updateSystemStatistics` over the trades is exact, from a
    volume `v` and a count `c`: each product and each new volume is a finite
    `double` without rounding and the counter does not wrap. -/
def StatsExact : ℚ → Nat → List Trade → Prop
  | _, _, [] => True
  | v, c, t :: rest =>
    IsDouble ((t.quantity : ℚ) * t.price) ∧ IsDouble (v + (t.quantity : ℚ) * t.price) ∧
    c + 1 < 18446744073709551616 ∧
    StatsExact (v + (t.quantity : ℚ) * t.price) (c + 1) rest

instance StatsExact.decide : ∀ (v : ℚ) (c : Nat) (ts : List Trade),
    Decidable (StatsExact v c ts)
  | _, _, [] => isTrue trivial
  | v, c, t :: rest =>
    @instDecidableAnd _ _ _ (@instDecidableAnd _ _ _
      (@instDecidableAnd _ _ _ (StatsExact.decide (v + (t.quantity : ℚ) * t.price) (c + 1) rest)))
/-! ## Concrete books, orders and venues used to exercise the theorems -/

/-- A resting ask of user U1: 100 @ 151, submitted at tick 1. -/
def demoAsk1 : Order :=
  { orderId := 1, symbol := "AAPL", side := OrderSide.SELL, quantity := 100, price := 151,
    timestamp := 1, type := OrderType.LIMIT, userId := "U1" }

/-- A resting ask of user U2: 100 @ 150, submitted at tick 2. -/
def demoAsk2 : Order :=
  { orderId := 2, symbol := "AAPL", side := OrderSide.SELL, quantity := 100, price := 150,
    timestamp := 2, type := OrderType.LIMIT, userId := "U2" }

/-- An incoming buy of user A: 150 @ 151, submitted at tick 3. -/
def demoBuy : Order :=
  { orderId := 3, symbol := "AAPL", side := OrderSide.BUY, quantity := 150, price := 151,
    timestamp := 3, type := OrderType.LIMIT, userId := "A" }

/-- The book of scenario S3: the two asks added to an empty book. -/
def demoBook : OrderBook :=
  ((OrderBook.new "AAPL").addOrder demoAsk1).addOrder demoAsk2

/-- A venue with users A and B registered and a bid of A resting: 100 @ 150. -/
def demoVenue : TradeBookingSystem :=
  ((((TradeBookingSystem.new.createUserIfNotExists "A").createUserIfNotExists "B").placeOrderDirect
    1 "A" "AAPL" OrderSide.BUY 100 150).map Prod.fst).getD TradeBookingSystem.new

/-- The trade made when B sells 100 @ 150 into `demoVenue`. -/
def demoTrade : Trade :=
  { tradeId := 1, symbol := "AAPL", buyOrderId := 1, sellOrderId := 2, buyUserId := "A",
    sellUserId := "B", quantity := 100, price := 150 }

/-- A fresh venue after a bid at 149 has been placed. -/
def demoVenueBid : TradeBookingSystem :=
  ((TradeBookingSystem.new.placeOrderDirect 1 "U1" "AAPL" OrderSide.BUY 100 149).map
    Prod.fst).getD TradeBookingSystem.new

/-- The same venue after an ask at 151 has been placed as well. -/
def demoVenueBidAsk : TradeBookingSystem :=
  ((demoVenueBid.placeOrderDirect 2 "U2" "AAPL" OrderSide.SELL 100 151).map
    Prod.fst).getD TradeBookingSystem.new

/-- The bid resting in `demoVenueBidAsk`. -/
def demoBid149 : Order :=
  { orderId := 1, symbol := "AAPL", side := OrderSide.BUY, quantity := 100, price := 149,
    timestamp := 1, type := OrderType.LIMIT, userId := "U1" }

/-- The ask resting in `demoVenueBidAsk`. -/
def demoAsk151 : Order :=
  { orderId := 2, symbol := "AAPL", side := OrderSide.SELL, quantity := 100, price := 151,
    timestamp := 2, type := OrderType.LIMIT, userId := "U2" }

/-- The book of `demoVenueBidAsk`: one bid at 149, one ask at 151. -/
def demoBookBidAsk : OrderBook :=
  { symbol := "AAPL",
    buyOrders := [(149, [demoBid149])],
    sellOrders := [(151, [demoAsk151])],
    orderLookup := [(1, demoBid149), (2, demoAsk151)] }

/-- A sell of 100 @ 200, opening a short. -/
def demoShortOpen : Trade :=
  { tradeId := 1, symbol := "AAPL", buyOrderId := 1, sellOrderId := 2, buyUserId := "B",
    sellUserId := "A", quantity := 100, price := 200 }

/-- A buy of 100 @ 180, covering that short exactly. -/
def demoShortCover : Trade :=
  { tradeId := 2, symbol := "AAPL", buyOrderId := 4, sellOrderId := 3, buyUserId := "A",
    sellUserId := "C", quantity := 100, price := 180 }


/-- A bid of user U2: 100 @ 150, submitted at tick 2. -/
def demoBid150 : Order :=
  { orderId := 2, symbol := "AAPL", side := OrderSide.BUY, quantity := 100, price := 150,
    timestamp := 2, type := OrderType.LIMIT, userId := "U2" }

/-- The book of scenario S6: the bid of U1 at 149 and the bid of U2 at 150. -/
def demoBookTwoBids : OrderBook :=
  ((OrderBook.new "AAPL").addOrder demoBid149).addOrder demoBid150

/-- A fresh venue after an ask of 100 @ 150 has been placed. -/
def demoVenueAsk : TradeBookingSystem :=
  ((TradeBookingSystem.new.placeOrderDirect 1 "U1" "AAPL" OrderSide.SELL 100 150).map
    Prod.fst).getD TradeBookingSystem.new

/-- That ask after 40 of it have been filled. -/
def demoAskLeft60 : Order :=
  { orderId := 1, symbol := "AAPL", side := OrderSide.SELL, quantity := 60, price := 150,
    timestamp := 1, type := OrderType.LIMIT, userId := "U1" }

/-- The book of `demoVenueAsk` after a buy of 40 @ 150 has been matched. -/
def demoBookPartial : OrderBook :=
  { symbol := "AAPL",
    buyOrders := [],
    sellOrders := [(150, [demoAskLeft60])],
    orderLookup := [(1, demoAskLeft60)] }

/-- A valid order carrying the id of `demoAsk1`. -/
def demoDuplicate : Order :=
  { orderId := 1, symbol := "AAPL", side := OrderSide.SELL, quantity := 5, price := 152,
    timestamp := 9, type := OrderType.LIMIT, userId := "U3" }

/-- A trade of 150 @ 160. -/
def demoClose : Trade :=
  { tradeId := 3, symbol := "AAPL", buyOrderId := 5, sellOrderId := 4, buyUserId := "B",
    sellUserId := "A", quantity := 150, price := 160 }

/-- An incoming sell of user B: 120 @ 149, submitted at tick 3. -/
def demoSell : Order :=
  { orderId := 3, symbol := "AAPL", side := OrderSide.SELL, quantity := 120, price := 149,
    timestamp := 3, type := OrderType.LIMIT, userId := "B" }

/-- An ask at 150 carrying a new id and the time stamp of tick 1. -/
def demoEarlyAsk : Order :=
  { orderId := 5, symbol := "AAPL", side := OrderSide.SELL, quantity := 10, price := 150,
    timestamp := 1, type := OrderType.LIMIT, userId := "U3" }

/-- An ask at 150 carrying a new id and the time stamp of tick 9. -/
def demoLateAsk : Order :=
  { orderId := 6, symbol := "AAPL", side := OrderSide.SELL, quantity := 10, price := 150,
    timestamp := 9, type := OrderType.LIMIT, userId := "U3" }

/-- A valid ask for MSFT: 100 @ 300. -/
def demoMsftAsk : Order :=
  { orderId := 7, symbol := "MSFT", side := OrderSide.SELL, quantity := 100, price := 300,
    timestamp := 4, type := OrderType.LIMIT, userId := "U4" }

/-- A buy for AAPL: 100 @ 300. -/
def demoBuy300 : Order :=
  { orderId := 8, symbol := "AAPL", side := OrderSide.BUY, quantity := 100, price := 300,
    timestamp := 5, type := OrderType.LIMIT, userId := "A" }

/-- A trade of 100 @ 150 with user A on both sides. -/
def demoSelfTrade : Trade :=
  { tradeId := 1, symbol := "AAPL", buyOrderId := 2, sellOrderId := 1, buyUserId := "A",
    sellUserId := "A", quantity := 100, price := 150 }

/-- The start of scenario S5: a fresh venue with portfolios for A, B and C. -/
def scenarioS5Start : TradeBookingSystem :=
  ((TradeBookingSystem.new.createUserIfNotExists "A").createUserIfNotExists
    "B").createUserIfNotExists "C"

/-- Scenario S5 up to the last submit: B bids 100 @ 200, A sells 100 @ 200,
    C offers 150 @ 180. -/
def scenarioS5Before : Option (TradeBookingSystem × List Trade) :=
  ((scenarioS5Start.placeOrderDirect 1 "B" "AAPL" OrderSide.BUY 100 200).bind
    (fun r => r.1.placeOrderDirect 2 "A" "AAPL" OrderSide.SELL 100 200)).bind
    (fun r => r.1.placeOrderDirect 3 "C" "AAPL" OrderSide.SELL 150 180)

/-- Scenario S5: the venue and the trades after A has submitted the buy of
    250 @ 180. -/
def scenarioS5 : Option (TradeBookingSystem × List Trade) :=
  scenarioS5Before.bind (fun r => r.1.placeOrderDirect 4 "A" "AAPL" OrderSide.BUY 250 180)

/-- A buy with quantity 0. -/
def demoZeroBuy : Order :=
  { orderId := 9, symbol := "AAPL", side := OrderSide.BUY, quantity := 0, price := 151,
    timestamp := 3, type := OrderType.LIMIT, userId := "A" }

/-- A book that is not well-formed: its ask side starts with an empty level. -/
def demoBookEmptyLevel : OrderBook :=
  { symbol := "AAPL",
    buyOrders := [],
    sellOrders := [(149, []), (150, [demoAsk2])],
    orderLookup := [(2, demoAsk2)] }

/-- A bid of user U1: 100 @ 151, order id 1, submitted at tick 5. -/
def demoTieBid : Order :=
  { orderId := 1, symbol := "AAPL", side := OrderSide.BUY, quantity := 100, price := 151,
    timestamp := 5, type := OrderType.LIMIT, userId := "U1" }

/-- An ask of user U2: 100 @ 150, order id 2, submitted at the same tick 5. -/
def demoTieAsk : Order :=
  { orderId := 2, symbol := "AAPL", side := OrderSide.SELL, quantity := 100, price := 150,
    timestamp := 5, type := OrderType.LIMIT, userId := "U2" }

/-- The two orders added to an empty book, the bid first. -/
def demoBookTie : OrderBook :=
  ((OrderBook.new "AAPL").addOrder demoTieBid).addOrder demoTieAsk

/-! ### Values for the statements about machine arithmetic -/

/-- The `double` nearest to 0.1 (`0.1` as the compiler reads it). -/
def demoTenth : ℚ := (roundDouble (1 / 10)).getD 0

/-- A trade of 1 @ 0.1, A buying from B. -/
def demoBuyTenth : Trade :=
  { tradeId := 1, symbol := "AAPL", buyOrderId := 1, sellOrderId := 2, buyUserId := "A",
    sellUserId := "B", quantity := 1, price := demoTenth }

/-- A copy of `demoAsk1` (same id, same time stamp, same price) with another
    quantity. -/
def demoAsk1Copy : Order :=
  { orderId := 1, symbol := "AAPL", side := OrderSide.SELL, quantity := 7, price := 151,
    timestamp := 1, type := OrderType.LIMIT, userId := "U1" }

theorem matchLoop_succ (fuel : Nat) (st : MatchState) :
    matchLoop (fuel + 1) st =
      match matchStep st with
      | none => some st
      | some st1 => matchLoop fuel st1 := by
  rw [matchLoop, matchStep]
  split
  · rfl
  · split
    · rfl
    · split
      · rfl
      · split <;> rfl

theorem matchLoop_induct (I : MatchState → Prop) (R : MatchState → MatchState → Prop)
    (hI : ∀ st st1, I st → matchStep st = some st1 → I st1)
    (h0 : ∀ st, I st → matchStep st = none → R st st)
    (h1 : ∀ st st1 st2, I st → matchStep st = some st1 → R st1 st2 → R st st2) :
    ∀ (fuel : Nat) (st st2 : MatchState), I st → matchLoop fuel st = some st2 → R st st2 := by
  intro fuel
  induction fuel with
  | zero => intro st st2 _ h; simp [matchLoop] at h
  | succ n ih =>
    intro st st2 hst h
    rw [matchLoop_succ] at h
    cases hs : matchStep st with
    | none =>
      rw [hs] at h
      simp only [Option.some.injEq] at h
      subst h
      exact h0 st hst hs
    | some st1 =>
      rw [hs] at h
      exact h1 st st1 st2 hst hs (ih st1 st2 (hI st st1 hst hs) h)

/-! ## Elementary facts about the book accessors -/

@[simp] theorem opposing_setOpposing (b : OrderBook) (side : OrderSide) (m : PriceMap) :
    opposing (setOpposing b side m) side = m := by
  cases side <;> rfl

@[simp] theorem ownSide_setOpposing (b : OrderBook) (side : OrderSide) (m : PriceMap) :
    ownSide (setOpposing b side m) side = ownSide b side := by
  cases side <;> rfl

@[simp] theorem orderLookup_setOpposing (b : OrderBook) (side : OrderSide) (m : PriceMap) :
    (setOpposing b side m).orderLookup = b.orderLookup := by
  cases side <;> rfl

@[simp] theorem symbol_setOpposing (b : OrderBook) (side : OrderSide) (m : PriceMap) :
    (setOpposing b side m).symbol = b.symbol := by
  cases side <;> rfl

theorem opposing_eq_ownSide (b : OrderBook) (side : OrderSide) :
    opposing b side = ownSide b side.opposite := by
  cases side <;> rfl

theorem WellFormed.opposing_side {b : OrderBook} (h : WellFormed b) (side : OrderSide) :
    SideWF side.opposite (opposing b side) := by
  cases side
  · exact h.2
  · exact h.1

theorem WellFormed.own_side {b : OrderBook} (h : WellFormed b) (side : OrderSide) :
    SideWF side (ownSide b side) := by
  cases side
  · exact h.1
  · exact h.2

theorem OrderComparator_irrefl (a : Order) : OrderComparator a a = false := by
  simp [OrderComparator]

@[simp] theorem sameKey_self (a : Order) : sameKey a a = true := by
  simp [sameKey, OrderComparator_irrefl]

@[simp] theorem setErase_head (r : Order) (others : Level) :
    setErase r (r :: others) = others := by
  simp [setErase, List.eraseP_cons]

theorem updateOrderQuantity_of_le (o : Order) (x : Int) (hx : 0 < x) (hle : x ≤ o.quantity) :
    updateOrderQuantity o x = { o with quantity := o.quantity - x } := by
  have h : ¬ (o.quantity - x < 0) := by omega
  simp [updateOrderQuantity, hx, h]

@[simp] theorem updateOrderQuantity_side (o : Order) (x : Int) :
    (updateOrderQuantity o x).side = o.side := by
  unfold updateOrderQuantity; split <;> rfl

@[simp] theorem crosses_quantity (o : Order) (q : Int) (p : ℚ) :
    crosses { o with quantity := q } p = crosses o p := rfl

@[simp] theorem tradeAgainst_quantity (n : Int) (o r : Order) (q x : Int) (p : ℚ) :
    tradeAgainst n { o with quantity := q } r x p = tradeAgainst n o r x p := by
  cases hs : o.side <;> simp [tradeAgainst, hs, createTrade]

/-! ## The shape of one pass on a well-formed side -/

theorem matchStep_eq_none_iff (st : MatchState) :
    matchStep st = none ↔
      opposing st.book st.newOrder.side = [] ∨ st.newOrder.quantity ≤ 0 ∨
        ∃ bp lvl rest, opposing st.book st.newOrder.side = (bp, lvl) :: rest ∧
          crosses st.newOrder bp = false := by
  unfold matchStep
  cases hopp : opposing st.book st.newOrder.side with
  | nil => simp
  | cons e rest =>
    obtain ⟨bp, lvl⟩ := e
    by_cases hq : st.newOrder.quantity ≤ 0
    · simp [hq]
    · by_cases hc : crosses st.newOrder bp = true
      · cases lvl <;> simp [hq, hc]
      · simp [hq, hc]

/-- The two kinds of pass on a well-formed side: the order at the head of the
    best level is filled completely and leaves the book, or the incoming order
    is used up and the head keeps the rest of its quantity. -/
theorem matchStep_eq_some {st st1 : MatchState}
    (hwf : SideWF st.newOrder.side.opposite (opposing st.book st.newOrder.side))
    (h : matchStep st = some st1) :
    ∃ bp r others rest,
      opposing st.book st.newOrder.side = (bp, r :: others) :: rest ∧
      0 < st.newOrder.quantity ∧ crosses st.newOrder bp = true ∧ r.price = bp ∧
      0 < r.quantity ∧
      st1.trades = st.trades ++
        [tradeAgainst st.nextTradeId st.newOrder r (min st.newOrder.quantity r.quantity) r.price] ∧
      st1.nextTradeId = st.nextTradeId + 1 ∧
      st1.newOrder =
        { st.newOrder with quantity := st.newOrder.quantity - min st.newOrder.quantity r.quantity } ∧
      ((r.quantity ≤ st.newOrder.quantity ∧
          st1.book = setOpposing
            { st.book with
              orderLookup := hmErase
                (writeThrough r { r with quantity := 0 } st.book.orderLookup) r.orderId }
            st.newOrder.side (if others = [] then rest else (bp, others) :: rest)) ∨
        (st.newOrder.quantity < r.quantity ∧
          st1.book = setOpposing
            { st.book with
              orderLookup := writeThrough r
                { r with quantity := r.quantity - st.newOrder.quantity } st.book.orderLookup }
            st.newOrder.side
            ((bp, { r with quantity := r.quantity - st.newOrder.quantity } :: others) :: rest))) := by
  unfold matchStep at h
  cases hopp : opposing st.book st.newOrder.side with
  | nil => simp [hopp] at h
  | cons e rest =>
    obtain ⟨bp, lvl⟩ := e
    rw [hopp] at hwf
    obtain ⟨_, _, hne, hown⟩ := hwf
    cases lvl with
    | nil => exact absurd rfl (hne (bp, []) (by simp))
    | cons r others =>
      have hr := hown (bp, r :: others) (by simp) r (by simp)
      simp only [hopp] at h
      by_cases hq : st.newOrder.quantity ≤ 0
      · simp [hq] at h
      · by_cases hc : crosses st.newOrder bp = true
        · have hqpos : 0 < st.newOrder.quantity := by omega
          have hmin : 0 < min st.newOrder.quantity r.quantity := lt_min hqpos hr.2.2
          have hu1 := updateOrderQuantity_of_le st.newOrder _ hmin (min_le_left _ _)
          have hu2 := updateOrderQuantity_of_le r _ hmin (min_le_right _ _)
          simp only [hq, hc, if_false, Bool.not_true, Bool.false_eq_true, hu1, hu2,
            Option.some.injEq] at h
          subst h
          refine ⟨bp, r, others, rest, rfl, hqpos, hc, hr.1, hr.2.2, rfl, rfl, rfl, ?_⟩
          by_cases hle : r.quantity ≤ st.newOrder.quantity
          · left
            refine ⟨hle, ?_⟩
            have hm : min st.newOrder.quantity r.quantity = r.quantity := min_eq_right hle
            simp [hm, removeFilledOrder]
          · right
            have hlt : st.newOrder.quantity < r.quantity := by omega
            refine ⟨hlt, ?_⟩
            have hm : min st.newOrder.quantity r.quantity = st.newOrder.quantity :=
              min_eq_left (le_of_lt hlt)
            have hne0 : ¬ (r.quantity - st.newOrder.quantity = 0) := by omega
            simp [hm, hne0]
        · simp [hq, hc] at h

/-! ## Side invariants under the moves of the loop -/

theorem SideWF.tail {side : OrderSide} {e : ℚ × Level} {rest : PriceMap}
    (h : SideWF side (e :: rest)) : SideWF side rest := by
  obtain ⟨hk, hl, hn, ho⟩ := h
  refine ⟨?_, ?_, ?_, ?_⟩
  · simp only [List.map_cons, List.pairwise_cons] at hk
    exact hk.2
  · intro e' he'; exact hl e' (List.mem_cons_of_mem _ he')
  · intro e' he'; exact hn e' (List.mem_cons_of_mem _ he')
  · intro e' he'; exact ho e' (List.mem_cons_of_mem _ he')

theorem SideWF.pop {side : OrderSide} {bp : ℚ} {r : Order} {others : Level} {rest : PriceMap}
    (h : SideWF side ((bp, r :: others) :: rest)) :
    SideWF side (if others = [] then rest else (bp, others) :: rest) := by
  by_cases he : others = []
  · simp only [he, if_true]
    exact h.tail
  · simp only [he, if_false]
    obtain ⟨hk, hl, hn, ho⟩ := h
    refine ⟨hk, ?_, ?_, ?_⟩
    · intro e' he'
      rcases List.mem_cons.1 he' with rfl | hmem
      · have := hl (bp, r :: others) (by simp)
        exact (List.pairwise_cons.1 this).2
      · exact hl e' (List.mem_cons_of_mem _ hmem)
    · intro e' he'
      rcases List.mem_cons.1 he' with rfl | hmem
      · exact he
      · exact hn e' (List.mem_cons_of_mem _ hmem)
    · intro e' he' o ho'
      rcases List.mem_cons.1 he' with rfl | hmem
      · exact ho (bp, r :: others) (by simp) o (List.mem_cons_of_mem _ ho')
      · exact ho e' (List.mem_cons_of_mem _ hmem) o ho'

theorem OrderComparator_quantity_left (a b : Order) (q : Int) :
    OrderComparator { a with quantity := q } b = OrderComparator a b := rfl

theorem SideWF.update {side : OrderSide} {bp : ℚ} {r : Order} {others : Level}
    {rest : PriceMap} (h : SideWF side ((bp, r :: others) :: rest)) (q : Int) (hq : 0 < q) :
    SideWF side ((bp, { r with quantity := q } :: others) :: rest) := by
  obtain ⟨hk, hl, hn, ho⟩ := h
  refine ⟨hk, ?_, ?_, ?_⟩
  · intro e' he'
    rcases List.mem_cons.1 he' with rfl | hmem
    · have := hl (bp, r :: others) (by simp)
      rw [List.pairwise_cons] at this ⊢
      exact ⟨fun x hx => by rw [OrderComparator_quantity_left]; exact this.1 x hx, this.2⟩
    · exact hl e' (List.mem_cons_of_mem _ hmem)
  · intro e' he'
    rcases List.mem_cons.1 he' with rfl | hmem
    · simp
    · exact hn e' (List.mem_cons_of_mem _ hmem)
  · intro e' he' o ho'
    rcases List.mem_cons.1 he' with rfl | hmem
    · rcases List.mem_cons.1 ho' with rfl | hmem'
      · have := ho (bp, r :: others) (by simp) r (by simp)
        exact ⟨this.1, this.2.1, hq⟩
      · exact ho (bp, r :: others) (by simp) o (List.mem_cons_of_mem _ hmem')
    · exact ho e' (List.mem_cons_of_mem _ hmem) o ho'

theorem restingOrders_cons (bp : ℚ) (lvl : Level) (rest : PriceMap) :
    restingOrders ((bp, lvl) :: rest) = lvl ++ restingOrders rest := by
  simp [restingOrders]

theorem restingOrders_pop (bp : ℚ) (others : Level) (rest : PriceMap) :
    restingOrders (if others = [] then rest else (bp, others) :: rest) =
      others ++ restingOrders rest := by
  by_cases he : others = []
  · simp [he]
  · simp [he, restingOrders_cons]

/-! ## Fills, trades and remainders as functions of the priority list -/

theorem fillList_nonpos (o : Order) (q : Int) (hq : q ≤ 0) (l : List Order) :
    fillList o q l = [] := by
  cases l <;> simp [fillList, hq]

theorem remainder_nonpos (o : Order) (q : Int) (hq : q ≤ 0) (l : List Order) :
    remainder o q l = l := by
  cases l <;> simp [remainder, hq]

@[simp] theorem fillList_quantity (o : Order) (x q : Int) (l : List Order) :
    fillList { o with quantity := x } q l = fillList o q l := by
  induction l generalizing q with
  | nil => simp [fillList]
  | cons r rs ih => simp [fillList, ih]

@[simp] theorem remainder_quantity (o : Order) (x q : Int) (l : List Order) :
    remainder { o with quantity := x } q l = remainder o q l := by
  induction l generalizing q with
  | nil => simp [remainder]
  | cons r rs ih => simp [remainder, ih]

@[simp] theorem tradesFrom_quantity (o : Order) (x n : Int) (fs : List (Order × Int)) :
    tradesFrom { o with quantity := x } n fs = tradesFrom o n fs := by
  induction fs generalizing n with
  | nil => simp [tradesFrom]
  | cons f rest ih =>
    obtain ⟨r, y⟩ := f
    simp [tradesFrom, ih]

/-! ## What a finished run of the loop has done -/

theorem matchStep_preserves_side {st st1 : MatchState}
    (hwf : SideWF st.newOrder.side.opposite (opposing st.book st.newOrder.side))
    (h : matchStep st = some st1) :
    st1.newOrder.side = st.newOrder.side ∧
      SideWF st1.newOrder.side.opposite (opposing st1.book st1.newOrder.side) := by
  obtain ⟨bp, r, others, rest, hopp, hq, _, _, hrq, _, _, hno, hbook⟩ := matchStep_eq_some hwf h
  have hside : st1.newOrder.side = st.newOrder.side := by rw [hno]
  refine ⟨hside, ?_⟩
  rw [hside]
  rw [hopp] at hwf
  rcases hbook with ⟨_, hb⟩ | ⟨hlt, hb⟩
  · rw [hb, opposing_setOpposing]
    exact hwf.pop
  · rw [hb, opposing_setOpposing]
    exact hwf.update _ (by omega)

theorem LoopResult.of_exit {st : MatchState}
    (hwf : SideWF st.newOrder.side.opposite (opposing st.book st.newOrder.side))
    (h : matchStep st = none) : LoopResult st st := by
  have hfill : fillList st.newOrder st.newOrder.quantity
      (restingOrders (opposing st.book st.newOrder.side)) = [] ∧
      remainder st.newOrder st.newOrder.quantity
      (restingOrders (opposing st.book st.newOrder.side)) =
        restingOrders (opposing st.book st.newOrder.side) := by
    rcases (matchStep_eq_none_iff st).1 h with hnil | hq | ⟨bp, lvl, rest, hopp, hc⟩
    · simp [hnil, restingOrders, fillList, remainder]
    · exact ⟨fillList_nonpos _ _ hq _, remainder_nonpos _ _ hq _⟩
    · rw [hopp] at hwf ⊢
      obtain ⟨_, _, hne, hown⟩ := hwf
      cases lvl with
      | nil => exact absurd rfl (hne (bp, []) (by simp))
      | cons r others =>
        have hr := hown (bp, r :: others) (by simp) r (by simp)
        simp only at hr
        rw [restingOrders_cons]
        constructor
        · simp [fillList, hr.1, hc]
        · simp [remainder, hr.1, hc]
  refine ⟨?_, ?_, ?_, ?_, rfl, rfl, List.suffix_refl _, hwf, h, fun _ => rfl⟩
  · simp [hfill.1, tradesFrom]
  · simp [hfill.1]
  · simp [hfill.1]
  · exact hfill.2.symm

theorem LoopResult.of_step {st st1 st2 : MatchState}
    (hwf : SideWF st.newOrder.side.opposite (opposing st.book st.newOrder.side))
    (h : matchStep st = some st1) (hres : LoopResult st1 st2) : LoopResult st st2 := by
  obtain ⟨bp, r, others, rest, hopp, hq, hc, hrp, hrq, htr, hid, hno, hbook⟩ :=
    matchStep_eq_some hwf h
  obtain ⟨b1, o1, t1, n1⟩ := st1
  simp only at htr hid hno hbook
  subst htr hid hno
  obtain ⟨r1, r2, r3, r4, r5, r6, r7, r8, r9, _⟩ := hres
  simp only [fillList_quantity, tradesFrom_quantity, remainder_quantity] at r1 r2 r3 r4 r5 r7 r8
  have hcr : crosses st.newOrder r.price = true := by rw [hrp]; exact hc
  have hnq : ¬ st.newOrder.quantity ≤ 0 := by omega
  have hne : fillList st.newOrder st.newOrder.quantity
      (restingOrders (opposing st.book st.newOrder.side)) = [] → st2 = st := by
    rw [hopp, restingOrders_cons]
    simp [fillList, hnq, hcr]
  -- the priority list before the pass and after it
  have hL : restingOrders (opposing st.book st.newOrder.side) =
      r :: (others ++ restingOrders rest) := by
    rw [hopp, restingOrders_cons]; rfl
  have hown1 : ownSide b1 st.newOrder.side = ownSide st.book st.newOrder.side := by
    rcases hbook with ⟨_, hb⟩ | ⟨_, hb⟩ <;> rw [hb, ownSide_setOpposing] <;>
      cases st.newOrder.side <;> rfl
  have hsym1 : b1.symbol = st.book.symbol := by
    rcases hbook with ⟨_, hb⟩ | ⟨_, hb⟩ <;> rw [hb, symbol_setOpposing]
  rcases hbook with ⟨hle, hb⟩ | ⟨hlt, hb⟩
  · -- the head is filled completely and leaves the book
    have hm : min st.newOrder.quantity r.quantity = r.quantity := min_eq_right hle
    have hL1 : restingOrders (opposing b1 st.newOrder.side) =
        others ++ restingOrders rest := by
      rw [hb, opposing_setOpposing, restingOrders_pop]
    have hk1 : ((opposing b1 st.newOrder.side).map Prod.fst) <:+
        ((opposing st.book st.newOrder.side).map Prod.fst) := by
      rw [hb, opposing_setOpposing, hopp]
      by_cases he : others = []
      · simp only [he, if_true, List.map_cons]
        exact List.suffix_cons _ _
      · simp only [he, if_false]
        exact List.suffix_refl _
    rw [hL1, hm] at r1 r2 r3 r4
    refine ⟨?_, ?_, ?_, ?_, r5.trans hown1, r6.trans hsym1, r7.trans hk1, r8, r9, hne⟩
    · rw [r1, hL]
      simp [fillList, tradesFrom, hnq, hcr, hm]
    · rw [r2, hL]
      simp [fillList, hnq, hcr, hm]
      omega
    · rw [r3, hL]
      simp [fillList, hnq, hcr, hm]
      omega
    · rw [r4, hL]
      simp [remainder, hnq, hcr, hle]
  · -- the incoming order is used up, the head keeps the rest
    have hm : min st.newOrder.quantity r.quantity = st.newOrder.quantity :=
      min_eq_left (le_of_lt hlt)
    have hL1 : restingOrders (opposing b1 st.newOrder.side) =
        { r with quantity := r.quantity - st.newOrder.quantity } ::
          (others ++ restingOrders rest) := by
      rw [hb, opposing_setOpposing, restingOrders_cons]; rfl
    have hk1 : ((opposing b1 st.newOrder.side).map Prod.fst) <:+
        ((opposing st.book st.newOrder.side).map Prod.fst) := by
      rw [hb, opposing_setOpposing, hopp]
      simp
    have hz : st.newOrder.quantity - st.newOrder.quantity ≤ 0 := by omega
    have hz0 : ∀ l, fillList st.newOrder 0 l = [] := fun l => fillList_nonpos _ _ le_rfl l
    rw [hm, fillList_nonpos _ _ hz] at r1 r2 r3
    rw [hm, remainder_nonpos _ _ hz] at r4
    refine ⟨?_, ?_, ?_, ?_, r5.trans hown1, r6.trans hsym1, r7.trans hk1, r8, r9, hne⟩
    · rw [r1, hL]
      simp [fillList, tradesFrom, hnq, hcr, hm, hz0]
    · rw [r2, hL]
      simp [fillList, hnq, hcr, hm, hz0]
    · rw [r3, hL]
      simp [fillList, hnq, hcr, hm, hz0]
    · rw [r4, hL1, hL]
      have hnle : ¬ r.quantity ≤ st.newOrder.quantity := by omega
      simp [remainder, hnq, hcr, hnle]

/-- A run of the loop that comes back, started on a well-formed opposing side,
    has produced exactly the fills of the priority list. -/
theorem matchLoop_spec (fuel : Nat) (st st2 : MatchState)
    (hwf : SideWF st.newOrder.side.opposite (opposing st.book st.newOrder.side))
    (h : matchLoop fuel st = some st2) : LoopResult st st2 :=
  matchLoop_induct
    (fun s => SideWF s.newOrder.side.opposite (opposing s.book s.newOrder.side))
    LoopResult
    (fun _ _ hs hstep => (matchStep_preserves_side hs hstep).2)
    (fun _ hs hstep => LoopResult.of_exit hs hstep)
    (fun _ _ _ hs hstep hres => LoopResult.of_step hs hstep hres)
    fuel st st2 hwf h

/-! ## The loop comes back within the budget -/

theorem matchLoop_of_nonpos (fuel : Nat) (st : MatchState) (hq : st.newOrder.quantity ≤ 0) :
    matchLoop (fuel + 1) st = some st := by
  rw [matchLoop_succ, (matchStep_eq_none_iff st).2 (Or.inr (Or.inl hq))]

theorem orderCount_cons (bp : ℚ) (lvl : Level) (rest : PriceMap) :
    orderCount ((bp, lvl) :: rest) = lvl.length + orderCount rest := by
  simp [orderCount]

theorem matchLoop_total (fuel : Nat) (st : MatchState)
    (hwf : SideWF st.newOrder.side.opposite (opposing st.book st.newOrder.side))
    (hfuel : (opposing st.book st.newOrder.side).length +
      orderCount (opposing st.book st.newOrder.side) + 2 ≤ fuel) :
    ∃ st2, matchLoop fuel st = some st2 := by
  induction fuel generalizing st with
  | zero => omega
  | succ f ih =>
    rw [matchLoop_succ]
    cases hs : matchStep st with
    | none => exact ⟨st, rfl⟩
    | some st1 =>
      simp only
      obtain ⟨bp, r, others, rest, hopp, hq, _, _, hrq, _, _, hno, hbook⟩ :=
        matchStep_eq_some hwf hs
      have hpres := matchStep_preserves_side hwf hs
      rw [hopp, orderCount_cons] at hfuel
      simp only [List.length_cons] at hfuel
      rcases hbook with ⟨hle, hb⟩ | ⟨hlt, hb⟩
      · apply ih st1 hpres.2
        rw [hpres.1, hb, opposing_setOpposing]
        by_cases he : others = []
        · simp only [he, if_true]
          omega
        · simp only [he, if_false, List.length_cons, orderCount_cons]
          omega
      · have hq1 : st1.newOrder.quantity ≤ 0 := by
          rw [hno]
          simp only
          rw [min_eq_left (le_of_lt hlt)]
          omega
        obtain ⟨f1, rfl⟩ : ∃ f1, f = f1 + 1 := ⟨f - 1, by omega⟩
        exact ⟨st1, matchLoop_of_nonpos f1 st1 hq1⟩

/-- On a well-formed book `matchOrder` comes back for a valid order, and its
    result is the result of the loop with the remainder of the incoming order,
    when there is one, added to the book. -/
theorem matchOrder_spec (b : OrderBook) (o : Order) (n : Int) (hwf : WellFormed b)
    (hv : o.isValid = true) :
    ∃ st0 : MatchState,
      matchLoop (matchFuel b o.side)
        { book := b, newOrder := o, trades := [], nextTradeId := n } = some st0 ∧
      LoopResult { book := b, newOrder := o, trades := [], nextTradeId := n } st0 ∧
      matchOrder b o n =
        some (if st0.newOrder.quantity > 0 then
          { st0 with book := st0.book.addOrder st0.newOrder } else st0) := by
  have hside := hwf.opposing_side o.side
  obtain ⟨st0, h0⟩ := matchLoop_total (matchFuel b o.side)
    { book := b, newOrder := o, trades := [], nextTradeId := n } hside (le_refl _)
  refine ⟨st0, h0, matchLoop_spec _ _ _ hside h0, ?_⟩
  unfold matchOrder
  simp only [hv, Bool.not_true, Bool.false_eq_true, if_false, h0]
  split <;> rfl

/-! ## Properties of the fills -/

theorem OrderComparator_iff (a b : Order) :
    OrderComparator a b = true ↔ timeBefore a b := by
  unfold OrderComparator timeBefore
  by_cases h : a.timestamp = b.timestamp
  · simp [h]
  · simp [h]

theorem tradeAgainst_against (n : Int) (o r : Order) (x : Int) :
    TradeAgainst o (tradeAgainst n o r x r.price) r := by
  unfold TradeAgainst tradeAgainst incomingOrderId restingOrderId restingUserId
  cases hs : o.side <;> simp [createTrade]

@[simp] theorem tradeAgainst_quantity_eq (n : Int) (o r : Order) (x : Int) (p : ℚ) :
    (tradeAgainst n o r x p).quantity = x := by
  unfold tradeAgainst
  cases o.side <;> rfl

@[simp] theorem tradeAgainst_price_eq (n : Int) (o r : Order) (x : Int) (p : ℚ) :
    (tradeAgainst n o r x p).price = p := by
  unfold tradeAgainst
  cases o.side <;> rfl

@[simp] theorem tradesFrom_length (o : Order) (n : Int) (fs : List (Order × Int)) :
    (tradesFrom o n fs).length = fs.length := by
  induction fs generalizing n with
  | nil => rfl
  | cons f rest ih =>
    obtain ⟨r, x⟩ := f
    simp [tradesFrom, ih]

theorem tradesFrom_eq_nil_iff (o : Order) (n : Int) (fs : List (Order × Int)) :
    tradesFrom o n fs = [] ↔ fs = [] := by
  cases fs with
  | nil => simp [tradesFrom]
  | cons f rest =>
    obtain ⟨r, x⟩ := f
    simp [tradesFrom]

theorem tradedQuantity_tradesFrom (o : Order) (n : Int) (fs : List (Order × Int)) :
    tradedQuantity (tradesFrom o n fs) = (fs.map Prod.snd).sum := by
  induction fs generalizing n with
  | nil => rfl
  | cons f rest ih =>
    obtain ⟨r, x⟩ := f
    have := ih (n + 1)
    simp only [tradedQuantity] at this ⊢
    simp [tradesFrom, this]

theorem totalQuantity_remainder (o : Order) (q : Int) (l : List Order) :
    totalQuantity (remainder o q l) =
      totalQuantity l - ((fillList o q l).map Prod.snd).sum := by
  induction l generalizing q with
  | nil => simp [remainder, fillList, totalQuantity]
  | cons r rs ih =>
    by_cases hstop : q ≤ 0 ∨ crosses o r.price = false
    · simp [remainder, fillList, hstop]
    · by_cases hle : r.quantity ≤ q
      · have hm : min q r.quantity = r.quantity := min_eq_right hle
        have := ih (q - r.quantity)
        simp only [totalQuantity] at this ⊢
        simp only [remainder, fillList, hstop, hle, if_false, if_true, hm, this,
          List.map_cons, List.sum_cons]
        omega
      · have hlt : q < r.quantity := by omega
        have hm : min q r.quantity = q := min_eq_left (le_of_lt hlt)
        have hz : fillList o (q - q) rs = [] := fillList_nonpos _ _ (by omega) _
        simp only [totalQuantity]
        simp only [remainder, fillList, hstop, hle, if_false, hm, hz,
          List.map_cons, List.sum_cons, List.map_nil, List.sum_nil]
        omega

theorem fillList_eq_nil_iff (o : Order) (q : Int) (l : List Order) :
    fillList o q l = [] ↔
      l = [] ∨ q ≤ 0 ∨ ∃ r rs, l = r :: rs ∧ crosses o r.price = false := by
  cases l with
  | nil => simp [fillList]
  | cons r rs =>
    by_cases hq : q ≤ 0
    · simp [fillList, hq]
    · by_cases hc : crosses o r.price = false
      · simp [fillList, hc]
      · simp [fillList, hq, hc]

/-- The trades follow the priority list: the `i`-th trade is against its
    `i`-th order, and every trade but the last takes the whole quantity of its
    resting order. -/
theorem tradesFrom_fillList_priority (o : Order) (l : List Order) :
    ∀ (q n : Int),
      List.Forall₂ (TradeAgainst o) (tradesFrom o n (fillList o q l))
        (l.take (tradesFrom o n (fillList o q l)).length) ∧
      List.Forall₂ (fun t r => t.quantity = r.quantity)
        (tradesFrom o n (fillList o q l)).dropLast
        (l.take ((tradesFrom o n (fillList o q l)).length - 1)) := by
  induction l with
  | nil => intro q n; simp [fillList, tradesFrom]
  | cons r rs ih =>
    intro q n
    by_cases hstop : q ≤ 0 ∨ crosses o r.price = false
    · simp [fillList, tradesFrom, hstop]
    · obtain ⟨ih1, ih2⟩ := ih (q - min q r.quantity) (n + 1)
      simp only [fillList, hstop, if_false, tradesFrom, List.length_cons,
        List.take_succ_cons, Nat.add_sub_cancel]
      refine ⟨List.Forall₂.cons (tradeAgainst_against n o r _) ih1, ?_⟩
      cases hts : tradesFrom o (n + 1) (fillList o (q - min q r.quantity) rs) with
      | nil => simp
      | cons t ts =>
        rw [hts] at ih2
        simp only [List.length_cons, Nat.add_sub_cancel] at ih2
        have hne : fillList o (q - min q r.quantity) rs ≠ [] := by
          intro hnil
          rw [hnil] at hts
          simp [tradesFrom] at hts
        have hpos : 0 < q - min q r.quantity := by
          by_contra hcon
          exact hne (fillList_nonpos _ _ (by omega) _)
        have hm : min q r.quantity = r.quantity := by
          rcases le_total q r.quantity with hle | hle
          · rw [min_eq_left hle] at hpos; omega
          · exact min_eq_right hle
        simp only [List.dropLast_cons₂, List.length_cons, List.take_succ_cons]
        exact List.Forall₂.cons (by simp [hm]) ih2

theorem forall₂_pairwise_transfer {α β : Type} {R : α → β → Prop} {P : β → β → Prop}
    {Q : α → α → Prop} (hPQ : ∀ a b a' b', R a b → R a' b' → P b b' → Q a a') :
    ∀ {l1 : List α} {l2 : List β}, List.Forall₂ R l1 l2 → l2.Pairwise P → l1.Pairwise Q := by
  intro l1 l2 h
  induction h with
  | nil => intro _; exact List.Pairwise.nil
  | cons hab _ ih =>
    intro hp
    rw [List.pairwise_cons] at hp ⊢
    refine ⟨?_, ih hp.2⟩
    intro a' ha'
    rename_i a b l1' l2' hrest
    obtain ⟨b', hb', hr'⟩ : ∃ b', b' ∈ l2' ∧ R a' b' := by
      clear ih hp
      induction hrest with
      | nil => simp at ha'
      | cons hxy _ ih2 =>
        rcases List.mem_cons.1 ha' with rfl | hmem
        · exact ⟨_, List.mem_cons_self _ _, hxy⟩
        · obtain ⟨b', hb', hr'⟩ := ih2 hmem
          exact ⟨b', List.mem_cons_of_mem _ hb', hr'⟩
    exact hPQ a b a' b' hab hr' (hp.1 b' hb')

/-- On a well-formed side the priority list is in strict priority order. -/
theorem SideWF.pairwise_priority {side : OrderSide} {m : PriceMap}
    (h : SideWF side.opposite m) : (restingOrders m).Pairwise (priorityBefore side) := by
  induction m with
  | nil => simp [restingOrders]
  | cons e rest ih =>
    obtain ⟨bp, lvl⟩ := e
    rw [restingOrders_cons, List.pairwise_append]
    obtain ⟨hk, hl, _, ho⟩ := h
    have hown := ho (bp, lvl) (by simp)
    refine ⟨?_, ih (SideWF.tail ⟨hk, hl, ‹_›, ho⟩), ?_⟩
    · have hsorted := hl (bp, lvl) (by simp)
      simp only at hsorted hown
      have hsorted2 : lvl.Pairwise (fun a b => a ∈ lvl ∧ b ∈ lvl ∧ OrderComparator a b = true) := by
        rw [List.pairwise_iff_forall_sublist] at hsorted ⊢
        intro a b hab
        exact ⟨(hab.subset (by simp)), (hab.subset (by simp)), hsorted hab⟩
      refine hsorted2.imp ?_
      intro a b ⟨ha, hb, hab⟩
      right
      exact ⟨by rw [(hown a ha).1, (hown b hb).1], (OrderComparator_iff a b).1 hab⟩
    · intro a ha b hb
      simp only [restingOrders, List.mem_flatMap] at hb
      obtain ⟨e', he', hbe⟩ := hb
      left
      have hpa := (hown a ha).1
      have hpb := (ho e' (List.mem_cons_of_mem _ he') b hbe).1
      simp only [List.map_cons, List.pairwise_cons] at hk
      have hlt := hk.1 e'.1 (List.mem_map_of_mem _ he')
      simp only at hpa
      rw [hpa, hpb]
      cases side <;> simpa [sideBefore, OrderSide.opposite, askBefore, bidBefore] using hlt

/-! ## The budget of passes is never the reason for a missing result -/

theorem matchLoop_fuel_succ (fuel : Nat) (st r : MatchState)
    (h : matchLoop fuel st = some r) : matchLoop (fuel + 1) st = some r := by
  induction fuel generalizing st with
  | zero => simp [matchLoop] at h
  | succ f ih =>
    rw [matchLoop_succ] at h ⊢
    cases hs : matchStep st with
    | none => rw [hs] at h; exact h
    | some st1 =>
      rw [hs] at h
      exact ih st1 h

theorem matchLoop_fuel_le {f g : Nat} (hfg : f ≤ g) (st r : MatchState)
    (h : matchLoop f st = some r) : matchLoop g st = some r := by
  induction hfg with
  | refl => exact h
  | step _ ih => exact matchLoop_fuel_succ _ st r ih

theorem writeThrough_self (r : Order) (m : List (Int × Order)) : writeThrough r r m = m := by
  unfold writeThrough
  induction m with
  | nil => rfl
  | cons e rest ih =>
    rw [List.map_cons, ih]
    by_cases h : e.2 = r
    · rw [if_pos h]
      obtain ⟨k, v⟩ := e
      simp only at h
      rw [h]
    · rw [if_neg h]

/-- One pass on any book: a level without orders is dropped, or a trade is
    made against the head of the best level, which leaves the book when its
    quantity has become zero. -/
theorem matchStep_cases {st st1 : MatchState} (h : matchStep st = some st1) :
    ∃ bp lvl rest,
      opposing st.book st.newOrder.side = (bp, lvl) :: rest ∧
      0 < st.newOrder.quantity ∧ crosses st.newOrder bp = true ∧
      ((lvl = [] ∧ st1.newOrder = st.newOrder ∧ st1.trades = st.trades ∧
          opposing st1.book st.newOrder.side = rest) ∨
        ∃ r others, lvl = r :: others ∧
          st1.trades = st.trades ++
            [tradeAgainst st.nextTradeId st.newOrder r
              (min st.newOrder.quantity r.quantity) r.price] ∧
          st1.newOrder = updateOrderQuantity st.newOrder (min st.newOrder.quantity r.quantity) ∧
          ((updateOrderQuantity r (min st.newOrder.quantity r.quantity)).quantity = 0 ∧
              opposing st1.book st.newOrder.side =
                (if others = [] then rest else (bp, others) :: rest) ∨
            (updateOrderQuantity r (min st.newOrder.quantity r.quantity)).quantity ≠ 0 ∧
              opposing st1.book st.newOrder.side =
                (bp, updateOrderQuantity r (min st.newOrder.quantity r.quantity) :: others)
                  :: rest)) := by
  unfold matchStep at h
  cases hopp : opposing st.book st.newOrder.side with
  | nil => simp [hopp] at h
  | cons e rest =>
    obtain ⟨bp, lvl⟩ := e
    simp only [hopp] at h
    by_cases hq : st.newOrder.quantity ≤ 0
    · simp [hq] at h
    · by_cases hc : crosses st.newOrder bp = true
      · refine ⟨bp, lvl, rest, rfl, by omega, hc, ?_⟩
        cases lvl with
        | nil =>
          left
          simp only [hq, hc, if_false, Bool.not_true, Bool.false_eq_true,
            Option.some.injEq] at h
          subst h
          exact ⟨rfl, rfl, rfl, opposing_setOpposing _ _ _⟩
        | cons r others =>
          right
          refine ⟨r, others, rfl, ?_⟩
          simp only [hq, hc, if_false, Bool.not_true, Bool.false_eq_true,
            Option.some.injEq] at h
          subst h
          refine ⟨rfl, rfl, ?_⟩
          by_cases hz : (updateOrderQuantity r (min st.newOrder.quantity r.quantity)).quantity = 0
          · left
            refine ⟨hz, ?_⟩
            simp [hz]
          · right
            refine ⟨hz, ?_⟩
            simp [hz]
      · simp [hq, hc] at h

theorem updateOrderQuantity_orderId (o : Order) (x : Int) :
    (updateOrderQuantity o x).orderId = o.orderId := by
  unfold updateOrderQuantity; split <;> rfl

theorem updateOrderQuantity_price (o : Order) (x : Int) :
    (updateOrderQuantity o x).price = o.price := by
  unfold updateOrderQuantity; split <;> rfl

theorem updateOrderQuantity_userId (o : Order) (x : Int) :
    (updateOrderQuantity o x).userId = o.userId := by
  unfold updateOrderQuantity; split <;> rfl

theorem updateOrderQuantity_of_nonpos (o : Order) (x : Int) (hx : x ≤ 0) :
    updateOrderQuantity o x = o := by
  unfold updateOrderQuantity
  have : ¬ x > 0 := by omega
  simp [this]

theorem updateOrderQuantity_quantity (o : Order) (x : Int) (hx : 0 < x) :
    (updateOrderQuantity o x).quantity = max (o.quantity - x) 0 := by
  unfold updateOrderQuantity
  simp only [gt_iff_lt, hx, if_true]
  split
  · rw [max_eq_right (by omega)]
  · rw [max_eq_left (by omega)]

theorem crosses_updateOrderQuantity (o : Order) (x : Int) (p : ℚ) :
    crosses (updateOrderQuantity o x) p = crosses o p := by
  unfold crosses
  rw [updateOrderQuantity_side, updateOrderQuantity_price]

/-- A crossing order with something left to fill never gets past a head order
    of negative quantity: the loop does not come back. -/
theorem matchLoop_diverges (fuel : Nat) :
    ∀ (st : MatchState) (bp : ℚ) (r : Order) (others : Level) (rest : PriceMap),
      opposing st.book st.newOrder.side = (bp, r :: others) :: rest →
      0 < st.newOrder.quantity → crosses st.newOrder bp = true → r.quantity < 0 →
      matchLoop fuel st = none := by
  induction fuel with
  | zero => intro st _ _ _ _ _ _ _ _; rfl
  | succ f ih =>
    intro st bp r others rest hopp hq hc hr
    rw [matchLoop_succ]
    cases hs : matchStep st with
    | none =>
      rcases (matchStep_eq_none_iff st).1 hs with h | h | ⟨bp', lvl, rest', h, hc'⟩
      · rw [hopp] at h; simp at h
      · omega
      · rw [hopp] at h
        simp only [List.cons.injEq, Prod.mk.injEq] at h
        rw [← h.1.1, hc] at hc'
        simp at hc'
    | some st1 =>
      simp only
      obtain ⟨bp', lvl, rest', hopp', _, _, hcase⟩ := matchStep_cases hs
      rw [hopp] at hopp'
      simp only [List.cons.injEq, Prod.mk.injEq] at hopp'
      obtain ⟨⟨rfl, rfl⟩, rfl⟩ := hopp'
      have hmin : min st.newOrder.quantity r.quantity ≤ 0 := by
        rw [min_eq_right (by omega)]; omega
      rcases hcase with ⟨hnil, _⟩ | ⟨r', others', hl, _, hno, hbook⟩
      · simp at hnil
      · simp only [List.cons.injEq] at hl
        obtain ⟨rfl, rfl⟩ := hl
        rw [updateOrderQuantity_of_nonpos _ _ hmin] at hno hbook
        have hside : st1.newOrder.side = st.newOrder.side := by rw [hno]
        rcases hbook with ⟨hz, _⟩ | ⟨_, hb⟩
        · omega
        · apply ih st1 bp r others rest
          · rw [hside]; exact hb
          · rw [hno]; exact hq
          · rw [hno]; exact hc
          · exact hr

/-- If the loop comes back with some budget of passes, it comes back, with the
    same result, with the budget `matchOrder` gives it. -/
theorem matchLoop_budget (fuel : Nat) :
    ∀ (st r : MatchState), matchLoop fuel st = some r →
      matchLoop ((opposing st.book st.newOrder.side).length +
        orderCount (opposing st.book st.newOrder.side) + 2) st = some r := by
  induction fuel with
  | zero => intro st r h; simp [matchLoop] at h
  | succ f ih =>
    intro st r h
    rw [matchLoop_succ] at h
    rw [matchLoop_succ]
    cases hs : matchStep st with
    | none => rw [hs] at h; exact h
    | some st1 =>
      rw [hs] at h
      simp only at h ⊢
      have ih1 := ih st1 r h
      obtain ⟨bp, lvl, rest, hopp, hq, hc, hcase⟩ := matchStep_cases hs
      rw [hopp, orderCount_cons]
      simp only [List.length_cons]
      rcases hcase with ⟨hnil, hno, _, hb⟩ | ⟨r0, others, hl, _, hno, hbook⟩
      · -- a level without orders was dropped
        have hside : st1.newOrder.side = st.newOrder.side := by rw [hno]
        rw [hside, hb] at ih1
        subst hnil
        refine matchLoop_fuel_le ?_ st1 r ih1
        simp only [List.length_nil]
        omega
      · have hside : st1.newOrder.side = st.newOrder.side := by
          rw [hno, updateOrderQuantity_side]
        subst hl
        rcases hbook with ⟨_, hb⟩ | ⟨hnz, hb⟩
        · -- the head left the book
          rw [hside, hb] at ih1
          refine matchLoop_fuel_le ?_ st1 r ih1
          by_cases he : others = []
          · simp only [he, if_true, List.length_nil, List.length_cons]
            omega
          · simp only [he, if_false, List.length_cons, orderCount_cons]
            omega
        · -- the head stays: the incoming order is used up, or nothing moves
          by_cases hpos : 0 < min st.newOrder.quantity r0.quantity
          · have hq1 : st1.newOrder.quantity ≤ 0 := by
              rw [hno, updateOrderQuantity_quantity _ _ hpos]
              rw [updateOrderQuantity_quantity _ _ hpos] at hnz
              have hlt : min st.newOrder.quantity r0.quantity < r0.quantity := by
                by_contra hcon
                apply hnz
                rw [max_eq_right (by omega)]
              have hmq : min st.newOrder.quantity r0.quantity = st.newOrder.quantity := by
                rcases le_total st.newOrder.quantity r0.quantity with hle | hle
                · exact min_eq_left hle
                · rw [min_eq_right hle] at hlt; omega
              rw [hmq, max_eq_right (by omega)]
            obtain ⟨f1, rfl⟩ : ∃ f1, f = f1 + 1 := by
              cases f with
              | zero => simp [matchLoop] at h
              | succ f1 => exact ⟨f1, rfl⟩
            rw [matchLoop_of_nonpos f1 st1 hq1] at h
            rw [← h]
            have : rest.length + 1 + (([r0] ++ others).length + orderCount rest) + 1 =
                (rest.length + (([r0] ++ others).length + orderCount rest) + 1) + 1 := by omega
            simp only [List.length_cons, List.singleton_append] at this ⊢
            rw [this]
            exact matchLoop_of_nonpos _ st1 hq1
          · have hmin : min st.newOrder.quantity r0.quantity ≤ 0 := by omega
            rw [updateOrderQuantity_of_nonpos _ _ hmin] at hno hnz hb
            have hr : r0.quantity < 0 := by
              have : r0.quantity ≤ 0 := by
                rcases le_total st.newOrder.quantity r0.quantity with hle | hle
                · rw [min_eq_left hle] at hmin; omega
                · rw [min_eq_right hle] at hmin; exact hmin
              omega
            have hdiv := matchLoop_diverges f st1 bp r0 others rest
              (by rw [hside]; exact hb) (by rw [hno]; exact hq) (by rw [hno]; exact hc) hr
            rw [hdiv] at h
            simp at h

/-- When `matchOrder` has no result for a valid order, the loop does not come
    back whatever the number of passes it is given. -/
theorem matchOrder_none_iff_diverges (b : OrderBook) (o : Order) (n : Int)
    (hv : o.isValid = true) :
    matchOrder b o n = none ↔
      ∀ fuel, matchLoop fuel
        { book := b, newOrder := o, trades := [], nextTradeId := n } = none := by
  constructor
  · intro h fuel
    cases hf : matchLoop fuel { book := b, newOrder := o, trades := [], nextTradeId := n } with
    | none => rfl
    | some r =>
      exfalso
      have hb := matchLoop_budget fuel _ r hf
      unfold matchOrder matchFuel at h
      simp only [hv, Bool.not_true, Bool.false_eq_true, if_false] at h
      simp only at hb
      rw [hb] at h
      simp only at h
      split at h <;> simp at h
  · intro h
    unfold matchOrder
    simp only [hv, Bool.not_true, Bool.false_eq_true, if_false, h]


/-! ## Every trade is against a resting order, on any book -/

theorem TradeAgainst.of_update {o r : Order} {t : Trade} {x y : Int}
    (h : TradeAgainst (updateOrderQuantity o x) t (updateOrderQuantity r y)) :
    TradeAgainst o t r := by
  unfold TradeAgainst at h ⊢
  rw [updateOrderQuantity_side, updateOrderQuantity_orderId, updateOrderQuantity_orderId,
    updateOrderQuantity_userId, updateOrderQuantity_price] at h
  exact h

theorem TradeAgainst.of_update_left {o r : Order} {t : Trade} {x : Int}
    (h : TradeAgainst (updateOrderQuantity o x) t r) : TradeAgainst o t r := by
  unfold TradeAgainst at h ⊢
  rw [updateOrderQuantity_side, updateOrderQuantity_orderId] at h
  exact h

/-- Whatever the book, each trade a finished run of the loop has added is a
    trade of the incoming order against an order that was resting on the
    opposing side when the run started. -/
theorem matchLoop_trades_against (fuel : Nat) (st st2 : MatchState)
    (h : matchLoop fuel st = some st2) :
    ∀ t ∈ st2.trades, t ∈ st.trades ∨
      ∃ r ∈ restingOrders (opposing st.book st.newOrder.side), TradeAgainst st.newOrder t r :=
  matchLoop_induct (fun _ => True)
    (fun s s2 => ∀ t ∈ s2.trades, t ∈ s.trades ∨
      ∃ r ∈ restingOrders (opposing s.book s.newOrder.side), TradeAgainst s.newOrder t r)
    (fun _ _ _ _ => trivial)
    (fun _ _ _ t ht => Or.inl ht)
    (fun s s1 s2 _ hstep ih t ht => by
      obtain ⟨bp, lvl, rest, hopp, _, _, hcase⟩ := matchStep_cases hstep
      rw [hopp, restingOrders_cons]
      rcases hcase with ⟨_, hno, htr, hb⟩ | ⟨r0, others, hl, htr, hno, hbook⟩
      · rcases ih t ht with h1 | ⟨r, hr, hag⟩
        · left; rw [← htr]; exact h1
        · right
          rw [hno, hb] at hr
          rw [hno] at hag
          exact ⟨r, List.mem_append_right _ hr, hag⟩
      · subst hl
        have hside : s1.newOrder.side = s.newOrder.side := by
          rw [hno, updateOrderQuantity_side]
        rcases ih t ht with h1 | ⟨r, hr, hag⟩
        · rw [htr] at h1
          rcases List.mem_append.1 h1 with h2 | h2
          · exact Or.inl h2
          · right
            simp only [List.mem_singleton] at h2
            subst h2
            exact ⟨r0, by simp, tradeAgainst_against _ _ _ _⟩
        · right
          rw [hside] at hr
          rw [hno] at hag
          have hag1 := hag.of_update_left
          rcases hbook with ⟨_, hb⟩ | ⟨_, hb⟩
          · rw [hb, restingOrders_pop] at hr
            exact ⟨r, by simp only [List.cons_append, List.mem_cons]; exact Or.inr hr, hag1⟩
          · rw [hb, restingOrders_cons] at hr
            simp only [List.cons_append, List.mem_cons] at hr ⊢
            rcases hr with rfl | hr
            · exact ⟨r0, Or.inl rfl, hag.of_update⟩
            · exact ⟨r, Or.inr hr, hag1⟩)
    fuel st st2 trivial h

/-! ## The loop as a sequence of passes -/

theorem passes_snoc (i : Nat) (st : MatchState) :
    passes (i + 1) st = (passes i st).bind matchStep := by
  induction i generalizing st with
  | zero =>
    simp only [passes, Option.some_bind]
    cases hs : matchStep st <;> simp [passes]
  | succ j ih =>
    rw [passes]
    cases hs : matchStep st with
    | none => simp [passes, hs]
    | some st1 =>
      simp only [Option.some_bind]
      rw [ih st1]
      conv_rhs => rw [passes, hs]
      rfl

theorem matchLoop_passes (fuel : Nat) (st st2 : MatchState)
    (h : matchLoop fuel st = some st2) :
    ∃ k, passes k st = some st2 ∧ matchStep st2 = none := by
  induction fuel generalizing st with
  | zero => simp [matchLoop] at h
  | succ f ih =>
    rw [matchLoop_succ] at h
    cases hs : matchStep st with
    | none =>
      rw [hs] at h
      simp only [Option.some.injEq] at h
      subst h
      exact ⟨0, rfl, hs⟩
    | some st1 =>
      rw [hs] at h
      obtain ⟨k, hk, hnone⟩ := ih st1 h
      exact ⟨k + 1, by simp [passes, hs, hk], hnone⟩

theorem passes_of_le {k : Nat} {st stk : MatchState} (h : passes k st = some stk) :
    ∀ i, i ≤ k → ∃ sti, passes i st = some sti := by
  induction k generalizing stk with
  | zero =>
    intro i hi
    have : i = 0 := by omega
    subst this
    exact ⟨st, rfl⟩
  | succ j ih =>
    intro i hi
    rcases Nat.lt_or_ge i (j + 1) with hlt | hge
    · rw [passes_snoc] at h
      cases hj : passes j st with
      | none => simp [hj] at h
      | some stj => exact ih hj i (by omega)
    · have : i = j + 1 := by omega
      subst this
      exact ⟨stk, h⟩

theorem passes_invariant (i : Nat) :
    ∀ (st sti : MatchState),
      SideWF st.newOrder.side.opposite (opposing st.book st.newOrder.side) →
      passes i st = some sti →
      sti.newOrder.side = st.newOrder.side ∧ sti.newOrder.orderId = st.newOrder.orderId ∧
        SideWF st.newOrder.side.opposite (opposing sti.book st.newOrder.side) := by
  induction i with
  | zero =>
    intro st sti hwf h
    simp only [passes, Option.some.injEq] at h
    subst h
    exact ⟨rfl, rfl, hwf⟩
  | succ j ih =>
    intro st sti hwf h
    rw [passes] at h
    cases hs : matchStep st with
    | none => simp [hs] at h
    | some st1 =>
      rw [hs] at h
      simp only [Option.some_bind] at h
      obtain ⟨hside, hwf1⟩ := matchStep_preserves_side hwf hs
      obtain ⟨_, _, _, _, _, _, _, _, _, _, _, hno, _⟩ := matchStep_eq_some hwf hs
      have hid : st1.newOrder.orderId = st.newOrder.orderId := by rw [hno]
      obtain ⟨h1, h2, h3⟩ := ih st1 sti hwf1 h
      rw [hside] at h1 h3
      exact ⟨h1, h2.trans hid, h3⟩

/-- In every pass the trade is against the first order of the priority list of
    the moment, which on a well-formed side has priority over every other
    resting order. -/
theorem matchStep_takes_best {st st1 : MatchState}
    (hwf : SideWF st.newOrder.side.opposite (opposing st.book st.newOrder.side))
    (h : matchStep st = some st1) :
    ∃ r rest1 t, restingOrders (opposing st.book st.newOrder.side) = r :: rest1 ∧
      (∀ r1 ∈ rest1, priorityBefore st.newOrder.side r r1) ∧
      TradeAgainst st.newOrder t r ∧ st1.trades = st.trades ++ [t] := by
  obtain ⟨bp, r, others, rest, hopp, _, _, _, _, htr, _, _, _⟩ := matchStep_eq_some hwf h
  have hpri := hwf.pairwise_priority
  rw [hopp, restingOrders_cons] at hpri
  simp only [List.cons_append, List.pairwise_cons] at hpri
  refine ⟨r, others ++ restingOrders rest, _, ?_, hpri.1, tradeAgainst_against _ _ _ _, htr⟩
  rw [hopp, restingOrders_cons]
  rfl

/-! ## `addOrder` and the side it does not touch -/

theorem opposing_addOrder (b : OrderBook) (o : Order) :
    opposing (b.addOrder o) o.side = opposing b o.side := by
  unfold OrderBook.addOrder
  by_cases hv : o.isValid = true
  · cases hs : o.side <;> simp [hv, hs, opposing]
  · simp [hv]

theorem forall₂_mem_left {α β : Type} {R : α → β → Prop} :
    ∀ {l1 : List α} {l2 : List β}, List.Forall₂ R l1 l2 → ∀ a ∈ l1, ∃ b ∈ l2, R a b := by
  intro l1 l2 h
  induction h with
  | nil => intro a ha; simp at ha
  | cons hab _ ih =>
    intro a' ha'
    rcases List.mem_cons.1 ha' with rfl | hmem
    · exact ⟨_, List.mem_cons_self _ _, hab⟩
    · obtain ⟨b', hb', hr'⟩ := ih a' hmem
      exact ⟨b', List.mem_cons_of_mem _ hb', hr'⟩

/-- The result of `matchOrder` on a well-formed book, field by field. -/
theorem matchOrder_result (b : OrderBook) (o : Order) (n : Int) (hwf : WellFormed b)
    (hv : o.isValid = true) :
    ∃ st st0 : MatchState,
      matchOrder b o n = some st ∧
      LoopResult { book := b, newOrder := o, trades := [], nextTradeId := n } st0 ∧
      st.trades = st0.trades ∧ st.newOrder = st0.newOrder ∧
      st.nextTradeId = st0.nextTradeId ∧
      st.book = (if st0.newOrder.quantity > 0 then st0.book.addOrder st0.newOrder
        else st0.book) := by
  obtain ⟨st0, _, hres, hm⟩ := matchOrder_spec b o n hwf hv
  refine ⟨_, st0, hm, hres, ?_, ?_, ?_, ?_⟩ <;> split <;> rfl

theorem matchOrder_opposing (b : OrderBook) (o : Order) (n : Int) (hwf : WellFormed b)
    (hv : o.isValid = true) :
    ∃ st st0 : MatchState,
      matchOrder b o n = some st ∧
      LoopResult { book := b, newOrder := o, trades := [], nextTradeId := n } st0 ∧
      st.trades = st0.trades ∧ st.newOrder = st0.newOrder ∧
      opposing st.book o.side = opposing st0.book o.side := by
  obtain ⟨st, st0, hm, hres, ht, hno, _, hb⟩ := matchOrder_result b o n hwf hv
  refine ⟨st, st0, hm, hres, ht, hno, ?_⟩
  rw [hb]
  split
  · have hside : st0.newOrder.side = o.side := by rw [hres.2.1]
    rw [← hside, opposing_addOrder]
  · rfl

/-! ## Claims about `matchOrder` -/

/-- C2. Each trade returned by `matchOrder` is a trade of the incoming order
    against an order that was resting on the opposing side, made at the limit
    price of that resting order (this holds on every book on which the call
    comes back); and on a well-formed book the call does come back for every
    valid incoming order. -/
theorem matchOrder_trade_price_is_resting_price (b : OrderBook) (o : Order) (n : Int) :
    (WellFormed b → o.isValid = true → (matchOrder b o n).isSome = true) ∧
    ∀ st, matchOrder b o n = some st →
      ∀ t ∈ st.trades, ∃ r ∈ restingOrders (opposing b o.side),
        TradeAgainst o t r ∧ t.price = r.price := by
  constructor
  · intro hwf hv
    obtain ⟨st, _, hm, _⟩ := matchOrder_result b o n hwf hv
    rw [hm]
    rfl
  · intro st hm t ht
    unfold matchOrder at hm
    by_cases hv : o.isValid = true
    · simp only [hv, Bool.not_true, Bool.false_eq_true, if_false] at hm
      cases hloop : matchLoop (matchFuel b o.side)
          { book := b, newOrder := o, trades := [], nextTradeId := n } with
      | none => simp [hloop] at hm
      | some st0 =>
        simp only [hloop] at hm
        have htr : st.trades = st0.trades := by
          split at hm <;> simp only [Option.some.injEq] at hm <;> rw [← hm]
        rw [htr] at ht
        rcases matchLoop_trades_against _ _ _ hloop t ht with h1 | ⟨r, hr, hag⟩
        · simp at h1
        · exact ⟨r, hr, hag, hag.2.2.2⟩
    · simp only [hv, Bool.not_false, if_true, Option.some.injEq] at hm
      rw [← hm] at ht
      simp at ht

/-- C3. On a well-formed book, for a valid incoming order, `matchOrder` comes
    back after some number of passes of its loop, and in each pass the trade is
    made against the first order of the opposing side read level by level, which
    at that moment has priority over every other order resting there (better
    price: lower ask for an incoming buy, higher bid for an incoming sell; then
    earlier time; then smaller id).  Seen from the book at entry: its opposing
    side is in strict priority order, the `i`-th trade is against its `i`-th
    order, and every trade but the last takes the whole quantity of its resting
    order.  Hence trade prices never improve along the sequence, and resting
    orders matched at one price come in strictly increasing time order. -/
theorem matchOrder_price_time_priority (b : OrderBook) (o : Order) (n : Int)
    (hwf : WellFormed b) (hv : o.isValid = true) :
    ∃ st, matchOrder b o n = some st ∧
      (∃ k last,
        passes k { book := b, newOrder := o, trades := [], nextTradeId := n } = some last ∧
        matchStep last = none ∧ last.trades = st.trades ∧
        ∀ i, i < k → ∃ sti r rest1 t,
          passes i { book := b, newOrder := o, trades := [], nextTradeId := n } = some sti ∧
          restingOrders (opposing sti.book o.side) = r :: rest1 ∧
          (∀ r1 ∈ rest1, priorityBefore o.side r r1) ∧
          TradeAgainst o t r ∧
          (passes (i + 1) { book := b, newOrder := o, trades := [], nextTradeId := n }).map
            (fun s => s.trades) = some (sti.trades ++ [t])) ∧
      (restingOrders (opposing b o.side)).Pairwise (priorityBefore o.side) ∧
      List.Forall₂ (TradeAgainst o) st.trades
        ((restingOrders (opposing b o.side)).take st.trades.length) ∧
      List.Forall₂ (fun t r => t.quantity = r.quantity) st.trades.dropLast
        ((restingOrders (opposing b o.side)).take (st.trades.length - 1)) ∧
      (st.trades.map (fun t => t.price)).Pairwise (priceNotBetter o.side) ∧
      ((restingOrders (opposing b o.side)).take st.trades.length).Pairwise
        (fun r1 r2 => r1.price = r2.price → timeBefore r1 r2) := by
  obtain ⟨st0, hloop, hres, hm⟩ := matchOrder_spec b o n hwf hv
  have hwfo := hwf.opposing_side o.side
  have hpri := hwfo.pairwise_priority
  have ht : (if st0.newOrder.quantity > 0 then
      { st0 with book := st0.book.addOrder st0.newOrder } else st0).trades = st0.trades := by
    split <;> rfl
  have htr : st0.trades = tradesFrom o n (fillList o o.quantity
      (restingOrders (opposing b o.side))) := by
    rw [hres.1]; rfl
  obtain ⟨h1, h2⟩ := tradesFrom_fillList_priority o (restingOrders (opposing b o.side))
    o.quantity n
  rw [← htr] at h1 h2
  have htake := hpri.sublist (List.take_sublist st0.trades.length _)
  refine ⟨_, hm, ?_, hpri, ?_, ?_, ?_, ?_⟩
  · obtain ⟨k, hk, hnone⟩ := matchLoop_passes _ _ _ hloop
    refine ⟨k, st0, hk, hnone, ht.symm, ?_⟩
    intro i hi
    obtain ⟨sti, hsti⟩ := passes_of_le hk i (by omega)
    obtain ⟨stj, hstj⟩ := passes_of_le hk (i + 1) (by omega)
    obtain ⟨hside, hid, hwfi⟩ := passes_invariant i _ sti hwfo hsti
    simp only at hside hid hwfi
    have hstep : matchStep sti = some stj := by
      rw [passes_snoc, hsti] at hstj
      exact hstj
    rw [← hside] at hwfi
    obtain ⟨r, rest1, t, hl, hbest, hag, htrades⟩ := matchStep_takes_best hwfi hstep
    rw [hside] at hl hbest
    refine ⟨sti, r, rest1, t, hsti, hl, hbest, ?_, ?_⟩
    · unfold TradeAgainst at hag ⊢
      rw [hside, hid] at hag
      exact hag
    · rw [hstj]
      simp [htrades]
  · rw [ht]; exact h1
  · rw [ht]; exact h2
  · rw [ht, List.pairwise_map]
    refine forall₂_pairwise_transfer ?_ h1 htake
    intro t r t' r' htr1 htr2 hp
    rw [htr1.2.2.2, htr2.2.2.2]
    unfold priorityBefore at hp
    unfold priceNotBetter
    cases hs : o.side <;> rw [hs] at hp <;> rcases hp with hlt | ⟨heq, _⟩
    · exact le_of_lt hlt
    · exact le_of_eq heq
    · exact le_of_lt hlt
    · exact le_of_eq heq.symm
  · rw [ht]
    refine htake.imp ?_
    intro r1 r2 hp heq
    rcases hp with hlt | ⟨_, htime⟩
    · cases hs : o.side <;> rw [hs] at hlt <;> simp only at hlt <;>
        exact absurd heq (by first | exact ne_of_lt hlt | exact ne_of_gt hlt)
    · exact htime

/-- C4. On a well-formed book the quantities of the trades returned by
    `matchOrder` add up to what the incoming order lost, and also to what the
    resting orders of the opposing side lost in total. -/
theorem matchOrder_quantity_conservation (b : OrderBook) (o : Order) (n : Int)
    (hwf : WellFormed b) (hv : o.isValid = true) :
    ∃ st, matchOrder b o n = some st ∧
      tradedQuantity st.trades = o.quantity - st.newOrder.quantity ∧
      tradedQuantity st.trades =
        totalQuantity (restingOrders (opposing b o.side)) -
          totalQuantity (restingOrders (opposing st.book o.side)) := by
  obtain ⟨st, st0, hm, hres, ht, hno, hopp⟩ := matchOrder_opposing b o n hwf hv
  obtain ⟨r1, r2, _, r4, _⟩ := hres
  simp only [List.nil_append] at r1 r2 r4
  refine ⟨st, hm, ?_, ?_⟩
  · rw [ht, r1, hno, r2, tradedQuantity_tradesFrom]
    simp
  · rw [ht, r1, hopp, r4, tradedQuantity_tradesFrom, totalQuantity_remainder]
    omega

/-! ## Validity, insertion and what it keeps -/

theorem Order.isValid_iff (o : Order) :
    o.isValid = true ↔ 0 < o.quantity ∧ 0 < o.price ∧ o.symbol ≠ "" ∧ o.userId ≠ "" := by
  simp [Order.isValid, and_assoc]

theorem ownSide_addOrder (b : OrderBook) (o : Order) (hv : o.isValid = true) :
    ownSide (b.addOrder o) o.side = levelInsert (sideBefore o.side) o (ownSide b o.side) := by
  unfold OrderBook.addOrder
  cases hs : o.side <;> simp [hv, hs, ownSide, sideBefore]

theorem orderLookup_addOrder (b : OrderBook) (o : Order) (hv : o.isValid = true) :
    (b.addOrder o).orderLookup = hmAssign b.orderLookup o.orderId o := by
  unfold OrderBook.addOrder
  cases hs : o.side <;> simp [hv, hs]

theorem mem_setInsert_of_mem (o x : Order) (lvl : Level) (hx : x ∈ lvl) :
    x ∈ setInsert o lvl := by
  induction lvl with
  | nil => simp at hx
  | cons y ys ih =>
    unfold setInsert
    split
    · exact List.mem_cons_of_mem _ hx
    · split
      · rcases List.mem_cons.1 hx with rfl | hmem
        · exact List.mem_cons_self _ _
        · exact List.mem_cons_of_mem _ (ih hmem)
      · exact hx

theorem mem_restingOrders_levelInsert (before : ℚ → ℚ → Bool) (o x : Order) (m : PriceMap)
    (hx : x ∈ restingOrders m) : x ∈ restingOrders (levelInsert before o m) := by
  induction m with
  | nil => simp [restingOrders] at hx
  | cons e rest ih =>
    obtain ⟨p, lvl⟩ := e
    unfold levelInsert
    rw [restingOrders_cons] at hx
    split
    · rw [restingOrders_cons, restingOrders_cons]
      exact List.mem_append_right _ hx
    · split
      · rw [restingOrders_cons]
        rcases List.mem_append.1 hx with h | h
        · exact List.mem_append_left _ h
        · exact List.mem_append_right _ (ih h)
      · rw [restingOrders_cons]
        rcases List.mem_append.1 hx with h | h
        · exact List.mem_append_left _ (mem_setInsert_of_mem o x lvl h)
        · exact List.mem_append_right _ h

/-- On a well-formed side the priority list is empty exactly when the side is,
    and its first order carries the best price. -/
theorem SideWF.restingOrders_head {side : OrderSide} {m : PriceMap} (h : SideWF side m) :
    (m = [] ∧ restingOrders m = []) ∨
      ∃ bp r others rest, m = (bp, r :: others) :: rest ∧
        restingOrders m = r :: (others ++ restingOrders rest) ∧ r.price = bp := by
  cases m with
  | nil => left; simp [restingOrders]
  | cons e rest =>
    obtain ⟨bp, lvl⟩ := e
    right
    obtain ⟨_, _, hne, hown⟩ := h
    cases lvl with
    | nil => exact absurd rfl (hne (bp, []) (by simp))
    | cons r others =>
      exact ⟨bp, r, others, rest, rfl, by rw [restingOrders_cons]; rfl,
        (hown (bp, r :: others) (by simp) r (by simp)).1⟩

/-- Trades are returned exactly when the best opposing price crosses. -/
theorem matchOrder_trades_ne_nil_iff (b : OrderBook) (o : Order) (n : Int)
    (hwf : WellFormed b) (hv : o.isValid = true) :
    ∃ st st0 : MatchState, matchOrder b o n = some st ∧
      LoopResult { book := b, newOrder := o, trades := [], nextTradeId := n } st0 ∧
      st.newOrder = st0.newOrder ∧
      st.book = (if st0.newOrder.quantity > 0 then st0.book.addOrder st0.newOrder
        else st0.book) ∧
      (st.trades ≠ [] ↔
        ∃ p, (opposing b o.side).head?.map Prod.fst = some p ∧ crosses o p = true) := by
  obtain ⟨st, st0, hm, hres, ht, hno, _, hb⟩ := matchOrder_result b o n hwf hv
  refine ⟨st, st0, hm, hres, hno, hb, ?_⟩
  have hq : ¬ o.quantity ≤ 0 := by
    have := ((Order.isValid_iff o).1 hv).1
    omega
  rw [ht, hres.1]
  simp only [List.nil_append, ne_eq, tradesFrom_eq_nil_iff, fillList_eq_nil_iff, hq, false_or]
  rcases (hwf.opposing_side o.side).restingOrders_head with ⟨h1, h2⟩ | ⟨bp, r, others, rest, h1, h2, h3⟩
  · rw [h2, h1]
    simp
  · rw [h2, h1]
    simp [h3]

/-- C5. On a well-formed book `matchOrder` returns at least one trade for a
    valid incoming order exactly when the opposing side is not empty and the
    incoming limit crosses the best opposing price (buy: limit at or above the
    best ask; sell: best bid at or above the limit); a limit equal to the best
    opposing price trades; and when no trade is returned the incoming order is
    added as it came, the opposing side is unchanged and every order of its own
    side still rests. -/
theorem matchOrder_trades_iff_crossing (b : OrderBook) (o : Order) (n : Int)
    (hwf : WellFormed b) (hv : o.isValid = true) :
    ∃ st, matchOrder b o n = some st ∧
      (o.side = OrderSide.BUY →
        (st.trades ≠ [] ↔ ∃ pa, b.bestAsk = some pa ∧ o.price ≥ pa)) ∧
      (o.side = OrderSide.SELL →
        (st.trades ≠ [] ↔ ∃ pb, b.bestBid = some pb ∧ pb ≥ o.price)) ∧
      (o.side = OrderSide.BUY → b.bestAsk = some o.price → st.trades ≠ []) ∧
      (o.side = OrderSide.SELL → b.bestBid = some o.price → st.trades ≠ []) ∧
      (st.trades = [] →
        st.newOrder = o ∧ st.book = b.addOrder o ∧
        opposing st.book o.side = opposing b o.side ∧
        ∀ r ∈ restingOrders (ownSide b o.side), r ∈ restingOrders (ownSide st.book o.side)) := by
  obtain ⟨st, st0, hm, hres, hno, hb, hiff⟩ := matchOrder_trades_ne_nil_iff b o n hwf hv
  have hbuy : o.side = OrderSide.BUY →
      (st.trades ≠ [] ↔ ∃ pa, b.bestAsk = some pa ∧ o.price ≥ pa) := by
    intro hs
    rw [hiff]
    simp [hs, opposing, crosses, canMatch, OrderBook.bestAsk]
  have hsell : o.side = OrderSide.SELL →
      (st.trades ≠ [] ↔ ∃ pb, b.bestBid = some pb ∧ pb ≥ o.price) := by
    intro hs
    rw [hiff]
    simp [hs, opposing, crosses, canMatch, OrderBook.bestBid]
  refine ⟨st, hm, hbuy, hsell, ?_, ?_, ?_⟩
  · intro hs hbest
    exact (hbuy hs).2 ⟨o.price, hbest, le_refl _⟩
  · intro hs hbest
    exact (hsell hs).2 ⟨o.price, hbest, le_refl _⟩
  · intro hnil
    have hq : 0 < o.quantity := ((Order.isValid_iff o).1 hv).1
    have hfill : fillList o o.quantity (restingOrders (opposing b o.side)) = [] := by
      have h1 := (matchOrder_result b o n hwf hv)
      obtain ⟨st', st0', hm', hres', ht', _⟩ := h1
      rw [hm] at hm'
      simp only [Option.some.injEq] at hm'
      subst hm'
      rw [ht', hres'.1] at hnil
      simpa [tradesFrom_eq_nil_iff] using hnil
    have hst0 := hres.2.2.2.2.2.2.2.2.2 hfill
    subst hst0
    simp only [hq, gt_iff_lt, if_true] at hb
    refine ⟨hno, hb, ?_, ?_⟩
    · rw [hb, opposing_addOrder]
    · intro r hr
      rw [hb, ownSide_addOrder b o hv]
      exact mem_restingOrders_levelInsert _ o r _ hr

/-! ## Association lists -/

section HashMapFacts

variable {κ ν : Type} [DecidableEq κ]

theorem hmFind_hmAssign_self (m : List (κ × ν)) (k : κ) (v : ν) :
    hmFind (hmAssign m k v) k = some v := by
  induction m with
  | nil => simp [hmAssign, hmFind]
  | cons e rest ih =>
    obtain ⟨k', v'⟩ := e
    by_cases h : k' = k
    · simp [hmAssign, hmFind, h]
    · simp [hmAssign, hmFind, h, ih]

theorem hmFind_hmAssign_ne (m : List (κ × ν)) (k k' : κ) (v : ν) (hne : k ≠ k') :
    hmFind (hmAssign m k v) k' = hmFind m k' := by
  induction m with
  | nil => simp [hmAssign, hmFind, hne]
  | cons e rest ih =>
    obtain ⟨k0, v0⟩ := e
    by_cases h : k0 = k
    · subst h
      simp [hmAssign, hmFind, hne]
    · by_cases h' : k0 = k'
      · subst h'
        simp [hmAssign, hmFind, h]
      · simp [hmAssign, hmFind, h, h', ih]

theorem hmFind_hmErase_of_none (m : List (κ × ν)) (k k' : κ) (h : hmFind m k' = none) :
    hmFind (hmErase m k) k' = none := by
  induction m with
  | nil => simp [hmErase, hmFind]
  | cons e rest ih =>
    obtain ⟨k0, v0⟩ := e
    by_cases h0 : k0 = k'
    · simp [hmFind, h0] at h
    · simp only [hmFind, h0, if_false] at h
      by_cases h1 : k0 = k
      · simp [hmErase, h1, ih h]
      · simp [hmErase, h1, hmFind, h0, ih h]

theorem hmFind_hmErase_self (m : List (κ × ν)) (k : κ) : hmFind (hmErase m k) k = none := by
  induction m with
  | nil => simp [hmErase, hmFind]
  | cons e rest ih =>
    obtain ⟨k0, v0⟩ := e
    by_cases h : k0 = k
    · simp [hmErase, h, ih]
    · simp [hmErase, hmFind, h, ih]

theorem hmFind_hmErase_ne (m : List (κ × ν)) (k k' : κ) (hne : k ≠ k') :
    hmFind (hmErase m k) k' = hmFind m k' := by
  induction m with
  | nil => simp [hmErase, hmFind]
  | cons e rest ih =>
    obtain ⟨k0, v0⟩ := e
    by_cases h : k0 = k
    · subst h
      simp [hmErase, hmFind, hne, ih]
    · by_cases h' : k0 = k'
      · subst h'
        simp [hmErase, hmFind, h]
      · simp [hmErase, hmFind, h, h', ih]

end HashMapFacts

theorem hmFind_writeThrough_of_none (old new : Order) (m : List (Int × Order)) (k : Int)
    (h : hmFind m k = none) : hmFind (writeThrough old new m) k = none := by
  induction m with
  | nil => simp [writeThrough, hmFind]
  | cons e rest ih =>
    obtain ⟨k0, v0⟩ := e
    by_cases h0 : k0 = k
    · simp [hmFind, h0] at h
    · simp only [hmFind, h0, if_false] at h
      have := ih h
      unfold writeThrough at this ⊢
      rw [List.map_cons]
      by_cases hv : v0 = old
      · rw [if_pos hv]
        simp only [hmFind, h0, if_false]
        exact this
      · rw [if_neg hv]
        simp only [hmFind, h0, if_false]
        exact this

/-! ## The id lookup along the loop: no key is ever added -/

theorem matchLoop_lookup_none (id : Int) (fuel : Nat) (st st2 : MatchState)
    (hwf : SideWF st.newOrder.side.opposite (opposing st.book st.newOrder.side))
    (h : matchLoop fuel st = some st2) :
    hmFind st.book.orderLookup id = none → hmFind st2.book.orderLookup id = none :=
  matchLoop_induct
    (fun s => SideWF s.newOrder.side.opposite (opposing s.book s.newOrder.side))
    (fun s s2 => hmFind s.book.orderLookup id = none → hmFind s2.book.orderLookup id = none)
    (fun _ _ hs hstep => (matchStep_preserves_side hs hstep).2)
    (fun _ _ _ hnone => hnone)
    (fun s s1 s2 hs hstep ih hnone => by
      obtain ⟨bp, r, others, rest, _, _, _, _, _, _, _, _, hbook⟩ := matchStep_eq_some hs hstep
      apply ih
      rcases hbook with ⟨_, hb⟩ | ⟨_, hb⟩
      · rw [hb, orderLookup_setOpposing]
        exact hmFind_hmErase_of_none _ _ _ (hmFind_writeThrough_of_none _ _ _ _ hnone)
      · rw [hb, orderLookup_setOpposing]
        exact hmFind_writeThrough_of_none _ _ _ _ hnone)
    fuel st st2 hwf h

/-! ## Sums and ids of fills and remainders -/

theorem fillList_sum_le (o : Order) (l : List Order) :
    ∀ q : Int, 0 ≤ q → ((fillList o q l).map Prod.snd).sum ≤ q := by
  induction l with
  | nil => intro q hq; simpa [fillList] using hq
  | cons r rs ih =>
    intro q hq
    by_cases hstop : q ≤ 0 ∨ crosses o r.price = false
    · simpa [fillList, hstop] using hq
    · have hmin : min q r.quantity ≤ q := min_le_left _ _
      have := ih (q - min q r.quantity) (by omega)
      simp only [fillList, hstop, if_false, List.map_cons, List.sum_cons]
      omega

theorem remainder_orderId (o : Order) (l : List Order) :
    ∀ (q : Int), ∀ x ∈ remainder o q l, ∃ r ∈ l, x.orderId = r.orderId := by
  induction l with
  | nil => intro q x hx; simp [remainder] at hx
  | cons r rs ih =>
    intro q x hx
    unfold remainder at hx
    split at hx
    · exact ⟨x, hx, rfl⟩
    · split at hx
      · obtain ⟨r', hr', h'⟩ := ih _ x hx
        exact ⟨r', List.mem_cons_of_mem _ hr', h'⟩
      · rcases List.mem_cons.1 hx with rfl | hmem
        · exact ⟨r, List.mem_cons_self _ _, rfl⟩
        · exact ⟨x, List.mem_cons_of_mem _ hmem, rfl⟩

/-! ## Insertion of an order with a fresh key -/

theorem sameKey_iff (a b : Order) :
    sameKey a b = true ↔ a.timestamp = b.timestamp ∧ a.orderId = b.orderId := by
  unfold sameKey OrderComparator
  by_cases h : a.timestamp = b.timestamp
  · simp only [h, ne_eq, not_true_eq_false, if_false, Bool.and_eq_true, Bool.not_eq_true',
      decide_eq_false_iff_not, true_and]
    omega
  · have h' : ¬ b.timestamp = a.timestamp := fun e => h e.symm
    simp only [h, h', ne_eq, not_false_eq_true, if_true, Bool.and_eq_true, Bool.not_eq_true',
      decide_eq_false_iff_not, false_and, iff_false]
    omega

theorem mem_setInsert_self (o : Order) (lvl : Level)
    (hfresh : ∀ x ∈ lvl, x.orderId ≠ o.orderId) : o ∈ setInsert o lvl := by
  induction lvl with
  | nil => simp [setInsert]
  | cons y ys ih =>
    unfold setInsert
    split
    · exact List.mem_cons_self _ _
    · split
      · exact List.mem_cons_of_mem _ (ih (fun x hx => hfresh x (List.mem_cons_of_mem _ hx)))
      · rename_i h1 h2
        have hsame : sameKey y o = true := by
          simp only [sameKey, Bool.and_eq_true, Bool.not_eq_true']
          exact ⟨by simpa using h2, by simpa using h1⟩
        exact absurd ((sameKey_iff y o).1 hsame).2 (hfresh y (List.mem_cons_self _ _))

theorem sideBefore_trichotomy (side : OrderSide) (p q : ℚ)
    (h1 : ¬ sideBefore side p q = true) (h2 : ¬ sideBefore side q p = true) : q = p := by
  cases side <;> simp [sideBefore, bidBefore, askBefore] at h1 h2 <;> exact le_antisymm ‹_› ‹_›

theorem mem_levelInsert_self (side : OrderSide) (o : Order) (m : PriceMap)
    (hfresh : ∀ x ∈ restingOrders m, x.orderId ≠ o.orderId) :
    ∃ lvl, (o.price, lvl) ∈ levelInsert (sideBefore side) o m ∧ o ∈ lvl := by
  induction m with
  | nil => exact ⟨[o], by simp [levelInsert], by simp⟩
  | cons e rest ih =>
    obtain ⟨p, lvl⟩ := e
    rw [restingOrders_cons] at hfresh
    unfold levelInsert
    split
    · exact ⟨[o], by simp, by simp⟩
    · split
      · obtain ⟨lvl', h1, h2⟩ := ih (fun x hx => hfresh x (List.mem_append_right _ hx))
        exact ⟨lvl', List.mem_cons_of_mem _ h1, h2⟩
      · rename_i h1 h2
        have hp : p = o.price := sideBefore_trichotomy side o.price p h1 h2
        refine ⟨setInsert o lvl, by rw [hp]; exact List.mem_cons_self _ _, ?_⟩
        exact mem_setInsert_self o lvl (fun x hx => hfresh x (List.mem_append_left _ hx))

theorem mem_restingOrders_of_mem {m : PriceMap} {p : ℚ} {lvl : Level} {x : Order}
    (h1 : (p, lvl) ∈ m) (h2 : x ∈ lvl) : x ∈ restingOrders m := by
  simp only [restingOrders, List.mem_flatMap]
  exact ⟨(p, lvl), h1, h2⟩

theorem FreshId.sides {b : OrderBook} {id : Int} (h : FreshId b id) (side : OrderSide) :
    (∀ r ∈ restingOrders (ownSide b side), r.orderId ≠ id) ∧
      (∀ r ∈ restingOrders (opposing b side), r.orderId ≠ id) := by
  cases side
  · exact ⟨h.2.1, h.2.2⟩
  · exact ⟨h.2.2, h.2.1⟩

theorem fresh_of_sides {b : OrderBook} {id : Int} (side : OrderSide)
    (h1 : ∀ r ∈ restingOrders (ownSide b side), r.orderId ≠ id)
    (h2 : ∀ r ∈ restingOrders (opposing b side), r.orderId ≠ id) :
    (∀ r ∈ restingOrders b.buyOrders, r.orderId ≠ id) ∧
      (∀ r ∈ restingOrders b.sellOrders, r.orderId ≠ id) := by
  cases side
  · exact ⟨h1, h2⟩
  · exact ⟨h2, h1⟩

/-- C6. For a valid incoming order whose id the book does not use yet, on a
    well-formed book: after `matchOrder` the incoming order, with its original
    quantity less the traded quantity, rests in the level of its own side keyed
    by its limit price and is returned by `getOrder` under its id exactly when
    its remaining quantity is positive; when it was filled completely its id is
    neither in the id lookup nor on either side. -/
theorem matchOrder_remainder_rests_iff (b : OrderBook) (o : Order) (n : Int)
    (hwf : WellFormed b) (hv : o.isValid = true) (hfresh : FreshId b o.orderId) :
    ∃ st, matchOrder b o n = some st ∧
      st.newOrder = { o with quantity := o.quantity - tradedQuantity st.trades } ∧
      0 ≤ st.newOrder.quantity ∧
      (0 < st.newOrder.quantity ↔
        ∃ lvl, (o.price, lvl) ∈ ownSide st.book o.side ∧ st.newOrder ∈ lvl) ∧
      (0 < st.newOrder.quantity ↔ st.book.getOrder o.orderId = some st.newOrder) ∧
      (st.newOrder.quantity = 0 →
        st.book.getOrder o.orderId = none ∧
        (∀ r ∈ restingOrders st.book.buyOrders, r.orderId ≠ o.orderId) ∧
        (∀ r ∈ restingOrders st.book.sellOrders, r.orderId ≠ o.orderId)) := by
  obtain ⟨st0, hloop, hres, hm⟩ := matchOrder_spec b o n hwf hv
  obtain ⟨r1, r2, _, r4, r5, _, _, _, _, _⟩ := hres
  simp only [List.nil_append] at r1 r2 r4 r5
  obtain ⟨hq, hp, hsym, husr⟩ := (Order.isValid_iff o).1 hv
  have hsum := fillList_sum_le o (restingOrders (opposing b o.side)) o.quantity (le_of_lt hq)
  have hlook := matchLoop_lookup_none o.orderId _ _ _ (hwf.opposing_side o.side) hloop hfresh.1
  simp only at hlook
  obtain ⟨hown, hopp⟩ := hfresh.sides o.side
  -- ids on the two sides when the loop is left
  have hown0 : ∀ r ∈ restingOrders (ownSide st0.book o.side), r.orderId ≠ o.orderId := by
    rw [r5]; exact hown
  have hopp0 : ∀ r ∈ restingOrders (opposing st0.book o.side), r.orderId ≠ o.orderId := by
    intro r hr
    rw [r4] at hr
    obtain ⟨r', hr', he⟩ := remainder_orderId o _ _ r hr
    rw [he]
    exact hopp r' hr'
  have hside0 : st0.newOrder.side = o.side := by rw [r2]
  have hid0 : st0.newOrder.orderId = o.orderId := by rw [r2]
  have hprice0 : st0.newOrder.price = o.price := by rw [r2]
  have hqty0 : st0.newOrder.quantity = o.quantity - tradedQuantity st0.trades := by
    rw [r2, r1, tradedQuantity_tradesFrom]
  have hnonneg : 0 ≤ st0.newOrder.quantity := by
    rw [r2]; simp only; omega
  by_cases hpos : 0 < st0.newOrder.quantity
  · -- a remainder is left and is added to the book
    have hv0 : st0.newOrder.isValid = true := by
      rw [Order.isValid_iff]
      refine ⟨hpos, ?_, ?_, ?_⟩ <;> rw [r2] <;> assumption
    simp only [gt_iff_lt, hpos, if_true] at hm
    have hin : ∃ lvl, (o.price, lvl) ∈ ownSide (st0.book.addOrder st0.newOrder) o.side ∧
        st0.newOrder ∈ lvl := by
      rw [← hside0, ownSide_addOrder _ _ hv0, ← hprice0]
      apply mem_levelInsert_self
      intro x hx
      rw [hside0] at hx
      rw [hid0]
      exact hown0 x hx
    have hget : (st0.book.addOrder st0.newOrder).getOrder o.orderId = some st0.newOrder := by
      unfold OrderBook.getOrder
      rw [orderLookup_addOrder _ _ hv0, hid0]
      exact hmFind_hmAssign_self _ _ _
    refine ⟨_, hm, ?_, hnonneg, ?_, ?_, ?_⟩
    · simp only
      rw [r2, r1, tradedQuantity_tradesFrom]
    · exact ⟨fun _ => hin, fun _ => hpos⟩
    · exact ⟨fun _ => hget, fun _ => hpos⟩
    · intro hz
      simp only at hz
      omega
  · -- the incoming order was filled completely and is not added
    simp only [gt_iff_lt, hpos, if_false] at hm
    have hget : st0.book.getOrder o.orderId = none := hlook
    obtain ⟨hbuy, hsell⟩ := fresh_of_sides o.side hown0 hopp0
    refine ⟨st0, hm, ?_, hnonneg, ?_, ?_, ?_⟩
    · rw [r2, r1, tradedQuantity_tradesFrom]
    · constructor
      · intro h; exact absurd h hpos
      · rintro ⟨lvl, h1, h2⟩
        have := hown0 _ (mem_restingOrders_of_mem h1 h2)
        exact absurd hid0 this
    · constructor
      · intro h; exact absurd h hpos
      · intro h
        rw [hget] at h
        exact absurd h (by simp)
    · intro _
      exact ⟨hget, hbuy, hsell⟩

/-! ## Insertion and removal keep a side well-formed -/

theorem timeBefore_trans {a b c : Order} (h1 : timeBefore a b) (h2 : timeBefore b c) :
    timeBefore a c := by
  unfold timeBefore at *
  omega

theorem mem_setInsert (o x : Order) (lvl : Level) (hx : x ∈ setInsert o lvl) :
    x = o ∨ x ∈ lvl := by
  induction lvl with
  | nil => simpa [setInsert] using hx
  | cons y ys ih =>
    unfold setInsert at hx
    split at hx
    · rcases List.mem_cons.1 hx with rfl | hmem
      · exact Or.inl rfl
      · exact Or.inr hmem
    · split at hx
      · rcases List.mem_cons.1 hx with rfl | hmem
        · exact Or.inr (List.mem_cons_self _ _)
        · rcases ih hmem with h | h
          · exact Or.inl h
          · exact Or.inr (List.mem_cons_of_mem _ h)
      · exact Or.inr hx

theorem setInsert_ne_nil (o : Order) (lvl : Level) : setInsert o lvl ≠ [] := by
  cases lvl with
  | nil => simp [setInsert]
  | cons y ys =>
    unfold setInsert
    split
    · simp
    · split <;> simp

theorem setInsert_pairwise (o : Order) (lvl : Level)
    (h : lvl.Pairwise (fun a b => OrderComparator a b = true)) :
    (setInsert o lvl).Pairwise (fun a b => OrderComparator a b = true) := by
  induction lvl with
  | nil => simp [setInsert]
  | cons y ys ih =>
    rw [List.pairwise_cons] at h
    unfold setInsert
    split
    · rename_i hoy
      rw [List.pairwise_cons]
      refine ⟨?_, List.pairwise_cons.2 h⟩
      intro z hz
      rcases List.mem_cons.1 hz with rfl | hmem
      · exact hoy
      · exact (OrderComparator_iff _ _).2
          (timeBefore_trans ((OrderComparator_iff _ _).1 hoy)
            ((OrderComparator_iff _ _).1 (h.1 z hmem)))
    · split
      · rename_i _ hyo
        rw [List.pairwise_cons]
        refine ⟨?_, ih h.2⟩
        intro z hz
        rcases mem_setInsert o z ys hz with rfl | hmem
        · exact hyo
        · exact h.1 z hmem
      · exact List.pairwise_cons.2 h

theorem sideBefore_trans (side : OrderSide) {p q r : ℚ} (h1 : sideBefore side p q = true)
    (h2 : sideBefore side q r = true) : sideBefore side p r = true := by
  cases side <;> simp [sideBefore, bidBefore, askBefore] at * <;> linarith

theorem levelInsert_keys (before : ℚ → ℚ → Bool) (o : Order) (m : PriceMap) :
    ∀ k ∈ (levelInsert before o m).map Prod.fst, k = o.price ∨ k ∈ m.map Prod.fst := by
  induction m with
  | nil => intro k hk; simpa [levelInsert] using hk
  | cons e rest ih =>
    obtain ⟨p, lvl⟩ := e
    intro k hk
    unfold levelInsert at hk
    split at hk
    · simp only [List.map_cons, List.mem_cons] at hk ⊢
      rcases hk with h | h | h
      · exact Or.inl h
      · exact Or.inr (Or.inl h)
      · exact Or.inr (Or.inr h)
    · split at hk
      · simp only [List.map_cons, List.mem_cons] at hk ⊢
        rcases hk with h | h
        · exact Or.inr (Or.inl h)
        · rcases ih k h with h' | h'
          · exact Or.inl h'
          · exact Or.inr (Or.inr h')
      · simp only [List.map_cons, List.mem_cons] at hk ⊢
        exact Or.inr hk

theorem SideWF.insertOrder {side : OrderSide} {m : PriceMap} (h : SideWF side m) (o : Order)
    (hside : o.side = side) (hq : 0 < o.quantity) :
    SideWF side (levelInsert (sideBefore side) o m) := by
  induction m with
  | nil =>
    refine ⟨by simp [levelInsert], ?_, ?_, ?_⟩ <;>
      simp [levelInsert, hside, hq]
  | cons e rest ih =>
    obtain ⟨p, lvl⟩ := e
    have htail := h.tail
    obtain ⟨hk, hl, hn, ho⟩ := h
    simp only [List.map_cons, List.pairwise_cons] at hk
    unfold levelInsert
    split
    · rename_i hop
      refine ⟨?_, ?_, ?_, ?_⟩
      · simp only [List.map_cons, List.pairwise_cons]
        refine ⟨?_, hk⟩
        intro k hk'
        rcases List.mem_cons.1 hk' with rfl | hmem
        · exact hop
        · exact sideBefore_trans side hop (hk.1 k hmem)
      · intro e' he'
        rcases List.mem_cons.1 he' with rfl | hmem
        · simp
        · exact hl e' hmem
      · intro e' he'
        rcases List.mem_cons.1 he' with rfl | hmem
        · simp
        · exact hn e' hmem
      · intro e' he' x hx
        rcases List.mem_cons.1 he' with rfl | hmem
        · simp only [List.mem_singleton] at hx
          subst hx
          exact ⟨rfl, hside, hq⟩
        · exact ho e' hmem x hx
    · split
      · rename_i _ hpo
        obtain ⟨ik, il, inn, io⟩ := ih htail
        refine ⟨?_, ?_, ?_, ?_⟩
        · simp only [List.map_cons, List.pairwise_cons]
          refine ⟨?_, ik⟩
          intro k hk'
          rcases levelInsert_keys _ o rest k hk' with rfl | hmem
          · exact hpo
          · exact hk.1 k hmem
        · intro e' he'
          rcases List.mem_cons.1 he' with rfl | hmem
          · exact hl (p, lvl) (by simp)
          · exact il e' hmem
        · intro e' he'
          rcases List.mem_cons.1 he' with rfl | hmem
          · exact hn (p, lvl) (by simp)
          · exact inn e' hmem
        · intro e' he' x hx
          rcases List.mem_cons.1 he' with rfl | hmem
          · exact ho (p, lvl) (by simp) x hx
          · exact io e' hmem x hx
      · rename_i h1 h2
        have hp : p = o.price := sideBefore_trichotomy side o.price p h1 h2
        refine ⟨?_, ?_, ?_, ?_⟩
        · simpa only [List.map_cons, List.pairwise_cons] using hk
        · intro e' he'
          rcases List.mem_cons.1 he' with rfl | hmem
          · exact setInsert_pairwise o lvl (hl (p, lvl) (by simp))
          · exact hl e' (List.mem_cons_of_mem _ hmem)
        · intro e' he'
          rcases List.mem_cons.1 he' with rfl | hmem
          · exact setInsert_ne_nil o lvl
          · exact hn e' (List.mem_cons_of_mem _ hmem)
        · intro e' he' x hx
          rcases List.mem_cons.1 he' with rfl | hmem
          · rcases mem_setInsert o x lvl hx with rfl | hx'
            · exact ⟨hp.symm, hside, hq⟩
            · exact ho (p, lvl) (by simp) x hx'
          · exact ho e' (List.mem_cons_of_mem _ hmem) x hx

theorem setErase_sublist (o : Order) (lvl : Level) : (setErase o lvl).Sublist lvl :=
  List.eraseP_sublist lvl

theorem levelErase_keys_sublist (o : Order) (m : PriceMap) :
    ((levelErase o m).map Prod.fst).Sublist (m.map Prod.fst) := by
  induction m with
  | nil => simp [levelErase]
  | cons e rest ih =>
    obtain ⟨p, lvl⟩ := e
    unfold levelErase
    split
    · split
      · simp only [List.map_cons]
        exact List.sublist_cons_self _ _
      · simp
    · simp only [List.map_cons]
      exact ih.cons₂ _

theorem SideWF.eraseOrder {side : OrderSide} {m : PriceMap} (h : SideWF side m) (o : Order) :
    SideWF side (levelErase o m) := by
  induction m with
  | nil => simpa [levelErase] using h
  | cons e rest ih =>
    obtain ⟨p, lvl⟩ := e
    have htail := h.tail
    have hkeys := levelErase_keys_sublist o ((p, lvl) :: rest)
    obtain ⟨hk, hl, hn, ho⟩ := h
    refine ⟨hk.sublist hkeys, ?_, ?_, ?_⟩
    all_goals
      unfold levelErase
      split
      · split
        · first
          | exact htail.2.1
          | exact htail.2.2.1
          | exact htail.2.2.2
        · rename_i hne
          intro e' he'
          rcases List.mem_cons.1 he' with rfl | hmem
          · first
            | exact (hl (p, lvl) (by simp)).sublist (setErase_sublist o lvl)
            | exact hne
            | exact fun x hx => ho (p, lvl) (by simp) x ((setErase_sublist o lvl).subset hx)
          · first
            | exact hl e' (List.mem_cons_of_mem _ hmem)
            | exact hn e' (List.mem_cons_of_mem _ hmem)
            | exact ho e' (List.mem_cons_of_mem _ hmem)
      · obtain ⟨_, il, inn, io⟩ := ih htail
        intro e' he'
        rcases List.mem_cons.1 he' with rfl | hmem
        · first
          | exact hl (p, lvl) (by simp)
          | exact hn (p, lvl) (by simp)
          | exact ho (p, lvl) (by simp)
        · first
          | exact il e' hmem
          | exact inn e' hmem
          | exact io e' hmem

/-! ## The book invariant under `addOrder`, `cancelOrder` and `matchOrder` -/

theorem wellFormed_of_sides {b : OrderBook} (side : OrderSide)
    (h1 : SideWF side (ownSide b side)) (h2 : SideWF side.opposite (opposing b side)) :
    WellFormed b := by
  cases side
  · exact ⟨h1, h2⟩
  · exact ⟨h2, h1⟩

theorem crossFree_iff_side (b : OrderBook) (side : OrderSide) :
    CrossFree b ↔
      ∀ p ∈ (ownSide b side).map Prod.fst, ∀ q ∈ (opposing b side).map Prod.fst,
        NoCross side p q := by
  cases side
  · exact Iff.rfl
  · unfold CrossFree NoCross
    simp only [ownSide, opposing]
    exact ⟨fun h p hp q hq => h q hq p hp, fun h p hp q hq => h q hq p hp⟩

theorem crosses_eq_false_iff (o : Order) (q : ℚ) :
    crosses o q = false ↔ NoCross o.side o.price q := by
  unfold crosses NoCross canMatch
  cases o.side <;> simp

theorem NoCross.of_before {side : OrderSide} {p q q' : ℚ} (h : NoCross side p q)
    (hb : sideBefore side.opposite q q' = true) : NoCross side p q' := by
  cases side <;> simp [NoCross, sideBefore, OrderSide.opposite, bidBefore, askBefore] at * <;>
    linarith

/-- Adding a valid order whose price crosses no opposing level keeps the book
    invariant. -/
theorem BookInv.add {b : OrderBook} (h : BookInv b) (o : Order) (hv : o.isValid = true)
    (hnc : ∀ q ∈ (opposing b o.side).map Prod.fst, NoCross o.side o.price q) :
    BookInv (b.addOrder o) := by
  obtain ⟨hwf, hcf⟩ := h
  have hq := ((Order.isValid_iff o).1 hv).1
  constructor
  · apply wellFormed_of_sides o.side
    · rw [ownSide_addOrder b o hv]
      exact (hwf.own_side o.side).insertOrder o rfl hq
    · rw [opposing_addOrder]
      exact hwf.opposing_side o.side
  · rw [crossFree_iff_side _ o.side, ownSide_addOrder b o hv, opposing_addOrder]
    intro p hp q hq'
    rcases levelInsert_keys _ o _ p hp with rfl | hmem
    · exact hnc q hq'
    · exact (crossFree_iff_side b o.side).1 hcf p hmem q hq'

theorem BookInv.cancel {b : OrderBook} (h : BookInv b) (orderId : Int) :
    BookInv (b.cancelOrder orderId).1 := by
  obtain ⟨hwf, hcf⟩ := h
  unfold OrderBook.cancelOrder
  cases hfind : hmFind b.orderLookup orderId with
  | none => exact ⟨hwf, hcf⟩
  | some order =>
    cases hs : order.side
    · simp only [hs]
      refine ⟨⟨hwf.1.eraseOrder order, hwf.2⟩, ?_⟩
      intro pb hpb pa hpa
      exact hcf pb ((levelErase_keys_sublist order b.buyOrders).subset hpb) pa hpa
    · simp only [hs]
      refine ⟨⟨hwf.1, hwf.2.eraseOrder order⟩, ?_⟩
      intro pb hpb pa hpa
      exact hcf pb hpb pa ((levelErase_keys_sublist order b.sellOrders).subset hpa)

theorem BookInv.empty (sym : String) : BookInv (OrderBook.new sym) := by
  refine ⟨⟨?_, ?_⟩, ?_⟩
  · simp [OrderBook.new, SideWF]
  · simp [OrderBook.new, SideWF]
  · simp [OrderBook.new, CrossFree]

/-- `matchOrder` comes back on a book satisfying the invariant and returns one
    satisfying it. -/
theorem BookInv.matched {b : OrderBook} (h : BookInv b) (o : Order) (n : Int) :
    ∃ st, matchOrder b o n = some st ∧ BookInv st.book := by
  by_cases hv : o.isValid = true
  · obtain ⟨hwf, hcf⟩ := h
    obtain ⟨st0, _, hres, hm⟩ := matchOrder_spec b o n hwf hv
    obtain ⟨_, r2, _, _, r5, _, r7, r8, r9, _⟩ := hres
    simp only at r2 r5 r7 r8
    have hinv0 : BookInv st0.book := by
      constructor
      · apply wellFormed_of_sides o.side
        · rw [r5]; exact hwf.own_side o.side
        · exact r8
      · rw [crossFree_iff_side _ o.side, r5]
        intro p hp q hq
        exact (crossFree_iff_side b o.side).1 hcf p hp q (r7.subset hq)
    by_cases hpos : 0 < st0.newOrder.quantity
    · simp only [gt_iff_lt, hpos, if_true] at hm
      refine ⟨_, hm, ?_⟩
      simp only
      obtain ⟨_, hp, hsym, husr⟩ := (Order.isValid_iff o).1 hv
      have hside0 : st0.newOrder.side = o.side := by rw [r2]
      have hprice0 : st0.newOrder.price = o.price := by rw [r2]
      have hv0 : st0.newOrder.isValid = true := by
        rw [Order.isValid_iff]
        refine ⟨hpos, ?_, ?_, ?_⟩ <;> rw [r2] <;> assumption
      apply hinv0.add _ hv0
      rw [hside0, hprice0]
      -- the loop was left with something to fill, so the best price does not cross
      rcases (matchStep_eq_none_iff st0).1 r9 with hnil | hq0 | ⟨bp, lvl, rest, hopp, hc⟩
      · rw [hside0] at hnil
        rw [hnil]
        intro q hq
        simp at hq
      · omega
      · rw [hside0] at hopp
        rw [hopp]
        rw [hopp] at r8
        have hc' : crosses o bp = false := by
          rw [← hc]
          unfold crosses
          rw [hside0, hprice0]
        have hhead := (crosses_eq_false_iff o bp).1 hc'
        intro q hq
        simp only [List.map_cons, List.mem_cons] at hq
        rcases hq with rfl | hmem
        · exact hhead
        · have hk := r8.1
          simp only [List.map_cons, List.pairwise_cons] at hk
          exact hhead.of_before (hk.1 q hmem)
    · simp only [gt_iff_lt, hpos, if_false] at hm
      exact ⟨st0, hm, hinv0⟩
  · refine ⟨{ book := b, newOrder := o, trades := [], nextTradeId := n }, ?_, h⟩
    unfold matchOrder
    simp [hv]

/-! ## The venue invariant -/

theorem updateSystemStatistics_orderBooks (s : TradeBookingSystem) (trades : List Trade) :
    (updateSystemStatistics s trades).orderBooks = s.orderBooks ∧
      (updateSystemStatistics s trades).portfolios = s.portfolios := by
  unfold updateSystemStatistics
  induction trades generalizing s with
  | nil => exact ⟨rfl, rfl⟩
  | cons t ts ih =>
    simp only [List.foldl_cons]
    exact ih _

theorem processTradeResults_orderBooks (s : TradeBookingSystem) (trades : List Trade) :
    (processTradeResults s trades).orderBooks = s.orderBooks := by
  unfold processTradeResults
  split
  · rfl
  · exact (updateSystemStatistics_orderBooks _ _).1

theorem processTradeResults_portfolios (s : TradeBookingSystem) (trades : List Trade) :
    (processTradeResults s trades).portfolios =
      updatePortfoliosWithTrades s.portfolios trades := by
  unfold processTradeResults
  split
  · rename_i h
    simp [h, updatePortfoliosWithTrades]
  · exact (updateSystemStatistics_orderBooks _ _).2

theorem bookInv_hmAssign {m : List (String × OrderBook)}
    (hm : ∀ sym bk, hmFind m sym = some bk → BookInv bk) (k : String) (b : OrderBook)
    (hb : BookInv b) :
    ∀ sym bk, hmFind (hmAssign m k b) sym = some bk → BookInv bk := by
  intro sym bk hfind
  by_cases hk : k = sym
  · subst hk
    rw [hmFind_hmAssign_self] at hfind
    simp only [Option.some.injEq] at hfind
    subst hfind
    exact hb
  · rw [hmFind_hmAssign_ne _ _ _ _ hk] at hfind
    exact hm sym bk hfind

/-- The book `placeOrderDirect` hands to the engine, and the map it is taken
    from, satisfy the invariant when the venue does. -/
theorem VenueInv.placeBook {s : TradeBookingSystem} (h : VenueInv s) (symbol : String) :
    (∀ sym bk,
      hmFind (match hmFind s.orderBooks symbol with
        | none => hmAssign s.orderBooks symbol (OrderBook.new symbol)
        | some _ => s.orderBooks) sym = some bk → BookInv bk) ∧
    BookInv ((hmFind (match hmFind s.orderBooks symbol with
        | none => hmAssign s.orderBooks symbol (OrderBook.new symbol)
        | some _ => s.orderBooks) symbol).getD (OrderBook.new symbol)) := by
  cases hf : hmFind s.orderBooks symbol with
  | none =>
    simp only
    refine ⟨bookInv_hmAssign h symbol _ (BookInv.empty symbol), ?_⟩
    rw [hmFind_hmAssign_self]
    exact BookInv.empty symbol
  | some bk =>
    simp only
    refine ⟨h, ?_⟩
    rw [hf]
    exact h symbol bk hf

/-- In a venue satisfying the invariant every `placeOrderDirect` call comes
    back, and leaves a venue satisfying the invariant. -/
theorem VenueInv.place {s : TradeBookingSystem} (h : VenueInv s) (now : Int)
    (userId symbol : String) (side : OrderSide) (quantity : Int) (price : ℚ) :
    ∃ s1 trades, s.placeOrderDirect now userId symbol side quantity price = some (s1, trades) ∧
      VenueInv s1 := by
  obtain ⟨hbooks, hbook⟩ := h.placeBook symbol
  obtain ⟨st, hm, hinv⟩ := hbook.matched
    { orderId := s.nextOrderId, symbol := symbol, side := side, quantity := quantity,
      price := price, timestamp := now, type := OrderType.LIMIT, userId := userId }
    s.nextTradeId
  refine ⟨processTradeResults
      { s with
        orderBooks := hmAssign
          (match hmFind s.orderBooks symbol with
            | none => hmAssign s.orderBooks symbol (OrderBook.new symbol)
            | some _ => s.orderBooks) symbol st.book,
        nextOrderId := s.nextOrderId + 1,
        nextTradeId := st.nextTradeId } st.trades, st.trades, ?_, ?_⟩
  · unfold TradeBookingSystem.placeOrderDirect
    simp only [hm]
  · intro sym bk hfind
    rw [processTradeResults_orderBooks] at hfind
    exact bookInv_hmAssign hbooks symbol st.book hinv sym bk hfind

theorem VenueInv.cancel_direct {s : TradeBookingSystem} (h : VenueInv s) (symbol : String)
    (orderId : Int) : VenueInv (s.cancelOrderDirect symbol orderId) := by
  unfold TradeBookingSystem.cancelOrderDirect
  cases hf : hmFind s.orderBooks symbol with
  | none => exact h
  | some book =>
    simp only
    exact bookInv_hmAssign h symbol _ ((h symbol book hf).cancel orderId)

theorem VenueInv.fresh : VenueInv TradeBookingSystem.new := by
  intro sym bk hfind
  simp [TradeBookingSystem.new, hmFind] at hfind

theorem Reachable.venueInv {s : TradeBookingSystem} (h : Reachable s) : VenueInv s := by
  induction h with
  | fresh => exact VenueInv.fresh
  | place now userId symbol side quantity price _ hplace ih =>
    obtain ⟨s1, trades, hp, hinv⟩ := ih.place now userId symbol side quantity price
    rw [hplace] at hp
    simp only [Option.some.injEq, Prod.mk.injEq] at hp
    rw [hp.1]
    exact hinv
  | cancel symbol orderId _ ih => exact ih.cancel_direct symbol orderId

/-- On a well-formed side the first key is the best price of the side. -/
theorem SideWF.head_best {side : OrderSide} {m : PriceMap} (h : SideWF side m) {p : ℚ}
    (hp : m.head?.map Prod.fst = some p) :
    ∀ r ∈ restingOrders m, r.price = p ∨ sideBefore side p r.price = true := by
  cases m with
  | nil => simp at hp
  | cons e rest =>
    obtain ⟨bp, lvl⟩ := e
    simp only [List.head?_cons, Option.map_some', Option.some.injEq] at hp
    subst hp
    obtain ⟨hk, _, _, ho⟩ := h
    simp only [List.map_cons, List.pairwise_cons] at hk
    intro r hr
    rw [restingOrders_cons] at hr
    rcases List.mem_append.1 hr with h1 | h1
    · exact Or.inl (ho (bp, lvl) (by simp) r h1).1
    · simp only [restingOrders, List.mem_flatMap] at h1
      obtain ⟨e', he', hre⟩ := h1
      right
      rw [(ho e' (List.mem_cons_of_mem _ he') r hre).1]
      exact hk.1 e'.1 (List.mem_map_of_mem _ he')

/-- C1. In every venue state reached from a fresh system by `placeOrderDirect`
    and `cancelOrderDirect` calls, every such call comes back, and every order
    book with a best bid and a best ask has the best bid strictly below the best
    ask, the best bid being the highest resting bid price and the best ask the
    lowest resting ask price. -/
theorem reachable_book_uncrossed (s : TradeBookingSystem) (hs : Reachable s) :
    (∀ now userId symbol side quantity price,
      (s.placeOrderDirect now userId symbol side quantity price).isSome = true) ∧
    ∀ symbol book, s.getOrderBook symbol = some book →
      ∀ pb pa, book.bestBid = some pb → book.bestAsk = some pa →
        pb < pa ∧
        (∀ r ∈ restingOrders book.buyOrders, r.price ≤ pb) ∧
        (∀ r ∈ restingOrders book.sellOrders, pa ≤ r.price) := by
  have hinv := hs.venueInv
  constructor
  · intro now userId symbol side quantity price
    obtain ⟨s1, trades, hp, _⟩ := hinv.place now userId symbol side quantity price
    rw [hp]
    rfl
  · intro symbol book hbook pb pa hpb hpa
    obtain ⟨hwf, hcf⟩ := hinv symbol book hbook
    refine ⟨?_, ?_, ?_⟩
    · apply hcf
      · unfold OrderBook.bestBid at hpb
        cases hb : book.buyOrders with
        | nil => simp [hb] at hpb
        | cons e rest =>
          simp only [hb, List.head?_cons, Option.map_some', Option.some.injEq] at hpb
          simp [hpb]
      · unfold OrderBook.bestAsk at hpa
        cases hb : book.sellOrders with
        | nil => simp [hb] at hpa
        | cons e rest =>
          simp only [hb, List.head?_cons, Option.map_some', Option.some.injEq] at hpa
          simp [hpa]
    · intro r hr
      rcases hwf.1.head_best hpb r hr with h | h
      · exact le_of_eq h
      · simp only [sideBefore, bidBefore, decide_eq_true_eq] at h
        exact le_of_lt h
    · intro r hr
      rcases hwf.2.head_best hpa r hr with h | h
      · exact le_of_eq h.symm
      · simp only [sideBefore, askBefore, decide_eq_true_eq] at h
        exact le_of_lt h

/-! ## One trade on one portfolio -/

theorem addBuyTrade_cash (pf : Portfolio) (t : Trade) :
    (pf.addBuyTrade t).cashBalance = pf.cashBalance - (t.quantity : ℚ) * t.price := by
  unfold Portfolio.addBuyTrade
  simp only
  split
  · rfl
  · split <;> rfl

theorem addSellTrade_cash (pf : Portfolio) (t : Trade) :
    (pf.addSellTrade t).cashBalance = pf.cashBalance + (t.quantity : ℚ) * t.price := by
  unfold Portfolio.addSellTrade
  simp only
  split
  · rfl
  · split <;> rfl

theorem addBuyTrade_positions (pf : Portfolio) (t : Trade) :
    (pf.addBuyTrade t).positions =
      hmAssign pf.positions t.symbol (pf.getPosition t.symbol + t.quantity) := by
  unfold Portfolio.addBuyTrade Portfolio.getPosition
  simp only
  split
  · rfl
  · split
    · rfl
    · simp only [add_comm]

theorem addSellTrade_positions (pf : Portfolio) (t : Trade) :
    (pf.addSellTrade t).positions =
      hmAssign pf.positions t.symbol (pf.getPosition t.symbol - t.quantity) := by
  unfold Portfolio.addSellTrade Portfolio.getPosition
  simp only
  split
  · rfl
  · split
    · rfl
    · simp only [neg_sub]

theorem getPosition_hmAssign (pf pf1 : Portfolio) (k s : String) (v : Int)
    (h : pf1.positions = hmAssign pf.positions k v) :
    pf1.getPosition s = if k = s then v else pf.getPosition s := by
  unfold Portfolio.getPosition
  rw [h]
  by_cases hk : k = s
  · subst hk
    simp [hmFind_hmAssign_self]
  · simp [hk, hmFind_hmAssign_ne _ _ _ _ hk]

theorem addBuyTrade_getPosition (pf : Portfolio) (t : Trade) (s : String) :
    (pf.addBuyTrade t).getPosition s =
      if t.symbol = s then pf.getPosition t.symbol + t.quantity else pf.getPosition s :=
  getPosition_hmAssign pf _ _ s _ (addBuyTrade_positions pf t)

theorem addSellTrade_getPosition (pf : Portfolio) (t : Trade) (s : String) :
    (pf.addSellTrade t).getPosition s =
      if t.symbol = s then pf.getPosition t.symbol - t.quantity else pf.getPosition s :=
  getPosition_hmAssign pf _ _ s _ (addSellTrade_positions pf t)

theorem addTrade_cash (pf : Portfolio) (t : Trade) (isBuyerSide : Bool) :
    (pf.addTrade t isBuyerSide).cashBalance =
      if isBuyerSide then pf.cashBalance - (t.quantity : ℚ) * t.price
      else pf.cashBalance + (t.quantity : ℚ) * t.price := by
  unfold Portfolio.addTrade
  cases isBuyerSide
  · simp [addSellTrade_cash]
  · simp [addBuyTrade_cash]

theorem addTrade_getPosition (pf : Portfolio) (t : Trade) (isBuyerSide : Bool) (s : String) :
    (pf.addTrade t isBuyerSide).getPosition s =
      if t.symbol = s then
        (if isBuyerSide then pf.getPosition s + t.quantity else pf.getPosition s - t.quantity)
      else pf.getPosition s := by
  unfold Portfolio.addTrade
  cases isBuyerSide
  · simp only [Bool.false_eq_true, if_false, addSellTrade_getPosition]
    by_cases h : t.symbol = s
    · subst h; simp [Portfolio.getPosition]
    · simp [h, Portfolio.getPosition]
  · simp only [if_true, addBuyTrade_getPosition]
    by_cases h : t.symbol = s
    · subst h; simp [Portfolio.getPosition]
    · simp [h, Portfolio.getPosition]

/-! ## Sums over the portfolio map -/

theorem totalCash_hmAssign (ps : List (String × Portfolio)) (k : String) (pf pf1 : Portfolio)
    (h : hmFind ps k = some pf) :
    totalCash (hmAssign ps k pf1) = totalCash ps - pf.cashBalance + pf1.cashBalance := by
  induction ps with
  | nil => simp [hmFind] at h
  | cons e rest ih =>
    obtain ⟨k0, v0⟩ := e
    by_cases hk : k0 = k
    · simp only [hmFind, hk, if_true, Option.some.injEq] at h
      subst h
      simp [hmAssign, hk, totalCash]
      ring
    · simp only [hmFind, hk, if_false] at h
      have := ih h
      simp only [totalCash] at this ⊢
      simp only [hmAssign, hk, if_false, List.map_cons, List.sum_cons, this]
      ring

theorem totalPosition_hmAssign (ps : List (String × Portfolio)) (k : String)
    (pf pf1 : Portfolio) (s : String) (h : hmFind ps k = some pf) :
    totalPosition (hmAssign ps k pf1) s =
      totalPosition ps s - pf.getPosition s + pf1.getPosition s := by
  induction ps with
  | nil => simp [hmFind] at h
  | cons e rest ih =>
    obtain ⟨k0, v0⟩ := e
    by_cases hk : k0 = k
    · simp only [hmFind, hk, if_true, Option.some.injEq] at h
      subst h
      simp [hmAssign, hk, totalPosition]
      ring
    · simp only [hmFind, hk, if_false] at h
      have := ih h
      simp only [totalPosition] at this ⊢
      simp only [hmAssign, hk, if_false, List.map_cons, List.sum_cons, this]
      ring

theorem hmFind_isSome_hmAssign {κ ν : Type} [DecidableEq κ] (m : List (κ × ν)) (k k' : κ)
    (v : ν) (h : (hmFind m k').isSome = true) : (hmFind (hmAssign m k v) k').isSome = true := by
  by_cases hk : k = k'
  · subst hk
    rw [hmFind_hmAssign_self]
    rfl
  · rw [hmFind_hmAssign_ne _ _ _ _ hk]
    exact h

/-- One trade between two registered users moves no cash and no position in
    total, and leaves both users registered. -/
theorem applyTrade_conserves (ps : List (String × Portfolio)) (t : Trade)
    (hb : (hmFind ps t.buyUserId).isSome = true) (hs : (hmFind ps t.sellUserId).isSome = true) :
    totalCash (applyTrade ps t) = totalCash ps ∧
    (∀ s, totalPosition (applyTrade ps t) s = totalPosition ps s) ∧
    (∀ u, (hmFind ps u).isSome = true → (hmFind (applyTrade ps t) u).isSome = true) := by
  obtain ⟨pfb, hpfb⟩ := Option.isSome_iff_exists.1 hb
  have hs1 := hmFind_isSome_hmAssign ps t.buyUserId t.sellUserId (pfb.addTrade t true) hs
  obtain ⟨pfs, hpfs⟩ := Option.isSome_iff_exists.1 hs1
  have happ : applyTrade ps t =
      hmAssign (hmAssign ps t.buyUserId (pfb.addTrade t true)) t.sellUserId
        (pfs.addTrade t false) := by
    unfold applyTrade
    simp only [hpfb, hpfs]
  rw [happ]
  refine ⟨?_, ?_, ?_⟩
  · rw [totalCash_hmAssign _ _ _ _ hpfs, totalCash_hmAssign _ _ _ _ hpfb]
    simp only [addTrade_cash, if_true, Bool.false_eq_true, if_false]
    ring
  · intro s
    rw [totalPosition_hmAssign _ _ _ _ s hpfs, totalPosition_hmAssign _ _ _ _ s hpfb]
    simp only [addTrade_getPosition, if_true, Bool.false_eq_true, if_false]
    split <;> ring
  · intro u hu
    exact hmFind_isSome_hmAssign _ _ _ _ (hmFind_isSome_hmAssign _ _ _ _ hu)

theorem updatePortfoliosWithTrades_conserves (trades : List Trade) :
    ∀ ps : List (String × Portfolio),
      (∀ t ∈ trades, (hmFind ps t.buyUserId).isSome = true ∧
        (hmFind ps t.sellUserId).isSome = true) →
      totalCash (updatePortfoliosWithTrades ps trades) = totalCash ps ∧
      ∀ s, totalPosition (updatePortfoliosWithTrades ps trades) s = totalPosition ps s := by
  induction trades with
  | nil => intro ps _; exact ⟨rfl, fun _ => rfl⟩
  | cons t ts ih =>
    intro ps hreg
    obtain ⟨h1, h2, h3⟩ := applyTrade_conserves ps t (hreg t (List.mem_cons_self _ _)).1
      (hreg t (List.mem_cons_self _ _)).2
    have hreg' : ∀ t' ∈ ts, (hmFind (applyTrade ps t) t'.buyUserId).isSome = true ∧
        (hmFind (applyTrade ps t) t'.sellUserId).isSome = true := by
      intro t' ht'
      have := hreg t' (List.mem_cons_of_mem _ ht')
      exact ⟨h3 _ this.1, h3 _ this.2⟩
    obtain ⟨i1, i2⟩ := ih (applyTrade ps t) hreg'
    unfold updatePortfoliosWithTrades at i1 i2 ⊢
    simp only [List.foldl_cons]
    exact ⟨i1.trans h1, fun s => (i2 s).trans (h2 s)⟩

theorem placeOrderDirect_portfolios {s s1 : TradeBookingSystem} {trades : List Trade}
    {now : Int} {userId symbol : String} {side : OrderSide} {quantity : Int} {price : ℚ}
    (h : s.placeOrderDirect now userId symbol side quantity price = some (s1, trades)) :
    s1.portfolios = updatePortfoliosWithTrades s.portfolios trades := by
  unfold TradeBookingSystem.placeOrderDirect at h
  simp only at h
  split at h
  · simp at h
  · simp only [Option.some.injEq, Prod.mk.injEq] at h
    obtain ⟨h1, h2⟩ := h
    rw [← h1, ← h2, processTradeResults_portfolios]

/-- C7. Cash conservation.  A `placeOrderDirect` call comes back in every venue
    whose books satisfy the book invariant; and whenever a call comes back and
    every buyer and seller of the trades it produced has a portfolio, the sum of
    the cash balances over all portfolios is the same after the call as before
    (exact arithmetic). -/
theorem placeOrderDirect_cash_conservation (s : TradeBookingSystem) (now : Int)
    (userId symbol : String) (side : OrderSide) (quantity : Int) (price : ℚ) :
    (VenueInv s → (s.placeOrderDirect now userId symbol side quantity price).isSome = true) ∧
    ∀ s1 trades, s.placeOrderDirect now userId symbol side quantity price = some (s1, trades) →
      (∀ t ∈ trades, (s.getPortfolio t.buyUserId).isSome = true ∧
        (s.getPortfolio t.sellUserId).isSome = true) →
      totalCash s1.portfolios = totalCash s.portfolios := by
  constructor
  · intro hinv
    obtain ⟨s1, trades, hp, _⟩ := hinv.place now userId symbol side quantity price
    rw [hp]
    rfl
  · intro s1 trades hplace hreg
    rw [placeOrderDirect_portfolios hplace]
    exact (updatePortfoliosWithTrades_conserves trades s.portfolios hreg).1

/-- Position conservation in idealised arithmetic.  `addBuyTrade` always yields position `pos + q`
    and `addSellTrade` always yields `pos - q`, whichever branch is taken; hence
    whenever a `placeOrderDirect` call comes back (as it does in every venue
    whose books satisfy the book invariant) and every buyer and seller of its
    trades has a portfolio, the sum over all portfolios of the signed position
    in any symbol is unchanged by the call. -/
theorem placeOrderDirect_position_conservation (s : TradeBookingSystem) (now : Int)
    (userId symbol : String) (side : OrderSide) (quantity : Int) (price : ℚ) :
    (∀ (pf : Portfolio) (t : Trade),
      (pf.addBuyTrade t).getPosition t.symbol = pf.getPosition t.symbol + t.quantity ∧
      (pf.addSellTrade t).getPosition t.symbol = pf.getPosition t.symbol - t.quantity) ∧
    (VenueInv s → (s.placeOrderDirect now userId symbol side quantity price).isSome = true) ∧
    ∀ s1 trades, s.placeOrderDirect now userId symbol side quantity price = some (s1, trades) →
      (∀ t ∈ trades, (s.getPortfolio t.buyUserId).isSome = true ∧
        (s.getPortfolio t.sellUserId).isSome = true) →
      ∀ sym, totalPosition s1.portfolios sym = totalPosition s.portfolios sym := by
  refine ⟨?_, ?_, ?_⟩
  · intro pf t
    rw [addBuyTrade_getPosition, addSellTrade_getPosition]
    simp
  · intro hinv
    obtain ⟨s1, trades, hp, _⟩ := hinv.place now userId symbol side quantity price
    rw [hp]
    rfl
  · intro s1 trades hplace hreg
    rw [placeOrderDirect_portfolios hplace]
    exact (updatePortfoliosWithTrades_conserves trades s.portfolios hreg).2

/-! ## The average cost after one trade -/

theorem addBuyTrade_getAverageCost (pf : Portfolio) (t : Trade) :
    (pf.addBuyTrade t).getAverageCost t.symbol =
      if pf.getPosition t.symbol ≥ 0 then
        ((pf.getPosition t.symbol : ℚ) * pf.getAverageCost t.symbol +
            (t.quantity : ℚ) * t.price) /
          ((pf.getPosition t.symbol + t.quantity : Int) : ℚ)
      else if t.quantity ≤ -pf.getPosition t.symbol then pf.getAverageCost t.symbol
      else t.price := by
  unfold Portfolio.addBuyTrade Portfolio.getPosition Portfolio.getAverageCost
  simp only
  split
  · simp only [hmFind_hmAssign_self, Option.getD_some]
  · split <;> simp only [hmFind_hmAssign_self, Option.getD_some]

theorem addSellTrade_getAverageCost (pf : Portfolio) (t : Trade) :
    (pf.addSellTrade t).getAverageCost t.symbol =
      if pf.getPosition t.symbol ≤ 0 then
        (((-pf.getPosition t.symbol : Int) : ℚ) * pf.getAverageCost t.symbol +
            (t.quantity : ℚ) * t.price) /
          ((-(pf.getPosition t.symbol - t.quantity) : Int) : ℚ)
      else if t.quantity ≤ pf.getPosition t.symbol then pf.getAverageCost t.symbol
      else t.price := by
  unfold Portfolio.addSellTrade Portfolio.getPosition Portfolio.getAverageCost
  simp only
  split
  · simp only [hmFind_hmAssign_self, Option.getD_some]
  · split <;> simp only [hmFind_hmAssign_self, Option.getD_some]

theorem addTrade_getAverageCost (pf : Portfolio) (t : Trade) (isBuyerSide : Bool) :
    (pf.addTrade t isBuyerSide).getAverageCost t.symbol =
      if isBuyerSide then (pf.addBuyTrade t).getAverageCost t.symbol
      else (pf.addSellTrade t).getAverageCost t.symbol := by
  unfold Portfolio.addTrade
  cases isBuyerSide
  · simp only [Bool.false_eq_true, if_false, addSellTrade_getAverageCost]
    rfl
  · simp only [if_true, addBuyTrade_getAverageCost]
    rfl

theorem addTrade_other_symbol (pf : Portfolio) (t : Trade) (isBuyerSide : Bool) (s : String)
    (hne : t.symbol ≠ s) :
    (pf.addTrade t isBuyerSide).getPosition s = pf.getPosition s ∧
      (pf.addTrade t isBuyerSide).getAverageCost s = pf.getAverageCost s := by
  refine ⟨by rw [addTrade_getPosition]; simp [hne], ?_⟩
  unfold Portfolio.addTrade Portfolio.getAverageCost
  cases isBuyerSide
  · simp only [Bool.false_eq_true, if_false]
    unfold Portfolio.addSellTrade
    simp only
    split
    · simp only [hmFind_hmAssign_ne _ _ _ _ hne]
    · split <;> simp only [hmFind_hmAssign_ne _ _ _ _ hne]
  · simp only [if_true]
    unfold Portfolio.addBuyTrade
    simp only
    split
    · simp only [hmFind_hmAssign_ne _ _ _ _ hne]
    · split <;> simp only [hmFind_hmAssign_ne _ _ _ _ hne]

theorem addTrade_tradeHistory (pf : Portfolio) (t : Trade) (isBuyerSide : Bool) :
    (pf.addTrade t isBuyerSide).tradeHistory = pf.tradeHistory ++ [t] := by
  unfold Portfolio.addTrade
  cases isBuyerSide
  · simp only [Bool.false_eq_true, if_false]
    unfold Portfolio.addSellTrade
    simp only
    split
    · rfl
    · split <;> rfl
  · simp only [if_true]
    unfold Portfolio.addBuyTrade
    simp only
    split
    · rfl
    · split <;> rfl

/-- C9, as the code has it.  In every portfolio state reached from a fresh
    portfolio by `addTrade` calls with positive quantity and price, a symbol in
    which no trade was booked has position 0 and average cost 0; a buy that
    exactly covers a short (`q = -pos`) and a sell that exactly closes a long
    (`q = pos`) leave position 0 and leave the average cost at the value it had
    before the trade. -/
theorem exact_close_keeps_average_cost :
    (∀ pf : Portfolio, PortfolioReachable pf → ∀ s : String,
      (∀ t ∈ pf.tradeHistory, t.symbol ≠ s) →
        pf.getPosition s = 0 ∧ pf.getAverageCost s = 0) ∧
    (∀ (pf : Portfolio) (t : Trade), 0 < t.quantity → pf.getPosition t.symbol < 0 →
      t.quantity = -pf.getPosition t.symbol →
        (pf.addTrade t true).getPosition t.symbol = 0 ∧
        (pf.addTrade t true).getAverageCost t.symbol = pf.getAverageCost t.symbol) ∧
    (∀ (pf : Portfolio) (t : Trade), 0 < t.quantity → 0 < pf.getPosition t.symbol →
      t.quantity = pf.getPosition t.symbol →
        (pf.addTrade t false).getPosition t.symbol = 0 ∧
        (pf.addTrade t false).getAverageCost t.symbol = pf.getAverageCost t.symbol) := by
  refine ⟨?_, ?_, ?_⟩
  · intro pf hreach
    induction hreach with
    | fresh user cash =>
      intro s _
      simp [Portfolio.new, Portfolio.getPosition, Portfolio.getAverageCost, hmFind]
    | trade t isBuyerSide _ _ _ ih =>
      intro s hs
      rw [addTrade_tradeHistory] at hs
      have hne : t.symbol ≠ s := hs t (by simp)
      obtain ⟨h1, h2⟩ := addTrade_other_symbol _ t isBuyerSide s hne
      rw [h1, h2]
      exact ih s (fun t' ht' => hs t' (List.mem_append_left _ ht'))
  · intro pf t hq hneg heq
    rw [addTrade_getPosition, addTrade_getAverageCost, addBuyTrade_getAverageCost]
    have h1 : ¬ pf.getPosition t.symbol ≥ 0 := by omega
    have h2 : t.quantity ≤ -pf.getPosition t.symbol := by omega
    simp only [if_true, h1, h2, if_false]
    exact ⟨by omega, trivial⟩
  · intro pf t hq hpos heq
    rw [addTrade_getPosition, addTrade_getAverageCost, addSellTrade_getAverageCost]
    have h1 : ¬ pf.getPosition t.symbol ≤ 0 := by omega
    have h2 : t.quantity ≤ pf.getPosition t.symbol := by omega
    simp only [if_true, Bool.false_eq_true, h1, h2, if_false]
    exact ⟨by omega, trivial⟩

/-! ## The theorems at concrete inputs -/

/-- Witness for C1: a venue reached by placing a bid at 149 and an ask at 151. -/
theorem reachable_book_uncrossed_witness :
    Reachable demoVenueBidAsk ∧
    demoVenueBidAsk.getOrderBook "AAPL" = some demoBookBidAsk ∧
    demoBookBidAsk.bestBid = some 149 ∧ demoBookBidAsk.bestAsk = some 151 ∧
    (149 : ℚ) < 151 :=
  have h1 : TradeBookingSystem.new.placeOrderDirect 1 "U1" "AAPL" OrderSide.BUY 100 149 =
      some (demoVenueBid, []) := by decide
  have h2 : demoVenueBid.placeOrderDirect 2 "U2" "AAPL" OrderSide.SELL 100 151 =
      some (demoVenueBidAsk, []) := by decide
  have hr : Reachable demoVenueBidAsk :=
    Reachable.place 2 "U2" "AAPL" OrderSide.SELL 100 151
      (Reachable.place 1 "U1" "AAPL" OrderSide.BUY 100 149 Reachable.fresh h1) h2
  ⟨hr, by decide, by decide, by decide,
    ((reachable_book_uncrossed demoVenueBidAsk hr).2 "AAPL" demoBookBidAsk (by decide)
      149 151 (by decide) (by decide)).1⟩

/-- Witness for C2: scenario S3, where the first trade is made at 150 although
    the incoming limit is 151. -/
theorem matchOrder_trade_price_is_resting_price_witness :
    WellFormed demoBook ∧ demoBuy.isValid = true ∧
    (matchOrder demoBook demoBuy 1).map (fun st => st.trades.map (fun t => t.price)) =
      some [150, 151] ∧
    (matchOrder demoBook demoBuy 1).isSome = true ∧
    ∀ st, matchOrder demoBook demoBuy 1 = some st →
      ∀ t ∈ st.trades, ∃ r ∈ restingOrders (opposing demoBook demoBuy.side),
        TradeAgainst demoBuy t r ∧ t.price = r.price :=
  ⟨by decide, by decide, by decide,
    (matchOrder_trade_price_is_resting_price demoBook demoBuy 1).1 (by decide) (by decide),
    (matchOrder_trade_price_is_resting_price demoBook demoBuy 1).2⟩

/-- Witness for C3: scenario S3, the ask at 150 is matched before the ask at 151. -/
theorem matchOrder_price_time_priority_witness :
    WellFormed demoBook ∧ demoBuy.isValid = true ∧
    (matchOrder demoBook demoBuy 1).map (fun st => st.trades.map (fun t => t.sellOrderId)) =
      some [2, 1] ∧
    ∃ st, matchOrder demoBook demoBuy 1 = some st ∧
      (∃ k last,
        passes k { book := demoBook, newOrder := demoBuy, trades := [], nextTradeId := 1 } =
          some last ∧
        matchStep last = none ∧ last.trades = st.trades ∧
        ∀ i, i < k → ∃ sti r rest1 t,
          passes i { book := demoBook, newOrder := demoBuy, trades := [], nextTradeId := 1 } =
            some sti ∧
          restingOrders (opposing sti.book demoBuy.side) = r :: rest1 ∧
          (∀ r1 ∈ rest1, priorityBefore demoBuy.side r r1) ∧
          TradeAgainst demoBuy t r ∧
          (passes (i + 1)
            { book := demoBook, newOrder := demoBuy, trades := [], nextTradeId := 1 }).map
            (fun s => s.trades) = some (sti.trades ++ [t])) ∧
      (restingOrders (opposing demoBook demoBuy.side)).Pairwise (priorityBefore demoBuy.side) ∧
      List.Forall₂ (TradeAgainst demoBuy) st.trades
        ((restingOrders (opposing demoBook demoBuy.side)).take st.trades.length) ∧
      List.Forall₂ (fun t r => t.quantity = r.quantity) st.trades.dropLast
        ((restingOrders (opposing demoBook demoBuy.side)).take (st.trades.length - 1)) ∧
      (st.trades.map (fun t => t.price)).Pairwise (priceNotBetter demoBuy.side) ∧
      ((restingOrders (opposing demoBook demoBuy.side)).take st.trades.length).Pairwise
        (fun r1 r2 => r1.price = r2.price → timeBefore r1 r2) :=
  ⟨by decide, by decide, by decide,
    matchOrder_price_time_priority demoBook demoBuy 1 (by decide) (by decide)⟩

/-- Witness for C4: scenario S3, 150 shares change hands. -/
theorem matchOrder_quantity_conservation_witness :
    WellFormed demoBook ∧ demoBuy.isValid = true ∧
    (matchOrder demoBook demoBuy 1).map (fun st => tradedQuantity st.trades) = some 150 ∧
    ∃ st, matchOrder demoBook demoBuy 1 = some st ∧
      tradedQuantity st.trades = demoBuy.quantity - st.newOrder.quantity ∧
      tradedQuantity st.trades =
        totalQuantity (restingOrders (opposing demoBook demoBuy.side)) -
          totalQuantity (restingOrders (opposing st.book demoBuy.side)) :=
  ⟨by decide, by decide, by decide,
    matchOrder_quantity_conservation demoBook demoBuy 1 (by decide) (by decide)⟩

/-- Witness for C5: scenario S3, the limit 151 crosses the best ask 150. -/
theorem matchOrder_trades_iff_crossing_witness :
    WellFormed demoBook ∧ demoBuy.isValid = true ∧ demoBook.bestAsk = some 150 ∧
    ∃ st, matchOrder demoBook demoBuy 1 = some st ∧
      (demoBuy.side = OrderSide.BUY →
        (st.trades ≠ [] ↔ ∃ pa, demoBook.bestAsk = some pa ∧ demoBuy.price ≥ pa)) ∧
      (demoBuy.side = OrderSide.SELL →
        (st.trades ≠ [] ↔ ∃ pb, demoBook.bestBid = some pb ∧ pb ≥ demoBuy.price)) ∧
      (demoBuy.side = OrderSide.BUY → demoBook.bestAsk = some demoBuy.price → st.trades ≠ []) ∧
      (demoBuy.side = OrderSide.SELL → demoBook.bestBid = some demoBuy.price → st.trades ≠ []) ∧
      (st.trades = [] →
        st.newOrder = demoBuy ∧ st.book = demoBook.addOrder demoBuy ∧
        opposing st.book demoBuy.side = opposing demoBook demoBuy.side ∧
        ∀ r ∈ restingOrders (ownSide demoBook demoBuy.side),
          r ∈ restingOrders (ownSide st.book demoBuy.side)) :=
  ⟨by decide, by decide, by decide,
    matchOrder_trades_iff_crossing demoBook demoBuy 1 (by decide) (by decide)⟩

/-- Witness for C6: scenario S3, the incoming buy is filled completely. -/
theorem matchOrder_remainder_rests_iff_witness :
    WellFormed demoBook ∧ demoBuy.isValid = true ∧ FreshId demoBook demoBuy.orderId ∧
    ∃ st, matchOrder demoBook demoBuy 1 = some st ∧
      st.newOrder = { demoBuy with quantity := demoBuy.quantity - tradedQuantity st.trades } ∧
      0 ≤ st.newOrder.quantity ∧
      (0 < st.newOrder.quantity ↔
        ∃ lvl, (demoBuy.price, lvl) ∈ ownSide st.book demoBuy.side ∧ st.newOrder ∈ lvl) ∧
      (0 < st.newOrder.quantity ↔ st.book.getOrder demoBuy.orderId = some st.newOrder) ∧
      (st.newOrder.quantity = 0 →
        st.book.getOrder demoBuy.orderId = none ∧
        (∀ r ∈ restingOrders st.book.buyOrders, r.orderId ≠ demoBuy.orderId) ∧
        (∀ r ∈ restingOrders st.book.sellOrders, r.orderId ≠ demoBuy.orderId)) :=
  ⟨by decide, by decide, by decide,
    matchOrder_remainder_rests_iff demoBook demoBuy 1 (by decide) (by decide) (by decide)⟩

/-- Witness for C7: B sells 100 @ 150 into the bid of A, both registered. -/
theorem placeOrderDirect_cash_conservation_witness :
    ∃ s1, demoVenue.placeOrderDirect 2 "B" "AAPL" OrderSide.SELL 100 150 =
        some (s1, [demoTrade]) ∧
      totalCash s1.portfolios = totalCash demoVenue.portfolios := by
  have h : (demoVenue.placeOrderDirect 2 "B" "AAPL" OrderSide.SELL 100 150).map Prod.snd =
      some [demoTrade] := by decide
  obtain ⟨⟨s1, ts⟩, h1, h2⟩ := Option.map_eq_some'.1 h
  simp only at h2
  subst h2
  exact ⟨s1, h1,
    (placeOrderDirect_cash_conservation demoVenue 2 "B" "AAPL" OrderSide.SELL 100 150).2
      s1 _ h1 (by decide)⟩

/-- Counterexample to C9 as stated: a fresh portfolio sells 100 @ 200 and then
    buys 100 @ 180; the position is 0 again and the average cost is still 200. -/
theorem exact_cover_average_cost_counterexample :
    PortfolioReachable
      (((Portfolio.new "A" 100000).addTrade demoShortOpen false).addTrade demoShortCover true) ∧
    (((Portfolio.new "A" 100000).addTrade demoShortOpen false).addTrade
      demoShortCover true).getPosition "AAPL" = 0 ∧
    (((Portfolio.new "A" 100000).addTrade demoShortOpen false).addTrade
      demoShortCover true).getAverageCost "AAPL" = 200 ∧
    ¬ ((((Portfolio.new "A" 100000).addTrade demoShortOpen false).addTrade
      demoShortCover true).getAverageCost "AAPL" = 0) := by
  have havg : (((Portfolio.new "A" 100000).addTrade demoShortOpen false).addTrade
      demoShortCover true).getAverageCost "AAPL" = 200 := by
    norm_num [Portfolio.addTrade, Portfolio.addBuyTrade, Portfolio.addSellTrade, Portfolio.new,
      hmFind, hmAssign, Portfolio.getAverageCost, demoShortOpen, demoShortCover]
  refine ⟨?_, by decide, havg, ?_⟩
  · exact PortfolioReachable.trade demoShortCover true
      (PortfolioReachable.trade demoShortOpen false (PortfolioReachable.fresh "A" 100000)
        (by decide) (by decide)) (by decide) (by decide)
  · rw [havg]
    norm_num

/-- Witness for the amended C9: the exact cover of the short of 100 leaves the
    average cost where it was. -/
theorem exact_close_keeps_average_cost_witness :
    0 < demoShortCover.quantity ∧
    ((Portfolio.new "A" 100000).addTrade demoShortOpen false).getPosition
      demoShortCover.symbol < 0 ∧
    demoShortCover.quantity =
      -((Portfolio.new "A" 100000).addTrade demoShortOpen false).getPosition
        demoShortCover.symbol ∧
    (((Portfolio.new "A" 100000).addTrade demoShortOpen false).addTrade
      demoShortCover true).getPosition demoShortCover.symbol = 0 ∧
    (((Portfolio.new "A" 100000).addTrade demoShortOpen false).addTrade
      demoShortCover true).getAverageCost demoShortCover.symbol =
      ((Portfolio.new "A" 100000).addTrade demoShortOpen false).getAverageCost
        demoShortCover.symbol :=
  ⟨by decide, by decide, by decide,
    exact_close_keeps_average_cost.2.1 ((Portfolio.new "A" 100000).addTrade demoShortOpen false)
      demoShortCover (by decide) (by decide) (by decide)⟩

/-! ## Sequences of trades on one portfolio -/

/-- In idealised arithmetic `addTrade` changes the cash balance by exactly `-quantity*price` when
    applied as buyer and by exactly `+quantity*price` when applied as seller,
    for every portfolio and every trade; nothing else enters. -/
theorem addTrade_cash_exact (pf : Portfolio) (t : Trade) :
    (pf.addTrade t true).cashBalance = pf.cashBalance - (t.quantity : ℚ) * t.price ∧
    (pf.addTrade t false).cashBalance = pf.cashBalance + (t.quantity : ℚ) * t.price := by
  constructor
  · rw [addTrade_cash]; simp
  · rw [addTrade_cash]; simp

/-- Self-trade neutrality in idealised arithmetic.  For a trade whose buyer and seller are one
    registered user, one pass of `updatePortfoliosWithTrades` books the trade on
    that user's portfolio once as buyer and then once as seller; and booking a
    trade as buyer and then as seller leaves the cash balance and the position
    in every symbol as they were. -/
theorem self_trade_neutral (pf : Portfolio) (t : Trade) :
    ((pf.addTrade t true).addTrade t false).cashBalance = pf.cashBalance ∧
    (∀ s, ((pf.addTrade t true).addTrade t false).getPosition s = pf.getPosition s) ∧
    ∀ (ps : List (String × Portfolio)), t.buyUserId = t.sellUserId →
      hmFind ps t.buyUserId = some pf →
      hmFind (updatePortfoliosWithTrades ps [t]) t.buyUserId =
        some ((pf.addTrade t true).addTrade t false) := by
  refine ⟨?_, ?_, ?_⟩
  · rw [addTrade_cash, addTrade_cash]
    simp
  · intro s
    rw [addTrade_getPosition, addTrade_getPosition]
    by_cases h : t.symbol = s
    · simp [h]
    · simp [h]
  · intro ps hsame hfind
    unfold updatePortfoliosWithTrades applyTrade
    simp only [List.foldl_cons, List.foldl_nil, hfind, ← hsame, hmFind_hmAssign_self]

theorem hmFind_mem {κ ν : Type} [DecidableEq κ] (m : List (κ × ν)) (k : κ) (v : ν)
    (h : hmFind m k = some v) : (k, v) ∈ m := by
  induction m with
  | nil => simp [hmFind] at h
  | cons e rest ih =>
    obtain ⟨k0, v0⟩ := e
    unfold hmFind at h
    by_cases hk : k0 = k
    · simp only [hk, if_true, Option.some.injEq] at h
      subst hk; subst h
      exact List.mem_cons_self _ _
    · simp only [hk, if_false] at h
      exact List.mem_cons_of_mem _ (ih h)

theorem hmFind_writeThrough (old new : Order) (m : List (Int × Order)) (k : Int) :
    hmFind (writeThrough old new m) k =
      (hmFind m k).map (fun v => if v = old then new else v) := by
  induction m with
  | nil => rfl
  | cons e rest ih =>
    obtain ⟨k0, v0⟩ := e
    unfold writeThrough at ih ⊢
    rw [List.map_cons]
    by_cases hv : v0 = old
    · rw [if_pos hv]
      by_cases hk : k0 = k
      · simp [hmFind, hv, hk]
      · simp only [hmFind, hk, if_false]
        exact ih
    · rw [if_neg hv]
      by_cases hk : k0 = k
      · simp [hmFind, hv, hk]
      · simp only [hmFind, hk, if_false]
        exact ih

theorem IndexConsistent.lookup {b : OrderBook} (h : IndexConsistent b) {id : Int} {o : Order}
    (hf : hmFind b.orderLookup id = some o) : o.orderId = id ∧ o ∈ allOrders b :=
  h.1 (id, o) (hmFind_mem _ _ _ hf) hf

theorem IndexConsistent.unique {b : OrderBook} (h : IndexConsistent b) {x y : Order}
    (hx : x ∈ allOrders b) (hy : y ∈ allOrders b) (hid : x.orderId = y.orderId) : x = y := by
  have h1 := h.2 x hx
  have h2 := h.2 y hy
  rw [hid, h2] at h1
  exact (Option.some.inj h1).symm

theorem mem_allOrders_iff (b : OrderBook) (side : OrderSide) (x : Order) :
    x ∈ allOrders b ↔
      x ∈ restingOrders (ownSide b side) ∨ x ∈ restingOrders (opposing b side) := by
  unfold allOrders ownSide opposing
  cases side <;> simp only [List.mem_append]
  exact or_comm

theorem OrderSide.opposite_opposite (side : OrderSide) : side.opposite.opposite = side := by
  cases side <;> rfl

theorem OrderSide.opposite_ne (side : OrderSide) : side.opposite ≠ side := by
  cases side <;> simp [OrderSide.opposite]

theorem SideWF.mem_resting {side : OrderSide} {m : PriceMap} (h : SideWF side m) {x : Order}
    (hx : x ∈ restingOrders m) :
    ∃ lvl, (x.price, lvl) ∈ m ∧ x ∈ lvl ∧ x.side = side ∧ 0 < x.quantity := by
  unfold restingOrders at hx
  rw [List.mem_flatMap] at hx
  obtain ⟨e, he, hxe⟩ := hx
  obtain ⟨hp, hs, hq⟩ := h.2.2.2 e he x hxe
  refine ⟨e.2, ?_, hxe, hs, hq⟩
  rw [hp]
  exact he

theorem priorityBefore_irrefl (side : OrderSide) (a : Order) : ¬ priorityBefore side a a := by
  unfold priorityBefore timeBefore
  cases side <;> simp

theorem SideWF.resting_nodup {side : OrderSide} {m : PriceMap} (h : SideWF side m) :
    (restingOrders m).Nodup := by
  have h1 : SideWF side.opposite.opposite m := by
    rw [OrderSide.opposite_opposite]; exact h
  have h2 := h1.pairwise_priority
  unfold List.Nodup
  refine h2.imp ?_
  intro a b hab heq
  subst heq
  exact priorityBefore_irrefl _ _ hab

theorem WellFormed.mem_ownSide {b : OrderBook} (h : WellFormed b) {x : Order}
    (hx : x ∈ allOrders b) : x ∈ restingOrders (ownSide b x.side) := by
  unfold allOrders at hx
  rw [List.mem_append] at hx
  rcases hx with hx | hx
  · obtain ⟨_, _, _, hs, _⟩ := h.1.mem_resting hx
    rw [hs]; exact hx
  · obtain ⟨_, _, _, hs, _⟩ := h.2.mem_resting hx
    rw [hs]; exact hx

theorem WellFormed.allOrders_nodup {b : OrderBook} (h : WellFormed b) : (allOrders b).Nodup := by
  unfold allOrders
  rw [List.nodup_append]
  refine ⟨h.1.resting_nodup, h.2.resting_nodup, ?_⟩
  intro x hx1 hx2
  obtain ⟨_, _, _, hs1, _⟩ := h.1.mem_resting hx1
  obtain ⟨_, _, _, hs2, _⟩ := h.2.mem_resting hx2
  rw [hs1] at hs2
  exact absurd hs2 (by decide)

theorem setErase_eq_erase (o : Order) (lvl : Level)
    (h : ∀ x ∈ lvl, sameKey x o = true → x = o) : setErase o lvl = lvl.erase o := by
  induction lvl with
  | nil => rfl
  | cons x xs ih =>
    have ih1 := ih (fun y hy => h y (List.mem_cons_of_mem _ hy))
    unfold setErase at ih1 ⊢
    by_cases hk : sameKey x o = true
    · have hx := h x (List.mem_cons_self _ _) hk
      subst hx
      simp [List.eraseP_cons, hk]
    · have hne : x ≠ o := by
        intro hx
        subst hx
        exact hk (sameKey_self x)
      have hk1 : sameKey x o = false := by simpa using hk
      rw [List.eraseP_cons, hk1, cond_false, ih1, List.erase_cons_tail]
      simpa using hne

theorem mem_restingOrders_of_levelInsert (before : ℚ → ℚ → Bool) (o x : Order) (m : PriceMap)
    (hx : x ∈ restingOrders (levelInsert before o m)) : x = o ∨ x ∈ restingOrders m := by
  induction m with
  | nil =>
    simp only [levelInsert, restingOrders_cons, List.mem_append, List.mem_singleton] at hx
    rcases hx with hx | hx
    · exact Or.inl hx
    · exact Or.inr hx
  | cons e rest ih =>
    obtain ⟨p, lvl⟩ := e
    unfold levelInsert at hx
    by_cases h1 : before o.price p = true
    · simp only [h1, if_true] at hx
      rw [restingOrders_cons] at hx
      simp only [List.mem_append, List.mem_singleton] at hx
      rcases hx with hx | hx
      · exact Or.inl hx
      · exact Or.inr hx
    · by_cases h2 : before p o.price = true
      · simp only [h1, h2, if_true, if_false, Bool.false_eq_true] at hx
        rw [restingOrders_cons, List.mem_append] at hx
        rw [restingOrders_cons, List.mem_append]
        rcases hx with hx | hx
        · exact Or.inr (Or.inl hx)
        · rcases ih hx with hx | hx
          · exact Or.inl hx
          · exact Or.inr (Or.inr hx)
      · simp only [h1, h2, if_false, Bool.false_eq_true] at hx
        rw [restingOrders_cons, List.mem_append] at hx
        rw [restingOrders_cons, List.mem_append]
        rcases hx with hx | hx
        · rcases mem_setInsert o x lvl hx with hx | hx
          · exact Or.inl hx
          · exact Or.inr (Or.inl hx)
        · exact Or.inr (Or.inr hx)

theorem sideBefore_ne (side : OrderSide) (a b : ℚ) (h : sideBefore side a b = true) : a ≠ b := by
  intro hab
  subst hab
  cases side <;> simp [sideBefore, bidBefore, askBefore] at h

theorem SideWF.not_mem_tail {side : OrderSide} {p : ℚ} {lvl : Level} {rest : PriceMap}
    (h : SideWF side ((p, lvl) :: rest)) {o : Order} (hp : p = o.price) :
    o ∉ restingOrders rest := by
  intro ho
  obtain ⟨lvl1, hmem, _⟩ := h.tail.mem_resting ho
  have hk := h.1
  simp only [List.map_cons, List.pairwise_cons] at hk
  have := hk.1 o.price (List.mem_map.2 ⟨(o.price, lvl1), hmem, rfl⟩)
  exact sideBefore_ne side p o.price this hp

theorem removeFromLevels_of_not_mem (o : Order) (m : PriceMap) (hne : ∀ e ∈ m, e.2 ≠ [])
    (ho : o ∉ restingOrders m) : removeFromLevels o m = m := by
  induction m with
  | nil => rfl
  | cons e rest ih =>
    obtain ⟨p, lvl⟩ := e
    rw [restingOrders_cons, List.mem_append, not_or] at ho
    have ih1 := ih (fun e he => hne e (List.mem_cons_of_mem _ he)) ho.2
    have hl : lvl ≠ [] := hne (p, lvl) (List.mem_cons_self _ _)
    unfold removeFromLevels at ih1 ⊢
    rw [List.map_cons, List.filter_cons]
    simp only [List.erase_of_not_mem ho.1, ne_eq, hl, not_false_eq_true, decide_True, if_true]
    rw [ih1]

/-- Cancelling on a well-formed side: the order is taken out of its level, the
    level goes when it became empty, and nothing else moves. -/
theorem SideWF.levelErase_eq {side : OrderSide} {m : PriceMap} (h : SideWF side m) {o : Order}
    (ho : o ∈ restingOrders m) (hu : ∀ x ∈ restingOrders m, sameKey x o = true → x = o) :
    levelErase o m = removeFromLevels o m ∧
      restingOrders (levelErase o m) = (restingOrders m).erase o := by
  induction m with
  | nil => simp [restingOrders] at ho
  | cons e rest ih =>
    obtain ⟨p, lvl⟩ := e
    rw [restingOrders_cons, List.mem_append] at ho
    by_cases hp : p = o.price
    · have hnot := h.not_mem_tail hp
      have hol : o ∈ lvl := by
        rcases ho with ho | ho
        · exact ho
        · exact absurd ho hnot
      have hset : setErase o lvl = lvl.erase o := by
        apply setErase_eq_erase
        intro x hx hk
        apply hu x _ hk
        rw [restingOrders_cons, List.mem_append]
        exact Or.inl hx
      have hrest : removeFromLevels o rest = rest :=
        removeFromLevels_of_not_mem o rest (fun e he => h.2.2.1 e (List.mem_cons_of_mem _ he)) hnot
      constructor
      · simp only [levelErase, hp, if_true, hset]
        unfold removeFromLevels at hrest ⊢
        rw [List.map_cons, List.filter_cons, hrest]
        by_cases hnil : lvl.erase o = []
        · simp [hnil]
        · simp [hnil, hp]
      · simp only [levelErase, hp, if_true, hset]
        rw [restingOrders_pop, restingOrders_cons, List.erase_append_left _ hol]
    · have hnl : o ∉ lvl := by
        intro hol
        exact hp (h.2.2.2 (p, lvl) (List.mem_cons_self _ _) o hol).1.symm
      have hor : o ∈ restingOrders rest := by
        rcases ho with ho | ho
        · exact absurd ho hnl
        · exact ho
      have ih1 := ih h.tail hor (fun x hx hk => hu x (by
        rw [restingOrders_cons, List.mem_append]; exact Or.inr hx) hk)
      have hl : lvl ≠ [] := h.2.2.1 (p, lvl) (List.mem_cons_self _ _)
      constructor
      · simp only [levelErase, hp, if_false]
        rw [ih1.1]
        unfold removeFromLevels
        rw [List.map_cons, List.filter_cons]
        simp only [List.erase_of_not_mem hnl, ne_eq, hl, not_false_eq_true, decide_True, if_true]
      · simp only [levelErase, hp, if_false]
        rw [restingOrders_cons, restingOrders_cons, ih1.2, List.erase_append_right _ hnl]

theorem cancelOrder_of_none {b : OrderBook} {id : Int} (hf : hmFind b.orderLookup id = none) :
    b.cancelOrder id = (b, false) := by
  unfold OrderBook.cancelOrder
  rw [hf]

theorem cancelOrder_of_some {b : OrderBook} {id : Int} {o : Order}
    (hf : hmFind b.orderLookup id = some o) :
    (b.cancelOrder id).2 = true ∧
      ownSide (b.cancelOrder id).1 o.side = levelErase o (ownSide b o.side) ∧
      opposing (b.cancelOrder id).1 o.side = opposing b o.side ∧
      (b.cancelOrder id).1.orderLookup = hmErase b.orderLookup id ∧
      (b.cancelOrder id).1.symbol = b.symbol := by
  unfold OrderBook.cancelOrder
  rw [hf]
  cases hs : o.side <;> simp [hs, ownSide, opposing]

theorem IndexConsistent.sameKey_eq {b : OrderBook} (h : IndexConsistent b) {x o : Order}
    (hx : x ∈ allOrders b) (ho : o ∈ allOrders b) (hk : sameKey x o = true) : x = o :=
  h.unique hx ho ((sameKey_iff x o).1 hk).2

/-- The resting orders after a successful cancel are the resting orders before
    without the cancelled one. -/
theorem mem_allOrders_cancel {b : OrderBook} (hwf : WellFormed b) (hic : IndexConsistent b)
    {id : Int} {o : Order} (hf : hmFind b.orderLookup id = some o) (x : Order) :
    x ∈ allOrders (b.cancelOrder id).1 ↔ x ∈ allOrders b ∧ x ≠ o := by
  obtain ⟨_, hown, hopp, _, _⟩ := cancelOrder_of_some hf
  obtain ⟨hid, hmem⟩ := hic.lookup hf
  have ho := hwf.mem_ownSide hmem
  have hside := hwf.own_side o.side
  have hu : ∀ y ∈ restingOrders (ownSide b o.side), sameKey y o = true → y = o := by
    intro y hy hk
    exact hic.sameKey_eq ((mem_allOrders_iff b o.side y).2 (Or.inl hy)) hmem hk
  have herase := (hside.levelErase_eq ho hu).2
  rw [mem_allOrders_iff _ o.side, mem_allOrders_iff b o.side, hown, hopp, herase,
    hside.resting_nodup.mem_erase_iff]
  constructor
  · rintro (⟨hne, hx⟩ | hx)
    · exact ⟨Or.inl hx, hne⟩
    · refine ⟨Or.inr hx, ?_⟩
      intro hxo
      subst hxo
      have h1 := hwf.opposing_side x.side
      obtain ⟨_, _, _, hs, _⟩ := h1.mem_resting hx
      exact OrderSide.opposite_ne _ hs.symm
  · rintro ⟨hx | hx, hne⟩
    · exact Or.inl ⟨hne, hx⟩
    · exact Or.inr hx

theorem IndexConsistent.after_cancel {b : OrderBook} (hwf : WellFormed b) (hic : IndexConsistent b)
    (id : Int) : IndexConsistent (b.cancelOrder id).1 := by
  cases hf : hmFind b.orderLookup id with
  | none => rw [cancelOrder_of_none hf]; exact hic
  | some o =>
    obtain ⟨_, _, _, hlk, _⟩ := cancelOrder_of_some hf
    obtain ⟨hid, hmem⟩ := hic.lookup hf
    constructor
    · intro e _ he
      rw [hlk] at he
      have hne : id ≠ e.1 := by
        intro heq
        rw [← heq, hmFind_hmErase_self] at he
        exact Option.noConfusion he
      rw [hmFind_hmErase_ne _ _ _ hne] at he
      obtain ⟨h1, h2⟩ := hic.lookup he
      refine ⟨h1, (mem_allOrders_cancel hwf hic hf e.2).2 ⟨h2, ?_⟩⟩
      intro heq
      rw [heq, hid] at h1
      exact hne h1
    · intro r hr
      obtain ⟨h1, h2⟩ := (mem_allOrders_cancel hwf hic hf r).1 hr
      rw [hlk]
      have hne : id ≠ r.orderId := by
        intro heq
        apply h2
        apply hic.unique h1 hmem
        rw [hid, heq]
      rw [hmFind_hmErase_ne _ _ _ hne]
      exact hic.2 r h1

theorem mem_allOrders_addOrder {b : OrderBook} {o : Order} (hv : o.isValid = true) (x : Order) :
    (x ∈ allOrders (b.addOrder o) → x = o ∨ x ∈ allOrders b) ∧
      (x ∈ allOrders b → x ∈ allOrders (b.addOrder o)) := by
  rw [mem_allOrders_iff _ o.side, mem_allOrders_iff b o.side, ownSide_addOrder b o hv,
    opposing_addOrder]
  constructor
  · rintro (hx | hx)
    · rcases mem_restingOrders_of_levelInsert _ o x _ hx with h | h
      · exact Or.inl h
      · exact Or.inr (Or.inl h)
    · exact Or.inr (Or.inr hx)
  · rintro (hx | hx)
    · exact Or.inl (mem_restingOrders_levelInsert _ o x _ hx)
    · exact Or.inr hx

theorem IndexConsistent.not_resting {b : OrderBook} (hic : IndexConsistent b) {id : Int}
    (hnone : hmFind b.orderLookup id = none) : ∀ x ∈ allOrders b, x.orderId ≠ id := by
  intro x hx heq
  have := hic.2 x hx
  rw [heq, hnone] at this
  exact Option.noConfusion this

theorem mem_allOrders_addOrder_self {b : OrderBook} {o : Order} (hv : o.isValid = true)
    (hfresh : ∀ x ∈ allOrders b, x.orderId ≠ o.orderId) : o ∈ allOrders (b.addOrder o) := by
  rw [mem_allOrders_iff _ o.side, ownSide_addOrder b o hv]
  left
  obtain ⟨lvl, h1, h2⟩ := mem_levelInsert_self o.side o (ownSide b o.side)
    (fun x hx => hfresh x ((mem_allOrders_iff b o.side x).2 (Or.inl hx)))
  exact mem_restingOrders_of_mem h1 h2

theorem IndexConsistent.after_add {b : OrderBook} (hic : IndexConsistent b) (o : Order)
    (hv : o.isValid = true) (hnone : hmFind b.orderLookup o.orderId = none) :
    IndexConsistent (b.addOrder o) := by
  have hfresh := hic.not_resting hnone
  constructor
  · intro e _ he
    rw [orderLookup_addOrder b o hv] at he
    by_cases hk : o.orderId = e.1
    · rw [← hk, hmFind_hmAssign_self] at he
      have he2 : e.2 = o := (Option.some.inj he).symm
      rw [he2]
      exact ⟨hk, mem_allOrders_addOrder_self hv hfresh⟩
    · rw [hmFind_hmAssign_ne _ _ _ _ hk] at he
      obtain ⟨h1, h2⟩ := hic.lookup he
      exact ⟨h1, (mem_allOrders_addOrder hv e.2).2 h2⟩
  · intro r hr
    rw [orderLookup_addOrder b o hv]
    rcases (mem_allOrders_addOrder hv r).1 hr with h | h
    · rw [h, hmFind_hmAssign_self]
    · have hne : o.orderId ≠ r.orderId := fun heq => hfresh r h heq.symm
      rw [hmFind_hmAssign_ne _ _ _ _ hne]
      exact hic.2 r h

/-- A resting order that is filled completely leaves the levels and the lookup
    together. -/
theorem IndexConsistent.fill_full {b b1 : OrderBook} (hic : IndexConsistent b) {r : Order}
    (hr : r ∈ allOrders b) (r0 : Order)
    (hl : b1.orderLookup = hmErase (writeThrough r r0 b.orderLookup) r.orderId)
    (hm : ∀ x, x ∈ allOrders b1 ↔ x ∈ allOrders b ∧ x ≠ r) : IndexConsistent b1 := by
  constructor
  · intro e _ he
    rw [hl] at he
    have hne : r.orderId ≠ e.1 := by
      intro heq
      rw [← heq, hmFind_hmErase_self] at he
      exact Option.noConfusion he
    rw [hmFind_hmErase_ne _ _ _ hne, hmFind_writeThrough] at he
    cases hf : hmFind b.orderLookup e.1 with
    | none => rw [hf] at he; exact Option.noConfusion he
    | some v =>
      rw [hf] at he
      obtain ⟨h1, h2⟩ := hic.lookup hf
      have hvr : v ≠ r := by
        intro heq
        rw [heq] at h1
        exact hne h1
      simp only [Option.map_some', hvr, if_false, Option.some.injEq] at he
      rw [← he]
      exact ⟨h1, (hm v).2 ⟨h2, hvr⟩⟩
  · intro x hx
    obtain ⟨h1, h2⟩ := (hm x).1 hx
    have hne : r.orderId ≠ x.orderId := fun heq => h2 (hic.unique h1 hr heq.symm)
    rw [hl, hmFind_hmErase_ne _ _ _ hne, hmFind_writeThrough, hic.2 x h1]
    simp [h2]

/-- A resting order that is filled in part is updated in its level and in the
    lookup together. -/
theorem IndexConsistent.fill_partial {b b1 : OrderBook} (hic : IndexConsistent b) {r : Order}
    (hr : r ∈ allOrders b) (r1 : Order) (hid : r1.orderId = r.orderId)
    (hl : b1.orderLookup = writeThrough r r1 b.orderLookup)
    (hm : ∀ x, x ∈ allOrders b1 ↔ x = r1 ∨ (x ∈ allOrders b ∧ x ≠ r)) :
    IndexConsistent b1 := by
  constructor
  · intro e _ he
    rw [hl, hmFind_writeThrough] at he
    cases hf : hmFind b.orderLookup e.1 with
    | none => rw [hf] at he; exact Option.noConfusion he
    | some v =>
      rw [hf] at he
      obtain ⟨h1, h2⟩ := hic.lookup hf
      by_cases hvr : v = r
      · simp only [Option.map_some', hvr, if_true, Option.some.injEq] at he
        rw [← he]
        refine ⟨?_, (hm r1).2 (Or.inl rfl)⟩
        rw [hid, ← hvr]
        exact h1
      · simp only [Option.map_some', hvr, if_false, Option.some.injEq] at he
        rw [← he]
        exact ⟨h1, (hm v).2 (Or.inr ⟨h2, hvr⟩)⟩
  · intro x hx
    rw [hl, hmFind_writeThrough]
    rcases (hm x).1 hx with h | ⟨h1, h2⟩
    · rw [h, hid, hic.2 r hr]
      simp
    · rw [hic.2 x h1]
      simp [h2]

@[simp] theorem ownSide_withLookup (b : OrderBook) (l : List (Int × Order)) (side : OrderSide) :
    ownSide { b with orderLookup := l } side = ownSide b side := by
  cases side <;> rfl

/-- Where the orders of a book are when the head of the opposing side is `r`:
    on the own side, or `r`, or behind `r`. -/
theorem mem_allOrders_opposing_head {b : OrderBook} {side : OrderSide} {bp : ℚ} {r : Order}
    {others : Level} {rest : PriceMap} (hown : SideWF side (ownSide b side))
    (hopp : SideWF side.opposite (opposing b side))
    (he : opposing b side = (bp, r :: others) :: rest) (x : Order) :
    (x ∈ allOrders b ∧ x ≠ r) ↔
      x ∈ restingOrders (ownSide b side) ∨ x ∈ others ++ restingOrders rest := by
  have hnd := hopp.resting_nodup
  rw [he, restingOrders_cons, List.cons_append, List.nodup_cons] at hnd
  have hrs : r.side = side.opposite := by
    have hmem : r ∈ restingOrders (opposing b side) := by
      rw [he, restingOrders_cons]; simp
    obtain ⟨_, _, _, hs, _⟩ := hopp.mem_resting hmem
    exact hs
  rw [mem_allOrders_iff b side, he, restingOrders_cons, List.cons_append, List.mem_cons]
  constructor
  · rintro ⟨hx | hx | hx, hne⟩
    · exact Or.inl hx
    · exact absurd hx hne
    · exact Or.inr hx
  · rintro (hx | hx)
    · refine ⟨Or.inl hx, ?_⟩
      intro heq
      obtain ⟨_, _, _, hs, _⟩ := hown.mem_resting hx
      rw [heq, hrs] at hs
      exact OrderSide.opposite_ne _ hs
    · refine ⟨Or.inr (Or.inr hx), ?_⟩
      intro heq
      rw [heq] at hx
      exact hnd.1 hx

/-- One pass of the matching loop keeps the lookup and the levels together and
    does not touch the side of the incoming order. -/
theorem matchStep_indexConsistent {st st1 : MatchState}
    (hown : SideWF st.newOrder.side (ownSide st.book st.newOrder.side))
    (hopp : SideWF st.newOrder.side.opposite (opposing st.book st.newOrder.side))
    (hic : IndexConsistent st.book) (h : matchStep st = some st1) :
    IndexConsistent st1.book ∧
      ownSide st1.book st.newOrder.side = ownSide st.book st.newOrder.side := by
  obtain ⟨bp, r, others, rest, he, hq, _, _, hrq, _, _, _, hbook⟩ := matchStep_eq_some hopp h
  have hchar := mem_allOrders_opposing_head hown hopp he
  have hr : r ∈ allOrders st.book := by
    rw [mem_allOrders_iff _ st.newOrder.side, he, restingOrders_cons]
    right; simp
  rcases hbook with ⟨_, hb⟩ | ⟨hlt, hb⟩
  · constructor
    · apply hic.fill_full hr { r with quantity := 0 }
      · rw [hb]; simp
      · intro x
        rw [hchar x, mem_allOrders_iff _ st.newOrder.side, hb]
        simp only [ownSide_setOpposing, ownSide_withLookup, opposing_setOpposing,
          restingOrders_pop]
    · rw [hb]; simp
  · constructor
    · apply hic.fill_partial hr { r with quantity := r.quantity - st.newOrder.quantity } rfl
      · rw [hb]; simp
      · intro x
        rw [hchar x, mem_allOrders_iff _ st.newOrder.side, hb]
        simp only [ownSide_setOpposing, ownSide_withLookup, opposing_setOpposing,
          restingOrders_cons, List.cons_append, List.mem_cons]
        tauto
    · rw [hb]; simp

/-- The matching loop keeps the lookup and the levels together. -/
theorem matchLoop_indexConsistent (fuel : Nat) (st st2 : MatchState)
    (hown : SideWF st.newOrder.side (ownSide st.book st.newOrder.side))
    (hopp : SideWF st.newOrder.side.opposite (opposing st.book st.newOrder.side))
    (hic : IndexConsistent st.book) (h : matchLoop fuel st = some st2) :
    IndexConsistent st2.book := by
  refine matchLoop_induct
    (fun st => SideWF st.newOrder.side (ownSide st.book st.newOrder.side) ∧
      SideWF st.newOrder.side.opposite (opposing st.book st.newOrder.side) ∧
      IndexConsistent st.book)
    (fun _ st2 => IndexConsistent st2.book) ?_ ?_ ?_ fuel st st2 ⟨hown, hopp, hic⟩ h
  · intro s s1 ⟨h1, h2, h3⟩ hs
    obtain ⟨hside, hopp1⟩ := matchStep_preserves_side h2 hs
    obtain ⟨hic1, hown1⟩ := matchStep_indexConsistent h1 h2 h3 hs
    refine ⟨?_, hopp1, hic1⟩
    rw [hside, hown1]
    exact h1
  · intro s ⟨_, _, h3⟩ _
    exact h3
  · intro s s1 s2 _ _ hr
    exact hr

/-- A `matchOrder` call with an order whose id is not known to the book keeps
    the lookup and the levels together; afterwards the book knows no id above
    that of the order. -/
theorem matchOrder_indexConsistent {b : OrderBook} (hwf : WellFormed b)
    (hic : IndexConsistent b) (o : Order) (n : Int)
    (hbound : ∀ id, o.orderId ≤ id → hmFind b.orderLookup id = none)
    {st : MatchState} (h : matchOrder b o n = some st) :
    IndexConsistent st.book ∧ ∀ id, o.orderId + 1 ≤ id → hmFind st.book.orderLookup id = none := by
  by_cases hv : o.isValid = true
  · obtain ⟨st0, hloop, hres, hm⟩ := matchOrder_spec b o n hwf hv
    obtain ⟨_, r2, _, _, _, _, _, _, _, _⟩ := hres
    simp only at r2
    have hic0 : IndexConsistent st0.book :=
      matchLoop_indexConsistent _ _ _ (hwf.own_side o.side) (hwf.opposing_side o.side) hic hloop
    have hb0 : ∀ id, o.orderId ≤ id → hmFind st0.book.orderLookup id = none := by
      intro id hid
      exact matchLoop_lookup_none id _ _ _ (hwf.opposing_side o.side) hloop (hbound id hid)
    rw [hm] at h
    simp only [Option.some.injEq] at h
    by_cases hpos : 0 < st0.newOrder.quantity
    · simp only [gt_iff_lt, hpos, if_true] at h
      rw [← h]
      simp only
      obtain ⟨_, hp, hsym, husr⟩ := (Order.isValid_iff o).1 hv
      have hv0 : st0.newOrder.isValid = true := by
        rw [Order.isValid_iff]
        refine ⟨hpos, ?_, ?_, ?_⟩ <;> rw [r2] <;> assumption
      have hid0 : st0.newOrder.orderId = o.orderId := by rw [r2]
      constructor
      · apply hic0.after_add _ hv0
        rw [hid0]
        exact hb0 _ (le_refl _)
      · intro id hid
        rw [orderLookup_addOrder _ _ hv0, hid0, hmFind_hmAssign_ne _ _ _ _ (by omega)]
        exact hb0 id (by omega)
    · simp only [gt_iff_lt, hpos, if_false] at h
      rw [← h]
      exact ⟨hic0, fun id hid => hb0 id (by omega)⟩
  · unfold matchOrder at h
    simp only [hv, Bool.not_false, if_true, Option.some.injEq] at h
    rw [← h]
    exact ⟨hic, fun id hid => hbound id (by omega)⟩

theorem updateSystemStatistics_nextOrderId (s : TradeBookingSystem) (trades : List Trade) :
    (updateSystemStatistics s trades).nextOrderId = s.nextOrderId := by
  unfold updateSystemStatistics
  induction trades generalizing s with
  | nil => rfl
  | cons t ts ih =>
    simp only [List.foldl_cons]
    exact ih _

theorem processTradeResults_nextOrderId (s : TradeBookingSystem) (trades : List Trade) :
    (processTradeResults s trades).nextOrderId = s.nextOrderId := by
  unfold processTradeResults
  split
  · rfl
  · exact updateSystemStatistics_nextOrderId _ _

theorem indexConsistent_empty (sym : String) : IndexConsistent (OrderBook.new sym) := by
  constructor
  · intro e he
    simp [OrderBook.new] at he
  · intro r hr
    simp [OrderBook.new, allOrders, restingOrders] at hr

theorem hmAssign_hmAssign {κ ν : Type} [DecidableEq κ] (m : List (κ × ν)) (k : κ) (v w : ν) :
    hmAssign (hmAssign m k v) k w = hmAssign m k w := by
  induction m with
  | nil => simp [hmAssign]
  | cons e rest ih =>
    obtain ⟨k0, v0⟩ := e
    by_cases hk : k0 = k
    · simp [hmAssign, hk]
    · simp [hmAssign, hk, ih]

/-- What `placeOrderDirect` does to the books of the venue: the book of the
    symbol (a new empty one when there was none) goes through `matchOrder`
    with an order carrying the next order id, and is stored back. -/
theorem placeOrderDirect_books {s s1 : TradeBookingSystem} {trades : List Trade}
    {now : Int} {userId symbol : String} {side : OrderSide} {quantity : Int} {price : ℚ}
    (h : s.placeOrderDirect now userId symbol side quantity price = some (s1, trades)) :
    ∃ st : MatchState,
      matchOrder ((hmFind s.orderBooks symbol).getD (OrderBook.new symbol))
        { orderId := s.nextOrderId, symbol := symbol, side := side, quantity := quantity,
          price := price, timestamp := now, type := OrderType.LIMIT, userId := userId }
        s.nextTradeId = some st ∧
      trades = st.trades ∧
      s1.nextOrderId = s.nextOrderId + 1 ∧
      s1.orderBooks = hmAssign s.orderBooks symbol st.book := by
  unfold TradeBookingSystem.placeOrderDirect at h
  simp only at h
  cases hf : hmFind s.orderBooks symbol with
  | none =>
    rw [hf] at h
    simp only [hmFind_hmAssign_self, Option.getD_some] at h
    split at h
    · simp at h
    · rename_i st hst
      simp only [Option.some.injEq, Prod.mk.injEq] at h
      refine ⟨st, ?_, h.2.symm, ?_, ?_⟩
      · simpa using hst
      · rw [← h.1, processTradeResults_nextOrderId]
      · rw [← h.1, processTradeResults_orderBooks]
        simp only
        rw [hmAssign_hmAssign]
  | some bk =>
    rw [hf] at h
    simp only [hf, Option.getD_some] at h
    split at h
    · simp at h
    · rename_i st hst
      simp only [Option.some.injEq, Prod.mk.injEq] at h
      refine ⟨st, ?_, h.2.symm, ?_, ?_⟩
      · simpa using hst
      · rw [← h.1, processTradeResults_nextOrderId]
      · rw [← h.1, processTradeResults_orderBooks]

theorem VenueIdx.place_order {s s1 : TradeBookingSystem} {trades : List Trade}
    {now : Int} {userId symbol : String} {side : OrderSide} {quantity : Int} {price : ℚ}
    (hinv : VenueInv s) (hidx : VenueIdx s)
    (h : s.placeOrderDirect now userId symbol side quantity price = some (s1, trades)) :
    VenueIdx s1 := by
  obtain ⟨st, hm, _, hn, hb⟩ := placeOrderDirect_books h
  have hbook : WellFormed ((hmFind s.orderBooks symbol).getD (OrderBook.new symbol)) ∧
      IndexConsistent ((hmFind s.orderBooks symbol).getD (OrderBook.new symbol)) ∧
      ∀ id, s.nextOrderId ≤ id →
        hmFind ((hmFind s.orderBooks symbol).getD (OrderBook.new symbol)).orderLookup id =
          none := by
    cases hf : hmFind s.orderBooks symbol with
    | none =>
      simp only [Option.getD_none]
      exact ⟨(BookInv.empty symbol).1, indexConsistent_empty symbol, fun _ _ => rfl⟩
    | some bk =>
      simp only [Option.getD_some]
      exact ⟨(hinv symbol bk hf).1, (hidx symbol bk hf).1, (hidx symbol bk hf).2⟩
  obtain ⟨hwf, hic, hbound⟩ := hbook
  obtain ⟨hic1, hb1⟩ := matchOrder_indexConsistent hwf hic _ s.nextTradeId hbound hm
  intro sym bk hfind
  rw [hb] at hfind
  rw [hn]
  by_cases hk : symbol = sym
  · rw [← hk, hmFind_hmAssign_self] at hfind
    simp only [Option.some.injEq] at hfind
    rw [← hfind]
    exact ⟨hic1, hb1⟩
  · rw [hmFind_hmAssign_ne _ _ _ _ hk] at hfind
    exact ⟨(hidx sym bk hfind).1, fun id hid => (hidx sym bk hfind).2 id (by omega)⟩

theorem VenueIdx.cancel_order {s : TradeBookingSystem} (hinv : VenueInv s) (hidx : VenueIdx s)
    (symbol : String) (orderId : Int) : VenueIdx (s.cancelOrderDirect symbol orderId) := by
  unfold TradeBookingSystem.cancelOrderDirect
  cases hf : hmFind s.orderBooks symbol with
  | none => exact hidx
  | some book =>
    simp only
    intro sym bk hfind
    by_cases hk : symbol = sym
    · rw [← hk, hmFind_hmAssign_self] at hfind
      simp only [Option.some.injEq] at hfind
      rw [← hfind]
      refine ⟨(hidx symbol book hf).1.after_cancel (hinv symbol book hf).1 orderId, ?_⟩
      intro id hid
      cases hc : hmFind book.orderLookup orderId with
      | none =>
        rw [cancelOrder_of_none hc]
        exact (hidx symbol book hf).2 id hid
      | some o =>
        rw [(cancelOrder_of_some hc).2.2.2.1]
        exact hmFind_hmErase_of_none _ _ _ ((hidx symbol book hf).2 id hid)
    · rw [hmFind_hmAssign_ne _ _ _ _ hk] at hfind
      exact hidx sym bk hfind

theorem Reachable.venueIdx {s : TradeBookingSystem} (h : Reachable s) : VenueIdx s := by
  induction h with
  | fresh =>
    intro sym bk hfind
    simp [TradeBookingSystem.new, hmFind] at hfind
  | place now userId symbol side quantity price hr hplace ih =>
    exact ih.place_order hr.venueInv hplace
  | cancel symbol orderId hr ih => exact ih.cancel_order hr.venueInv symbol orderId

theorem erase_eq_nil_of_mem {o : Order} {lvl : Level} (ho : o ∈ lvl) (h : lvl.erase o = []) :
    lvl = [o] := by
  cases lvl with
  | nil => simp at ho
  | cons x xs =>
    by_cases hx : x = o
    · subst hx
      simp only [List.erase_cons_head] at h
      rw [h]
    · have hne : ¬ (x == o) = true := by simpa using hx
      rw [List.erase_cons_tail hne] at h
      exact List.noConfusion h

/-- The first key of a side changes under a cancel only when the cancelled
    order was alone in the first level. -/
theorem SideWF.levelErase_head {side : OrderSide} {m : PriceMap} (h : SideWF side m) {o : Order}
    (ho : o ∈ restingOrders m) (hu : ∀ x ∈ restingOrders m, sameKey x o = true → x = o)
    (hne : (levelErase o m).head?.map Prod.fst ≠ m.head?.map Prod.fst) :
    m.head? = some (o.price, [o]) := by
  cases m with
  | nil => simp [restingOrders] at ho
  | cons e rest =>
    obtain ⟨p, lvl⟩ := e
    by_cases hp : p = o.price
    · have hnot := h.not_mem_tail hp
      rw [restingOrders_cons, List.mem_append] at ho
      have hol : o ∈ lvl := by
        rcases ho with ho | ho
        · exact ho
        · exact absurd ho hnot
      have hset : setErase o lvl = lvl.erase o := by
        apply setErase_eq_erase
        intro x hx hk
        apply hu x _ hk
        rw [restingOrders_cons, List.mem_append]
        exact Or.inl hx
      by_cases hnil : lvl.erase o = []
      · rw [erase_eq_nil_of_mem hol hnil, hp]
        rfl
      · exfalso
        apply hne
        simp only [levelErase, hp, if_true, hset, hnil, if_false, List.head?_cons,
          Option.map_some']
    · exfalso
      apply hne
      simp only [levelErase, hp, if_false, List.head?_cons, Option.map_some']

theorem cancelOrder_twice (b : OrderBook) (id : Int)
    (h : (hmFind b.orderLookup id).isSome = true) :
    (b.cancelOrder id).2 = true ∧
      ((b.cancelOrder id).1.cancelOrder id).2 = false ∧
      ((b.cancelOrder id).1.cancelOrder id).1 = (b.cancelOrder id).1 := by
  cases hf : hmFind b.orderLookup id with
  | none => rw [hf] at h; exact absurd h (by decide)
  | some o =>
    obtain ⟨h1, _, _, hlk, _⟩ := cancelOrder_of_some hf
    have hnone : hmFind (b.cancelOrder id).1.orderLookup id = none := by
      rw [hlk]; exact hmFind_hmErase_self _ _
    rw [cancelOrder_of_none hnone]
    exact ⟨h1, rfl, rfl⟩

/-! ## Claims about cancelling and the id lookup -/

/-- C16. Cancel idempotence.  In a book whose id lookup and price levels hold
    the same orders, for every order `r` resting in it `cancelOrder(r.orderId)`
    returns true, an immediately following `cancelOrder(r.orderId)` returns false,
    and the book after the second call (both sides, the id lookup, the symbol)
    equals the book after the first. -/
theorem cancelOrder_idempotent (b : OrderBook) (r : Order) (hic : IndexConsistent b)
    (hr : r ∈ allOrders b) :
    (b.cancelOrder r.orderId).2 = true ∧
    ((b.cancelOrder r.orderId).1.cancelOrder r.orderId).2 = false ∧
    ((b.cancelOrder r.orderId).1.cancelOrder r.orderId).1 = (b.cancelOrder r.orderId).1 := by
  apply cancelOrder_twice
  rw [hic.2 r hr]
  rfl

/-- Witness for C16: cancelling the bid of the book with one bid and one ask. -/
theorem cancelOrder_idempotent_witness :
    IndexConsistent demoBookBidAsk ∧ demoBid149 ∈ allOrders demoBookBidAsk ∧
    (demoBookBidAsk.cancelOrder 1).1.buyOrders = [] ∧
    (demoBookBidAsk.cancelOrder demoBid149.orderId).2 = true ∧
    ((demoBookBidAsk.cancelOrder demoBid149.orderId).1.cancelOrder demoBid149.orderId).2 =
      false ∧
    ((demoBookBidAsk.cancelOrder demoBid149.orderId).1.cancelOrder demoBid149.orderId).1 =
      (demoBookBidAsk.cancelOrder demoBid149.orderId).1 :=
  ⟨by decide, by decide, by decide,
    cancelOrder_idempotent demoBookBidAsk demoBid149 (by decide) (by decide)⟩

/-- C17. The effect of `cancelOrder(id)` on a well-formed book whose id lookup
    and price levels hold the same orders.  It returns true exactly when `id` is
    in the id lookup; when it returns false the book is unchanged; when the
    lookup holds the order `o` for `id`, `o` rests on its own side, that side
    becomes the old side with `o` taken out of its level and the level deleted
    if it became empty (so every other order keeps its level, its place in the
    level and its record), the other side and the symbol are unchanged, the
    lookup loses `id` and nothing else, and the best bid or best ask changes only
    when `o` was alone in the first level of its side. -/
theorem cancelOrder_frame (b : OrderBook) (id : Int) (hwf : WellFormed b)
    (hic : IndexConsistent b) :
    ((b.cancelOrder id).2 = true ↔ (hmFind b.orderLookup id).isSome = true) ∧
    ((b.cancelOrder id).2 = false → (b.cancelOrder id).1 = b) ∧
    ∀ o, hmFind b.orderLookup id = some o →
      (b.cancelOrder id).2 = true ∧ o.orderId = id ∧
      o ∈ restingOrders (ownSide b o.side) ∧
      ownSide (b.cancelOrder id).1 o.side = removeFromLevels o (ownSide b o.side) ∧
      restingOrders (ownSide (b.cancelOrder id).1 o.side) =
        (restingOrders (ownSide b o.side)).erase o ∧
      o ∉ allOrders (b.cancelOrder id).1 ∧
      opposing (b.cancelOrder id).1 o.side = opposing b o.side ∧
      (b.cancelOrder id).1.symbol = b.symbol ∧
      (b.cancelOrder id).1.getOrder id = none ∧
      (∀ k, k ≠ id → (b.cancelOrder id).1.getOrder k = b.getOrder k) ∧
      ((b.cancelOrder id).1.bestBid ≠ b.bestBid ∨ (b.cancelOrder id).1.bestAsk ≠ b.bestAsk →
        (ownSide b o.side).head? = some (o.price, [o])) := by
  refine ⟨?_, ?_, ?_⟩
  · cases hf : hmFind b.orderLookup id with
    | none => rw [cancelOrder_of_none hf]; simp
    | some o => simp [(cancelOrder_of_some hf).1]
  · intro hfalse
    cases hf : hmFind b.orderLookup id with
    | none => rw [cancelOrder_of_none hf]
    | some o =>
      rw [(cancelOrder_of_some hf).1] at hfalse
      exact absurd hfalse (by decide)
  · intro o hf
    obtain ⟨h1, hown, hopp, hlk, hsym⟩ := cancelOrder_of_some hf
    obtain ⟨hid, hmem⟩ := hic.lookup hf
    have ho := hwf.mem_ownSide hmem
    have hside := hwf.own_side o.side
    have hu : ∀ y ∈ restingOrders (ownSide b o.side), sameKey y o = true → y = o := by
      intro y hy hk
      exact hic.sameKey_eq ((mem_allOrders_iff b o.side y).2 (Or.inl hy)) hmem hk
    obtain ⟨he1, he2⟩ := hside.levelErase_eq ho hu
    refine ⟨h1, hid, ho, ?_, ?_, ?_, hopp, hsym, ?_, ?_, ?_⟩
    · rw [hown, he1]
    · rw [hown, he2]
    · intro hin
      exact ((mem_allOrders_cancel hwf hic hf o).1 hin).2 rfl
    · unfold OrderBook.getOrder
      rw [hlk]
      exact hmFind_hmErase_self _ _
    · intro k hk
      unfold OrderBook.getOrder
      rw [hlk]
      exact hmFind_hmErase_ne _ _ _ (fun h => hk h.symm)
    · intro hbest
      apply hside.levelErase_head ho hu
      rw [← hown]
      unfold OrderBook.bestBid OrderBook.bestAsk at hbest
      cases hs : o.side
      · rw [hs] at hopp
        simp only [ownSide, opposing] at hopp ⊢
        rcases hbest with hbest | hbest
        · exact hbest
        · rw [hopp] at hbest
          exact absurd rfl hbest
      · rw [hs] at hopp
        simp only [ownSide, opposing] at hopp ⊢
        rcases hbest with hbest | hbest
        · rw [hopp] at hbest
          exact absurd rfl hbest
        · exact hbest

/-- Witness for C17: scenario S6, cancelling the bid at 150 moves the best bid
    to 149; the cancelled order was alone at the best price. -/
theorem cancelOrder_frame_witness :
    WellFormed demoBookTwoBids ∧ IndexConsistent demoBookTwoBids ∧
    demoBookTwoBids.bestBid = some 150 ∧
    (demoBookTwoBids.cancelOrder 2).1.bestBid = some 149 ∧
    (demoBookTwoBids.cancelOrder 2).2 = true ∧
    (demoBookTwoBids.cancelOrder 2).1.getOrder 2 = none ∧
    (ownSide demoBookTwoBids demoBid150.side).head? = some (demoBid150.price, [demoBid150]) :=
  ⟨by decide, by decide, by decide, by decide,
    ((cancelOrder_frame demoBookTwoBids 2 (by decide) (by decide)).2.2 demoBid150
      (by decide)).1,
    ((cancelOrder_frame demoBookTwoBids 2 (by decide) (by decide)).2.2 demoBid150
      (by decide)).2.2.2.2.2.2.2.2.1,
    ((cancelOrder_frame demoBookTwoBids 2 (by decide) (by decide)).2.2 demoBid150
      (by decide)).2.2.2.2.2.2.2.2.2.2 (Or.inl (by decide))⟩

/-- C18. Book/index consistency.  In every book of every venue state reached
    from a fresh venue by `placeOrderDirect` and `cancelOrderDirect` calls: an id
    is in the id lookup exactly when an order resting on the bid or ask levels
    carries it; no two resting occurrences carry the same id, and each resting
    order lies on its own side only, in the level keyed by its own price and in no
    level keyed by another price; and
    `getOrder` of the id of a resting order returns that very order record, so
    in particular the same remaining quantity. -/
theorem reachable_book_index_consistent (s : TradeBookingSystem) (h : Reachable s)
    (sym : String) (b : OrderBook) (hb : s.getOrderBook sym = some b) :
    (∀ id, (b.getOrder id).isSome = true ↔ ∃ r ∈ allOrders b, r.orderId = id) ∧
    ((allOrders b).map (fun r => r.orderId)).Nodup ∧
    (∀ r ∈ allOrders b,
      r ∉ restingOrders (opposing b r.side) ∧
      (∃ lvl, (r.price, lvl) ∈ ownSide b r.side ∧ r ∈ lvl) ∧
      ∀ e ∈ b.buyOrders ++ b.sellOrders, r ∈ e.2 → e.1 = r.price) ∧
    (∀ r ∈ allOrders b, b.getOrder r.orderId = some r ∧
      (b.getOrder r.orderId).map (fun o => o.quantity) = some r.quantity) := by
  unfold TradeBookingSystem.getOrderBook at hb
  have hwf : WellFormed b := (h.venueInv sym b hb).1
  have hic : IndexConsistent b := (h.venueIdx sym b hb).1
  refine ⟨?_, ?_, ?_, ?_⟩
  · intro id
    unfold OrderBook.getOrder
    constructor
    · intro hsome
      cases hf : hmFind b.orderLookup id with
      | none => rw [hf] at hsome; exact absurd hsome (by decide)
      | some o =>
        obtain ⟨h1, h2⟩ := hic.lookup hf
        exact ⟨o, h2, h1⟩
    · rintro ⟨r, hr, hid⟩
      rw [← hid, hic.2 r hr]
      rfl
  · apply List.Nodup.map_on _ hwf.allOrders_nodup
    intro x hx y hy hxy
    exact hic.unique hx hy hxy
  · intro r hr
    have hown := hwf.mem_ownSide hr
    constructor
    · intro hopp
      obtain ⟨_, _, _, hs, _⟩ := (hwf.opposing_side r.side).mem_resting hopp
      exact OrderSide.opposite_ne _ hs.symm
    · obtain ⟨lvl, h1, h2, _, _⟩ := (hwf.own_side r.side).mem_resting hown
      refine ⟨⟨lvl, h1, h2⟩, ?_⟩
      intro e he hre
      rw [List.mem_append] at he
      rcases he with he | he
      · exact (hwf.1.2.2.2 e he r hre).1.symm
      · exact (hwf.2.2.2.2 e he r hre).1.symm
  · intro r hr
    unfold OrderBook.getOrder
    rw [hic.2 r hr]
    exact ⟨rfl, rfl⟩

/-- Witness for C18: an ask of 100 @ 150 is placed and a buy of 40 @ 150 is
    matched against it; the lookup and the level both hold the ask with 60 left. -/
theorem reachable_book_index_consistent_witness :
    ∃ s, Reachable s ∧ s.getOrderBook "AAPL" = some demoBookPartial ∧
      allOrders demoBookPartial = [demoAskLeft60] ∧
      (∀ r ∈ allOrders demoBookPartial, demoBookPartial.getOrder r.orderId = some r ∧
        (demoBookPartial.getOrder r.orderId).map (fun o => o.quantity) = some r.quantity) := by
  have h1 : TradeBookingSystem.new.placeOrderDirect 1 "U1" "AAPL" OrderSide.SELL 100 150 =
      some (demoVenueAsk, []) := by decide
  have h2 : (demoVenueAsk.placeOrderDirect 2 "A" "AAPL" OrderSide.BUY 40 150).map
      (fun r => r.1.orderBooks) = some [("AAPL", demoBookPartial)] := by decide
  obtain ⟨⟨s2, ts⟩, h3, h4⟩ := Option.map_eq_some'.1 h2
  simp only at h4
  have hr : Reachable s2 :=
    Reachable.place 2 "A" "AAPL" OrderSide.BUY 40 150
      (Reachable.place 1 "U1" "AAPL" OrderSide.SELL 100 150 Reachable.fresh h1) h3
  have hb : s2.getOrderBook "AAPL" = some demoBookPartial := by
    unfold TradeBookingSystem.getOrderBook
    rw [h4]
    decide
  exact ⟨s2, hr, hb, by decide,
    (reachable_book_index_consistent s2 hr "AAPL" demoBookPartial hb).2.2.2⟩

/-! ## Claims about rejected orders -/

theorem hmAssign_of_find {κ ν : Type} [DecidableEq κ] (m : List (κ × ν)) (k : κ) (v : ν)
    (h : hmFind m k = some v) : hmAssign m k v = m := by
  induction m with
  | nil => simp [hmFind] at h
  | cons e rest ih =>
    obtain ⟨k0, v0⟩ := e
    unfold hmFind at h
    by_cases hk : k0 = k
    · simp only [hk, if_true, Option.some.injEq] at h
      simp [hmAssign, hk, h]
    · simp only [hk, if_false] at h
      simp [hmAssign, hk, ih h]

theorem addOrder_of_invalid (b : OrderBook) (o : Order) (hv : o.isValid = false) :
    b.addOrder o = b := by
  unfold OrderBook.addOrder
  simp [hv]

theorem matchOrder_of_invalid (b : OrderBook) (o : Order) (n : Int) (hv : o.isValid = false) :
    matchOrder b o n = some { book := b, newOrder := o, trades := [], nextTradeId := n } := by
  unfold matchOrder
  simp [hv]

/-- C20, what the code does with an invalid submit.  For every venue state, a
    `placeOrderDirect` call with a non-positive quantity or price, an empty symbol
    or an empty user id comes back with no trade and leaves the portfolios as
    they were; the order books are as they were when the venue already has a book
    for the symbol, and otherwise a new empty book for the symbol has been added
    to the map, so the map is not the one before the call.  The order id counter
    has advanced by one in both cases. -/
theorem placeOrderDirect_invalid_order (s : TradeBookingSystem) (now : Int)
    (userId symbol : String) (side : OrderSide) (quantity : Int) (price : ℚ)
    (hbad : quantity ≤ 0 ∨ price ≤ 0 ∨ symbol = "" ∨ userId = "") :
    ∃ s1, s.placeOrderDirect now userId symbol side quantity price = some (s1, []) ∧
      s1.portfolios = s.portfolios ∧
      s1.nextOrderId = s.nextOrderId + 1 ∧
      ((s.getOrderBook symbol).isSome = true → s1.orderBooks = s.orderBooks) ∧
      (s.getOrderBook symbol = none →
        s1.orderBooks = hmAssign s.orderBooks symbol (OrderBook.new symbol) ∧
        s1.getOrderBook symbol = some (OrderBook.new symbol) ∧
        s1.orderBooks ≠ s.orderBooks) := by
  have hv : Order.isValid
      { orderId := s.nextOrderId, symbol := symbol, side := side, quantity := quantity,
        price := price, timestamp := now, type := OrderType.LIMIT, userId := userId } =
      false := by
    rw [← Bool.not_eq_true, Order.isValid_iff]
    simp only
    rintro ⟨h1, h2, h3, h4⟩
    rcases hbad with h | h | h | h
    · omega
    · exact absurd h2 (not_lt.2 h)
    · exact h3 h
    · exact h4 h
  have hplace : ∃ s1, s.placeOrderDirect now userId symbol side quantity price =
      some (s1, []) := by
    unfold TradeBookingSystem.placeOrderDirect
    simp only [matchOrder_of_invalid _ _ _ hv]
    exact ⟨_, rfl⟩
  obtain ⟨s1, h1⟩ := hplace
  obtain ⟨st, hm, _, hn, hb⟩ := placeOrderDirect_books h1
  rw [matchOrder_of_invalid _ _ _ hv] at hm
  simp only [Option.some.injEq] at hm
  rw [← hm] at hb
  simp only at hb
  refine ⟨s1, h1, ?_, hn, ?_, ?_⟩
  · rw [placeOrderDirect_portfolios h1]
    rfl
  · intro hsome
    unfold TradeBookingSystem.getOrderBook at hsome
    cases hf : hmFind s.orderBooks symbol with
    | none => rw [hf] at hsome; exact absurd hsome (by decide)
    | some bk =>
      rw [hb, hf]
      exact hmAssign_of_find _ _ _ hf
  · intro hnone
    unfold TradeBookingSystem.getOrderBook at hnone ⊢
    rw [hnone] at hb
    simp only [Option.getD_none] at hb
    refine ⟨hb, ?_, ?_⟩
    · rw [hb]
      exact hmFind_hmAssign_self _ _ _
    · intro heq
      have := hmFind_hmAssign_self s.orderBooks symbol (OrderBook.new symbol)
      rw [← hb, heq, hnone] at this
      exact Option.noConfusion this

/-- The failing input of C20: on a fresh venue, `placeOrderDirect` for user A,
    symbol AAPL, BUY, quantity 0, price 150 is rejected by the engine and
    produces no trade, yet the map of order books, empty before the call, holds
    an empty AAPL book afterwards. -/
theorem placeOrderDirect_invalid_order_witness :
    TradeBookingSystem.new.orderBooks = [] ∧
    (TradeBookingSystem.new.placeOrderDirect 1 "A" "AAPL" OrderSide.BUY 0 150).map
      (fun r => (r.1.orderBooks, r.2)) = some ([("AAPL", OrderBook.new "AAPL")], []) ∧
    ∃ s1, TradeBookingSystem.new.placeOrderDirect 1 "A" "AAPL" OrderSide.BUY 0 150 =
        some (s1, []) ∧
      s1.portfolios = TradeBookingSystem.new.portfolios ∧
      s1.nextOrderId = TradeBookingSystem.new.nextOrderId + 1 ∧
      ((TradeBookingSystem.new.getOrderBook "AAPL").isSome = true →
        s1.orderBooks = TradeBookingSystem.new.orderBooks) ∧
      (TradeBookingSystem.new.getOrderBook "AAPL" = none →
        s1.orderBooks = hmAssign TradeBookingSystem.new.orderBooks "AAPL"
          (OrderBook.new "AAPL") ∧
        s1.getOrderBook "AAPL" = some (OrderBook.new "AAPL") ∧
        s1.orderBooks ≠ TradeBookingSystem.new.orderBooks) :=
  ⟨by decide, by decide,
    placeOrderDirect_invalid_order TradeBookingSystem.new 1 "A" "AAPL" OrderSide.BUY 0 150
      (Or.inl (by decide))⟩

/-! ## Trades and the fills they come from -/

theorem crosses_eq_true_iff (o : Order) (p : ℚ) : crosses o p = true ↔ withinLimit o p := by
  unfold crosses withinLimit canMatch
  cases o.side <;> simp

theorem mem_fillList_crosses (o : Order) (l : List Order) :
    ∀ (q : Int) (f : Order × Int), f ∈ fillList o q l →
      f.1 ∈ l ∧ crosses o f.1.price = true := by
  induction l with
  | nil => intro q f hf; simp [fillList] at hf
  | cons r rs ih =>
    intro q f hf
    unfold fillList at hf
    by_cases hstop : q ≤ 0 ∨ crosses o r.price = false
    · simp [hstop] at hf
    · simp only [hstop, if_false, List.mem_cons] at hf
      rw [not_or] at hstop
      rcases hf with hf | hf
      · rw [hf]
        exact ⟨List.mem_cons_self _ _, by simpa using hstop.2⟩
      · exact ⟨List.mem_cons_of_mem _ (ih _ f hf).1, (ih _ f hf).2⟩

theorem mem_tradesFrom (o : Order) (fs : List (Order × Int)) :
    ∀ (n : Int) (t : Trade), t ∈ tradesFrom o n fs →
      ∃ f ∈ fs, ∃ k, t = tradeAgainst k o f.1 f.2 f.1.price := by
  induction fs with
  | nil => intro n t ht; simp [tradesFrom] at ht
  | cons f rest ih =>
    intro n t ht
    obtain ⟨r, x⟩ := f
    simp only [tradesFrom, List.mem_cons] at ht
    rcases ht with ht | ht
    · exact ⟨(r, x), List.mem_cons_self _ _, n, ht⟩
    · obtain ⟨f, hf, k, hk⟩ := ih _ t ht
      exact ⟨f, List.mem_cons_of_mem _ hf, k, hk⟩

/-- On a well-formed book a valid incoming order comes back with trades that
    are the trades of its fills, and with the book described by `LoopResult`. -/
theorem matchOrder_trades_eq (b : OrderBook) (o : Order) (n : Int) (hwf : WellFormed b)
    (hv : o.isValid = true) :
    ∃ st, matchOrder b o n = some st ∧
      st.trades = tradesFrom o n
        (fillList o o.quantity (restingOrders (opposing b o.side))) := by
  obtain ⟨st0, _, hres, hm⟩ := matchOrder_spec b o n hwf hv
  refine ⟨_, hm, ?_⟩
  have h1 := hres.1
  simp only [List.nil_append] at h1
  rw [← h1]
  split <;> rfl

/-! ## Books built through the `OrderBook` interface -/

theorem WellFormed.add_order {b : OrderBook} (hwf : WellFormed b) (o : Order) :
    WellFormed (b.addOrder o) := by
  by_cases hv : o.isValid = true
  · have hq := ((Order.isValid_iff o).1 hv).1
    apply wellFormed_of_sides o.side
    · rw [ownSide_addOrder b o hv]
      exact (hwf.own_side o.side).insertOrder o rfl hq
    · rw [opposing_addOrder]
      exact hwf.opposing_side o.side
  · rw [addOrder_of_invalid b o (by simpa using hv)]
    exact hwf

theorem WellFormed.after_cancel_order {b : OrderBook} (hwf : WellFormed b) (orderId : Int) :
    WellFormed (b.cancelOrder orderId).1 := by
  unfold OrderBook.cancelOrder
  cases hfind : hmFind b.orderLookup orderId with
  | none => exact hwf
  | some order =>
    cases hs : order.side
    · simp only [hs]
      exact ⟨hwf.1.eraseOrder order, hwf.2⟩
    · simp only [hs]
      exact ⟨hwf.1, hwf.2.eraseOrder order⟩

theorem WellFormed.after_match {b : OrderBook} (hwf : WellFormed b) (o : Order) (n : Int) :
    ∃ st, matchOrder b o n = some st ∧ WellFormed st.book := by
  by_cases hv : o.isValid = true
  · obtain ⟨st0, _, hres, hm⟩ := matchOrder_spec b o n hwf hv
    obtain ⟨_, r2, _, _, r5, _, _, r8, _, _⟩ := hres
    simp only at r2 r5 r8
    have hwf0 : WellFormed st0.book := by
      apply wellFormed_of_sides o.side
      · rw [r5]; exact hwf.own_side o.side
      · exact r8
    refine ⟨_, hm, ?_⟩
    split
    · exact hwf0.add_order _
    · exact hwf0
  · refine ⟨_, matchOrder_of_invalid b o n (by simpa using hv), hwf⟩

theorem wellFormed_empty (sym : String) : WellFormed (OrderBook.new sym) :=
  (BookInv.empty sym).1

theorem BookReachable.wellFormed {b : OrderBook} (h : BookReachable b) : WellFormed b := by
  induction h with
  | empty sym => exact wellFormed_empty sym
  | add o _ ih => exact ih.add_order o
  | cancel orderId _ ih => exact ih.after_cancel_order orderId
  | matched o n _ hm ih =>
    obtain ⟨st1, h1, h2⟩ := ih.after_match o n
    rw [hm] at h1
    simp only [Option.some.injEq] at h1
    rw [h1]
    exact h2

theorem tradeAgainst_parties (k : Int) (o r : Order) (x : Int) (p : ℚ) :
    (o.side = OrderSide.BUY →
      (tradeAgainst k o r x p).buyOrderId = o.orderId ∧
      (tradeAgainst k o r x p).buyUserId = o.userId ∧
      (tradeAgainst k o r x p).sellOrderId = r.orderId ∧
      (tradeAgainst k o r x p).sellUserId = r.userId) ∧
    (o.side = OrderSide.SELL →
      (tradeAgainst k o r x p).buyOrderId = r.orderId ∧
      (tradeAgainst k o r x p).buyUserId = r.userId ∧
      (tradeAgainst k o r x p).sellOrderId = o.orderId ∧
      (tradeAgainst k o r x p).sellUserId = o.userId) := by
  unfold tradeAgainst createTrade
  constructor
  · intro hs
    simp [hs]
  · intro hs
    simp [hs]

/-! ## Claims about the trades of `matchOrder` and the books it is run on -/

/-- C22. On a well-formed book, for a valid incoming order, `matchOrder` comes
    back and every trade it returns is within the limit of the incoming order:
    its price is at most the incoming limit price for a buy and at least the
    incoming limit price for a sell. -/
theorem matchOrder_trade_within_limit (b : OrderBook) (o : Order) (n : Int)
    (hwf : WellFormed b) (hv : o.isValid = true) :
    ∃ st, matchOrder b o n = some st ∧
      ∀ t ∈ st.trades,
        (o.side = OrderSide.BUY → t.price ≤ o.price) ∧
        (o.side = OrderSide.SELL → o.price ≤ t.price) := by
  obtain ⟨st, hm, htr⟩ := matchOrder_trades_eq b o n hwf hv
  refine ⟨st, hm, ?_⟩
  intro t ht
  rw [htr] at ht
  obtain ⟨f, hf, k, hk⟩ := mem_tradesFrom o _ n t ht
  have hc := (mem_fillList_crosses o _ _ f hf).2
  rw [crosses_eq_true_iff] at hc
  have hp : t.price = f.1.price := by rw [hk]; simp
  rw [hp]
  unfold withinLimit at hc
  constructor
  · intro hs
    rw [hs] at hc
    exact hc
  · intro hs
    rw [hs] at hc
    exact hc

/-- Witness for C22: scenario S3, a buy with limit 151 trades at 150 and 151. -/
theorem matchOrder_trade_within_limit_witness :
    WellFormed demoBook ∧ demoBuy.isValid = true ∧
    (matchOrder demoBook demoBuy 1).map (fun st => st.trades.map (fun t => t.price)) =
      some [150, 151] ∧
    ∃ st, matchOrder demoBook demoBuy 1 = some st ∧
      ∀ t ∈ st.trades,
        (demoBuy.side = OrderSide.BUY → t.price ≤ demoBuy.price) ∧
        (demoBuy.side = OrderSide.SELL → demoBuy.price ≤ t.price) :=
  ⟨by decide, by decide, by decide,
    matchOrder_trade_within_limit demoBook demoBuy 1 (by decide) (by decide)⟩

/-- C23. In every book reached from an empty book by `addOrder`, `cancelOrder`
    and `matchOrder` calls, all orders in bid levels have side BUY and all orders
    in ask levels have side SELL.  Hence `matchOrder` on such a book comes back,
    and each trade it returns names as buy order id and buy user the id and user
    of an order whose side is BUY and as sell order id and sell user those of an
    order whose side is SELL: one of the two is the incoming order, the other an
    order that was resting on the opposing side, whichever side is incoming. -/
theorem reachable_book_sides_and_trade_parties (b : OrderBook) (h : BookReachable b) :
    (∀ r ∈ restingOrders b.buyOrders, r.side = OrderSide.BUY) ∧
    (∀ r ∈ restingOrders b.sellOrders, r.side = OrderSide.SELL) ∧
    ∀ (o : Order) (n : Int), ∃ st, matchOrder b o n = some st ∧
      ∀ t ∈ st.trades, ∃ buyer seller : Order,
        buyer.side = OrderSide.BUY ∧ seller.side = OrderSide.SELL ∧
        t.buyOrderId = buyer.orderId ∧ t.buyUserId = buyer.userId ∧
        t.sellOrderId = seller.orderId ∧ t.sellUserId = seller.userId ∧
        ((buyer = o ∧ seller ∈ restingOrders b.sellOrders) ∨
          (seller = o ∧ buyer ∈ restingOrders b.buyOrders)) := by
  have hwf := h.wellFormed
  refine ⟨fun r hr => (hwf.1.mem_resting hr).choose_spec.2.2.1,
    fun r hr => (hwf.2.mem_resting hr).choose_spec.2.2.1, ?_⟩
  intro o n
  by_cases hv : o.isValid = true
  · obtain ⟨st, hm, htr⟩ := matchOrder_trades_eq b o n hwf hv
    refine ⟨st, hm, ?_⟩
    intro t ht
    rw [htr] at ht
    obtain ⟨f, hf, k, hk⟩ := mem_tradesFrom o _ n t ht
    have hmem := (mem_fillList_crosses o _ _ f hf).1
    have hpar := tradeAgainst_parties k o f.1 f.2 f.1.price
    rw [← hk] at hpar
    cases hs : o.side
    · obtain ⟨h1, h2, h3, h4⟩ := hpar.1 hs
      rw [hs] at hmem
      simp only [opposing] at hmem
      refine ⟨o, f.1, hs, (hwf.2.mem_resting hmem).choose_spec.2.2.1, h1, h2, h3, h4,
        Or.inl ⟨rfl, hmem⟩⟩
    · obtain ⟨h1, h2, h3, h4⟩ := hpar.2 hs
      rw [hs] at hmem
      simp only [opposing] at hmem
      refine ⟨f.1, o, (hwf.1.mem_resting hmem).choose_spec.2.2.1, hs, h1, h2, h3, h4,
        Or.inr ⟨rfl, hmem⟩⟩
  · refine ⟨_, matchOrder_of_invalid b o n (by simpa using hv), ?_⟩
    intro t ht
    simp at ht

/-- Witness for C23: the book with a bid of U1 and an ask of U2, built by two
    `addOrder` calls; an incoming sell of B trades with the bid, and the trade
    names U1 as buyer and B as seller. -/
theorem reachable_book_sides_and_trade_parties_witness :
    BookReachable (((OrderBook.new "AAPL").addOrder demoBid149).addOrder demoAsk151) ∧
    (matchOrder (((OrderBook.new "AAPL").addOrder demoBid149).addOrder demoAsk151)
      demoSell 1).map
        (fun st => st.trades.map (fun t => (t.buyUserId, t.sellUserId, t.quantity))) =
      some [("U1", "B", 100)] ∧
    (∀ r ∈ restingOrders
        (((OrderBook.new "AAPL").addOrder demoBid149).addOrder demoAsk151).buyOrders,
      r.side = OrderSide.BUY) ∧
    (∀ r ∈ restingOrders
        (((OrderBook.new "AAPL").addOrder demoBid149).addOrder demoAsk151).sellOrders,
      r.side = OrderSide.SELL) :=
  ⟨BookReachable.add demoAsk151 (BookReachable.add demoBid149 (BookReachable.empty "AAPL")),
    by decide,
    (reachable_book_sides_and_trade_parties _
      (BookReachable.add demoAsk151
        (BookReachable.add demoBid149 (BookReachable.empty "AAPL")))).1,
    (reachable_book_sides_and_trade_parties _
      (BookReachable.add demoAsk151
        (BookReachable.add demoBid149 (BookReachable.empty "AAPL")))).2.1⟩

/-- C25. In every book reached from an empty book by any sequence of
    `addOrder`, `cancelOrder` and `matchOrder` calls no price level on either
    side is empty, and each of the three calls, made on such a book, returns a
    book without an empty level (`matchOrder` does come back). -/
theorem reachable_book_no_empty_level (b : OrderBook) (h : BookReachable b) :
    (∀ e ∈ b.buyOrders ++ b.sellOrders, e.2 ≠ []) ∧
    (∀ o : Order, ∀ e ∈ (b.addOrder o).buyOrders ++ (b.addOrder o).sellOrders, e.2 ≠ []) ∧
    (∀ id : Int,
      ∀ e ∈ (b.cancelOrder id).1.buyOrders ++ (b.cancelOrder id).1.sellOrders, e.2 ≠ []) ∧
    (∀ (o : Order) (n : Int), ∃ st, matchOrder b o n = some st ∧
      ∀ e ∈ st.book.buyOrders ++ st.book.sellOrders, e.2 ≠ []) := by
  have key : ∀ c : OrderBook, WellFormed c → ∀ e ∈ c.buyOrders ++ c.sellOrders, e.2 ≠ [] := by
    intro c hc e he
    rw [List.mem_append] at he
    rcases he with he | he
    · exact hc.1.2.2.1 e he
    · exact hc.2.2.2.1 e he
  have hwf := h.wellFormed
  refine ⟨key b hwf, fun o => key _ (hwf.add_order o),
    fun id => key _ (hwf.after_cancel_order id), ?_⟩
  intro o n
  obtain ⟨st, hm, hst⟩ := hwf.after_match o n
  exact ⟨st, hm, key _ hst⟩

/-- Witness for C25: scenario S6, cancelling the only bid at 150 removes the
    level at 150 with it. -/
theorem reachable_book_no_empty_level_witness :
    BookReachable demoBookTwoBids ∧
    demoBookTwoBids.buyOrders.map Prod.fst = [150, 149] ∧
    (demoBookTwoBids.cancelOrder 2).1.buyOrders.map Prod.fst = [149] ∧
    (∀ e ∈ (demoBookTwoBids.cancelOrder 2).1.buyOrders ++
        (demoBookTwoBids.cancelOrder 2).1.sellOrders, e.2 ≠ []) :=
  ⟨BookReachable.add demoBid150 (BookReachable.add demoBid149 (BookReachable.empty "AAPL")),
    by decide, by decide,
    (reachable_book_no_empty_level demoBookTwoBids
      (BookReachable.add demoBid150
        (BookReachable.add demoBid149 (BookReachable.empty "AAPL")))).2.2.1 2⟩

/-! ## What the fills leave on the opposing side -/

theorem timeBefore_asymm {a b : Order} (h : timeBefore a b) : ¬ timeBefore b a := by
  unfold timeBefore at *
  omega

theorem hmFind_none_of_not_key {κ ν : Type} [DecidableEq κ] (m : List (κ × ν)) (k : κ)
    (h : ∀ e ∈ m, e.1 ≠ k) : hmFind m k = none := by
  induction m with
  | nil => rfl
  | cons e rest ih =>
    obtain ⟨k0, v0⟩ := e
    have h0 : k0 ≠ k := h (k0, v0) (List.mem_cons_self _ _)
    simp only [hmFind, h0, if_false]
    exact ih (fun e he => h e (List.mem_cons_of_mem _ he))

/-- On a well-formed side the level of the price of the order after the insert
    is the old level of that price with the order inserted. -/
theorem SideWF.levelAt_levelInsert {side : OrderSide} {m : PriceMap} (h : SideWF side m)
    (o : Order) :
    levelAt (levelInsert (sideBefore side) o m) o.price = setInsert o (levelAt m o.price) := by
  induction m with
  | nil => simp [levelAt, levelInsert, hmFind, setInsert]
  | cons e rest ih =>
    obtain ⟨p, lvl⟩ := e
    have hk := h.1
    simp only [List.map_cons, List.pairwise_cons] at hk
    unfold levelInsert
    by_cases h1 : sideBefore side o.price p = true
    · simp only [h1, if_true]
      have hnone : hmFind ((p, lvl) :: rest) o.price = none := by
        apply hmFind_none_of_not_key
        intro e he
        rw [List.mem_cons] at he
        rcases he with he | he
        · rw [he]
          exact fun heq => sideBefore_ne side o.price p h1 heq.symm
        · intro heq
          have h2 := hk.1 e.1 (List.mem_map.2 ⟨e, he, rfl⟩)
          exact sideBefore_ne side o.price e.1 (sideBefore_trans side h1 h2) heq.symm
      unfold levelAt
      rw [hnone]
      simp [hmFind, setInsert]
    · by_cases h2 : sideBefore side p o.price = true
      · simp only [h1, h2, if_true, if_false, Bool.false_eq_true]
        have hne : p ≠ o.price := sideBefore_ne side p o.price h2
        have ih1 := ih h.tail
        unfold levelAt at ih1 ⊢
        simp only [hmFind, hne, if_false]
        exact ih1
      · simp only [h1, h2, if_false, Bool.false_eq_true]
        have heq : o.price = p := sideBefore_trichotomy side p o.price h2 h1
        simp [levelAt, hmFind, heq]

/-- An order whose key is in the level nowhere goes behind the orders that come
    before it and in front of the orders that come after it. -/
theorem setInsert_eq_filter (o : Order) (lvl : Level)
    (hs : lvl.Pairwise (fun a b => OrderComparator a b = true))
    (hk : ∀ x ∈ lvl, sameKey x o = false) :
    setInsert o lvl =
      lvl.filter (fun x => OrderComparator x o) ++ o :: lvl.filter (fun x => OrderComparator o x) := by
  induction lvl with
  | nil => rfl
  | cons x xs ih =>
    rw [List.pairwise_cons] at hs
    have hkx := hk x (List.mem_cons_self _ _)
    unfold setInsert
    by_cases h1 : OrderComparator o x = true
    · have hox := (OrderComparator_iff o x).1 h1
      have hall : ∀ y ∈ x :: xs, OrderComparator o y = true ∧ OrderComparator y o = false := by
        intro y hy
        rw [List.mem_cons] at hy
        have hoy : timeBefore o y := by
          rcases hy with hy | hy
          · rw [hy]; exact hox
          · exact timeBefore_trans hox ((OrderComparator_iff x y).1 (hs.1 y hy))
        refine ⟨(OrderComparator_iff o y).2 hoy, ?_⟩
        rw [← Bool.not_eq_true, OrderComparator_iff]
        exact timeBefore_asymm hoy
      have hf1 : (x :: xs).filter (fun y => OrderComparator y o) = [] := by
        rw [List.filter_eq_nil_iff]
        intro y hy
        rw [(hall y hy).2]
        exact Bool.false_ne_true
      have hf2 : (x :: xs).filter (fun y => OrderComparator o y) = x :: xs := by
        rw [List.filter_eq_self]
        intro y hy
        exact (hall y hy).1
      simp only [h1, if_true, hf1, hf2, List.nil_append]
    · have h2 : OrderComparator x o = true := by
        unfold sameKey at hkx
        simp only [Bool.and_eq_false_iff, Bool.not_eq_false'] at hkx
        rcases hkx with hkx | hkx
        · exact hkx
        · exact absurd hkx h1
      have h1f : OrderComparator o x = false := by simpa using h1
      simp only [h1f, h2, if_true, Bool.false_eq_true, if_false]
      rw [ih hs.2 (fun y hy => hk y (List.mem_cons_of_mem _ hy))]
      simp [List.filter_cons, h1f, h2]

theorem setInsert_append (o : Order) (lvl : Level)
    (h : ∀ x ∈ lvl, OrderComparator x o = true) : setInsert o lvl = lvl ++ [o] := by
  induction lvl with
  | nil => rfl
  | cons x xs ih =>
    have hx := h x (List.mem_cons_self _ _)
    have hox : OrderComparator o x = false := by
      rw [← Bool.not_eq_true, OrderComparator_iff]
      exact timeBefore_asymm ((OrderComparator_iff x o).1 hx)
    unfold setInsert
    simp only [hox, hx, if_true, Bool.false_eq_true, if_false]
    rw [ih (fun y hy => h y (List.mem_cons_of_mem _ hy))]
    rfl

theorem SideWF.levelAt_sorted {side : OrderSide} {m : PriceMap} (h : SideWF side m) (p : ℚ) :
    (levelAt m p).Pairwise (fun a b => OrderComparator a b = true) ∧
      ∀ x ∈ levelAt m p, x ∈ restingOrders m := by
  unfold levelAt
  cases hf : hmFind m p with
  | none => simp
  | some lvl =>
    have hmem := hmFind_mem _ _ _ hf
    simp only [Option.getD_some]
    exact ⟨h.2.1 (p, lvl) hmem, fun x hx => mem_restingOrders_of_mem hmem hx⟩

/-! ## Claims about insertion into a level -/

/-- Counterexample to C26 as stated: the book of scenario S3 holds the ask of U2
    at 150, stamped at tick 2; a valid ask at 150 with a fresh id and the stamp
    of tick 1 is put in front of it, is not the last element of the level, and is
    the first order an incoming buy trades with. -/
theorem addOrder_appends_counterexample :
    demoEarlyAsk.isValid = true ∧ FreshId demoBook demoEarlyAsk.orderId ∧
    levelAt demoBook.sellOrders 150 = [demoAsk2] ∧
    levelAt (demoBook.addOrder demoEarlyAsk).sellOrders 150 = [demoEarlyAsk, demoAsk2] ∧
    (levelAt (demoBook.addOrder demoEarlyAsk).sellOrders 150).getLast? ≠ some demoEarlyAsk ∧
    (matchOrder (demoBook.addOrder demoEarlyAsk) demoBuy 1).map
        (fun st => st.trades.map (fun t => t.sellOrderId)) = some [5, 2, 1] := by
  decide

/-- C26, amended.  On a well-formed book, `addOrder` of a valid order with a
    fresh id places it in the level of its price by time priority: behind the
    orders of the level that come before it (earlier time stamp, or the same
    time stamp and a smaller id), in front of those that come after it, the
    others keeping their order.  It is appended as the last element when every
    order of the level comes before it. -/
theorem addOrder_places_by_time_priority (b : OrderBook) (o : Order) (hwf : WellFormed b)
    (hv : o.isValid = true) (hfresh : FreshId b o.orderId) :
    levelAt (ownSide (b.addOrder o) o.side) o.price =
      (levelAt (ownSide b o.side) o.price).filter (fun x => OrderComparator x o) ++
        o :: (levelAt (ownSide b o.side) o.price).filter (fun x => OrderComparator o x) ∧
    (∀ x ∈ levelAt (ownSide b o.side) o.price,
      (OrderComparator x o = true ↔ timeBefore x o) ∧
      (OrderComparator o x = true ↔ timeBefore o x) ∧ (timeBefore x o ∨ timeBefore o x)) ∧
    ((∀ x ∈ levelAt (ownSide b o.side) o.price, timeBefore x o) →
      levelAt (ownSide (b.addOrder o) o.side) o.price =
        levelAt (ownSide b o.side) o.price ++ [o]) := by
  have hside := hwf.own_side o.side
  obtain ⟨hsorted, hsub⟩ := hside.levelAt_sorted o.price
  have hkey : ∀ x ∈ levelAt (ownSide b o.side) o.price, sameKey x o = false := by
    intro x hx
    rw [← Bool.not_eq_true, sameKey_iff]
    intro hk
    exact (hfresh.sides o.side).1 x (hsub x hx) hk.2
  have hlevel : levelAt (ownSide (b.addOrder o) o.side) o.price =
      setInsert o (levelAt (ownSide b o.side) o.price) := by
    rw [ownSide_addOrder b o hv]
    exact hside.levelAt_levelInsert o
  refine ⟨?_, ?_, ?_⟩
  · rw [hlevel]
    exact setInsert_eq_filter o _ hsorted hkey
  · intro x hx
    refine ⟨OrderComparator_iff x o, OrderComparator_iff o x, ?_⟩
    have hk := hkey x hx
    unfold sameKey at hk
    simp only [Bool.and_eq_false_iff, Bool.not_eq_false'] at hk
    rcases hk with hk | hk
    · exact Or.inl ((OrderComparator_iff x o).1 hk)
    · exact Or.inr ((OrderComparator_iff o x).1 hk)
  · intro hall
    rw [hlevel]
    exact setInsert_append o _ (fun x hx => (OrderComparator_iff x o).2 (hall x hx))

/-- Witness for the amended C26: an ask at 150 stamped at tick 9 is appended
    behind the ask of U2 stamped at tick 2. -/
theorem addOrder_places_by_time_priority_witness :
    WellFormed demoBook ∧ demoLateAsk.isValid = true ∧ FreshId demoBook demoLateAsk.orderId ∧
    levelAt (ownSide demoBook demoLateAsk.side) demoLateAsk.price = [demoAsk2] ∧
    levelAt (ownSide (demoBook.addOrder demoLateAsk) demoLateAsk.side) demoLateAsk.price =
      levelAt (ownSide demoBook demoLateAsk.side) demoLateAsk.price ++ [demoLateAsk] :=
  ⟨by decide, by decide, by decide, by decide,
    (addOrder_places_by_time_priority demoBook demoLateAsk (by decide) (by decide)
      (by decide)).2.2 (by decide)⟩

/-! ## The symbols of the orders of a book -/

theorem symbol_addOrder (b : OrderBook) (o : Order) : (b.addOrder o).symbol = b.symbol := by
  unfold OrderBook.addOrder
  split
  · rfl
  · cases o.side <;> rfl

theorem mem_remainder (o : Order) (l : List Order) :
    ∀ (q : Int), ∀ y ∈ remainder o q l, ∃ r ∈ l, ∃ x : Int, y = { r with quantity := x } := by
  induction l with
  | nil => intro q y hy; simp [remainder] at hy
  | cons r rs ih =>
    intro q y hy
    unfold remainder at hy
    split at hy
    · exact ⟨y, hy, y.quantity, rfl⟩
    · split at hy
      · obtain ⟨r1, hr1, x, hx⟩ := ih _ y hy
        exact ⟨r1, List.mem_cons_of_mem _ hr1, x, hx⟩
      · rw [List.mem_cons] at hy
        rcases hy with hy | hy
        · exact ⟨r, List.mem_cons_self _ _, _, hy⟩
        · exact ⟨y, List.mem_cons_of_mem _ hy, y.quantity, rfl⟩

theorem mem_restingOrders_levelErase (o x : Order) (m : PriceMap)
    (hx : x ∈ restingOrders (levelErase o m)) : x ∈ restingOrders m := by
  induction m with
  | nil => simpa [levelErase] using hx
  | cons e rest ih =>
    obtain ⟨p, lvl⟩ := e
    rw [restingOrders_cons, List.mem_append]
    unfold levelErase at hx
    by_cases hp : p = o.price
    · simp only [hp, if_true] at hx
      rw [restingOrders_pop, List.mem_append] at hx
      rcases hx with hx | hx
      · exact Or.inl ((setErase_sublist o lvl).subset hx)
      · exact Or.inr hx
    · simp only [hp, if_false] at hx
      rw [restingOrders_cons, List.mem_append] at hx
      rcases hx with hx | hx
      · exact Or.inl hx
      · exact Or.inr (ih hx)

theorem mem_allOrders_of_cancel (b : OrderBook) (id : Int) (x : Order)
    (hx : x ∈ allOrders (b.cancelOrder id).1) : x ∈ allOrders b := by
  cases hf : hmFind b.orderLookup id with
  | none => rw [cancelOrder_of_none hf] at hx; exact hx
  | some o =>
    obtain ⟨_, hown, hopp, _, _⟩ := cancelOrder_of_some hf
    rw [mem_allOrders_iff _ o.side, hown, hopp] at hx
    rw [mem_allOrders_iff b o.side]
    rcases hx with hx | hx
    · exact Or.inl (mem_restingOrders_levelErase o x _ hx)
    · exact Or.inr hx

theorem symbol_cancelOrder (b : OrderBook) (id : Int) :
    (b.cancelOrder id).1.symbol = b.symbol := by
  cases hf : hmFind b.orderLookup id with
  | none => rw [cancelOrder_of_none hf]
  | some o => exact (cancelOrder_of_some hf).2.2.2.2

theorem tradeAgainst_symbol (k : Int) (o r : Order) (x : Int) (p : ℚ) :
    (tradeAgainst k o r x p).symbol = o.symbol ∨ (tradeAgainst k o r x p).symbol = r.symbol := by
  unfold tradeAgainst createTrade
  cases o.side
  · left; rfl
  · right; rfl

/-- A `matchOrder` call for an order of symbol `X` on a well-formed book holding
    orders of symbol `X` only returns such a book, of the same book symbol, and
    trades of symbol `X`. -/
theorem matchOrder_symbols {b : OrderBook} (hwf : WellFormed b) (o : Order) (n : Int) (X : String)
    (hall : ∀ r ∈ allOrders b, r.symbol = X) (ho : o.symbol = X)
    {st : MatchState} (h : matchOrder b o n = some st) :
    st.book.symbol = b.symbol ∧ (∀ r ∈ allOrders st.book, r.symbol = X) ∧
      ∀ t ∈ st.trades, t.symbol = X := by
  by_cases hv : o.isValid = true
  · obtain ⟨st0, _, hres, hm⟩ := matchOrder_spec b o n hwf hv
    obtain ⟨r1, r2, _, r4, r5, r6, _, _, _, _⟩ := hres
    simp only [List.nil_append] at r1 r2 r4 r5 r6
    rw [hm] at h
    simp only [Option.some.injEq] at h
    have hall0 : ∀ r ∈ allOrders st0.book, r.symbol = X := by
      intro r hr
      rw [mem_allOrders_iff _ o.side, r5, r4] at hr
      rcases hr with hr | hr
      · exact hall r ((mem_allOrders_iff b o.side r).2 (Or.inl hr))
      · obtain ⟨r0, hr0, x, hx⟩ := mem_remainder o _ _ r hr
        rw [hx]
        exact hall r0 ((mem_allOrders_iff b o.side r0).2 (Or.inr hr0))
    have htr : ∀ t ∈ st0.trades, t.symbol = X := by
      intro t ht
      rw [r1] at ht
      obtain ⟨f, hf, k, hk⟩ := mem_tradesFrom o _ n t ht
      have hfm := (mem_fillList_crosses o _ _ f hf).1
      rcases tradeAgainst_symbol k o f.1 f.2 f.1.price with hs | hs
      · rw [hk, hs, ho]
      · rw [hk, hs]
        exact hall f.1 ((mem_allOrders_iff b o.side f.1).2 (Or.inr hfm))
    by_cases hpos : 0 < st0.newOrder.quantity
    · simp only [gt_iff_lt, hpos, if_true] at h
      rw [← h]
      simp only
      refine ⟨by rw [symbol_addOrder, r6], ?_, htr⟩
      intro r hr
      have hv0 : st0.newOrder.isValid = true := by
        obtain ⟨_, hp, hsym, husr⟩ := (Order.isValid_iff o).1 hv
        rw [Order.isValid_iff]
        refine ⟨hpos, ?_, ?_, ?_⟩ <;> rw [r2] <;> assumption
      rcases (mem_allOrders_addOrder hv0 r).1 hr with hr | hr
      · rw [hr, r2]
        exact ho
      · exact hall0 r hr
    · simp only [gt_iff_lt, hpos, if_false] at h
      rw [← h]
      exact ⟨r6, hall0, htr⟩
  · rw [matchOrder_of_invalid b o n (by simpa using hv)] at h
    simp only [Option.some.injEq] at h
    rw [← h]
    exact ⟨rfl, hall, fun t ht => by simp at ht⟩

theorem Reachable.books_symbol {s : TradeBookingSystem} (h : Reachable s) :
    ∀ sym b, hmFind s.orderBooks sym = some b →
      b.symbol = sym ∧ ∀ r ∈ allOrders b, r.symbol = sym := by
  induction h with
  | fresh =>
    intro sym b hfind
    simp [TradeBookingSystem.new, hmFind] at hfind
  | place now userId symbol side quantity price hr hplace ih =>
    rename_i s0 s1 trades
    obtain ⟨st, hm, _, _, hb⟩ := placeOrderDirect_books hplace
    have hbook : WellFormed ((hmFind s0.orderBooks symbol).getD (OrderBook.new symbol)) ∧
        ((hmFind s0.orderBooks symbol).getD (OrderBook.new symbol)).symbol = symbol ∧
        ∀ r ∈ allOrders ((hmFind s0.orderBooks symbol).getD (OrderBook.new symbol)),
          r.symbol = symbol := by
      cases hf : hmFind s0.orderBooks symbol with
      | none =>
        simp only [Option.getD_none]
        refine ⟨wellFormed_empty symbol, rfl, ?_⟩
        intro r hr
        simp [OrderBook.new, allOrders, restingOrders] at hr
      | some bk =>
        simp only [Option.getD_some]
        exact ⟨(hr.venueInv symbol bk hf).1, (ih symbol bk hf).1, (ih symbol bk hf).2⟩
    obtain ⟨hwf, hsym, hall⟩ := hbook
    obtain ⟨h1, h2, _⟩ := matchOrder_symbols hwf _ _ symbol hall rfl hm
    intro sym b hfind
    rw [hb] at hfind
    by_cases hk : symbol = sym
    · rw [← hk, hmFind_hmAssign_self] at hfind
      simp only [Option.some.injEq] at hfind
      rw [← hfind, ← hk]
      exact ⟨by rw [h1, hsym], h2⟩
    · rw [hmFind_hmAssign_ne _ _ _ _ hk] at hfind
      exact ih sym b hfind
  | cancel symbol orderId hr ih =>
    rename_i s0
    unfold TradeBookingSystem.cancelOrderDirect
    cases hf : hmFind s0.orderBooks symbol with
    | none => exact ih
    | some book =>
      simp only
      intro sym b hfind
      by_cases hk : symbol = sym
      · rw [← hk, hmFind_hmAssign_self] at hfind
        simp only [Option.some.injEq] at hfind
        rw [← hfind, ← hk]
        refine ⟨by rw [symbol_cancelOrder]; exact (ih symbol book hf).1, ?_⟩
        intro r hr1
        exact (ih symbol book hf).2 r (mem_allOrders_of_cancel book orderId r hr1)
      · rw [hmFind_hmAssign_ne _ _ _ _ hk] at hfind
        exact ih sym b hfind

/-! ## Claims about the symbol of a book -/

/-- Counterexample to C29 as stated: a valid ask for MSFT is added to an empty
    AAPL book; the book changes and holds the order, and a buy for AAPL matched
    on that book trades against it. -/
theorem addOrder_symbol_mismatch_counterexample :
    (OrderBook.new "AAPL").symbol = "AAPL" ∧ demoMsftAsk.symbol = "MSFT" ∧
    demoMsftAsk.isValid = true ∧
    (OrderBook.new "AAPL").addOrder demoMsftAsk ≠ OrderBook.new "AAPL" ∧
    allOrders ((OrderBook.new "AAPL").addOrder demoMsftAsk) = [demoMsftAsk] ∧
    ((OrderBook.new "AAPL").addOrder demoMsftAsk).getOrder 7 = some demoMsftAsk ∧
    (matchOrder ((OrderBook.new "AAPL").addOrder demoMsftAsk) demoBuy300 1).map
        (fun st => st.trades.map (fun t => (t.symbol, t.sellOrderId, t.quantity))) =
      some [("AAPL", 7, 100)] := by
  decide

/-- C29, amended.  `addOrder` does not compare the symbol of the order with the
    symbol of the book: every valid order is accepted, whatever its symbol, and
    the symbol of the book stays.  Books of one symbol are kept by the venue: in
    every venue state reached by `placeOrderDirect` and `cancelOrderDirect` the
    book stored under a symbol has that symbol and holds only orders of that
    symbol, and the trades of a `placeOrderDirect` call carry the symbol of the
    call. -/
theorem venue_books_hold_own_symbol (s : TradeBookingSystem) (h : Reachable s) :
    (∀ sym b, s.getOrderBook sym = some b →
      b.symbol = sym ∧ ∀ r ∈ allOrders b, r.symbol = sym) ∧
    (∀ (now : Int) (userId symbol : String) (side : OrderSide) (quantity : Int) (price : ℚ)
      (s1 : TradeBookingSystem) (trades : List Trade),
      s.placeOrderDirect now userId symbol side quantity price = some (s1, trades) →
        ∀ t ∈ trades, t.symbol = symbol) ∧
    (∀ (b : OrderBook) (o : Order), o.isValid = true →
      (b.addOrder o).getOrder o.orderId = some o ∧ (b.addOrder o).symbol = b.symbol ∧
      ((∀ x ∈ allOrders b, x.orderId ≠ o.orderId) → o ∈ allOrders (b.addOrder o))) := by
  refine ⟨h.books_symbol, ?_, ?_⟩
  · intro now userId symbol side quantity price s1 trades hplace
    obtain ⟨st, hm, htr, _, _⟩ := placeOrderDirect_books hplace
    have hbook : WellFormed ((hmFind s.orderBooks symbol).getD (OrderBook.new symbol)) ∧
        ∀ r ∈ allOrders ((hmFind s.orderBooks symbol).getD (OrderBook.new symbol)),
          r.symbol = symbol := by
      cases hf : hmFind s.orderBooks symbol with
      | none =>
        simp only [Option.getD_none]
        refine ⟨wellFormed_empty symbol, ?_⟩
        intro r hr
        simp [OrderBook.new, allOrders, restingOrders] at hr
      | some bk =>
        simp only [Option.getD_some]
        exact ⟨(h.venueInv symbol bk hf).1, (h.books_symbol symbol bk hf).2⟩
    rw [htr]
    exact (matchOrder_symbols hbook.1 _ _ symbol hbook.2 rfl hm).2.2
  · intro b o hv
    refine ⟨?_, symbol_addOrder b o, fun hfresh => mem_allOrders_addOrder_self hv hfresh⟩
    unfold OrderBook.getOrder
    rw [orderLookup_addOrder b o hv]
    exact hmFind_hmAssign_self _ _ _

/-- Witness for the amended C29: the venue with a bid at 149 and an ask at 151
    for AAPL. -/
theorem venue_books_hold_own_symbol_witness :
    Reachable demoVenueBidAsk ∧
    demoVenueBidAsk.getOrderBook "AAPL" = some demoBookBidAsk ∧
    demoBookBidAsk.symbol = "AAPL" ∧ ∀ r ∈ allOrders demoBookBidAsk, r.symbol = "AAPL" :=
  have h1 : TradeBookingSystem.new.placeOrderDirect 1 "U1" "AAPL" OrderSide.BUY 100 149 =
      some (demoVenueBid, []) := by decide
  have h2 : demoVenueBid.placeOrderDirect 2 "U2" "AAPL" OrderSide.SELL 100 151 =
      some (demoVenueBidAsk, []) := by decide
  have hr : Reachable demoVenueBidAsk :=
    Reachable.place 2 "U2" "AAPL" OrderSide.SELL 100 151
      (Reachable.place 1 "U1" "AAPL" OrderSide.BUY 100 149 Reachable.fresh h1) h2
  ⟨hr, by decide,
    ((venue_books_hold_own_symbol demoVenueBidAsk hr).1 "AAPL" demoBookBidAsk (by decide)).1,
    ((venue_books_hold_own_symbol demoVenueBidAsk hr).1 "AAPL" demoBookBidAsk (by decide)).2⟩

/-! ## The identifier counters -/

@[simp] theorem tradeAgainst_tradeId (k : Int) (o r : Order) (x : Int) (p : ℚ) :
    (tradeAgainst k o r x p).tradeId = k := by
  unfold tradeAgainst
  cases o.side <;> rfl

theorem tradesFrom_tradeIds (o : Order) (fs : List (Order × Int)) :
    ∀ n : Int, (tradesFrom o n fs).map (fun t => t.tradeId) =
      (List.range fs.length).map (fun (i : Nat) => n + (i : Int)) := by
  induction fs with
  | nil => intro n; rfl
  | cons f rest ih =>
    intro n
    obtain ⟨r, x⟩ := f
    rw [tradesFrom, List.map_cons, ih (n + 1), List.length_cons, List.range_succ_eq_map,
      List.map_cons, List.map_map]
    simp only [tradeAgainst_tradeId, Nat.cast_zero, add_zero, List.cons.injEq, true_and]
    apply List.map_congr_left
    intro i _
    simp only [Function.comp, Nat.cast_succ]
    ring

theorem range_offset_pairwise (n : Int) (k : Nat) :
    ((List.range k).map (fun (i : Nat) => n + (i : Int))).Pairwise (fun a b => a < b) := by
  rw [List.pairwise_map]
  refine (List.pairwise_lt_range k).imp ?_
  intro a b hab
  have : (a : Int) < (b : Int) := by exact_mod_cast hab
  omega

theorem updateSystemStatistics_nextTradeId (s : TradeBookingSystem) (trades : List Trade) :
    (updateSystemStatistics s trades).nextTradeId = s.nextTradeId := by
  unfold updateSystemStatistics
  induction trades generalizing s with
  | nil => rfl
  | cons t ts ih =>
    simp only [List.foldl_cons]
    exact ih _

theorem processTradeResults_nextTradeId (s : TradeBookingSystem) (trades : List Trade) :
    (processTradeResults s trades).nextTradeId = s.nextTradeId := by
  unfold processTradeResults
  split
  · rfl
  · exact updateSystemStatistics_nextTradeId _ _

/-- The trade id counter after a `placeOrderDirect` call is the one `matchOrder`
    came back with. -/
theorem placeOrderDirect_nextTradeId {s s1 : TradeBookingSystem} {trades : List Trade}
    {now : Int} {userId symbol : String} {side : OrderSide} {quantity : Int} {price : ℚ}
    (h : s.placeOrderDirect now userId symbol side quantity price = some (s1, trades)) :
    ∃ st : MatchState,
      matchOrder ((hmFind s.orderBooks symbol).getD (OrderBook.new symbol))
        { orderId := s.nextOrderId, symbol := symbol, side := side, quantity := quantity,
          price := price, timestamp := now, type := OrderType.LIMIT, userId := userId }
        s.nextTradeId = some st ∧
      trades = st.trades ∧ s1.nextTradeId = st.nextTradeId := by
  obtain ⟨st, hm, htr, _, _⟩ := placeOrderDirect_books h
  refine ⟨st, hm, htr, ?_⟩
  unfold TradeBookingSystem.placeOrderDirect at h
  simp only at h
  cases hf : hmFind s.orderBooks symbol with
  | none =>
    rw [hf] at h hm
    simp only [hmFind_hmAssign_self, Option.getD_some, Option.getD_none] at h hm
    rw [hm] at h
    simp only [Option.some.injEq, Prod.mk.injEq] at h
    rw [← h.1, processTradeResults_nextTradeId]
  | some bk =>
    rw [hf] at h hm
    simp only [hf, Option.getD_some] at h hm
    rw [hm] at h
    simp only [Option.some.injEq, Prod.mk.injEq] at h
    rw [← h.1, processTradeResults_nextTradeId]

/-- The trade ids of a `matchOrder` call on a well-formed book: consecutive from
    the counter, which is advanced by their number. -/
theorem matchOrder_tradeIds {b : OrderBook} (hwf : WellFormed b) (o : Order) (n : Int)
    {st : MatchState} (h : matchOrder b o n = some st) :
    st.trades.map (fun t => t.tradeId) =
        (List.range st.trades.length).map (fun (i : Nat) => n + (i : Int)) ∧
      st.nextTradeId = n + st.trades.length := by
  by_cases hv : o.isValid = true
  · obtain ⟨st0, _, hres, hm⟩ := matchOrder_spec b o n hwf hv
    obtain ⟨r1, _, r3, _, _, _, _, _, _, _⟩ := hres
    simp only [List.nil_append] at r1 r3
    rw [hm] at h
    simp only [Option.some.injEq] at h
    have ht : st.trades = st0.trades := by rw [← h]; split <;> rfl
    have hn : st.nextTradeId = st0.nextTradeId := by rw [← h]; split <;> rfl
    rw [ht, hn, r1, r3, tradesFrom_tradeIds, tradesFrom_length]
    exact ⟨rfl, rfl⟩
  · rw [matchOrder_of_invalid b o n (by simpa using hv)] at h
    simp only [Option.some.injEq] at h
    rw [← h]
    simp

/-! ## Claims about the identifier counters -/

/-- C30. Identifier monotonicity (identifiers are unbounded integers).  A fresh
    venue has both counters at 1.  In every reachable venue state every order id
    held by a book is below the order id counter; a `placeOrderDirect` call gives
    its order the value of the counter and advances the counter by one; its
    trades carry consecutive trade ids starting at the trade id counter, in the
    order they are returned, and the counter is advanced by their number, so each
    is at or above the counter before the call and below the counter after it;
    `cancelOrderDirect` leaves both counters alone. -/
theorem identifiers_increase (s : TradeBookingSystem) (h : Reachable s) (now : Int)
    (userId symbol : String) (side : OrderSide) (quantity : Int) (price : ℚ)
    (s1 : TradeBookingSystem) (trades : List Trade)
    (hp : s.placeOrderDirect now userId symbol side quantity price = some (s1, trades)) :
    TradeBookingSystem.new.nextOrderId = 1 ∧ TradeBookingSystem.new.nextTradeId = 1 ∧
    (∀ sym b, s.getOrderBook sym = some b → ∀ r ∈ allOrders b, r.orderId < s.nextOrderId) ∧
    (∃ st : MatchState,
      matchOrder ((hmFind s.orderBooks symbol).getD (OrderBook.new symbol))
        { orderId := s.nextOrderId, symbol := symbol, side := side, quantity := quantity,
          price := price, timestamp := now, type := OrderType.LIMIT, userId := userId }
        s.nextTradeId = some st ∧ trades = st.trades) ∧
    s1.nextOrderId = s.nextOrderId + 1 ∧
    trades.map (fun t => t.tradeId) =
      (List.range trades.length).map (fun (i : Nat) => s.nextTradeId + (i : Int)) ∧
    (trades.map (fun t => t.tradeId)).Pairwise (fun a b => a < b) ∧
    (∀ t ∈ trades, s.nextTradeId ≤ t.tradeId ∧ t.tradeId < s1.nextTradeId) ∧
    s1.nextTradeId = s.nextTradeId + trades.length ∧
    (∀ sym id, (s.cancelOrderDirect sym id).nextOrderId = s.nextOrderId ∧
      (s.cancelOrderDirect sym id).nextTradeId = s.nextTradeId) := by
  obtain ⟨st, hm, htr, hnt⟩ := placeOrderDirect_nextTradeId hp
  obtain ⟨_, _, _, hno, _⟩ := placeOrderDirect_books hp
  have hwf : WellFormed ((hmFind s.orderBooks symbol).getD (OrderBook.new symbol)) := by
    cases hf : hmFind s.orderBooks symbol with
    | none => exact wellFormed_empty symbol
    | some bk => exact (h.venueInv symbol bk hf).1
  obtain ⟨hids, hnext⟩ := matchOrder_tradeIds hwf _ _ hm
  rw [← htr] at hids hnext
  rw [← hnt] at hnext
  refine ⟨rfl, rfl, ?_, ⟨st, hm, htr⟩, hno, hids, ?_, ?_, hnext, ?_⟩
  · intro sym b hb r hr
    unfold TradeBookingSystem.getOrderBook at hb
    obtain ⟨hic, hbound⟩ := h.venueIdx sym b hb
    by_contra hge
    have := hbound r.orderId (by omega)
    rw [hic.2 r hr] at this
    exact Option.noConfusion this
  · rw [hids]
    exact range_offset_pairwise _ _
  · intro t ht
    have hmem : t.tradeId ∈ trades.map (fun t => t.tradeId) := List.mem_map.2 ⟨t, ht, rfl⟩
    rw [hids, List.mem_map] at hmem
    obtain ⟨i, hi, heq⟩ := hmem
    rw [List.mem_range] at hi
    rw [hnext, ← heq]
    have : (i : Int) < (trades.length : Int) := by exact_mod_cast hi
    constructor <;> omega
  · intro sym id
    unfold TradeBookingSystem.cancelOrderDirect
    split <;> exact ⟨rfl, rfl⟩

/-- Witness for C30: in the venue holding the ask with id 1, a buy of 40 @ 150
    makes the first trade; the buy has taken order id 2. -/
theorem identifiers_increase_witness :
    demoVenueAsk.nextOrderId = 2 ∧ demoVenueAsk.nextTradeId = 1 ∧
    ∃ s1 trades, demoVenueAsk.placeOrderDirect 2 "A" "AAPL" OrderSide.BUY 40 150 =
        some (s1, trades) ∧
      trades.map (fun t => (t.tradeId, t.buyOrderId, t.sellOrderId)) = [(1, 2, 1)] ∧
      s1.nextOrderId = demoVenueAsk.nextOrderId + 1 ∧
      s1.nextTradeId = demoVenueAsk.nextTradeId + trades.length := by
  have h1 : TradeBookingSystem.new.placeOrderDirect 1 "U1" "AAPL" OrderSide.SELL 100 150 =
      some (demoVenueAsk, []) := by decide
  have h2 : (demoVenueAsk.placeOrderDirect 2 "A" "AAPL" OrderSide.BUY 40 150).map
      (fun r => r.2.map (fun t => (t.tradeId, t.buyOrderId, t.sellOrderId))) =
      some [(1, 2, 1)] := by decide
  obtain ⟨⟨s2, ts⟩, h3, h4⟩ := Option.map_eq_some'.1 h2
  simp only at h4
  have hr : Reachable demoVenueAsk :=
    Reachable.place 1 "U1" "AAPL" OrderSide.SELL 100 150 Reachable.fresh h1
  have hthm := identifiers_increase demoVenueAsk hr 2 "A" "AAPL" OrderSide.BUY 40 150 s2 ts h3
  exact ⟨by decide, by decide, s2, ts, h3, h4, hthm.2.2.2.2.1, hthm.2.2.2.2.2.2.2.2.1⟩

/-! ## The portfolio of one user under `updatePortfoliosWithTrades` -/

theorem hmFind_update {κ ν : Type} [DecidableEq κ] (m m1 : List (κ × ν)) (k u : κ) (f : ν → ν)
    (hsome : ∀ v, hmFind m k = some v → m1 = hmAssign m k (f v))
    (hnone : hmFind m k = none → m1 = m) :
    hmFind m1 u = (hmFind m u).map (fun v => if k = u then f v else v) := by
  by_cases hk : k = u
  · subst hk
    cases hf : hmFind m k with
    | none => rw [hnone hf, hf]; rfl
    | some v => rw [hsome v hf, hmFind_hmAssign_self]; simp
  · cases hf : hmFind m k with
    | none =>
      rw [hnone hf]
      cases hmFind m u <;> simp [hk]
    | some v =>
      rw [hsome v hf, hmFind_hmAssign_ne _ _ _ _ hk]
      cases hmFind m u <;> simp [hk]

theorem hmFind_applyTrade (ps : List (String × Portfolio)) (t : Trade) (u : String) :
    hmFind (applyTrade ps t) u = (hmFind ps u).map (fun pf => bookOwnSides u pf t) := by
  have e1 := hmFind_update ps
    (match hmFind ps t.buyUserId with
      | some pf => hmAssign ps t.buyUserId (pf.addTrade t true)
      | none => ps)
    t.buyUserId u (fun (pf : Portfolio) => pf.addTrade t true)
    (fun v hv => by simp only [hv]) (fun hv => by simp only [hv])
  have e2 := hmFind_update
    (match hmFind ps t.buyUserId with
      | some pf => hmAssign ps t.buyUserId (pf.addTrade t true)
      | none => ps)
    (applyTrade ps t) t.sellUserId u (fun (pf : Portfolio) => pf.addTrade t false)
    (fun v hv => by unfold applyTrade; simp only [hv])
    (fun hv => by unfold applyTrade; simp only [hv])
  rw [e2, e1]
  cases hmFind ps u with
  | none => rfl
  | some pf =>
    simp only [Option.map_some', bookOwnSides]

theorem hmFind_updatePortfoliosWithTrades (trades : List Trade) (u : String) :
    ∀ ps : List (String × Portfolio),
      hmFind (updatePortfoliosWithTrades ps trades) u =
        (hmFind ps u).map (fun pf => trades.foldl (bookOwnSides u) pf) := by
  unfold updatePortfoliosWithTrades
  induction trades with
  | nil => intro ps; simp
  | cons t ts ih =>
    intro ps
    rw [List.foldl_cons, ih, hmFind_applyTrade]
    cases hmFind ps u <;> rfl

/-! ## Claims about the portfolio of the submitting user -/

/-- Counterexample to C21 as stated: on a fresh venue a valid buy of user A is
    placed and A has no portfolio afterwards; and when user A, without a
    portfolio, buys 40 @ 150 from a resting ask, the trade is returned with A as
    buyer and A still has no portfolio. -/
theorem placeOrderDirect_portfolio_counterexample :
    (TradeBookingSystem.new.placeOrderDirect 1 "A" "AAPL" OrderSide.BUY 100 150).map
        (fun r => (r.1.getPortfolio "A", r.2)) = some (none, []) ∧
    (demoVenueAsk.placeOrderDirect 2 "A" "AAPL" OrderSide.BUY 40 150).map
        (fun r => (r.1.getPortfolio "A", r.2.map (fun t => (t.buyUserId, t.quantity)))) =
      some (none, [("A", 40)]) := by
  decide

/-- C21, amended.  `placeOrderDirect` creates no portfolio: after a call that
    came back, every user has a portfolio exactly when that user had one before,
    and such a portfolio is the old one with each returned trade, in order,
    booked as buyer when the user is the buyer of the trade and then as seller
    when the user is its seller.  In a venue satisfying the book invariant the
    submitting user is the buyer of every returned trade for a buy and the seller
    for a sell, so each returned trade is booked on the submitting user's
    portfolio on that side when the user has one. -/
theorem placeOrderDirect_books_on_existing_portfolios (s : TradeBookingSystem) (now : Int)
    (userId symbol : String) (side : OrderSide) (quantity : Int) (price : ℚ)
    (s1 : TradeBookingSystem) (trades : List Trade)
    (h : s.placeOrderDirect now userId symbol side quantity price = some (s1, trades)) :
    (∀ u, s1.getPortfolio u =
      (s.getPortfolio u).map (fun pf => trades.foldl (bookOwnSides u) pf)) ∧
    (s.getPortfolio userId = none → s1.getPortfolio userId = none) ∧
    (∀ pf, s.getPortfolio userId = some pf →
      s1.getPortfolio userId = some (trades.foldl (bookOwnSides userId) pf)) ∧
    (∀ (pf : Portfolio) (t : Trade),
      (t.buyUserId = userId → bookOwnSides userId pf t =
        if t.sellUserId = userId then (pf.addTrade t true).addTrade t false
        else pf.addTrade t true) ∧
      (t.sellUserId = userId → bookOwnSides userId pf t =
        if t.buyUserId = userId then (pf.addTrade t true).addTrade t false
        else pf.addTrade t false)) ∧
    (VenueInv s → ∀ t ∈ trades,
      (side = OrderSide.BUY → t.buyUserId = userId) ∧
      (side = OrderSide.SELL → t.sellUserId = userId)) := by
  have hall : ∀ u, s1.getPortfolio u =
      (s.getPortfolio u).map (fun pf => trades.foldl (bookOwnSides u) pf) := by
    intro u
    unfold TradeBookingSystem.getPortfolio
    rw [placeOrderDirect_portfolios h]
    exact hmFind_updatePortfoliosWithTrades trades u s.portfolios
  refine ⟨hall, ?_, ?_, ?_, ?_⟩
  · intro hnone
    rw [hall, hnone]
    rfl
  · intro pf hpf
    rw [hall, hpf]
    rfl
  · intro pf t
    constructor
    · intro hb
      simp [bookOwnSides, hb]
    · intro hs
      by_cases hb : t.buyUserId = userId <;> simp [bookOwnSides, hb, hs]
  · intro hinv t ht
    obtain ⟨st, hm, htr, _, _⟩ := placeOrderDirect_books h
    have hwf : WellFormed ((hmFind s.orderBooks symbol).getD (OrderBook.new symbol)) := by
      cases hf : hmFind s.orderBooks symbol with
      | none => exact wellFormed_empty symbol
      | some bk => exact (hinv symbol bk hf).1
    by_cases hv : Order.isValid
        { orderId := s.nextOrderId, symbol := symbol, side := side, quantity := quantity,
          price := price, timestamp := now, type := OrderType.LIMIT, userId := userId } = true
    · obtain ⟨st2, hm2, htr2⟩ := matchOrder_trades_eq _ _ s.nextTradeId hwf hv
      rw [hm] at hm2
      simp only [Option.some.injEq] at hm2
      rw [htr, hm2, htr2] at ht
      obtain ⟨f, _, k, hk⟩ := mem_tradesFrom _ _ _ t ht
      have hpar := tradeAgainst_parties k
        { orderId := s.nextOrderId, symbol := symbol, side := side, quantity := quantity,
          price := price, timestamp := now, type := OrderType.LIMIT, userId := userId }
        f.1 f.2 f.1.price
      rw [← hk] at hpar
      exact ⟨fun hs => (hpar.1 hs).2.1, fun hs => (hpar.2 hs).2.2.2⟩
    · rw [matchOrder_of_invalid _ _ _ (by simpa using hv)] at hm
      simp only [Option.some.injEq] at hm
      rw [htr, ← hm] at ht
      simp at ht

/-- Witness for the amended C21: B, who has a portfolio, sells 100 @ 150 into
    the bid of A; the trade is booked on the portfolio of B as seller. -/
theorem placeOrderDirect_books_on_existing_portfolios_witness :
    demoVenue.getPortfolio "B" = some (Portfolio.new "B" 100000) ∧
    ∃ s1, demoVenue.placeOrderDirect 2 "B" "AAPL" OrderSide.SELL 100 150 =
        some (s1, [demoTrade]) ∧
      s1.getPortfolio "B" =
        some ([demoTrade].foldl (bookOwnSides "B") (Portfolio.new "B" 100000)) ∧
      (s1.getPortfolio "B").map (fun pf => pf.getPosition "AAPL") = some (-100) := by
  have h : (demoVenue.placeOrderDirect 2 "B" "AAPL" OrderSide.SELL 100 150).map Prod.snd =
      some [demoTrade] := by decide
  have hpos : (demoVenue.placeOrderDirect 2 "B" "AAPL" OrderSide.SELL 100 150).map
      (fun r => (r.1.getPortfolio "B").map (fun pf => pf.getPosition "AAPL")) =
      some (some (-100)) := by decide
  have hb : demoVenue.getPortfolio "B" = some (Portfolio.new "B" 100000) := by decide
  obtain ⟨⟨s1, ts⟩, h1, h2⟩ := Option.map_eq_some'.1 h
  simp only at h2
  subst h2
  rw [h1] at hpos
  simp only [Option.map_some', Option.some.injEq] at hpos
  exact ⟨hb, s1, h1,
    (placeOrderDirect_books_on_existing_portfolios demoVenue 2 "B" "AAPL" OrderSide.SELL
      100 150 s1 _ h1).2.2.1 _ hb, hpos⟩

/-! ## The trade history and `calculateRealizedPnL` -/

theorem addTrade_userId (pf : Portfolio) (t : Trade) (isBuyerSide : Bool) :
    (pf.addTrade t isBuyerSide).userId = pf.userId := by
  unfold Portfolio.addTrade
  cases isBuyerSide
  · simp only [Bool.false_eq_true, if_false]
    unfold Portfolio.addSellTrade
    simp only
    split
    · rfl
    · split <;> rfl
  · simp only [if_true]
    unfold Portfolio.addBuyTrade
    simp only
    split
    · rfl
    · split <;> rfl

theorem applyAll_cons (pf : Portfolio) (e : Trade × Bool) (l : List (Trade × Bool)) :
    pf.applyAll (e :: l) = (pf.addTrade e.1 e.2).applyAll l := rfl

theorem applyAll_state (l : List (Trade × Bool)) :
    ∀ pf : Portfolio,
      (pf.applyAll l).userId = pf.userId ∧
      (pf.applyAll l).tradeHistory = pf.tradeHistory ++ l.map Prod.fst ∧
      (pf.applyAll l).cashBalance = pf.cashBalance + signedFlow l := by
  induction l with
  | nil => intro pf; simp [Portfolio.applyAll, signedFlow]
  | cons e rest ih =>
    intro pf
    obtain ⟨h1, h2, h3⟩ := ih (pf.addTrade e.1 e.2)
    rw [applyAll_cons]
    refine ⟨by rw [h1, addTrade_userId], ?_, ?_⟩
    · rw [h2, addTrade_tradeHistory]
      simp
    · rw [h3, addTrade_cash]
      unfold signedFlow
      rw [List.map_cons, List.sum_cons]
      cases e.2
      · simp only [Bool.false_eq_true, if_false]
        ring
      · simp only [if_true]
        ring

theorem calculateRealizedPnL_eq_sum (pf : Portfolio) :
    pf.calculateRealizedPnL =
      (pf.tradeHistory.map (fun t =>
        if t.buyUserId = pf.userId then -((t.quantity : ℚ) * t.price)
        else if t.sellUserId = pf.userId then (t.quantity : ℚ) * t.price else 0)).sum := by
  unfold Portfolio.calculateRealizedPnL
  have key : ∀ (ts : List Trade) (a : ℚ),
      ts.foldl
        (fun totalCashFlow trade =>
          if trade.buyUserId = pf.userId then
            totalCashFlow - (trade.quantity : ℚ) * trade.price
          else if trade.sellUserId = pf.userId then
            totalCashFlow + (trade.quantity : ℚ) * trade.price
          else totalCashFlow) a =
      a + (ts.map (fun t =>
        if t.buyUserId = pf.userId then -((t.quantity : ℚ) * t.price)
        else if t.sellUserId = pf.userId then (t.quantity : ℚ) * t.price else 0)).sum := by
    intro ts
    induction ts with
    | nil => intro a; simp
    | cons t rest ih =>
      intro a
      rw [List.foldl_cons, ih, List.map_cons, List.sum_cons]
      by_cases h1 : t.buyUserId = pf.userId
      · simp only [h1, if_true]
        ring
      · by_cases h2 : t.sellUserId = pf.userId
        · simp only [h1, h2, if_true, if_false]
          ring
        · simp only [h1, h2, if_false]
          ring
  rw [key, zero_add]

/-! ## Claims about `calculateRealizedPnL` -/

/-- C27, what the code computes.  For a portfolio of user `u` built from a fresh
    one with initial cash `c` by `addTrade` calls in which `u` is the party on the
    indicated side, the cash balance minus `c` is the sum of `-q*p` over the calls
    made as buyer and `+q*p` over the calls made as seller, while
    `calculateRealizedPnL` is that sum minus twice the `q*p` of every call made as
    seller with a trade whose buyer is `u` too: the loop reads each history entry
    of a self-trade as a purchase.  The two agree when no such call was made
    (exact arithmetic). -/
theorem calculateRealizedPnL_of_history (u : String) (c : ℚ) (l : List (Trade × Bool))
    (hown : ∀ e ∈ l, (e.2 = true → e.1.buyUserId = u) ∧ (e.2 = false → e.1.sellUserId = u)) :
    ((Portfolio.new u c).applyAll l).cashBalance - c = signedFlow l ∧
    ((Portfolio.new u c).applyAll l).calculateRealizedPnL = signedFlow l - 2 * selfSold u l ∧
    (selfSold u l = 0 →
      ((Portfolio.new u c).applyAll l).calculateRealizedPnL =
        ((Portfolio.new u c).applyAll l).cashBalance - c) := by
  obtain ⟨h1, h2, h3⟩ := applyAll_state l (Portfolio.new u c)
  have hcash : ((Portfolio.new u c).applyAll l).cashBalance - c = signedFlow l := by
    rw [h3]
    simp [Portfolio.new]
  have hpnl : ((Portfolio.new u c).applyAll l).calculateRealizedPnL =
      signedFlow l - 2 * selfSold u l := by
    rw [calculateRealizedPnL_eq_sum, h1, h2]
    simp only [Portfolio.new, List.nil_append, List.map_map]
    clear h1 h2 h3 hcash
    induction l with
    | nil => simp [signedFlow, selfSold]
    | cons e rest ih =>
      have ih1 := ih (fun x hx => hown x (List.mem_cons_of_mem _ hx))
      obtain ⟨hb, hs⟩ := hown e (List.mem_cons_self _ _)
      unfold signedFlow selfSold at ih1 ⊢
      rw [List.map_cons, List.sum_cons, List.map_cons, List.sum_cons, List.map_cons,
        List.sum_cons, ih1]
      simp only [Function.comp]
      cases he : e.2
      · have hsell := hs he
        by_cases hbuy : e.1.buyUserId = u
        · simp [hbuy, hsell]
          ring
        · simp [hbuy, hsell]
          ring
      · have hbuy := hb he
        simp [hbuy]
        ring
  refine ⟨hcash, hpnl, ?_⟩
  intro hzero
  rw [hpnl, hcash, hzero]
  ring

/-- The failing input of C27: a fresh portfolio of user A with initial cash
    100000 takes a trade of 100 @ 150 in which A is buyer and seller, once as
    buyer and once as seller.  The cash balance is 100000 again, and
    `calculateRealizedPnL` is -30000. -/
theorem calculateRealizedPnL_of_history_witness :
    ((Portfolio.new "A" 100000).applyAll
      [(demoSelfTrade, true), (demoSelfTrade, false)]).cashBalance - 100000 = 0 ∧
    ((Portfolio.new "A" 100000).applyAll
      [(demoSelfTrade, true), (demoSelfTrade, false)]).calculateRealizedPnL = -30000 := by
  obtain ⟨h1, h2, _⟩ := calculateRealizedPnL_of_history "A" 100000
    [(demoSelfTrade, true), (demoSelfTrade, false)] (by decide)
  constructor
  · rw [h1]
    norm_num [signedFlow, demoSelfTrade]
  · rw [h2]
    norm_num [signedFlow, selfSold, demoSelfTrade]

/-! ## Claims about scenario S5 -/

/-- Counterexample to C28 as stated: at the end of scenario S5 the position of
    user A in AAPL is 50, not 150. -/
theorem scenario_S5_position_counterexample :
    scenarioS5.map (fun r => (r.1.getPortfolio "A").map (fun pf => pf.getPosition "AAPL")) =
      some (some 50) ∧
    scenarioS5.map (fun r => (r.1.getPortfolio "A").map (fun pf => pf.getPosition "AAPL")) ≠
      some (some 150) := by
  decide

/-- C28, amended.  Scenario S5 in the model: before the last submit A is short
    100; the buy of 250 @ 180 makes one trade, 150 @ 180 against the order of C;
    100 of it cover the short and 50 open a long, so A ends with position +50 at
    an average cost of 180, and the 100 not filled rest as the best bid at 180;
    C ends short 150. -/
theorem scenario_S5_final_state :
    scenarioS5Before.map
        (fun r => (r.1.getPortfolio "A").map (fun pf => pf.getPosition "AAPL")) =
      some (some (-100)) ∧
    scenarioS5.map (fun r => r.2.map (fun t => (t.buyUserId, t.sellUserId, t.quantity, t.price))) =
      some [("A", "C", 150, 180)] ∧
    scenarioS5.map (fun r => (r.1.getPortfolio "A").map (fun pf => pf.getPosition "AAPL")) =
      some (some 50) ∧
    scenarioS5.map (fun r => (r.1.getPortfolio "A").map (fun pf => pf.getAverageCost "AAPL")) =
      some (some 180) ∧
    scenarioS5.map (fun r => (r.1.getPortfolio "C").map (fun pf => pf.getPosition "AAPL")) =
      some (some (-150)) ∧
    scenarioS5.map
        (fun r => (r.1.getOrderBook "AAPL").map
          (fun b => (b.bestBid, b.bestAsk, (allOrders b).map (fun o => (o.userId, o.quantity))))) =
      some (some (some 180, none, [("A", 100)])) := by
  refine ⟨by decide, by decide, by decide, by decide, by decide, by decide⟩

/-! ## `calculateUnrealizedPnL` as a sum -/

theorem hmFind_of_nodup {κ ν : Type} [DecidableEq κ] (m : List (κ × ν))
    (h : (m.map Prod.fst).Nodup) : ∀ e ∈ m, hmFind m e.1 = some e.2 := by
  induction m with
  | nil => intro e he; simp at he
  | cons x rest ih =>
    intro e he
    rw [List.map_cons, List.nodup_cons] at h
    rw [List.mem_cons] at he
    obtain ⟨k0, v0⟩ := x
    rcases he with he | he
    · rw [he]
      simp [hmFind]
    · have hne : k0 ≠ e.1 := by
        intro heq
        apply h.1
        simp only at heq ⊢
        rw [heq]
        exact List.mem_map.2 ⟨e, he, rfl⟩
      simp only [hmFind, hne, if_false]
      exact ih h.2 e he

/-- C34. `matchOrder` given an order that fails `Order::isValid` (quantity at
    most 0, or price at most 0, or empty symbol, or empty user id) comes back at
    once, on every book: it returns no trade, the book (both sides, the id
    lookup, the symbol) is the book it was given, the trade id counter is not
    used, and the order is in no level and under no id afterwards unless it was
    there before. -/
theorem matchOrder_rejects_invalid (b : OrderBook) (o : Order) (n : Int)
    (hbad : o.quantity ≤ 0 ∨ o.price ≤ 0 ∨ o.symbol = "" ∨ o.userId = "") :
    o.isValid = false ∧
    ∃ st, matchOrder b o n = some st ∧ st.trades = [] ∧ st.book = b ∧ st.nextTradeId = n ∧
      (o ∉ allOrders b → o ∉ allOrders st.book) ∧
      (b.getOrder o.orderId = none → st.book.getOrder o.orderId = none) := by
  have hv : o.isValid = false := by
    rw [← Bool.not_eq_true, Order.isValid_iff]
    rintro ⟨h1, h2, h3, h4⟩
    rcases hbad with h | h | h | h
    · omega
    · exact absurd h2 (not_lt.2 h)
    · exact h3 h
    · exact h4 h
  exact ⟨hv, _, matchOrder_of_invalid b o n hv, rfl, rfl, rfl, fun h => h, fun h => h⟩

/-- Witness for C34: a buy with quantity 0 on the book of scenario S3, which it
    would cross. -/
theorem matchOrder_rejects_invalid_witness :
    demoZeroBuy.quantity ≤ 0 ∧ demoZeroBuy.isValid = false ∧
    ∃ st, matchOrder demoBook demoZeroBuy 1 = some st ∧ st.trades = [] ∧
      st.book = demoBook ∧ st.nextTradeId = 1 ∧
      (demoZeroBuy ∉ allOrders demoBook → demoZeroBuy ∉ allOrders st.book) ∧
      (demoBook.getOrder demoZeroBuy.orderId = none →
        st.book.getOrder demoZeroBuy.orderId = none) :=
  ⟨by decide, matchOrder_rejects_invalid demoBook demoZeroBuy 1 (Or.inl (by decide))⟩

/-! ## Termination of the matching loop under positive resting quantities -/

/-- One pass on a book whose opposing orders all have a positive quantity: the
    incoming order keeps its side, the opposing orders stay positive, and either
    the opposing side has lost a level or an order, or the incoming order has
    nothing left. -/
theorem matchStep_measure {st st1 : MatchState}
    (hpos : ∀ r ∈ restingOrders (opposing st.book st.newOrder.side), 0 < r.quantity)
    (h : matchStep st = some st1) :
    st1.newOrder.side = st.newOrder.side ∧
      (∀ r ∈ restingOrders (opposing st1.book st1.newOrder.side), 0 < r.quantity) ∧
      (loopMeasure st1 < loopMeasure st ∨ st1.newOrder.quantity ≤ 0) := by
  obtain ⟨bp, lvl, rest, hopp, hq, _, hcase⟩ := matchStep_cases h
  rw [hopp, restingOrders_cons] at hpos
  unfold loopMeasure
  rcases hcase with ⟨hl, hno, _, hb⟩ | ⟨r, others, hl, _, hno, hbook⟩
  · rw [hno, hb, hopp, hl]
    refine ⟨rfl, fun x hx => hpos x (List.mem_append_right _ hx), Or.inl ?_⟩
    simp only [List.length_cons, orderCount_cons, List.length_nil]
    omega
  · subst hl
    have hrq : 0 < r.quantity := hpos r (by simp)
    have hx : 0 < min st.newOrder.quantity r.quantity := lt_min hq hrq
    have hside : st1.newOrder.side = st.newOrder.side := by
      rw [hno, updateOrderQuantity_side]
    have hqr : (updateOrderQuantity r (min st.newOrder.quantity r.quantity)).quantity =
        r.quantity - min st.newOrder.quantity r.quantity := by
      rw [updateOrderQuantity_quantity r _ hx]
      exact max_eq_left (by have := min_le_right st.newOrder.quantity r.quantity; omega)
    rw [hside, hopp]
    rcases hbook with ⟨hzero, hb⟩ | ⟨hnz, hb⟩
    · rw [hb]
      refine ⟨rfl, ?_, Or.inl ?_⟩
      · intro x hx1
        rw [restingOrders_pop] at hx1
        apply hpos x
        rw [List.cons_append]
        exact List.mem_cons_of_mem _ hx1
      · by_cases he : others = []
        · simp only [he, if_true, List.length_cons, orderCount_cons, List.length_nil]
          omega
        · simp only [he, if_false, List.length_cons, orderCount_cons]
          omega
    · rw [hb]
      refine ⟨rfl, ?_, Or.inr ?_⟩
      · intro x hx1
        rw [restingOrders_cons, List.cons_append, List.mem_cons] at hx1
        rcases hx1 with hx1 | hx1
        · rw [hx1, hqr]
          rw [hqr] at hnz
          have := min_le_right st.newOrder.quantity r.quantity
          omega
        · apply hpos x
          rw [List.cons_append]
          exact List.mem_cons_of_mem _ hx1
      · rw [hno, updateOrderQuantity_quantity _ _ hx]
        rw [hqr] at hnz
        have hlt : st.newOrder.quantity < r.quantity := by
          by_contra hge
          rw [min_eq_right (not_lt.1 hge)] at hnz
          omega
        rw [min_eq_left (le_of_lt hlt)]
        simp

theorem matchLoop_total_of_pos (fuel : Nat) (st : MatchState)
    (hpos : ∀ r ∈ restingOrders (opposing st.book st.newOrder.side), 0 < r.quantity)
    (hfuel : loopMeasure st + 2 ≤ fuel) : ∃ st2, matchLoop fuel st = some st2 := by
  induction fuel generalizing st with
  | zero => omega
  | succ f ih =>
    rw [matchLoop_succ]
    cases hs : matchStep st with
    | none => exact ⟨st, rfl⟩
    | some st1 =>
      simp only
      obtain ⟨_, hpos1, hm⟩ := matchStep_measure hpos hs
      rcases hm with hm | hm
      · exact ih st1 hpos1 (by omega)
      · obtain ⟨f1, rfl⟩ : ∃ f1, f = f1 + 1 := ⟨f - 1, by omega⟩
        exact ⟨st1, matchLoop_of_nonpos f1 st1 hm⟩

/-! ## Claims about termination -/

/-- C36. `matchOrder` comes back on every book whose resting orders all have a
    positive quantity, for every incoming order, within the budget of passes the
    model gives it and within any larger one.  Each pass of the loop on such a
    book keeps the opposing quantities positive and either takes a level or an
    order from the opposing side, so that the number of opposing levels plus
    orders goes down, or leaves the incoming order with nothing, after which the
    loop is left. -/
theorem matchOrder_terminates (b : OrderBook) (o : Order) (n : Int)
    (hpos : ∀ r ∈ allOrders b, 0 < r.quantity) :
    (matchOrder b o n).isSome = true ∧
    (∀ fuel, loopMeasure { book := b, newOrder := o, trades := [], nextTradeId := n } + 2 ≤ fuel →
      (matchLoop fuel { book := b, newOrder := o, trades := [], nextTradeId := n }).isSome =
        true) ∧
    ∀ st st1 : MatchState,
      (∀ r ∈ restingOrders (opposing st.book st.newOrder.side), 0 < r.quantity) →
      matchStep st = some st1 →
        (∀ r ∈ restingOrders (opposing st1.book st1.newOrder.side), 0 < r.quantity) ∧
        (loopMeasure st1 < loopMeasure st ∨ st1.newOrder.quantity ≤ 0) ∧
        (st1.newOrder.quantity ≤ 0 → matchStep st1 = none) := by
  have hopp : ∀ r ∈ restingOrders
      (opposing ({ book := b, newOrder := o, trades := [], nextTradeId := n } : MatchState).book
        ({ book := b, newOrder := o, trades := [], nextTradeId := n } : MatchState).newOrder.side),
      0 < r.quantity := by
    intro r hr
    exact hpos r ((mem_allOrders_iff b o.side r).2 (Or.inr hr))
  refine ⟨?_, ?_, ?_⟩
  · by_cases hv : o.isValid = true
    · obtain ⟨st0, h0⟩ := matchLoop_total_of_pos (matchFuel b o.side)
        { book := b, newOrder := o, trades := [], nextTradeId := n } hopp (le_refl _)
      unfold matchOrder
      simp only [hv, Bool.not_true, Bool.false_eq_true, if_false, h0]
      split <;> rfl
    · rw [matchOrder_of_invalid b o n (by simpa using hv)]
      rfl
  · intro fuel hfuel
    obtain ⟨st2, h2⟩ := matchLoop_total_of_pos fuel _ hopp hfuel
    rw [h2]
    rfl
  · intro st st1 hp hs
    obtain ⟨_, h1, h2⟩ := matchStep_measure hp hs
    exact ⟨h1, h2, fun hq => (matchStep_eq_none_iff st1).2 (Or.inr (Or.inl hq))⟩

/-- Witness for C36: a book that is not well-formed (its ask side starts with an
    empty level) but holds positive quantities only; the buy of scenario S3 comes
    back with one trade. -/
theorem matchOrder_terminates_witness :
    ¬ WellFormed demoBookEmptyLevel ∧ (∀ r ∈ allOrders demoBookEmptyLevel, 0 < r.quantity) ∧
    (matchOrder demoBookEmptyLevel demoBuy 1).map
        (fun st => st.trades.map (fun t => (t.sellOrderId, t.quantity))) = some [(2, 100)] ∧
    (matchOrder demoBookEmptyLevel demoBuy 1).isSome = true :=
  ⟨by decide, by decide, by decide,
    (matchOrder_terminates demoBookEmptyLevel demoBuy 1 (by decide)).1⟩

/-! ## The passes of a `matchOrder` call, one by one -/

/-- One pass on a well-formed opposing side, in terms of the priority list: the
    trade is made with the first order, for the smaller of the two remaining
    quantities; both orders lose exactly that, without the clamp of
    `updateOrderQuantity`; the first order leaves the list when nothing is left
    of it. -/
theorem matchStep_detail {st st1 : MatchState}
    (hwf : SideWF st.newOrder.side.opposite (opposing st.book st.newOrder.side))
    (h : matchStep st = some st1) :
    ∃ r rest1 t, restingOrders (opposing st.book st.newOrder.side) = r :: rest1 ∧
      0 < st.newOrder.quantity ∧ 0 < r.quantity ∧
      t = tradeAgainst st.nextTradeId st.newOrder r
        (min st.newOrder.quantity r.quantity) r.price ∧
      st1.trades = st.trades ++ [t] ∧
      st1.newOrder = updateOrderQuantity st.newOrder t.quantity ∧
      updateOrderQuantity st.newOrder t.quantity =
        { st.newOrder with quantity := st.newOrder.quantity - t.quantity } ∧
      updateOrderQuantity r t.quantity = { r with quantity := r.quantity - t.quantity } ∧
      restingOrders (opposing st1.book st.newOrder.side) =
        (if r.quantity = t.quantity then rest1
          else { r with quantity := r.quantity - t.quantity } :: rest1) ∧
      ownSide st1.book st.newOrder.side = ownSide st.book st.newOrder.side := by
  obtain ⟨bp, r, others, rest, hopp, hq, _, _, hrq, htr, _, hno, hbook⟩ :=
    matchStep_eq_some hwf h
  have hx : 0 < min st.newOrder.quantity r.quantity := lt_min hq hrq
  have hu1 := updateOrderQuantity_of_le st.newOrder _ hx (min_le_left _ _)
  have hu2 := updateOrderQuantity_of_le r _ hx (min_le_right _ _)
  refine ⟨r, others ++ restingOrders rest,
    tradeAgainst st.nextTradeId st.newOrder r (min st.newOrder.quantity r.quantity) r.price,
    ?_, hq, hrq, rfl, htr, ?_, ?_, ?_, ?_, ?_⟩
  · rw [hopp, restingOrders_cons]
    rfl
  · rw [tradeAgainst_quantity_eq, hu1, hno]
  · rw [tradeAgainst_quantity_eq, hu1]
  · rw [tradeAgainst_quantity_eq, hu2]
  · rw [tradeAgainst_quantity_eq]
    rcases hbook with ⟨hle, hb⟩ | ⟨hlt, hb⟩
    · rw [hb, opposing_setOpposing, restingOrders_pop, min_eq_right hle]
      simp
    · have hne : ¬ r.quantity = min st.newOrder.quantity r.quantity := by
        rw [min_eq_left (le_of_lt hlt)]
        omega
      rw [hb, opposing_setOpposing, restingOrders_cons, if_neg hne,
        min_eq_left (le_of_lt hlt)]
      rfl
  · rcases hbook with ⟨_, hb⟩ | ⟨_, hb⟩ <;> rw [hb] <;> simp

/-- On a well-formed book `matchOrder` comes back for a valid order after some
    number of passes of its loop, each of which is a pass on a well-formed
    opposing side. -/
theorem matchOrder_pass_by_pass (b : OrderBook) (o : Order) (n : Int) (hwf : WellFormed b)
    (hv : o.isValid = true) :
    ∃ st k last, matchOrder b o n = some st ∧
      passes k { book := b, newOrder := o, trades := [], nextTradeId := n } = some last ∧
      matchStep last = none ∧ last.trades = st.trades ∧ last.newOrder = st.newOrder ∧
      ∀ i, i < k → ∃ sti stj,
        passes i { book := b, newOrder := o, trades := [], nextTradeId := n } = some sti ∧
        passes (i + 1) { book := b, newOrder := o, trades := [], nextTradeId := n } =
          some stj ∧
        matchStep sti = some stj ∧ sti.newOrder.side = o.side ∧
        SideWF sti.newOrder.side.opposite (opposing sti.book sti.newOrder.side) := by
  obtain ⟨st0, hloop, _, hm⟩ := matchOrder_spec b o n hwf hv
  have hwfo := hwf.opposing_side o.side
  obtain ⟨k, hk, hnone⟩ := matchLoop_passes _ _ _ hloop
  refine ⟨_, k, st0, hm, hk, hnone, ?_, ?_, ?_⟩
  · split <;> rfl
  · split <;> rfl
  · intro i hi
    obtain ⟨sti, hsti⟩ := passes_of_le hk i (by omega)
    obtain ⟨stj, hstj⟩ := passes_of_le hk (i + 1) (by omega)
    obtain ⟨hside, _, hwfi⟩ := passes_invariant i _ sti hwfo hsti
    simp only at hside hwfi
    have hstep : matchStep sti = some stj := by
      rw [passes_snoc, hsti] at hstj
      exact hstj
    refine ⟨sti, stj, hsti, hstj, hstep, hside, ?_⟩
    rw [hside]
    exact hwfi

theorem fillList_pos (o : Order) (l : List Order) (hpos : ∀ r ∈ l, 0 < r.quantity) :
    ∀ (q : Int) (f : Order × Int), f ∈ fillList o q l → 0 < f.2 ∧ f.2 ≤ f.1.quantity := by
  induction l with
  | nil => intro q f hf; simp [fillList] at hf
  | cons r rs ih =>
    intro q f hf
    unfold fillList at hf
    by_cases hstop : q ≤ 0 ∨ crosses o r.price = false
    · simp [hstop] at hf
    · simp only [hstop, if_false, List.mem_cons] at hf
      rw [not_or] at hstop
      rcases hf with hf | hf
      · rw [hf]
        exact ⟨lt_min (by omega) (hpos r (List.mem_cons_self _ _)), min_le_right _ _⟩
      · exact ih (fun x hx => hpos x (List.mem_cons_of_mem _ hx)) _ f hf

theorem mem_remainder_bounds (o : Order) (l : List Order) :
    ∀ (q : Int), ∀ y ∈ remainder o q l,
      ∃ r ∈ l, y = r ∨
        ∃ x : Int, 0 < x ∧ x < r.quantity ∧ y = { r with quantity := r.quantity - x } := by
  induction l with
  | nil => intro q y hy; simp [remainder] at hy
  | cons r rs ih =>
    intro q y hy
    unfold remainder at hy
    by_cases hstop : q ≤ 0 ∨ crosses o r.price = false
    · simp only [hstop, if_true] at hy
      exact ⟨y, hy, Or.inl rfl⟩
    · simp only [hstop, if_false] at hy
      rw [not_or] at hstop
      by_cases hle : r.quantity ≤ q
      · simp only [hle, if_true] at hy
        obtain ⟨r1, hr1, h1⟩ := ih _ y hy
        exact ⟨r1, List.mem_cons_of_mem _ hr1, h1⟩
      · simp only [hle, if_false, List.mem_cons] at hy
        rcases hy with hy | hy
        · exact ⟨r, List.mem_cons_self _ _, Or.inr ⟨q, by omega, by omega, hy⟩⟩
        · exact ⟨y, List.mem_cons_of_mem _ hy, Or.inl rfl⟩

/-! ## Claims about the quantities of a `matchOrder` call -/

/-- C32. On a well-formed book (whose resting orders have a positive quantity)
    in which all resting orders have a positive price, for a valid incoming
    order, `matchOrder` comes back and each trade it returns has a positive
    quantity and a positive price; and in each pass of the loop the quantity of
    the trade made is the minimum of the remaining quantity of the incoming order
    and that of the resting order it is made with, both read at the start of the
    pass. -/
theorem matchOrder_trade_quantity_is_min (b : OrderBook) (o : Order) (n : Int)
    (hwf : WellFormed b) (hprice : ∀ r ∈ allOrders b, 0 < r.price)
    (hv : o.isValid = true) :
    ∃ st, matchOrder b o n = some st ∧
      (∀ t ∈ st.trades, 0 < t.quantity ∧ 0 < t.price) ∧
      ∃ k last,
        passes k { book := b, newOrder := o, trades := [], nextTradeId := n } = some last ∧
        matchStep last = none ∧ last.trades = st.trades ∧
        ∀ i, i < k → ∃ sti r rest1 t,
          passes i { book := b, newOrder := o, trades := [], nextTradeId := n } = some sti ∧
          restingOrders (opposing sti.book o.side) = r :: rest1 ∧
          (passes (i + 1) { book := b, newOrder := o, trades := [], nextTradeId := n }).map
            (fun s => s.trades) = some (sti.trades ++ [t]) ∧
          t.quantity = min sti.newOrder.quantity r.quantity ∧ t.price = r.price ∧
          0 < sti.newOrder.quantity ∧ 0 < r.quantity := by
  obtain ⟨st, k, last, hm, hk, hnone, htr, _, hpass⟩ := matchOrder_pass_by_pass b o n hwf hv
  obtain ⟨st2, hm2, htr2⟩ := matchOrder_trades_eq b o n hwf hv
  rw [hm] at hm2
  simp only [Option.some.injEq] at hm2
  rw [← hm2] at htr2
  refine ⟨st, hm, ?_, k, last, hk, hnone, htr, ?_⟩
  · intro t ht
    rw [htr2] at ht
    obtain ⟨f, hf, j, hj⟩ := mem_tradesFrom o _ n t ht
    have hfm := (mem_fillList_crosses o _ _ f hf).1
    have hqpos : ∀ r ∈ restingOrders (opposing b o.side), 0 < r.quantity := by
      intro r hr
      exact ((hwf.opposing_side o.side).mem_resting hr).choose_spec.2.2.2
    have hfp := (fillList_pos o _ hqpos _ f hf).1
    rw [hj]
    simp only [tradeAgainst_quantity_eq, tradeAgainst_price_eq]
    exact ⟨hfp, hprice f.1 ((mem_allOrders_iff b o.side f.1).2 (Or.inr hfm))⟩
  · intro i hi
    obtain ⟨sti, stj, hsti, hstj, hstep, hside, hwfi⟩ := hpass i hi
    obtain ⟨r, rest1, t, hl, hq, hrq, ht, htrades, _⟩ := matchStep_detail hwfi hstep
    rw [hside] at hl
    refine ⟨sti, r, rest1, t, hsti, hl, ?_, ?_, ?_, hq, hrq⟩
    · rw [hstj]
      simp [htrades]
    · rw [ht]; simp
    · rw [ht]; simp

/-- Witness for C32: scenario S3, trades of 100 @ 150 and 50 @ 151. -/
theorem matchOrder_trade_quantity_is_min_witness :
    WellFormed demoBook ∧ (∀ r ∈ allOrders demoBook, 0 < r.price) ∧
    demoBuy.isValid = true ∧
    (matchOrder demoBook demoBuy 1).map
        (fun st => st.trades.map (fun t => (t.quantity, t.price))) =
      some [(100, 150), (50, 151)] ∧
    ∃ st, matchOrder demoBook demoBuy 1 = some st ∧
      ∀ t ∈ st.trades, 0 < t.quantity ∧ 0 < t.price := by
  obtain ⟨st, h1, h2, _⟩ :=
    matchOrder_trade_quantity_is_min demoBook demoBuy 1 (by decide) (by decide) (by decide)
  exact ⟨by decide, by decide, by decide, by decide, st, h1, h2⟩

/-- C33. On a well-formed book (whose resting orders have a positive quantity),
    for a valid incoming order, `matchOrder` comes back and no remaining quantity
    has grown or become negative.  The incoming order is left with
    `before - traded`, between 0 and what it had; an order that rested on the
    side of the incoming order still rests there unchanged; an order still
    resting on the opposing side is an order that rested there, unchanged or with
    a positive quantity reduced by less than it had; each fill is positive and at
    most the quantity of the order it fills; and in each pass both orders of the
    trade lose exactly the trade quantity, `updateOrderQuantity` giving
    `quantity - executed` for both without its clamp at zero. -/
theorem matchOrder_quantities_only_shrink (b : OrderBook) (o : Order) (n : Int)
    (hwf : WellFormed b) (hv : o.isValid = true) :
    ∃ st, matchOrder b o n = some st ∧
      st.newOrder.quantity = o.quantity - tradedQuantity st.trades ∧
      0 ≤ st.newOrder.quantity ∧ st.newOrder.quantity ≤ o.quantity ∧
      (∀ y ∈ restingOrders (ownSide b o.side), y ∈ restingOrders (ownSide st.book o.side)) ∧
      (∀ y ∈ restingOrders (opposing st.book o.side),
        ∃ r ∈ restingOrders (opposing b o.side), y = r ∨
          ∃ x : Int, 0 < x ∧ x < r.quantity ∧ y = { r with quantity := r.quantity - x }) ∧
      (∀ f ∈ fillList o o.quantity (restingOrders (opposing b o.side)),
        0 < f.2 ∧ f.2 ≤ f.1.quantity) ∧
      ∃ k last,
        passes k { book := b, newOrder := o, trades := [], nextTradeId := n } = some last ∧
        matchStep last = none ∧ last.trades = st.trades ∧ last.newOrder = st.newOrder ∧
        ∀ i, i < k → ∃ sti stj r rest1 t,
          passes i { book := b, newOrder := o, trades := [], nextTradeId := n } = some sti ∧
          passes (i + 1) { book := b, newOrder := o, trades := [], nextTradeId := n } =
            some stj ∧
          restingOrders (opposing sti.book o.side) = r :: rest1 ∧
          stj.trades = sti.trades ++ [t] ∧
          0 < t.quantity ∧ t.quantity ≤ sti.newOrder.quantity ∧ t.quantity ≤ r.quantity ∧
          stj.newOrder = updateOrderQuantity sti.newOrder t.quantity ∧
          updateOrderQuantity sti.newOrder t.quantity =
            { sti.newOrder with quantity := sti.newOrder.quantity - t.quantity } ∧
          updateOrderQuantity r t.quantity = { r with quantity := r.quantity - t.quantity } ∧
          restingOrders (opposing stj.book o.side) =
            (if r.quantity = t.quantity then rest1
              else { r with quantity := r.quantity - t.quantity } :: rest1) := by
  obtain ⟨st, k, last, hm, hk, hnone, htr, hno, hpass⟩ := matchOrder_pass_by_pass b o n hwf hv
  obtain ⟨st1, st0, hm1, hres, ht, hno1, _, hbk⟩ := matchOrder_result b o n hwf hv
  rw [hm] at hm1
  simp only [Option.some.injEq] at hm1
  subst hm1
  obtain ⟨r1, r2, _, r4, r5, _⟩ := hres
  simp only [List.nil_append] at r1 r2 r4 r5
  have hside0 : st0.newOrder.side = o.side := by rw [r2]
  have hopp : opposing st.book o.side = opposing st0.book o.side := by
    rw [hbk]
    split
    · rw [← hside0, opposing_addOrder]
    · rfl
  have hqpos : ∀ r ∈ restingOrders (opposing b o.side), 0 < r.quantity := by
    intro r hr
    exact ((hwf.opposing_side o.side).mem_resting hr).choose_spec.2.2.2
  have hsum : tradedQuantity st.trades =
      ((fillList o o.quantity (restingOrders (opposing b o.side))).map Prod.snd).sum := by
    rw [ht, r1, tradedQuantity_tradesFrom]
  have hq0 : st.newOrder.quantity = o.quantity - tradedQuantity st.trades := by
    rw [hno1, r2, hsum]
  have hvq := ((Order.isValid_iff o).1 hv).1
  have hle := fillList_sum_le o (restingOrders (opposing b o.side)) o.quantity (le_of_lt hvq)
  have hnonneg : 0 ≤ tradedQuantity st.trades := by
    rw [hsum]
    apply List.sum_nonneg
    intro x hx
    rw [List.mem_map] at hx
    obtain ⟨f, hf, hfx⟩ := hx
    rw [← hfx]
    exact le_of_lt (fillList_pos o _ hqpos _ f hf).1
  refine ⟨st, hm, hq0, by rw [hq0, hsum]; omega, by omega, ?_, ?_,
    fillList_pos o _ hqpos _, k, last, hk, hnone, htr, hno, ?_⟩
  · intro y hy
    rw [← r5] at hy
    rw [hbk]
    by_cases hpos : 0 < st0.newOrder.quantity
    · simp only [gt_iff_lt, hpos, if_true]
      have hv0 : st0.newOrder.isValid = true := by
        obtain ⟨_, hp, hsym, husr⟩ := (Order.isValid_iff o).1 hv
        rw [Order.isValid_iff]
        refine ⟨hpos, ?_, ?_, ?_⟩ <;> rw [r2] <;> assumption
      rw [← hside0, ownSide_addOrder _ _ hv0, hside0]
      exact mem_restingOrders_levelInsert _ _ _ _ hy
    · simp only [gt_iff_lt, hpos, if_false]
      exact hy
  · intro y hy
    rw [hopp, r4] at hy
    exact mem_remainder_bounds o _ _ y hy
  · intro i hi
    obtain ⟨sti, stj, hsti, hstj, hstep, hside, hwfi⟩ := hpass i hi
    obtain ⟨r, rest1, t, hl, hq, hrq, ht1, htrades, hnew, hu1, hu2, hrest, _⟩ :=
      matchStep_detail hwfi hstep
    rw [hside] at hl hrest
    have htq : t.quantity = min sti.newOrder.quantity r.quantity := by rw [ht1]; simp
    refine ⟨sti, stj, r, rest1, t, hsti, hstj, hl, htrades, ?_, ?_, ?_, hnew, hu1, hu2, hrest⟩
    · rw [htq]; exact lt_min hq hrq
    · rw [htq]; exact min_le_left _ _
    · rw [htq]; exact min_le_right _ _

/-- Witness for C33: scenario S3, the incoming buy of 150 is left with 0, the
    ask of U1 with 50 of its 100. -/
theorem matchOrder_quantities_only_shrink_witness :
    WellFormed demoBook ∧ demoBuy.isValid = true ∧
    (matchOrder demoBook demoBuy 1).map
        (fun st => (st.newOrder.quantity,
          (restingOrders (opposing st.book demoBuy.side)).map
            (fun r => (r.orderId, r.quantity)))) = some (0, [(1, 50)]) ∧
    ∃ st, matchOrder demoBook demoBuy 1 = some st ∧
      st.newOrder.quantity = demoBuy.quantity - tradedQuantity st.trades ∧
      0 ≤ st.newOrder.quantity ∧ st.newOrder.quantity ≤ demoBuy.quantity := by
  obtain ⟨st, h1, h2, h3, h4, _⟩ :=
    matchOrder_quantities_only_shrink demoBook demoBuy 1 (by decide) (by decide)
  exact ⟨by decide, by decide, by decide, st, h1, h2, h3, h4⟩

/-! ## The fills against the priority list -/

theorem fillList_fst (o : Order) (l : List Order) :
    ∀ q : Int, (fillList o q l).map Prod.fst = l.take (fillList o q l).length := by
  induction l with
  | nil => intro q; simp [fillList]
  | cons r rs ih =>
    intro q
    unfold fillList
    by_cases hstop : q ≤ 0 ∨ crosses o r.price = false
    · simp [hstop]
    · simp only [hstop, if_false, List.map_cons, List.length_cons, List.take_succ_cons]
      rw [ih]

theorem fillList_dropLast_full (o : Order) (l : List Order) :
    ∀ (q : Int), ∀ f ∈ (fillList o q l).dropLast, f.2 = f.1.quantity := by
  induction l with
  | nil => intro q f hf; simp [fillList] at hf
  | cons r rs ih =>
    intro q f hf
    unfold fillList at hf
    by_cases hstop : q ≤ 0 ∨ crosses o r.price = false
    · simp [hstop] at hf
    · simp only [hstop, if_false] at hf
      by_cases hle : r.quantity ≤ q
      · rw [min_eq_right hle] at hf
        cases hfs : fillList o (q - r.quantity) rs with
        | nil => rw [hfs] at hf; simp at hf
        | cons g gs =>
          rw [hfs, List.dropLast_cons₂, List.mem_cons] at hf
          rcases hf with hf | hf
          · rw [hf]
          · apply ih (q - r.quantity) f
            rw [hfs]
            exact hf
      · have hmin : min q r.quantity = q := min_eq_left (by omega)
        rw [hmin, sub_self, fillList_nonpos o 0 (le_refl _)] at hf
        simp at hf

theorem remainder_eq_partialRest (o : Order) (l : List Order) :
    ∀ q : Int, remainder o q l =
      partialRest (fillList o q l) ++ l.drop (fillList o q l).length := by
  induction l with
  | nil => intro q; simp [remainder, fillList, partialRest]
  | cons r rs ih =>
    intro q
    unfold remainder fillList
    by_cases hstop : q ≤ 0 ∨ crosses o r.price = false
    · simp [hstop, partialRest]
    · simp only [hstop, if_false]
      by_cases hle : r.quantity ≤ q
      · simp only [hle, if_true, min_eq_right hle, List.length_cons, List.drop_succ_cons]
        rw [ih]
        congr 1
        unfold partialRest
        cases hfs : fillList o (q - r.quantity) rs with
        | nil => simp
        | cons g gs => rw [List.getLast?_cons_cons]
      · have hmin : min q r.quantity = q := min_eq_left (by omega)
        have hlt : q < r.quantity := by omega
        simp only [hle, if_false, hmin, sub_self, fillList_nonpos o 0 (le_refl _),
          List.length_cons, List.length_nil, List.drop_succ_cons, List.drop_zero]
        simp [partialRest, hlt]

theorem filter_partial_le_one (fills : List (Order × Int))
    (h : ∀ f ∈ fills.dropLast, f.2 = f.1.quantity) :
    (fills.filter (fun f => decide (f.2 < f.1.quantity))).length ≤ 1 := by
  rcases List.eq_nil_or_concat fills with hnil | ⟨init, last, hcon⟩
  · rw [hnil]; simp
  · rw [hcon, List.concat_eq_append, List.dropLast_concat] at h
    rw [hcon, List.concat_eq_append, List.filter_append]
    have hinit : init.filter (fun f => decide (f.2 < f.1.quantity)) = [] := by
      rw [List.filter_eq_nil_iff]
      intro f hf
      have := h f hf
      simp only [decide_eq_true_eq]
      omega
    rw [hinit, List.nil_append]
    exact (List.length_filter_le _ _).trans (by simp)

/-! ## Claims about the number of trades -/

/-- C37. In one `matchOrder` call on a well-formed book, for a valid incoming
    order, the trades are made with the orders at the front of the opposing
    priority list, one trade each and in that order; the list holds no order
    twice, so no resting order is the counterparty of two trades and there are at
    most as many trades as orders resting on the opposing side at entry.  Every
    fill but the last takes the whole quantity of its order, and afterwards the
    opposing side holds what the last fill left of its order, if anything,
    followed by the orders that were not reached; so at most one resting order
    is left partially filled. -/
theorem matchOrder_one_trade_per_resting_order (b : OrderBook) (o : Order) (n : Int)
    (hwf : WellFormed b) (hv : o.isValid = true) :
    ∃ st fills, matchOrder b o n = some st ∧
      fills = fillList o o.quantity (restingOrders (opposing b o.side)) ∧
      st.trades = tradesFrom o n fills ∧ st.trades.length = fills.length ∧
      List.Forall₂ (TradeAgainst o) st.trades
        ((restingOrders (opposing b o.side)).take st.trades.length) ∧
      fills.map Prod.fst = (restingOrders (opposing b o.side)).take fills.length ∧
      (restingOrders (opposing b o.side)).Nodup ∧ (fills.map Prod.fst).Nodup ∧
      st.trades.length ≤ (restingOrders (opposing b o.side)).length ∧
      (∀ f ∈ fills.dropLast, f.2 = f.1.quantity) ∧
      restingOrders (opposing st.book o.side) =
        partialRest fills ++ (restingOrders (opposing b o.side)).drop fills.length ∧
      (partialRest fills).length ≤ 1 ∧
      (fills.filter (fun f => decide (f.2 < f.1.quantity))).length ≤ 1 := by
  obtain ⟨st, st0, hm, hres, ht, _, hopp⟩ := matchOrder_opposing b o n hwf hv
  obtain ⟨r1, _, _, r4, _⟩ := hres
  simp only [List.nil_append] at r1 r4
  have hnd := (hwf.opposing_side o.side).resting_nodup
  have hfst := fillList_fst o (restingOrders (opposing b o.side)) o.quantity
  have hlen : st.trades.length =
      (fillList o o.quantity (restingOrders (opposing b o.side))).length := by
    rw [ht, r1, tradesFrom_length]
  have hfull := fillList_dropLast_full o (restingOrders (opposing b o.side)) o.quantity
  refine ⟨st, _, hm, rfl, by rw [ht, r1], hlen, ?_, hfst, hnd, ?_, ?_, hfull, ?_, ?_,
    filter_partial_le_one _ hfull⟩
  · have h1 := (tradesFrom_fillList_priority o (restingOrders (opposing b o.side))
      o.quantity n).1
    rw [← r1, ← ht] at h1
    exact h1
  · rw [hfst]
    exact hnd.sublist (List.take_sublist _ _)
  · rw [hlen]
    have := congrArg List.length hfst
    rw [List.length_map, List.length_take] at this
    omega
  · rw [hopp, r4]
    exact remainder_eq_partialRest o _ _
  · unfold partialRest
    split
    · split <;> simp
    · simp

/-- Witness for C37: scenario S3, two trades with the two resting asks, the
    second of which is left with 50. -/
theorem matchOrder_one_trade_per_resting_order_witness :
    WellFormed demoBook ∧ demoBuy.isValid = true ∧
    (fillList demoBuy demoBuy.quantity (restingOrders (opposing demoBook demoBuy.side))).map
        (fun f => (f.1.orderId, f.1.quantity, f.2)) = [(2, 100, 100), (1, 100, 50)] ∧
    ∃ st fills, matchOrder demoBook demoBuy 1 = some st ∧
      fills = fillList demoBuy demoBuy.quantity
        (restingOrders (opposing demoBook demoBuy.side)) ∧
      st.trades.length = fills.length ∧
      st.trades.length ≤ (restingOrders (opposing demoBook demoBuy.side)).length ∧
      (fills.filter (fun f => decide (f.2 < f.1.quantity))).length ≤ 1 := by
  obtain ⟨st, fills, h1, h2, _, h4, _, _, _, _, h9, _, _, _, h13⟩ :=
    matchOrder_one_trade_per_resting_order demoBook demoBuy 1 (by decide) (by decide)
  exact ⟨by decide, by decide, by decide, st, fills, h1, h2, h4, h9, h13⟩


/-! ## Whole-book matching: the passes of `matchOrders` -/

theorem validateOrdersForMatching_iff (buy sell : Order) :
    validateOrdersForMatching buy sell = true ↔
      buy.isValid = true ∧ sell.isValid = true ∧ buy.symbol = sell.symbol ∧
        buy.side = OrderSide.BUY ∧ sell.side = OrderSide.SELL := by
  unfold validateOrdersForMatching
  constructor
  · intro h
    by_cases h1 : buy.isValid = true <;> by_cases h2 : sell.isValid = true <;>
      by_cases h3 : buy.symbol = sell.symbol <;> by_cases h4 : buy.side = OrderSide.BUY <;>
      by_cases h5 : sell.side = OrderSide.SELL <;> simp_all
  · rintro ⟨h1, h2, h3, h4, h5⟩
    have q1 := ((Order.isValid_iff buy).1 h1).1
    have q2 := ((Order.isValid_iff sell).1 h2).1
    have q1n : ¬ buy.quantity ≤ 0 := by omega
    have q2n : ¬ sell.quantity ≤ 0 := by omega
    simp [h1, h2, h3, h4, h5, q1n, q2n]

theorem bookLoop_succ (fuel : Nat) (st : BookMatchState) :
    bookLoop (fuel + 1) st =
      match bookPass st with
      | none => some st
      | some st1 => bookLoop fuel st1 := rfl

/-- The normal form of a pass of the whole-book loop that goes on. -/
theorem bookPass_cases {st st1 : BookMatchState} (h : bookPass st = some st1) :
    ∃ pb bl brest pa al arest,
      st.book.buyOrders = (pb, bl) :: brest ∧ st.book.sellOrders = (pa, al) :: arest ∧
      canMatch pb pa = true ∧ st1.book.symbol = st.book.symbol ∧
      (((bl = [] ∨ al = []) ∧ st1.trades = st.trades ∧ st1.nextTradeId = st.nextTradeId ∧
          st1.book.buyOrders = (if bl = [] then brest else st.book.buyOrders) ∧
          st1.book.sellOrders = (if al = [] then arest else st.book.sellOrders) ∧
          st1.book.orderLookup = st.book.orderLookup) ∨
        ∃ buy bo sell so, bl = buy :: bo ∧ al = sell :: so ∧
          validateOrdersForMatching buy sell = true ∧
          st1.trades = st.trades ++
            [createTrade st.nextTradeId buy sell (min buy.quantity sell.quantity)
              (determineTradePrice buy sell)] ∧
          st1.nextTradeId = st.nextTradeId + 1 ∧
          st1.book.buyOrders =
            (if buy.quantity ≤ sell.quantity then (if bo = [] then brest else (pb, bo) :: brest)
              else (pb, { buy with quantity := buy.quantity - sell.quantity } :: bo) :: brest) ∧
          st1.book.sellOrders =
            (if sell.quantity ≤ buy.quantity then (if so = [] then arest else (pa, so) :: arest)
              else (pa, { sell with quantity := sell.quantity - buy.quantity } :: so) :: arest) ∧
          st1.book.orderLookup = passLookup st.book.orderLookup buy sell) := by
  unfold bookPass at h
  cases hb : st.book.buyOrders with
  | nil => simp [hb] at h
  | cons eb brest =>
    obtain ⟨pb, bl⟩ := eb
    cases hs : st.book.sellOrders with
    | nil => simp [hb, hs] at h
    | cons es arest =>
      obtain ⟨pa, al⟩ := es
      simp only [hb, hs] at h
      by_cases hc : canMatch pb pa = true
      · simp only [hc, Bool.not_true, Bool.false_eq_true, if_false] at h
        refine ⟨pb, bl, brest, pa, al, arest, rfl, rfl, hc, ?_⟩
        cases bl with
        | nil =>
          simp only [Option.some.injEq] at h
          subst h
          exact ⟨rfl, Or.inl ⟨Or.inl rfl, rfl, rfl, by simp, by simp [hs], rfl⟩⟩
        | cons buy bo =>
          cases al with
          | nil =>
            simp only [Option.some.injEq] at h
            subst h
            exact ⟨rfl, Or.inl ⟨Or.inr rfl, rfl, rfl, by simp [hb], by simp, rfl⟩⟩
          | cons sell so =>
            by_cases hv : validateOrdersForMatching buy sell = true
            · simp only [hv, Bool.not_true, Bool.false_eq_true, if_false,
                Option.some.injEq] at h
              obtain ⟨hv1, hv2, -, -, -⟩ := (validateOrdersForMatching_iff buy sell).1 hv
              have q1 := ((Order.isValid_iff buy).1 hv1).1
              have q2 := ((Order.isValid_iff sell).1 hv2).1
              have hx : 0 < min buy.quantity sell.quantity := lt_min q1 q2
              have e1 := updateOrderQuantity_of_le buy _ hx (min_le_left _ _)
              have e2 := updateOrderQuantity_of_le sell _ hx (min_le_right _ _)
              rw [e1, e2] at h
              subst h
              refine ⟨rfl, Or.inr ⟨buy, bo, sell, so, rfl, rfl, hv, rfl, rfl, ?_, ?_, ?_⟩⟩
              · by_cases hle : buy.quantity ≤ sell.quantity
                · have hmin := min_eq_left hle
                  simp only [hmin]
                  simp [hle, removeFilledOrder]
                · have hlt : sell.quantity < buy.quantity := by omega
                  have hmin := min_eq_right hlt.le
                  have hne : ¬ buy.quantity - sell.quantity = 0 := by omega
                  simp only [hmin]
                  simp [hle, hne]
              · by_cases hle : sell.quantity ≤ buy.quantity
                · have hmin := min_eq_right hle
                  simp only [hmin]
                  simp [hle, removeFilledOrder]
                · have hlt : buy.quantity < sell.quantity := by omega
                  have hmin := min_eq_left hlt.le
                  have hne : ¬ sell.quantity - buy.quantity = 0 := by omega
                  simp only [hmin]
                  simp [hle, hne]
              · unfold passLookup
                by_cases hle : sell.quantity ≤ buy.quantity
                · have hmin := min_eq_right hle
                  simp only [hmin]
                  by_cases hle1 : buy.quantity ≤ sell.quantity
                  · have h1 : buy.quantity - sell.quantity = 0 := by omega
                    simp [hle, hle1, h1, removeFilledOrder]
                  · have h1 : ¬ buy.quantity - sell.quantity = 0 := by omega
                    simp [hle, hle1, h1, removeFilledOrder]
                · have hlt : buy.quantity < sell.quantity := by omega
                  have hmin := min_eq_left hlt.le
                  have h2 : ¬ sell.quantity - buy.quantity = 0 := by omega
                  simp only [hmin]
                  simp [hle, hlt.le, h2, removeFilledOrder]
            · simp [hv] at h
      · simp [hc] at h

theorem bookPass_measure {st st1 : BookMatchState} (h : bookPass st = some st1) :
    bookMeasure st1.book < bookMeasure st.book := by
  obtain ⟨pb, bl, brest, pa, al, arest, hb, hs, hc, hsym, hcase⟩ := bookPass_cases h
  unfold bookMeasure
  rcases hcase with ⟨hemp, -, -, hb1, hs1, -⟩ |
    ⟨buy, bo, sell, so, rfl, rfl, hv, -, -, hb1, hs1, -⟩
  · rw [hb1, hs1]
    rcases hemp with rfl | rfl
    · simp only [↓reduceIte]
      rw [hb, hs]
      split_ifs <;> (simp [orderCount_cons]; try omega)
    · simp only [↓reduceIte]
      rw [hb, hs]
      split_ifs <;> (simp [orderCount_cons]; try omega)
  · rw [hb1, hs1, hb, hs]
    split_ifs <;> simp [orderCount_cons] <;> omega

/-- The whole-book loop comes back on every book, within its own budget. -/
theorem bookLoop_total (fuel : Nat) (st : BookMatchState)
    (hfuel : bookMeasure st.book < fuel) :
    ∃ r, bookLoop fuel st = some r ∧ bookPass r = none := by
  induction fuel generalizing st with
  | zero => omega
  | succ fuel ih =>
    rw [bookLoop_succ]
    cases hp : bookPass st with
    | none => exact ⟨st, rfl, hp⟩
    | some st1 =>
      have := bookPass_measure hp
      exact ih st1 (by omega)

theorem bookLoop_fuel_le {f g : Nat} (hfg : f ≤ g) (st r : BookMatchState)
    (h : bookLoop f st = some r) : bookLoop g st = some r := by
  induction f generalizing g st with
  | zero => simp [bookLoop] at h
  | succ f ih =>
    obtain ⟨g, rfl⟩ : ∃ g1, g = g1 + 1 := ⟨g - 1, by omega⟩
    rw [bookLoop_succ] at h ⊢
    cases hp : bookPass st with
    | none => simpa [hp] using h
    | some st1 =>
      simp only [hp] at h ⊢
      exact ih (by omega) st1 h

theorem bookLoop_induct (I : BookMatchState → Prop)
    (hI : ∀ st st1, I st → bookPass st = some st1 → I st1) :
    ∀ (fuel : Nat) (st r : BookMatchState), I st → bookLoop fuel st = some r → I r := by
  intro fuel
  induction fuel with
  | zero => intro st r _ h; simp [bookLoop] at h
  | succ fuel ih =>
    intro st r hst h
    rw [bookLoop_succ] at h
    cases hp : bookPass st with
    | none =>
      simp only [hp, Option.some.injEq] at h
      subst h
      exact hst
    | some st1 =>
      simp only [hp] at h
      exact ih st1 r (hI st st1 hst hp) h

theorem matchOrders_total (b : OrderBook) (n : Int) :
    ∃ r, matchOrders b n = some r ∧ bookPass r = none := by
  unfold matchOrders matchWithPriceTimePriority
  apply bookLoop_total
  show bookMeasure b < bookFuel b
  unfold bookFuel bookMeasure
  omega

/-! ## Whole-book matching: the price of a trade -/

theorem sameButQuantity_refl (x : Order) : sameButQuantity x x := rfl

theorem sameButQuantity.trans_update {x y : Order} (q : Int) (h : sameButQuantity x y) :
    sameButQuantity { x with quantity := q } y := by
  unfold sameButQuantity at h ⊢
  rw [h]

theorem mem_restingOrders_head (p : ℚ) (x : Order) (l : Level) (rest : PriceMap) :
    x ∈ restingOrders ((p, x :: l) :: rest) := by
  simp [restingOrders]

/-- A pass of the whole-book loop leaves on each side only orders that were
    there, the front order possibly with a smaller quantity. -/
theorem bookPass_sides {st st1 : BookMatchState} (h : bookPass st = some st1) :
    (∀ x ∈ restingOrders st1.book.buyOrders,
      ∃ y ∈ restingOrders st.book.buyOrders, sameButQuantity x y) ∧
    (∀ x ∈ restingOrders st1.book.sellOrders,
      ∃ y ∈ restingOrders st.book.sellOrders, sameButQuantity x y) := by
  obtain ⟨pb, bl, brest, pa, al, arest, hb, hs, hc, hsym, hcase⟩ := bookPass_cases h
  rcases hcase with ⟨hemp, -, -, hb1, hs1, -⟩ |
    ⟨buy, bo, sell, so, rfl, rfl, hv, -, -, hb1, hs1, -⟩
  · constructor
    · intro x hx
      refine ⟨x, ?_, sameButQuantity_refl x⟩
      rw [hb1] at hx
      split_ifs at hx with h1
      · rw [hb, restingOrders_cons]
        exact List.mem_append_right _ hx
      · exact hx
    · intro x hx
      refine ⟨x, ?_, sameButQuantity_refl x⟩
      rw [hs1] at hx
      split_ifs at hx with h1
      · rw [hs, restingOrders_cons]
        exact List.mem_append_right _ hx
      · exact hx
  · constructor
    · intro x hx
      rw [hb1] at hx
      rw [hb]
      split_ifs at hx with h1 h2
      · exact ⟨x, by rw [restingOrders_cons]; exact List.mem_append_right _ hx,
          sameButQuantity_refl x⟩
      · refine ⟨x, ?_, sameButQuantity_refl x⟩
        rw [restingOrders_cons] at hx ⊢
        rcases List.mem_append.1 hx with h3 | h3
        · exact List.mem_append_left _ (List.mem_cons_of_mem _ h3)
        · exact List.mem_append_right _ h3
      · rw [restingOrders_cons] at hx ⊢
        rcases List.mem_append.1 hx with h3 | h3
        · rcases List.mem_cons.1 h3 with h4 | h4
          · exact ⟨buy, by simp, by rw [h4]; rfl⟩
          · exact ⟨x, List.mem_append_left _ (List.mem_cons_of_mem _ h4),
              sameButQuantity_refl x⟩
        · exact ⟨x, List.mem_append_right _ h3, sameButQuantity_refl x⟩
    · intro x hx
      rw [hs1] at hx
      rw [hs]
      split_ifs at hx with h1 h2
      · exact ⟨x, by rw [restingOrders_cons]; exact List.mem_append_right _ hx,
          sameButQuantity_refl x⟩
      · refine ⟨x, ?_, sameButQuantity_refl x⟩
        rw [restingOrders_cons] at hx ⊢
        rcases List.mem_append.1 hx with h3 | h3
        · exact List.mem_append_left _ (List.mem_cons_of_mem _ h3)
        · exact List.mem_append_right _ h3
      · rw [restingOrders_cons] at hx ⊢
        rcases List.mem_append.1 hx with h3 | h3
        · rcases List.mem_cons.1 h3 with h4 | h4
          · exact ⟨sell, by simp, by rw [h4]; rfl⟩
          · exact ⟨x, List.mem_append_left _ (List.mem_cons_of_mem _ h4),
              sameButQuantity_refl x⟩
        · exact ⟨x, List.mem_append_right _ h3, sameButQuantity_refl x⟩

/-- A pass of the whole-book loop adds no trade, or one trade between the two
    front orders, priced by `determineTradePrice`. -/
theorem bookPass_trade {st st1 : BookMatchState} (h : bookPass st = some st1) :
    st1.trades = st.trades ∨
      ∃ buy ∈ restingOrders st.book.buyOrders, ∃ sell ∈ restingOrders st.book.sellOrders,
        st1.trades = st.trades ++
          [createTrade st.nextTradeId buy sell (min buy.quantity sell.quantity)
            (determineTradePrice buy sell)] := by
  obtain ⟨pb, bl, brest, pa, al, arest, hb, hs, hc, hsym, hcase⟩ := bookPass_cases h
  rcases hcase with ⟨hemp, ht, -⟩ | ⟨buy, bo, sell, so, rfl, rfl, hv, ht, -⟩
  · exact Or.inl ht
  · exact Or.inr ⟨buy, by rw [hb]; exact mem_restingOrders_head _ _ _ _,
      sell, by rw [hs]; exact mem_restingOrders_head _ _ _ _, ht⟩

theorem pricedByTimestamp_createTrade (n : Int) (buy sell buy0 sell0 : Order) (q : Int)
    (hb : sameButQuantity buy buy0) (hs : sameButQuantity sell sell0) :
    PricedByTimestamp (createTrade n buy sell q (determineTradePrice buy sell)) buy0 sell0 := by
  have h1 : buy.orderId = buy0.orderId := by rw [hb]
  have h2 : buy.timestamp = buy0.timestamp := by rw [hb]
  have h3 : buy.price = buy0.price := by rw [hb]
  have h4 : sell.orderId = sell0.orderId := by rw [hs]
  have h5 : sell.timestamp = sell0.timestamp := by rw [hs]
  have h6 : sell.price = sell0.price := by rw [hs]
  unfold PricedByTimestamp createTrade determineTradePrice
  simp only [h1, h2, h3, h4, h5, h6, true_and]
  constructor
  · intro hlt
    rw [if_pos hlt]
  · intro hle
    rw [if_neg (by omega)]

/-- C35. `matchOrders` comes back on every book, and each of its trades is
    between an order of the bid side and an order of the ask side of the book
    and is priced by their timestamps alone: at the buy order's limit when the
    buy order's timestamp is strictly the earlier one, at the sell order's limit
    otherwise, also when the timestamps are equal and the buy order has the
    smaller order id. -/
theorem matchOrders_prices_by_timestamp (b : OrderBook) (n : Int) :
    ∃ st, matchOrders b n = some st ∧
      ∀ t ∈ st.trades,
        ∃ buy ∈ restingOrders b.buyOrders, ∃ sell ∈ restingOrders b.sellOrders,
          PricedByTimestamp t buy sell := by
  obtain ⟨r, hr, -⟩ := matchOrders_total b n
  refine ⟨r, hr, ?_⟩
  have key := bookLoop_induct
    (fun st =>
      (∀ x ∈ restingOrders st.book.buyOrders,
        ∃ y ∈ restingOrders b.buyOrders, sameButQuantity x y) ∧
      (∀ x ∈ restingOrders st.book.sellOrders,
        ∃ y ∈ restingOrders b.sellOrders, sameButQuantity x y) ∧
      ∀ t ∈ st.trades,
        ∃ buy ∈ restingOrders b.buyOrders, ∃ sell ∈ restingOrders b.sellOrders,
          PricedByTimestamp t buy sell)
    (by
      intro st st1 ⟨hb, hs, ht⟩ hp
      obtain ⟨hb1, hs1⟩ := bookPass_sides hp
      refine ⟨?_, ?_, ?_⟩
      · intro x hx
        obtain ⟨y, hy, hxy⟩ := hb1 x hx
        obtain ⟨z, hz, hyz⟩ := hb y hy
        refine ⟨z, hz, ?_⟩
        unfold sameButQuantity at hxy hyz ⊢
        rw [hxy, hyz]
      · intro x hx
        obtain ⟨y, hy, hxy⟩ := hs1 x hx
        obtain ⟨z, hz, hyz⟩ := hs y hy
        refine ⟨z, hz, ?_⟩
        unfold sameButQuantity at hxy hyz ⊢
        rw [hxy, hyz]
      · intro t htm
        rcases bookPass_trade hp with h1 | ⟨buy, hbuy, sell, hsell, h1⟩
        · rw [h1] at htm
          exact ht t htm
        · rw [h1] at htm
          rcases List.mem_append.1 htm with h2 | h2
          · exact ht t h2
          · rw [List.mem_singleton] at h2
            obtain ⟨buy0, hbuy0, e1⟩ := hb buy hbuy
            obtain ⟨sell0, hsell0, e2⟩ := hs sell hsell
            exact ⟨buy0, hbuy0, sell0, hsell0, by
              rw [h2]; exact pricedByTimestamp_createTrade _ _ _ _ _ _ e1 e2⟩)
    (bookFuel b) { book := b, trades := [], nextTradeId := n } r
    ⟨fun x hx => ⟨x, hx, sameButQuantity_refl x⟩,
      fun x hx => ⟨x, hx, sameButQuantity_refl x⟩, by simp⟩ hr
  exact key.2.2

/-- The failing input of C35: a bid 100 @ 151 with order id 1 and an ask
    100 @ 150 with order id 2, both stamped with tick 5, rest in a book.  The
    bid is the earlier of the two by (timestamp, order id), and `matchOrders`
    prices the trade at 150, the limit of the ask. -/
theorem matchOrders_prices_by_timestamp_witness :
    OrderComparator demoTieBid demoTieAsk = true ∧
    demoTieBid.price = 151 ∧ demoTieAsk.price = 150 ∧
    (matchOrders demoBookTie 1).map (fun st => st.trades.map (fun t => t.price)) =
      some [150] ∧
    ∃ st, matchOrders demoBookTie 1 = some st ∧
      ∀ t ∈ st.trades,
        ∃ buy ∈ restingOrders demoBookTie.buyOrders,
          ∃ sell ∈ restingOrders demoBookTie.sellOrders, PricedByTimestamp t buy sell :=
  ⟨by decide, by decide, by decide, by decide, matchOrders_prices_by_timestamp demoBookTie 1⟩

/-! ## The id lookup when the incoming order rests at its end -/

theorem not_key_of_hmFind_none {κ ν : Type} [DecidableEq κ] (m : List (κ × ν)) (k : κ)
    (h : hmFind m k = none) : ∀ e ∈ m, e.1 ≠ k := by
  induction m with
  | nil => intro e he; simp at he
  | cons x rest ih =>
    obtain ⟨k0, v0⟩ := x
    unfold hmFind at h
    by_cases hk : k0 = k
    · simp [hk] at h
    · simp only [hk, if_false] at h
      intro e he
      rcases List.mem_cons.1 he with rfl | he
      · exact hk
      · exact ih h e he

theorem hmAssign_of_not_key {κ ν : Type} [DecidableEq κ] (m : List (κ × ν)) (k : κ) (v : ν)
    (h : ∀ e ∈ m, e.1 ≠ k) : hmAssign m k v = m ++ [(k, v)] := by
  induction m with
  | nil => rfl
  | cons x rest ih =>
    obtain ⟨k0, v0⟩ := x
    have hk : k0 ≠ k := h (k0, v0) (List.mem_cons_self _ _)
    simp only [hmAssign, hk, if_false, List.cons_append]
    rw [ih (fun e he => h e (List.mem_cons_of_mem _ he))]

theorem hmErase_of_not_key {κ ν : Type} [DecidableEq κ] (m : List (κ × ν)) (k : κ)
    (h : ∀ e ∈ m, e.1 ≠ k) : hmErase m k = m := by
  induction m with
  | nil => rfl
  | cons x rest ih =>
    obtain ⟨k0, v0⟩ := x
    have hk : k0 ≠ k := h (k0, v0) (List.mem_cons_self _ _)
    simp only [hmErase, hk, if_false]
    rw [ih (fun e he => h e (List.mem_cons_of_mem _ he))]

theorem hmErase_append {κ ν : Type} [DecidableEq κ] (m m2 : List (κ × ν)) (k : κ) :
    hmErase (m ++ m2) k = hmErase m k ++ hmErase m2 k := by
  induction m with
  | nil => rfl
  | cons x rest ih =>
    obtain ⟨k0, v0⟩ := x
    rw [List.cons_append]
    by_cases hk : k0 = k
    · simp only [hmErase, hk, if_true]
      exact ih
    · simp only [hmErase, hk, if_false, List.cons_append]
      rw [ih]

theorem mem_of_mem_hmErase {κ ν : Type} [DecidableEq κ] (m : List (κ × ν)) (k : κ)
    (e : κ × ν) (h : e ∈ hmErase m k) : e ∈ m := by
  induction m with
  | nil => simp [hmErase] at h
  | cons x rest ih =>
    obtain ⟨k0, v0⟩ := x
    unfold hmErase at h
    by_cases hk : k0 = k
    · simp only [hk, if_true] at h
      exact List.mem_cons_of_mem _ (ih h)
    · simp only [hk, if_false] at h
      rcases List.mem_cons.1 h with rfl | h
      · exact List.mem_cons_self _ _
      · exact List.mem_cons_of_mem _ (ih h)

theorem writeThrough_of_not_mem (old new : Order) (m : List (Int × Order))
    (h : ∀ e ∈ m, e.2 ≠ old) : writeThrough old new m = m := by
  unfold writeThrough
  induction m with
  | nil => rfl
  | cons x rest ih =>
    have hx : x.2 ≠ old := h x (List.mem_cons_self _ _)
    simp only [List.map_cons, hx, if_false]
    rw [ih (fun e he => h e (List.mem_cons_of_mem _ he))]

theorem writeThrough_append (old new : Order) (m m2 : List (Int × Order)) :
    writeThrough old new (m ++ m2) = writeThrough old new m ++ writeThrough old new m2 := by
  simp [writeThrough]

theorem mem_writeThrough (old new : Order) (m : List (Int × Order)) (e : Int × Order)
    (h : e ∈ writeThrough old new m) : e ∈ m ∨ (e.2 = new ∧ (e.1, old) ∈ m) := by
  unfold writeThrough at h
  rw [List.mem_map] at h
  obtain ⟨e0, he0, rfl⟩ := h
  by_cases hv : e0.2 = old
  · right
    simp only [hv, if_true]
    refine ⟨trivial, ?_⟩
    rw [← hv]
    exact he0
  · left
    simp only [hv, if_false]
    exact he0

/-- The lookup with the incoming order `o` at its end, after the writes of one
    trade between `o` and the resting order `r`, whatever their order. -/
theorem writeThrough_assign (L : List (Int × Order)) (o o1 r r1 : Order)
    (hL : ∀ e ∈ L, e.1 ≠ o.orderId ∧ e.2.orderId ≠ o.orderId)
    (hr : r.orderId ≠ o.orderId) (ho1 : o1.orderId = o.orderId) (hr1 : r1.orderId = r.orderId) :
    hmAssign L o.orderId o = L ++ [(o.orderId, o)] ∧
    writeThrough r r1 (writeThrough o o1 (L ++ [(o.orderId, o)])) =
      writeThrough r r1 L ++ [(o.orderId, o1)] ∧
    writeThrough o o1 (writeThrough r r1 (L ++ [(o.orderId, o)])) =
      writeThrough r r1 L ++ [(o.orderId, o1)] ∧
    (∀ e ∈ writeThrough r r1 L, e.1 ≠ o.orderId ∧ e.2.orderId ≠ o.orderId) := by
  have hLo : ∀ e ∈ L, e.2 ≠ o := fun e he h => (hL e he).2 (by rw [h])
  have hW : ∀ e ∈ writeThrough r r1 L, e.1 ≠ o.orderId ∧ e.2.orderId ≠ o.orderId := by
    intro e he
    rcases mem_writeThrough _ _ _ _ he with h | ⟨h1, h2⟩
    · exact hL e h
    · exact ⟨(hL _ h2).1, by rw [h1, hr1]; exact hr⟩
  have hWo : ∀ e ∈ writeThrough r r1 L, e.2 ≠ o := fun e he h => (hW e he).2 (by rw [h])
  have hor : o ≠ r := fun h => hr (by rw [h])
  have ho1r : o1 ≠ r := fun h => hr (by rw [← h, ho1])
  refine ⟨hmAssign_of_not_key _ _ _ (fun e he => (hL e he).1), ?_, ?_, hW⟩
  · rw [writeThrough_append, writeThrough_append, writeThrough_of_not_mem o o1 L hLo]
    congr 1
    simp [writeThrough, ho1r]
  · rw [writeThrough_append, writeThrough_append,
      writeThrough_of_not_mem o o1 _ hWo]
    congr 1
    simp [writeThrough, hor]

/-- The erasures of a pass on a lookup with an entry of the incoming order's id
    at its end. -/
theorem hmErase_assign (M : List (Int × Order)) (id rid : Int) (v : Order)
    (hM : ∀ e ∈ M, e.1 ≠ id) (hr : rid ≠ id) :
    hmErase (M ++ [(id, v)]) id = M ∧
    hmErase (M ++ [(id, v)]) rid = hmErase M rid ++ [(id, v)] ∧
    hmAssign (hmErase M rid) id v = hmErase M rid ++ [(id, v)] ∧
    hmErase (hmErase M rid) id = hmErase M rid := by
  have hE : ∀ e ∈ hmErase M rid, e.1 ≠ id := fun e he => hM e (mem_of_mem_hmErase _ _ _ he)
  refine ⟨?_, ?_, hmAssign_of_not_key _ _ _ hE, hmErase_of_not_key _ _ hE⟩
  · rw [hmErase_append, hmErase_of_not_key M id hM]
    simp [hmErase]
  · rw [hmErase_append]
    congr 1
    simp [hmErase, Ne.symm hr]

/-! ## `matchOrder` against `addOrder` followed by `matchOrders` -/

theorem levelInsert_front (before : ℚ → ℚ → Bool) (o : Order) (m : PriceMap)
    (h : ∀ k ∈ m.map Prod.fst, before o.price k = true) :
    levelInsert before o m = (o.price, [o]) :: m := by
  cases m with
  | nil => rfl
  | cons e rest =>
    obtain ⟨p, lvl⟩ := e
    have hp : before o.price p = true := h p (by simp)
    simp [levelInsert, hp]

theorem sideBefore_of_crosses {o : Order} {bp k : ℚ} (hc : crosses o bp = true)
    (hn : NoCross o.side k bp) : sideBefore o.side o.price k = true := by
  unfold crosses at hc
  unfold NoCross at hn
  cases hs : o.side
  · simp only [hs, canMatch, decide_eq_true_eq] at hc hn
    simp only [sideBefore, bidBefore, decide_eq_true_eq]
    linarith
  · simp only [hs, canMatch, decide_eq_true_eq] at hc hn
    simp only [sideBefore, askBefore, decide_eq_true_eq]
    linarith

theorem OrderBook.eq_of_sides (side : OrderSide) {a b : OrderBook} (h1 : a.symbol = b.symbol)
    (h2 : ownSide a side = ownSide b side) (h3 : opposing a side = opposing b side)
    (h4 : a.orderLookup = b.orderLookup) : a = b := by
  cases a
  cases b
  cases side <;> simp_all [ownSide, opposing]

/-- The introduction form of `bookPass_cases` for a pass that trades. -/
theorem bookPass_of_front {st : BookMatchState} {pb pa : ℚ} {buy sell : Order}
    {bo so : Level} {brest arest : PriceMap}
    (hb : st.book.buyOrders = (pb, buy :: bo) :: brest)
    (hs : st.book.sellOrders = (pa, sell :: so) :: arest)
    (hc : canMatch pb pa = true) (hv : validateOrdersForMatching buy sell = true) :
    ∃ st1, bookPass st = some st1 ∧ st1.book.symbol = st.book.symbol ∧
      st1.trades = st.trades ++
        [createTrade st.nextTradeId buy sell (min buy.quantity sell.quantity)
          (determineTradePrice buy sell)] ∧
      st1.nextTradeId = st.nextTradeId + 1 ∧
      st1.book.buyOrders =
        (if buy.quantity ≤ sell.quantity then (if bo = [] then brest else (pb, bo) :: brest)
          else (pb, { buy with quantity := buy.quantity - sell.quantity } :: bo) :: brest) ∧
      st1.book.sellOrders =
        (if sell.quantity ≤ buy.quantity then (if so = [] then arest else (pa, so) :: arest)
          else (pa, { sell with quantity := sell.quantity - buy.quantity } :: so) :: arest) ∧
      st1.book.orderLookup = passLookup st.book.orderLookup buy sell := by
  have hsome : ∃ st1, bookPass st = some st1 := by
    unfold bookPass
    simp only [hb, hs, hc, hv]
    exact ⟨_, rfl⟩
  obtain ⟨st1, h1⟩ := hsome
  refine ⟨st1, h1, ?_⟩
  obtain ⟨pb1, bl1, brest1, pa1, al1, arest1, hb1, hs1, -, hsym, hcase⟩ := bookPass_cases h1
  rw [hb] at hb1
  rw [hs] at hs1
  simp only [List.cons.injEq, Prod.mk.injEq] at hb1 hs1
  obtain ⟨⟨rfl, rfl⟩, rfl⟩ := hb1
  obtain ⟨⟨rfl, rfl⟩, rfl⟩ := hs1
  rcases hcase with ⟨hemp, -⟩ | ⟨buy1, bo1, sell1, so1, e1, e2, -, ht, hn, hbb, hss, hl⟩
  · rcases hemp with h | h <;> simp at h
  · simp only [List.cons.injEq] at e1 e2
    obtain ⟨rfl, rfl⟩ := e1
    obtain ⟨rfl, rfl⟩ := e2
    exact ⟨hsym, ht, hn, hbb, hss, hl⟩

theorem bookPass_of_uncrossed {st : BookMatchState}
    (h : ∀ pb bl brest pa al arest, st.book.buyOrders = (pb, bl) :: brest →
      st.book.sellOrders = (pa, al) :: arest → pb < pa) : bookPass st = none := by
  unfold bookPass
  cases hb : st.book.buyOrders with
  | nil => rfl
  | cons eb brest =>
    obtain ⟨pb, bl⟩ := eb
    cases hs : st.book.sellOrders with
    | nil => rfl
    | cons es arest =>
      obtain ⟨pa, al⟩ := es
      have := h pb bl brest pa al arest hb hs
      simp [canMatch, not_le.2 this]

theorem uncrossed_of_sides (B : OrderBook) (side : OrderSide)
    (h : ∀ k l m q l2 m2, ownSide B side = (k, l) :: m → opposing B side = (q, l2) :: m2 →
      NoCross side k q) :
    ∀ pb bl brest pa al arest, B.buyOrders = (pb, bl) :: brest →
      B.sellOrders = (pa, al) :: arest → pb < pa := by
  intro pb bl brest pa al arest hb hs
  cases side
  · exact h pb bl brest pa al arest hb hs
  · exact h pa al arest pb bl brest hs hb

/-- The lookup after a trading pass of the whole-book loop when the incoming
    order `o` is the buy order and sits at the end of the lookup. -/
theorem passLookup_incoming_buy (L : List (Int × Order)) (o r : Order)
    (hL : ∀ e ∈ L, e.1 ≠ o.orderId ∧ e.2.orderId ≠ o.orderId)
    (hr : r.orderId ≠ o.orderId) :
    passLookup (L ++ [(o.orderId, o)]) o r =
      (if r.quantity ≤ o.quantity then
          hmErase (writeThrough r { r with quantity := 0 } L) r.orderId
        else writeThrough r { r with quantity := r.quantity - o.quantity } L) ++
      (if o.quantity ≤ r.quantity then []
        else [(o.orderId, { o with quantity := o.quantity - r.quantity })]) := by
  unfold passLookup
  simp only []
  obtain ⟨-, hw, -, hM⟩ := writeThrough_assign L o
    { o with quantity := o.quantity - min o.quantity r.quantity } r
    { r with quantity := r.quantity - min o.quantity r.quantity } hL hr rfl rfl
  rw [hw]
  obtain ⟨e1, e2, -, -⟩ := hmErase_assign _ o.orderId r.orderId
    { o with quantity := o.quantity - min o.quantity r.quantity } (fun e he => (hM e he).1) hr
  rcases lt_trichotomy o.quantity r.quantity with hlt | heq | hgt
  · have h1 : ¬ r.quantity ≤ o.quantity := by omega
    rw [if_pos hlt.le, if_neg h1, if_neg h1, if_pos hlt.le, e1, min_eq_left hlt.le,
      List.append_nil]
  · have h1 : r.quantity ≤ o.quantity := by omega
    have h2 : o.quantity ≤ r.quantity := by omega
    rw [if_pos h2, if_pos h1, if_pos h1, if_pos h2, e1, min_eq_right h1, sub_self,
      List.append_nil]
  · have h1 : ¬ o.quantity ≤ r.quantity := by omega
    rw [if_neg h1, if_pos hgt.le, if_pos hgt.le, if_neg h1, e2, min_eq_right hgt.le, sub_self]

/-- The lookup after a trading pass of the whole-book loop when the incoming
    order `o` is the sell order and sits at the end of the lookup. -/
theorem passLookup_incoming_sell (L : List (Int × Order)) (o r : Order)
    (hL : ∀ e ∈ L, e.1 ≠ o.orderId ∧ e.2.orderId ≠ o.orderId)
    (hr : r.orderId ≠ o.orderId) :
    passLookup (L ++ [(o.orderId, o)]) r o =
      (if r.quantity ≤ o.quantity then
          hmErase (writeThrough r { r with quantity := 0 } L) r.orderId
        else writeThrough r { r with quantity := r.quantity - o.quantity } L) ++
      (if o.quantity ≤ r.quantity then []
        else [(o.orderId, { o with quantity := o.quantity - r.quantity })]) := by
  unfold passLookup
  simp only []
  obtain ⟨-, -, hw, hM⟩ := writeThrough_assign L o
    { o with quantity := o.quantity - min r.quantity o.quantity } r
    { r with quantity := r.quantity - min r.quantity o.quantity } hL hr rfl rfl
  rw [hw]
  obtain ⟨e1, e2, -, -⟩ := hmErase_assign _ o.orderId r.orderId
    { o with quantity := o.quantity - min r.quantity o.quantity } (fun e he => (hM e he).1) hr
  obtain ⟨e3, -, -, -⟩ := hmErase_assign
    (hmErase (writeThrough r { r with quantity := r.quantity - min r.quantity o.quantity } L)
      r.orderId) o.orderId r.orderId
    { o with quantity := o.quantity - min r.quantity o.quantity }
    (fun e he => (hM e (mem_of_mem_hmErase _ _ _ he)).1) hr
  rcases lt_trichotomy o.quantity r.quantity with hlt | heq | hgt
  · have h1 : ¬ r.quantity ≤ o.quantity := by omega
    rw [if_neg h1, if_pos hlt.le, if_neg h1, if_pos hlt.le, e1, min_eq_right hlt.le,
      List.append_nil]
  · have h1 : r.quantity ≤ o.quantity := by omega
    have h2 : o.quantity ≤ r.quantity := by omega
    rw [if_pos h1, if_pos h2, if_pos h1, if_pos h2, e2, e3, min_eq_left h1, sub_self,
      List.append_nil]
  · have h1 : ¬ o.quantity ≤ r.quantity := by omega
    rw [if_pos hgt.le, if_neg h1, if_pos hgt.le, if_neg h1, e2, min_eq_left hgt.le, sub_self]

/-- A crossing incoming order that is added to the book stands alone in a new
    level in front of its own side. -/
theorem restIncoming_before {st : MatchState} (hr : MatchReady st)
    (hq : 0 < st.newOrder.quantity) {bp : ℚ} {lvl : Level} {rest : PriceMap}
    (hopp : opposing st.book st.newOrder.side = (bp, lvl) :: rest)
    (hcr : crosses st.newOrder bp = true) :
    (restIncoming st).book.symbol = st.book.symbol ∧
    ownSide (restIncoming st).book st.newOrder.side =
      (st.newOrder.price, [st.newOrder]) :: ownSide st.book st.newOrder.side ∧
    opposing (restIncoming st).book st.newOrder.side = (bp, lvl) :: rest ∧
    (restIncoming st).book.orderLookup =
      st.book.orderLookup ++ [(st.newOrder.orderId, st.newOrder)] := by
  obtain ⟨hwf, hnc, hres, hL, hp, hsy, hu⟩ := hr
  have hov : st.newOrder.isValid = true := (Order.isValid_iff _).2 ⟨hq, hp, hsy, hu⟩
  have hbook : (restIncoming st).book = st.book.addOrder st.newOrder := by
    unfold restIncoming
    simp only [gt_iff_lt, hq, if_true]
  rw [hbook]
  refine ⟨symbol_addOrder _ _, ?_, ?_, ?_⟩
  · rw [ownSide_addOrder _ _ hov]
    apply levelInsert_front
    intro k hk
    exact sideBefore_of_crosses hcr (hnc k hk bp (by rw [hopp]; simp))
  · rw [opposing_addOrder, hopp]
  · rw [orderLookup_addOrder _ _ hov]
    exact hmAssign_of_not_key _ _ _ (fun e he => (hL e he).1)

/-- The book that stands for the state after a pass of the `matchOrder` loop. -/
theorem restIncoming_fields {st st1 : MatchState} (hr : MatchReady st)
    (h : matchStep st = some st1) :
    ∃ bp r others rest,
      opposing st.book st.newOrder.side = (bp, r :: others) :: rest ∧
      0 < st.newOrder.quantity ∧ crosses st.newOrder bp = true ∧
      st1.newOrder.side = st.newOrder.side ∧
      st1.trades = st.trades ++
        [tradeAgainst st.nextTradeId st.newOrder r (min st.newOrder.quantity r.quantity)
          r.price] ∧
      st1.nextTradeId = st.nextTradeId + 1 ∧
      (restIncoming st1).book.symbol = st.book.symbol ∧
      ownSide (restIncoming st1).book st.newOrder.side =
        (if st.newOrder.quantity ≤ r.quantity then ownSide st.book st.newOrder.side
          else (st.newOrder.price,
            [{ st.newOrder with quantity := st.newOrder.quantity - r.quantity }]) ::
              ownSide st.book st.newOrder.side) ∧
      opposing (restIncoming st1).book st.newOrder.side =
        (if r.quantity ≤ st.newOrder.quantity then
            (if others = [] then rest else (bp, others) :: rest)
          else (bp, { r with quantity := r.quantity - st.newOrder.quantity } :: others) ::
            rest) ∧
      (restIncoming st1).book.orderLookup =
        (if r.quantity ≤ st.newOrder.quantity then
            hmErase (writeThrough r { r with quantity := 0 } st.book.orderLookup) r.orderId
          else writeThrough r { r with quantity := r.quantity - st.newOrder.quantity }
            st.book.orderLookup) ++
        (if st.newOrder.quantity ≤ r.quantity then []
          else [(st.newOrder.orderId,
            { st.newOrder with quantity := st.newOrder.quantity - r.quantity })]) := by
  obtain ⟨hwf, hnc, hres, hL, hp, hsy, hu⟩ := hr
  obtain ⟨bp, r, others, rest, hopp, hq, hcr, hrp, hrq, htr, hnt, hno, hbook⟩ :=
    matchStep_eq_some hwf h
  have hside : st1.newOrder.side = st.newOrder.side := by rw [hno]
  refine ⟨bp, r, others, rest, hopp, hq, hcr, hside, htr, hnt, ?_⟩
  have hrm : r ∈ restingOrders (opposing st.book st.newOrder.side) := by
    rw [hopp]
    exact mem_restingOrders_head _ _ _ _
  obtain ⟨-, -, -, hrid⟩ := hres r hrm
  rcases hbook with ⟨hle, hb⟩ | ⟨hlt, hb⟩
  · rcases lt_or_eq_of_le hle with hlt | heq
    · -- the resting order is filled, the incoming order keeps a remainder
      have hq1 : st1.newOrder.quantity = st.newOrder.quantity - r.quantity := by
        rw [hno, min_eq_right hle]
      have hq1pos : 0 < st1.newOrder.quantity := by omega
      have hno1 : st1.newOrder =
          { st.newOrder with quantity := st.newOrder.quantity - r.quantity } := by
        rw [hno, min_eq_right hle]
      have hov1 : st1.newOrder.isValid = true :=
        (Order.isValid_iff _).2 ⟨hq1pos, by rw [hno]; exact hp, by rw [hno]; exact hsy,
          by rw [hno]; exact hu⟩
      have hbk : (restIncoming st1).book = st1.book.addOrder st1.newOrder := by
        unfold restIncoming
        simp only [gt_iff_lt, hq1pos, if_true]
      have hn1 : ¬ st.newOrder.quantity ≤ r.quantity := by omega
      rw [hbk, if_neg hn1, if_pos hle, if_pos hle, if_neg hn1]
      have hown1 : ownSide st1.book st.newOrder.side = ownSide st.book st.newOrder.side := by
        rw [hb]
        simp
      have hopp1 : opposing st1.book st.newOrder.side =
          (if others = [] then rest else (bp, others) :: rest) := by
        rw [hb]
        simp
      have hlk1 : st1.book.orderLookup =
          hmErase (writeThrough r { r with quantity := 0 } st.book.orderLookup) r.orderId := by
        rw [hb]
        simp
      have hsy1 : st1.book.symbol = st.book.symbol := by
        rw [hb]
        simp
      refine ⟨(symbol_addOrder _ _).trans hsy1, ?_, ?_, ?_⟩
      · have h2 := ownSide_addOrder st1.book st1.newOrder hov1
        rw [hside, hown1, levelInsert_front] at h2
        · rw [h2, hno1]
        · intro k hk
          have h3 := sideBefore_of_crosses hcr (hnc k hk bp (by rw [hopp]; simp))
          rw [hno1]
          exact h3
      · have h2 := opposing_addOrder st1.book st1.newOrder
        rw [hside, hopp1] at h2
        exact h2
      · rw [orderLookup_addOrder _ _ hov1, hlk1]
        obtain ⟨-, -, -, hM⟩ := writeThrough_assign st.book.orderLookup st.newOrder
          st.newOrder r { r with quantity := 0 } hL hrid rfl rfl
        obtain ⟨-, -, e3, -⟩ := hmErase_assign _ st.newOrder.orderId r.orderId
          st1.newOrder (fun e he => (hM e he).1) hrid
        have hid : st1.newOrder.orderId = st.newOrder.orderId := by rw [hno]
        rw [hid, e3, hno1]
    · -- both orders are filled
      have hq1 : st1.newOrder.quantity = 0 := by
        rw [hno, min_eq_right hle]
        simp only []
        omega
      have hbk : (restIncoming st1).book = st1.book := by
        unfold restIncoming
        simp [hq1]
      have hn1 : st.newOrder.quantity ≤ r.quantity := by omega
      rw [hbk, if_pos hn1, if_pos hle, if_pos hle, if_pos hn1, hb, List.append_nil]
      simp
  · -- the incoming order is filled, the resting order keeps a remainder
    have hq1 : st1.newOrder.quantity = 0 := by
      rw [hno, min_eq_left hlt.le]
      simp only []
      omega
    have hbk : (restIncoming st1).book = st1.book := by
      unfold restIncoming
      simp [hq1]
    have hn1 : ¬ r.quantity ≤ st.newOrder.quantity := by omega
    rw [hbk, if_pos hlt.le, if_neg hn1, if_neg hn1, if_pos hlt.le, hb, List.append_nil]
    simp

/-- When the `matchOrder` loop is left, the whole-book loop on the book that
    holds the incoming order's remainder is left as well. -/
theorem restIncoming_exit {st : MatchState} (hr : MatchReady st) (h : matchStep st = none) :
    bookPass (restIncoming st) = none := by
  obtain ⟨hwf, hnc, hres, hL, hp, hsy, hu⟩ := hr
  apply bookPass_of_uncrossed
  apply uncrossed_of_sides _ st.newOrder.side
  intro k l m q l2 m2 hown hopp
  by_cases hq : 0 < st.newOrder.quantity
  · have hov : st.newOrder.isValid = true := (Order.isValid_iff _).2 ⟨hq, hp, hsy, hu⟩
    have hbook : (restIncoming st).book = st.book.addOrder st.newOrder := by
      unfold restIncoming
      simp only [gt_iff_lt, hq, if_true]
    rw [hbook, ownSide_addOrder _ _ hov] at hown
    rw [hbook, opposing_addOrder] at hopp
    have hk : k ∈ (levelInsert (sideBefore st.newOrder.side) st.newOrder
        (ownSide st.book st.newOrder.side)).map Prod.fst := by
      rw [hown]
      simp
    rcases (matchStep_eq_none_iff st).1 h with h1 | h1 | ⟨bp, lvl, rest, h1, h2⟩
    · rw [h1] at hopp
      cases hopp
    · omega
    · rw [h1] at hopp
      simp only [List.cons.injEq, Prod.mk.injEq] at hopp
      obtain ⟨⟨rfl, -⟩, -⟩ := hopp
      rcases levelInsert_keys _ _ _ k hk with rfl | hk2
      · exact (crosses_eq_false_iff _ _).1 h2
      · exact hnc k hk2 bp (by rw [h1]; simp)
  · have hbook : (restIncoming st).book = st.book := by
      unfold restIncoming
      simp only [gt_iff_lt, hq, if_false]
    rw [hbook] at hown hopp
    exact hnc k (by rw [hown]; simp) q (by rw [hopp]; simp)

/-- A pass of the `matchOrder` loop is a pass of the whole-book loop on the
    book that holds the incoming order's remainder. -/
theorem restIncoming_step {st st1 : MatchState} (hr : MatchReady st)
    (h : matchStep st = some st1) :
    bookPass (restIncoming st) = some (restIncoming st1) := by
  obtain ⟨bp, r, others, rest, hopp, hq, hcr, hside1, htr, hnt, fsym, fown, fopp, flk⟩ :=
    restIncoming_fields hr h
  obtain ⟨bsym, bown, bopp, blk⟩ := restIncoming_before hr hq hopp hcr
  obtain ⟨hwf, hnc, hres, hL, hp, hsy, hu⟩ := hr
  have hov : st.newOrder.isValid = true := (Order.isValid_iff _).2 ⟨hq, hp, hsy, hu⟩
  have hrm : r ∈ restingOrders (opposing st.book st.newOrder.side) := by
    rw [hopp]
    exact mem_restingOrders_head _ _ _ _
  obtain ⟨hrv, hrs, hrt, hrid⟩ := hres r hrm
  have hrside : r.side = st.newOrder.side.opposite :=
    (hwf.2.2.2 (bp, r :: others) (by rw [hopp]; simp) r (by simp)).2.1
  have htrades : (restIncoming st1).trades = st1.trades := rfl
  have hnext : (restIncoming st1).nextTradeId = st1.nextTradeId := rfl
  have htrades0 : (restIncoming st).trades = st.trades := rfl
  have hnext0 : (restIncoming st).nextTradeId = st.nextTradeId := rfl
  cases hs : st.newOrder.side
  · -- an incoming buy: it is the front bid, the resting order the front ask
    rw [hs] at bown bopp fown fopp
    have hb : (restIncoming st).book.buyOrders =
        (st.newOrder.price, [st.newOrder]) :: st.book.buyOrders := bown
    have hsl : (restIncoming st).book.sellOrders = (bp, r :: others) :: rest := bopp
    have hc : canMatch st.newOrder.price bp = true := by
      unfold crosses at hcr
      simpa [hs] using hcr
    have hv : validateOrdersForMatching st.newOrder r = true :=
      (validateOrdersForMatching_iff _ _).2
        ⟨hov, hrv, hrs.symm, hs, by rw [hrside, hs]; rfl⟩
    obtain ⟨x, hx, xsym, xtr, xn, xb, xs, xl⟩ := bookPass_of_front hb hsl hc hv
    rw [hx]
    congr 1
    have hbookeq : x.book = (restIncoming st1).book := by
      apply OrderBook.eq_of_sides OrderSide.BUY
      · rw [xsym, bsym, fsym]
      · rw [fown]
        show x.book.buyOrders = _
        rw [xb]
        simp [ownSide]
      · rw [fopp]
        show x.book.sellOrders = _
        rw [xs]
      · rw [xl, blk, flk]
        exact passLookup_incoming_buy _ _ _ hL hrid
    have htreq : x.trades = (restIncoming st1).trades := by
      rw [xtr, htrades, htr, htrades0, hnext0]
      have hd : determineTradePrice st.newOrder r = r.price := by
        unfold determineTradePrice
        rw [if_neg (by omega)]
      rw [hd]
      unfold tradeAgainst
      simp only [hs]
    have hneq : x.nextTradeId = (restIncoming st1).nextTradeId := by
      rw [xn, hnext, hnt, hnext0]
    cases x
    cases hres1 : restIncoming st1
    simp_all
  · -- an incoming sell: it is the front ask, the resting order the front bid
    rw [hs] at bown bopp fown fopp
    have hsl : (restIncoming st).book.sellOrders =
        (st.newOrder.price, [st.newOrder]) :: st.book.sellOrders := bown
    have hb : (restIncoming st).book.buyOrders = (bp, r :: others) :: rest := bopp
    have hc : canMatch bp st.newOrder.price = true := by
      unfold crosses at hcr
      simpa [hs] using hcr
    have hv : validateOrdersForMatching r st.newOrder = true :=
      (validateOrdersForMatching_iff _ _).2
        ⟨hrv, hov, hrs, by rw [hrside, hs]; rfl, hs⟩
    obtain ⟨x, hx, xsym, xtr, xn, xb, xs, xl⟩ := bookPass_of_front hb hsl hc hv
    rw [hx]
    congr 1
    have hbookeq : x.book = (restIncoming st1).book := by
      apply OrderBook.eq_of_sides OrderSide.SELL
      · rw [xsym, bsym, fsym]
      · rw [fown]
        show x.book.sellOrders = _
        rw [xs]
        simp [ownSide]
      · rw [fopp]
        show x.book.buyOrders = _
        rw [xb]
      · rw [xl, blk, flk]
        exact passLookup_incoming_sell _ _ _ hL hrid
    have htreq : x.trades = (restIncoming st1).trades := by
      rw [xtr, htrades, htr, htrades0, hnext0]
      have hd : determineTradePrice r st.newOrder = r.price := by
        unfold determineTradePrice
        rw [if_pos hrt]
      rw [hd, min_comm]
      unfold tradeAgainst
      simp only [hs]
    have hneq : x.nextTradeId = (restIncoming st1).nextTradeId := by
      rw [xn, hnext, hnt, hnext0]
    cases x
    cases hres1 : restIncoming st1
    simp_all

/-- The conditions of the comparison hold again after a pass of the
    `matchOrder` loop. -/
theorem MatchReady.after_pass {st st1 : MatchState} (hr : MatchReady st)
    (h : matchStep st = some st1) : MatchReady st1 := by
  obtain ⟨hwf, hnc, hres, hL, hp, hsy, hu⟩ := hr
  obtain ⟨bp, r, others, rest, hopp, hq, hcr, hrp, hrq, htr, hnt, hno, hbook⟩ :=
    matchStep_eq_some hwf h
  have hwf1 := (matchStep_preserves_side hwf h).2
  have hs1 : st1.newOrder.side = st.newOrder.side := by rw [hno]
  have hid1 : st1.newOrder.orderId = st.newOrder.orderId := by rw [hno]
  have hts1 : st1.newOrder.timestamp = st.newOrder.timestamp := by rw [hno]
  have hsym1 : st1.newOrder.symbol = st.newOrder.symbol := by rw [hno]
  have hpr1 : st1.newOrder.price = st.newOrder.price := by rw [hno]
  have hus1 : st1.newOrder.userId = st.newOrder.userId := by rw [hno]
  have hrm : r ∈ restingOrders (opposing st.book st.newOrder.side) := by
    rw [hopp]
    exact mem_restingOrders_head _ _ _ _
  obtain ⟨hrv, hrs, hrt, hrid⟩ := hres r hrm
  obtain ⟨hv1, hv2, hv3, hv4⟩ := (Order.isValid_iff r).1 hrv
  have hres0 : ∀ x ∈ others ++ restingOrders rest,
      x.isValid = true ∧ x.symbol = st.newOrder.symbol ∧
        x.timestamp < st.newOrder.timestamp ∧ x.orderId ≠ st.newOrder.orderId := by
    intro x hx
    apply hres x
    rw [hopp, restingOrders_cons]
    rcases List.mem_append.1 hx with h1 | h1
    · exact List.mem_append_left _ (List.mem_cons_of_mem _ h1)
    · exact List.mem_append_right _ h1
  have hown1 : ownSide st1.book st.newOrder.side = ownSide st.book st.newOrder.side := by
    rcases hbook with ⟨-, hb⟩ | ⟨-, hb⟩ <;> rw [hb] <;> simp
  unfold MatchReady
  rw [hs1, hid1, hts1, hsym1, hpr1, hus1]
  rw [hs1] at hwf1
  refine ⟨hwf1, ?_, ?_, ?_, hp, hsy, hu⟩
  · intro p hp1 q hq1
    rw [hown1] at hp1
    apply hnc p hp1 q
    rw [hopp]
    rcases hbook with ⟨-, hb⟩ | ⟨-, hb⟩
    · rw [hb, opposing_setOpposing] at hq1
      split_ifs at hq1
      · exact List.mem_cons_of_mem _ hq1
      · simpa using hq1
    · rw [hb, opposing_setOpposing] at hq1
      simpa using hq1
  · intro x hx
    rcases hbook with ⟨-, hb⟩ | ⟨hlt, hb⟩
    · rw [hb, opposing_setOpposing] at hx
      apply hres0 x
      split_ifs at hx with h1
      · rw [h1]
        exact hx
      · rw [restingOrders_cons] at hx
        exact hx
    · rw [hb, opposing_setOpposing, restingOrders_cons] at hx
      rcases List.mem_append.1 hx with h1 | h1
      · rcases List.mem_cons.1 h1 with h2 | h2
        · rw [h2]
          exact ⟨(Order.isValid_iff _).2 ⟨by simp only []; omega, hv2, hv3, hv4⟩,
            hrs, hrt, hrid⟩
        · exact hres0 x (List.mem_append_left _ h2)
      · exact hres0 x (List.mem_append_right _ h1)
  · intro e he
    rcases hbook with ⟨-, hb⟩ | ⟨-, hb⟩
    · rw [hb, orderLookup_setOpposing] at he
      obtain ⟨-, -, -, hM⟩ := writeThrough_assign st.book.orderLookup st.newOrder
        st.newOrder r { r with quantity := 0 } hL hrid rfl rfl
      exact hM e (mem_of_mem_hmErase _ _ _ he)
    · rw [hb, orderLookup_setOpposing] at he
      obtain ⟨-, -, -, hM⟩ := writeThrough_assign st.book.orderLookup st.newOrder
        st.newOrder r { r with quantity := r.quantity - st.newOrder.quantity } hL hrid rfl rfl
      exact hM e he

/-- The `matchOrder` loop is the whole-book loop on the book that holds the
    incoming order's remainder, pass by pass. -/
theorem matchLoop_restIncoming (fuel : Nat) (st st2 : MatchState) (hr : MatchReady st)
    (h : matchLoop fuel st = some st2) :
    bookLoop fuel (restIncoming st) = some (restIncoming st2) := by
  induction fuel generalizing st with
  | zero => simp [matchLoop] at h
  | succ fuel ih =>
    rw [matchLoop_succ] at h
    rw [bookLoop_succ]
    cases hm : matchStep st with
    | none =>
      simp only [hm, Option.some.injEq] at h
      subst h
      rw [restIncoming_exit hr hm]
    | some st1 =>
      simp only [hm] at h
      rw [restIncoming_step hr hm]
      exact ih st1 (hr.after_pass hm) h

/-- C38. For every well-formed, uncrossed and index-consistent book whose
    resting orders are valid orders of the book's symbol, and every valid
    incoming order of that symbol with a fresh id and a timestamp strictly later
    than every resting order's, `matchOrder` on the book and `matchOrders` on the
    book after `addOrder` of the incoming order both come back, with the same
    trade sequence (trade ids included, both counting from the same number), the
    same final book and the same trade counter. -/
theorem matchOrder_refines_addOrder_matchOrders (b : OrderBook) (o : Order) (n : Int)
    (hinv : BookInv b) (hidx : IndexConsistent b)
    (hkeys : (b.orderLookup.map Prod.fst).Nodup)
    (hvalid : ∀ r ∈ allOrders b, r.isValid = true ∧ r.symbol = b.symbol)
    (hv : o.isValid = true) (hos : o.symbol = b.symbol)
    (hfresh : FreshId b o.orderId)
    (hlate : ∀ r ∈ allOrders b, r.timestamp < o.timestamp) :
    ∃ st1 st2, matchOrder b o n = some st1 ∧ matchOrders (b.addOrder o) n = some st2 ∧
      st2.trades = st1.trades ∧ st2.book = st1.book ∧ st2.nextTradeId = st1.nextTradeId := by
  obtain ⟨hq, hp, hsy, hu⟩ := (Order.isValid_iff o).1 hv
  have hwf : SideWF o.side.opposite (opposing b o.side) := hinv.1.opposing_side o.side
  have hready : MatchReady { book := b, newOrder := o, trades := [], nextTradeId := n } := by
    refine ⟨hwf, (crossFree_iff_side b o.side).1 hinv.2, ?_, ?_, hp, hsy, hu⟩
    · intro r hr
      have hm : r ∈ allOrders b := (mem_allOrders_iff b o.side r).2 (Or.inr hr)
      exact ⟨(hvalid r hm).1, (hvalid r hm).2.trans hos.symm, hlate r hm,
        (hfresh.sides o.side).2 r hr⟩
    · intro e he
      have h1 : e.1 ≠ o.orderId := not_key_of_hmFind_none _ _ hfresh.1 e he
      have h2 := hmFind_of_nodup _ hkeys e he
      have h3 := (hidx.1 e he h2).1
      exact ⟨h1, by rw [h3]; exact h1⟩
  obtain ⟨stL, hloop⟩ := matchLoop_total (matchFuel b o.side)
    { book := b, newOrder := o, trades := [], nextTradeId := n } hwf (le_refl _)
  have hsim := matchLoop_restIncoming _ _ _ hready hloop
  have hstart : restIncoming { book := b, newOrder := o, trades := [], nextTradeId := n } =
      { book := b.addOrder o, trades := [], nextTradeId := n } := by
    unfold restIncoming
    simp only [gt_iff_lt, hq, if_true]
  rw [hstart] at hsim
  obtain ⟨r2, hr2, -⟩ := matchOrders_total (b.addOrder o) n
  have hr2eq : r2 = restIncoming stL := by
    have h1 := bookLoop_fuel_le (le_max_left (matchFuel b o.side) (bookFuel (b.addOrder o)))
      _ _ hsim
    have h2 := bookLoop_fuel_le (le_max_right (matchFuel b o.side) (bookFuel (b.addOrder o)))
      _ _ hr2
    rw [h1] at h2
    exact (Option.some.inj h2).symm
  have hmo : matchOrder b o n =
      some (if stL.newOrder.quantity > 0 then
        { stL with book := stL.book.addOrder stL.newOrder } else stL) := by
    unfold matchOrder
    simp only [hv, Bool.not_true, Bool.false_eq_true, if_false, hloop]
    split_ifs <;> rfl
  refine ⟨_, r2, hmo, hr2, ?_⟩
  rw [hr2eq]
  unfold restIncoming
  by_cases hq2 : stL.newOrder.quantity > 0
  · simp only [hq2, if_true, and_self]
  · simp only [hq2, if_false, and_self]

/-- Witness for C38: scenario S3, the book with asks at 151 and 150 and the
    incoming buy of 150 @ 151. -/
theorem matchOrder_refines_addOrder_matchOrders_witness :
    BookInv demoBook ∧ IndexConsistent demoBook ∧ FreshId demoBook demoBuy.orderId ∧
    (∃ st1 st2, matchOrder demoBook demoBuy 1 = some st1 ∧
      matchOrders (demoBook.addOrder demoBuy) 1 = some st2 ∧
      st2.trades = st1.trades ∧ st2.book = st1.book ∧ st2.nextTradeId = st1.nextTradeId) ∧
    (matchOrders (demoBook.addOrder demoBuy) 1).map
      (fun st => st.trades.map (fun t => (t.buyOrderId, t.sellOrderId, t.quantity, t.price))) =
      some [(3, 2, 100, 150), (3, 1, 50, 151)] :=
  ⟨⟨by decide, by decide⟩, by decide, by decide,
    matchOrder_refines_addOrder_matchOrders demoBook demoBuy 1 ⟨by decide, by decide⟩
      (by decide) (by decide) (by decide) (by decide) (by decide) (by decide) (by decide),
    by decide⟩

/-! ## Machine arithmetic: wrap, rounding and the idealised functions -/

theorem int32_of_inRange (x : Int) (h : InInt32 x) : int32 x = x := by
  unfold InInt32 at h
  unfold int32
  omega

theorem int32_inRange (x : Int) : InInt32 (int32 x) := by
  unfold InInt32 int32
  omega

theorem int32_neg_int32 (a : Int) : int32 (-int32 a) = int32 (-a) := by
  unfold int32
  omega

/-- Where every operation is exact, `addBuyTrade` in machine arithmetic is the
    idealised `addBuyTrade`. -/
theorem machine_addBuyTrade_of_exact (pf : Portfolio) (t : Trade) (h : BuyExact pf t) :
    Machine.addBuyTrade pf t = some (pf.addBuyTrade t) := by
  unfold BuyExact IsDouble Portfolio.getPosition Portfolio.getAverageCost at h
  obtain ⟨h1, h2, h3⟩ := h
  unfold Machine.addBuyTrade Portfolio.addBuyTrade
  simp only [h1, h2, Option.some_bind]
  by_cases hpos : (hmFind pf.positions t.symbol).getD 0 ≥ 0
  · rw [if_pos hpos] at h3
    obtain ⟨h4, h5, h6, h7, h8⟩ := h3
    have h6' := int32_of_inRange _ h6
    simp only [hpos, if_true, h4, h5, Option.some_bind, h6', h7, if_false, h8]
  · rw [if_neg hpos] at h3
    obtain ⟨h4, h5⟩ := h3
    have h4' := int32_of_inRange _ h4
    have h5' := int32_of_inRange _ h5
    have h5'' : int32 (t.quantity + (hmFind pf.positions t.symbol).getD 0) =
        t.quantity + (hmFind pf.positions t.symbol).getD 0 := by
      rw [add_comm, h5', add_comm]
    simp only [hpos, if_false, h4', h5', h5'']
    split <;> rfl

/-- Where every operation is exact, `addSellTrade` in machine arithmetic is the
    idealised `addSellTrade`. -/
theorem machine_addSellTrade_of_exact (pf : Portfolio) (t : Trade) (h : SellExact pf t) :
    Machine.addSellTrade pf t = some (pf.addSellTrade t) := by
  unfold SellExact IsDouble Portfolio.getPosition Portfolio.getAverageCost at h
  obtain ⟨h1, h2, h3⟩ := h
  unfold Machine.addSellTrade Portfolio.addSellTrade
  simp only [h1, h2, Option.some_bind]
  by_cases hpos : (hmFind pf.positions t.symbol).getD 0 ≤ 0
  · rw [if_pos hpos] at h3
    obtain ⟨h4, h5, h6, h7, h8, h9, h10⟩ := h3
    have h4' := int32_of_inRange _ h4
    have h7' := int32_of_inRange _ h7
    have h8' := int32_of_inRange _ h8
    simp only [hpos, if_true, h4', h5, h6, Option.some_bind, h7', h8', h9, if_false, h10]
  · rw [if_neg hpos] at h3
    obtain ⟨h4, h5, h6⟩ := h3
    have h4' := int32_of_inRange _ h4
    have h5' := int32_of_inRange _ h5
    have h6' := int32_of_inRange _ h6
    simp only [hpos, if_false, h4', h5', h6']
    split <;> rfl

theorem machine_addTrade_of_exact (pf : Portfolio) (t : Trade) (b : Bool)
    (h : StepExact pf t b) : Machine.addTrade pf t b = some (pf.addTrade t b) := by
  unfold StepExact at h
  unfold Machine.addTrade Portfolio.addTrade
  cases b
  · simp only [Bool.false_eq_true, if_false] at h ⊢
    exact machine_addSellTrade_of_exact _ t h
  · simp only [if_true] at h ⊢
    exact machine_addBuyTrade_of_exact _ t h

/-- The position and the cash balance after `addBuyTrade` in machine
    arithmetic, whichever branch is taken. -/
theorem machine_addBuyTrade_fields {pf pf1 : Portfolio} {t : Trade}
    (h : Machine.addBuyTrade pf t = some pf1) :
    pf1.positions =
      hmAssign pf.positions t.symbol (int32 (pf.getPosition t.symbol + t.quantity)) ∧
    (∃ c, roundDouble ((t.quantity : ℚ) * t.price) = some c ∧
      roundDouble (pf.cashBalance - c) = some pf1.cashBalance) ∧
    pf1.userId = pf.userId ∧ pf1.tradeHistory = pf.tradeHistory := by
  unfold Machine.addBuyTrade at h
  simp only [Option.bind_eq_some] at h
  obtain ⟨c, hc, cash, hcash, h⟩ := h
  unfold Portfolio.getPosition
  split at h
  · simp only [Option.bind_eq_some] at h
    obtain ⟨pr, _, tv, _, h⟩ := h
    split at h
    · simp at h
    · simp only [Option.bind_eq_some, Option.some.injEq] at h
      obtain ⟨a, _, h⟩ := h
      subst h
      exact ⟨rfl, ⟨c, hc, hcash⟩, rfl, rfl⟩
  · split at h
    · simp only [Option.some.injEq] at h
      subst h
      exact ⟨rfl, ⟨c, hc, hcash⟩, rfl, rfl⟩
    · simp only [Option.some.injEq] at h
      subst h
      refine ⟨?_, ⟨c, hc, hcash⟩, rfl, rfl⟩
      simp only [add_comm]

/-- The position and the cash balance after `addSellTrade` in machine
    arithmetic, whichever branch is taken. -/
theorem machine_addSellTrade_fields {pf pf1 : Portfolio} {t : Trade}
    (h : Machine.addSellTrade pf t = some pf1) :
    pf1.positions =
      hmAssign pf.positions t.symbol (int32 (pf.getPosition t.symbol - t.quantity)) ∧
    (∃ c, roundDouble ((t.quantity : ℚ) * t.price) = some c ∧
      roundDouble (pf.cashBalance + c) = some pf1.cashBalance) ∧
    pf1.userId = pf.userId ∧ pf1.tradeHistory = pf.tradeHistory := by
  unfold Machine.addSellTrade at h
  simp only [Option.bind_eq_some] at h
  obtain ⟨c, hc, cash, hcash, h⟩ := h
  unfold Portfolio.getPosition
  split at h
  · simp only [Option.bind_eq_some] at h
    obtain ⟨pr, _, tv, _, h⟩ := h
    split at h
    · simp at h
    · simp only [Option.bind_eq_some, Option.some.injEq] at h
      obtain ⟨a, _, h⟩ := h
      subst h
      exact ⟨rfl, ⟨c, hc, hcash⟩, rfl, rfl⟩
  · split at h
    · simp only [Option.some.injEq] at h
      subst h
      exact ⟨rfl, ⟨c, hc, hcash⟩, rfl, rfl⟩
    · simp only [Option.some.injEq] at h
      subst h
      refine ⟨?_, ⟨c, hc, hcash⟩, rfl, rfl⟩
      simp only [int32_neg_int32, neg_sub]

/-- The cash balance after `addTrade` in machine arithmetic: the product is
    rounded, then the difference or the sum. -/
theorem machine_addTrade_cashBalance {pf pf1 : Portfolio} {t : Trade} {b : Bool}
    (h : Machine.addTrade pf t b = some pf1) :
    ∃ c, roundDouble ((t.quantity : ℚ) * t.price) = some c ∧
      roundDouble (if b then pf.cashBalance - c else pf.cashBalance + c) =
        some pf1.cashBalance := by
  unfold Machine.addTrade at h
  cases b
  · simp only [Bool.false_eq_true, if_false] at h ⊢
    exact (machine_addSellTrade_fields h).2.1
  · simp only [if_true] at h ⊢
    exact (machine_addBuyTrade_fields h).2.1

/-! ## Machine arithmetic: positions after a list of calls -/

/-- Counterexample to C12 as stated: a fresh portfolio with 100000 in cash buys
    1 @ 0.1.  The stored balance is the `double` nearest to `100000 - 0.1`,
    99999.899999999994, so the balance has not changed by `-quantity*price`. -/
theorem addTrade_cash_rounding_counterexample :
    (Machine.addTrade (Portfolio.new "A" 100000) demoBuyTenth true).map
        (fun p => p.cashBalance) = some (3435970400826163 / 34359738368) ∧
    (3435970400826163 / 34359738368 : ℚ) - (Portfolio.new "A" 100000).cashBalance ≠
      -((demoBuyTenth.quantity : ℚ) * demoBuyTenth.price) := by
  refine ⟨by decide!, by decide!⟩

/-- C12, amended.  `addTrade` in machine arithmetic, whichever branch it
    takes, whenever it leaves finite doubles, leaves as cash balance the
    `double` nearest to `cash - c` when applied as buyer and to `cash + c` when
    applied as seller, `c` being the `double` nearest to `quantity*price`;
    nothing else enters.  The balance has changed
    by exactly `-quantity*price`, respectively `+quantity*price`, when the
    product and the new balance are finite doubles without rounding, and the
    call yields that balance when every operation of the call is exact. -/
theorem machine_addTrade_cash (pf : Portfolio) (t : Trade) (b : Bool) :
    (∀ pf1, Machine.addTrade pf t b = some pf1 →
      (∃ c, roundDouble ((t.quantity : ℚ) * t.price) = some c ∧
        roundDouble (if b then pf.cashBalance - c else pf.cashBalance + c) =
          some pf1.cashBalance) ∧
      (IsDouble ((t.quantity : ℚ) * t.price) →
        IsDouble (if b then pf.cashBalance - (t.quantity : ℚ) * t.price
          else pf.cashBalance + (t.quantity : ℚ) * t.price) →
        pf1.cashBalance =
          if b then pf.cashBalance - (t.quantity : ℚ) * t.price
          else pf.cashBalance + (t.quantity : ℚ) * t.price)) ∧
    (StepExact pf t b →
      ∃ pf1, Machine.addTrade pf t b = some pf1 ∧
        pf1.cashBalance =
          if b then pf.cashBalance - (t.quantity : ℚ) * t.price
          else pf.cashBalance + (t.quantity : ℚ) * t.price) := by
  constructor
  · intro pf1 h
    obtain ⟨c, hc, hcash⟩ := machine_addTrade_cashBalance h
    refine ⟨⟨c, hc, hcash⟩, ?_⟩
    intro h1 h2
    unfold IsDouble at h1 h2
    rw [h1] at hc
    have hce : c = (t.quantity : ℚ) * t.price := (Option.some.inj hc).symm
    rw [hce, h2] at hcash
    exact (Option.some.inj hcash).symm
  · intro hex
    exact ⟨pf.addTrade t b, machine_addTrade_of_exact pf t b hex, addTrade_cash pf t b⟩

/-- Witness for the amended C12: a fresh portfolio buys 100 @ 200, every
    operation exact; the balance goes from 100000 to 80000. -/
theorem machine_addTrade_cash_witness :
    StepExact (Portfolio.new "A" 100000) demoShortOpen true ∧
    (Machine.addTrade (Portfolio.new "A" 100000) demoShortOpen true).map
        (fun p => p.cashBalance) = some 80000 ∧
    ∃ pf1, Machine.addTrade (Portfolio.new "A" 100000) demoShortOpen true = some pf1 ∧
      pf1.cashBalance =
        (Portfolio.new "A" 100000).cashBalance -
          (demoShortOpen.quantity : ℚ) * demoShortOpen.price := by
  obtain ⟨pf1, h1, h2⟩ :=
    (machine_addTrade_cash (Portfolio.new "A" 100000) demoShortOpen true).2 (by decide!)
  exact ⟨by decide!, by decide!, pf1, h1, by simpa using h2⟩

/-! ## Claims about several `addTrade` calls, in machine arithmetic -/

theorem mem_setInsert_of_no_sameKey (o : Order) (lvl : Level)
    (h : ∀ x ∈ lvl, sameKey x o = false) : o ∈ setInsert o lvl := by
  induction lvl with
  | nil => simp [setInsert]
  | cons x xs ih =>
    unfold setInsert
    by_cases h1 : OrderComparator o x = true
    · simp [h1]
    · by_cases h2 : OrderComparator x o = true
      · simp only [h1, h2, if_true, Bool.false_eq_true, if_false]
        exact List.mem_cons_of_mem _ (ih (fun y hy => h y (List.mem_cons_of_mem _ hy)))
      · have := h x (List.mem_cons_self _ _)
        unfold sameKey at this
        simp [h1, h2] at this

/-- `std::set::insert` of an order whose key (time stamp and id) the level
    already holds leaves the level as it is. -/
theorem setInsert_of_sameKey (o : Order) (lvl : Level)
    (hs : lvl.Pairwise (fun a b => OrderComparator a b = true))
    (h : ∃ x ∈ lvl, sameKey x o = true) : setInsert o lvl = lvl := by
  induction lvl with
  | nil =>
    obtain ⟨x, hx, _⟩ := h
    simp at hx
  | cons y ys ih =>
    obtain ⟨x, hx, hk⟩ := h
    rw [List.pairwise_cons] at hs
    unfold setInsert
    rcases List.mem_cons.1 hx with rfl | hx
    · unfold sameKey at hk
      simp only [Bool.and_eq_true, Bool.not_eq_true'] at hk
      simp [hk.1, hk.2]
    · have hyx := (OrderComparator_iff y x).1 (hs.1 x hx)
      obtain ⟨ht, hi⟩ := (sameKey_iff x o).1 hk
      have hyo : timeBefore y o := by
        unfold timeBefore at hyx ⊢
        rw [← ht, ← hi]
        exact hyx
      have h1 : OrderComparator y o = true := (OrderComparator_iff y o).2 hyo
      have h2 : ¬ OrderComparator o y = true := fun hc =>
        timeBefore_asymm hyo ((OrderComparator_iff o y).1 hc)
      simp only [h2, h1, if_true, Bool.false_eq_true, if_false]
      rw [ih hs.2 ⟨x, hx, hk⟩]

/-! ## Claims about an order whose id the book already holds -/

/-- Counterexample to C19 as stated: the book of scenario S3 holds the order
    with id 1; adding another valid order with id 1 changes the book, and
    `getOrder(1)` then returns the new order instead of the existing one. -/
theorem addOrder_duplicate_id_counterexample :
    demoBook.getOrder 1 = some demoAsk1 ∧ demoDuplicate.orderId = 1 ∧
    demoBook.addOrder demoDuplicate ≠ demoBook ∧
    (demoBook.addOrder demoDuplicate).getOrder 1 = some demoDuplicate ∧
    (demoBook.addOrder demoDuplicate).getOrder 1 ≠ demoBook.getOrder 1 ∧
    demoDuplicate ∈ allOrders (demoBook.addOrder demoDuplicate) := by
  decide

/-- C19, amended.  `addOrder` does not look at the ids already in the book.  An
    order that fails `isValid` leaves the book unchanged.  A valid order, also
    one whose id is already present, is accepted: `getOrder` of its id returns
    the new order afterwards, the lookup entries of all other ids are unchanged,
    every order resting before still rests, nothing but the new order is added to
    the levels, and the other side and the symbol are unchanged.  In a
    well-formed book the level of its price on its side is afterwards the level
    before with the order inserted as `std::set::insert` does: the order is in
    that level when no order of the level has its time stamp and id, and the
    level is as it was when one has, the order being dropped by the set while
    the lookup entry is overwritten all the same. -/
theorem addOrder_accepts_present_id (b : OrderBook) (o : Order) :
    (o.isValid = false → b.addOrder o = b) ∧
    (o.isValid = true →
      (b.addOrder o).getOrder o.orderId = some o ∧
      (∀ k, k ≠ o.orderId → (b.addOrder o).getOrder k = b.getOrder k) ∧
      (∀ x ∈ allOrders b, x ∈ allOrders (b.addOrder o)) ∧
      (∀ x ∈ allOrders (b.addOrder o), x = o ∨ x ∈ allOrders b) ∧
      opposing (b.addOrder o) o.side = opposing b o.side ∧
      (b.addOrder o).symbol = b.symbol) ∧
    (o.isValid = true → WellFormed b →
      levelAt (ownSide (b.addOrder o) o.side) o.price =
        setInsert o (levelAt (ownSide b o.side) o.price) ∧
      ((∀ x ∈ levelAt (ownSide b o.side) o.price, sameKey x o = false) →
        o ∈ levelAt (ownSide (b.addOrder o) o.side) o.price) ∧
      ((∃ x ∈ levelAt (ownSide b o.side) o.price, sameKey x o = true) →
        levelAt (ownSide (b.addOrder o) o.side) o.price =
          levelAt (ownSide b o.side) o.price)) := by
  refine ⟨addOrder_of_invalid b o, ?_, ?_⟩
  · intro hv
    refine ⟨?_, ?_, ?_, ?_, opposing_addOrder b o, ?_⟩
    · unfold OrderBook.getOrder
      rw [orderLookup_addOrder b o hv]
      exact hmFind_hmAssign_self _ _ _
    · intro k hk
      unfold OrderBook.getOrder
      rw [orderLookup_addOrder b o hv]
      exact hmFind_hmAssign_ne _ _ _ _ (fun h => hk h.symm)
    · intro x hx
      exact (mem_allOrders_addOrder hv x).2 hx
    · intro x hx
      exact (mem_allOrders_addOrder hv x).1 hx
    · unfold OrderBook.addOrder
      simp only [hv, Bool.not_true, Bool.false_eq_true, if_false]
      cases o.side <;> rfl
  · intro hv hwf
    have hside := hwf.own_side o.side
    have hlev : levelAt (ownSide (b.addOrder o) o.side) o.price =
        setInsert o (levelAt (ownSide b o.side) o.price) := by
      rw [ownSide_addOrder b o hv]
      exact hside.levelAt_levelInsert o
    refine ⟨hlev, ?_, ?_⟩
    · intro hno
      rw [hlev]
      exact mem_setInsert_of_no_sameKey o _ hno
    · intro hdup
      rw [hlev]
      exact setInsert_of_sameKey o _ (hside.levelAt_sorted o.price).1 hdup

/-- Witness for the amended C19: the duplicate of scenario S3's first ask is
    valid, carries an id the book already holds, and is accepted into the level
    of its price; a copy of that ask with the same time stamp and id is dropped
    by its level while `getOrder` returns the copy. -/
theorem addOrder_accepts_present_id_witness :
    demoDuplicate.isValid = true ∧ (demoBook.getOrder demoDuplicate.orderId).isSome = true ∧
    WellFormed demoBook ∧
    (demoBook.addOrder demoDuplicate).getOrder demoDuplicate.orderId = some demoDuplicate ∧
    (∀ x ∈ allOrders demoBook, x ∈ allOrders (demoBook.addOrder demoDuplicate)) ∧
    demoDuplicate ∈
      levelAt (ownSide (demoBook.addOrder demoDuplicate) demoDuplicate.side)
        demoDuplicate.price ∧
    demoAsk1Copy.isValid = true ∧
    (demoBook.addOrder demoAsk1Copy).getOrder 1 = some demoAsk1Copy ∧
    levelAt (ownSide demoBook demoAsk1Copy.side) demoAsk1Copy.price = [demoAsk1] ∧
    levelAt (ownSide (demoBook.addOrder demoAsk1Copy) demoAsk1Copy.side) demoAsk1Copy.price =
      levelAt (ownSide demoBook demoAsk1Copy.side) demoAsk1Copy.price :=
  ⟨by decide, by decide, by decide,
    ((addOrder_accepts_present_id demoBook demoDuplicate).2.1 (by decide)).1,
    ((addOrder_accepts_present_id demoBook demoDuplicate).2.1 (by decide)).2.2.1,
    ((addOrder_accepts_present_id demoBook demoDuplicate).2.2 (by decide) (by decide)).2.1
      (by decide),
    by decide, by decide, by decide,
    ((addOrder_accepts_present_id demoBook demoAsk1Copy).2.2 (by decide) (by decide)).2.2
      ⟨demoAsk1, by decide, by decide⟩⟩

/-! ## Claims about filled orders and the id lookup -/

end TradeBooking
